import Mathlib

/-!
Shallow embedding of the VM placement engine (source file `src/src/v09.cpp`,
the final complete variant) and verification of its specification claims.

Modelling conventions:
* C++ `int` values (resource amounts, counters, partition labels) are `Int`;
  structural indices (domain/rack/PM/node/VM/PG/type indices) are `Nat`,
  1-based exactly as in the source.
* `double` quantities (`getLoad`, penalties) are modelled as exact rationals
  `ℚ`; the source only ever adds, divides and compares these.
* `std::unordered_map` / `std::unordered_set` are modelled as association
  lists / lists in first-insertion order.  Where the source iterates such a
  container, the embedding iterates in that insertion order.
* `std::sort` (unstable) is modelled by a stable insertion sort on the same
  strict comparator; ties keep their previous relative order.
* The registries hold `Option`-valued maps; operations that the source's
  contract guarantees cannot fail (`std::unordered_map::at` on present keys)
  are guarded with `Option` at the request-dispatch level, mirroring §7 of
  the specification ("the core assumes indices resolve").
* `typeFits` memo caches do not change any computed value (that is claim C8,
  proved over a dedicated model of the caching layer below); the main
  embedding computes `getTypeFit` by the uncached `getTypeFitImpl` recursion.
-/

namespace VMPlace

/-- Point update of a function map, `f[k := v]`. -/
def upd {α : Type} {β : Type} [DecidableEq α] (f : α → β) (k : α) (v : β) : α → β :=
  fun x => if x = k then v else f x

/-- Pointwise additive update: add `v` to the value of `f` at `k`. -/
def addAt {α : Type} [DecidableEq α] (f : α → Int) (k : α) (v : Int) : α → Int :=
  fun x => if x = k then f x + v else f x

/-- Stable insertion into a list sorted by the strict comparator `lt`:
the new element goes in front of the first strictly greater element,
and after any element it ties with. -/
def insertSorted {α : Type} (lt : α → α → Bool) (x : α) : List α → List α
  | [] => [x]
  | y :: ys => if lt x y then x :: y :: ys else y :: insertSorted lt x ys

/-- Stable sort by the strict comparator `lt` (models `std::sort`; the
source's comparators are strict orders, and ties keep input order here). -/
def sortBy {α : Type} (lt : α → α → Bool) (l : List α) : List α :=
  l.foldl (fun acc x => insertSorted lt x acc) []

/-- `std::sort(v.begin() + k, v.end())`: sort only the suffix from index `k`. -/
def sortFrom {α : Type} (lt : α → α → Bool) (k : Nat) (l : List α) : List α :=
  l.take k ++ sortBy lt (l.drop k)

/-!
The source computes loads and penalties in `double`; the embedding uses
exact rationals.  The arithmetic below is phrased through `Rat.divInt` and
the `num`/`den` projections, which the kernel evaluates on closed terms
(the `Field ℚ` operations do not reduce definitionally); the lemmas right
after each definition identify them with the ordinary `ℚ` operations.
-/

/-- Rational `a / b` from two integers. -/
def qdivInt (a b : Int) : ℚ := Rat.divInt a b

/-- Rational from an integer. -/
def qofInt (a : Int) : ℚ := Rat.divInt a 1

/-- Rational addition. -/
def qadd (a b : ℚ) : ℚ := Rat.divInt (a.num * b.den + b.num * a.den) (a.den * b.den)

/-- Rational divided by a natural number. -/
def qdivNat (a : ℚ) (n : Nat) : ℚ := Rat.divInt a.num (a.den * n)

/-- Strict comparison (the `<` of the source's `double` comparators). -/
def qltb (a b : ℚ) : Bool := decide (a.num * b.den < b.num * a.den)

/-- `std::max` on rationals: `a < b ? b : a`. -/
def qmax (a b : ℚ) : ℚ := if qltb a b then b else a

/-- Association-list lookup (models `unordered_map::find`/`contains`). -/
def alookup {α β : Type} [DecidableEq α] (k : α) : List (α × β) → Option β
  | [] => none
  | (k', v) :: rest => if k = k' then some v else alookup k rest

/-- Lookup with a default value (models `unordered_map::operator[]` reads). -/
def alookupD {α β : Type} [DecidableEq α] (k : α) (l : List (α × β)) (d : β) : β :=
  (alookup k l).getD d

/-- Identifiers, 1-based as in the source. -/
abbrev DomId := Nat
abbrev RackId := Nat × Nat
abbrev PMId := Nat × Nat × Nat
abbrev NodeId := Nat × Nat × Nat × Nat

/-- Rack of a PM id. -/
def pmRack (p : PMId) : RackId := (p.1, p.2.1)

/-- Domain of a PM id. -/
def pmDom (p : PMId) : DomId := p.1

/-- PM of a node id. -/
def nodePM (n : NodeId) : PMId := (n.1, n.2.1, n.2.2.1)

/-- Rack of a node id. -/
def nodeRack (n : NodeId) : RackId := (n.1, n.2.1)

/-- Domain of a node id. -/
def nodeDom (n : NodeId) : DomId := n.1

/-- Node index within its PM (the `index` field of `Node`). -/
def nodeIdx (n : NodeId) : Nat := n.2.2.2

/-- `struct Type`: a VM flavour.  (`Type` is reserved in Lean.) -/
structure VMType where
  index : Nat
  nodes : Nat
  cpu : Int
  memory : Int
deriving DecidableEq, Repr

/-- `enum class Affinity`. -/
inductive Affinity where
  | NONE
  | SOFT
  | HARD
deriving DecidableEq, Repr

/-- `struct PG`, including its derived (recomputed) fields.  `vms` holds the
indices of the member VMs in `push_back` order; `partitionRacks` is an
association list in first-insertion order, each rack set a list in
first-insertion order. -/
structure PG where
  index : Nat
  hardRackAntiAffinityPartitions : Int
  softPMAntiAffinity : Int
  domainAffinity : Affinity
  rackAffinity : Affinity
  vms : List Nat := []
  targetDomain : Option DomId := none
  domainAffinityPossible : Bool := true
  targetRack : Option RackId := none
  rackAffinityPossible : Bool := true
  softPMAntiAffinityPossible : Bool := true
  partitionRacks : List (Int × List RackId) := []
deriving DecidableEq, Repr

/-- `struct VM`.  `nodes = []` iff unplaced. -/
structure VM where
  index : Nat
  type : VMType
  pgIndex : Nat
  partition : Int
  nodes : List NodeId := []
deriving DecidableEq, Repr

/-- The topology configuration fixed at startup: dimensions, the per-PM node
templates, and the type table. -/
structure Config where
  noDomains : Nat
  noRacks : Nat
  noPMs : Nat
  nodeCPU : List Int
  nodeMemory : List Int
  types : List VMType
deriving DecidableEq, Repr

/-- Number of nodes per PM. -/
def Config.noNodes (cfg : Config) : Nat := cfg.nodeCPU.length

/-- All domain ids `1..noDomains`. -/
def Config.domIds (cfg : Config) : List DomId :=
  (List.range cfg.noDomains).map (· + 1)

/-- Rack ids of one domain, in index order. -/
def Config.racksOf (cfg : Config) (d : DomId) : List RackId :=
  (List.range cfg.noRacks).map (fun r => (d, r + 1))

/-- PM ids of one rack, in index order. -/
def Config.pmsOf (cfg : Config) (r : RackId) : List PMId :=
  (List.range cfg.noPMs).map (fun p => (r.1, r.2, p + 1))

/-- Node ids of one PM, in index order. -/
def Config.nodesOf (cfg : Config) (p : PMId) : List NodeId :=
  (List.range cfg.noNodes).map (fun n => (p.1, p.2.1, p.2.2, n + 1))

/-- All rack ids, domain-major (the order of the source's
`for (Domain &domain : domains) for (Rack &rack : domain.racks)` loops). -/
def Config.allRacks (cfg : Config) : List RackId :=
  cfg.domIds.flatMap cfg.racksOf

/-- CPU capacity of node template `n` (1-based). -/
def Config.nodeTotC (cfg : Config) (n : Nat) : Int := cfg.nodeCPU.getD (n - 1) 0

/-- Memory capacity of node template `n` (1-based). -/
def Config.nodeTotM (cfg : Config) (n : Nat) : Int := cfg.nodeMemory.getD (n - 1) 0

/-- Total CPU of one PM (sum of its node templates). -/
def Config.pmTotC (cfg : Config) : Int := cfg.nodeCPU.foldl (· + ·) 0

/-- Total memory of one PM. -/
def Config.pmTotM (cfg : Config) : Int := cfg.nodeMemory.foldl (· + ·) 0

/-- Total CPU of one rack. -/
def Config.rackTotC (cfg : Config) : Int := cfg.noPMs * cfg.pmTotC

/-- Total memory of one rack. -/
def Config.rackTotM (cfg : Config) : Int := cfg.noPMs * cfg.pmTotM

/-- Total CPU of one domain. -/
def Config.domTotC (cfg : Config) : Int := cfg.noRacks * cfg.rackTotC

/-- Total memory of one domain. -/
def Config.domTotM (cfg : Config) : Int := cfg.noRacks * cfg.rackTotM

/-- The mutable resource bookkeeping of the four-level topology: available
CPU/memory at every node, PM, rack and domain, plus every PM's
`vmsByPG` counters. -/
structure Topo where
  nodeC : NodeId → Int
  nodeM : NodeId → Int
  pmC : PMId → Int
  pmM : PMId → Int
  rackC : RackId → Int
  rackM : RackId → Int
  domC : DomId → Int
  domM : DomId → Int
  pgCount : PMId → Nat → Int

/-- Initial topology: everything available, all `vmsByPG` counters zero. -/
def initTopo (cfg : Config) : Topo where
  nodeC := fun n => cfg.nodeTotC (nodeIdx n)
  nodeM := fun n => cfg.nodeTotM (nodeIdx n)
  pmC := fun _ => cfg.pmTotC
  pmM := fun _ => cfg.pmTotM
  rackC := fun _ => cfg.rackTotC
  rackM := fun _ => cfg.rackTotM
  domC := fun _ => cfg.domTotC
  domM := fun _ => cfg.domTotM
  pgCount := fun _ _ => 0

/-- One node's worth of claims, at all four levels (the body of the
`for (Node *node : nodes)` loop in `VM::place`): subtract `type.cpu`
and `type.memory` from the node and from its PM, rack and domain. -/
def chainClaim (t : VMType) (n : NodeId) (s : Topo) : Topo where
  nodeC := addAt s.nodeC n (-t.cpu)
  nodeM := addAt s.nodeM n (-t.memory)
  pmC := addAt s.pmC (nodePM n) (-t.cpu)
  pmM := addAt s.pmM (nodePM n) (-t.memory)
  rackC := addAt s.rackC (nodeRack n) (-t.cpu)
  rackM := addAt s.rackM (nodeRack n) (-t.memory)
  domC := addAt s.domC (nodeDom n) (-t.cpu)
  domM := addAt s.domM (nodeDom n) (-t.memory)
  pgCount := s.pgCount

/-- One node's worth of releases (body of the loop in `VM::unplace`). -/
def chainRelease (t : VMType) (n : NodeId) (s : Topo) : Topo where
  nodeC := addAt s.nodeC n t.cpu
  nodeM := addAt s.nodeM n t.memory
  pmC := addAt s.pmC (nodePM n) t.cpu
  pmM := addAt s.pmM (nodePM n) t.memory
  rackC := addAt s.rackC (nodeRack n) t.cpu
  rackM := addAt s.rackM (nodeRack n) t.memory
  domC := addAt s.domC (nodeDom n) t.cpu
  domM := addAt s.domM (nodeDom n) t.memory
  pgCount := s.pgCount

/-- Adjust one PM's `vmsByPG[pg]` counter by `v`. -/
def bumpPG (p : PMId) (pg : Nat) (v : Int) (s : Topo) : Topo :=
  { s with pgCount := fun q g => if q = p ∧ g = pg then s.pgCount q g + v else s.pgCount q g }

/-- Topology effect of `VM::place`: claim every node of the placement, then
increment the home PM's (`nodes[0]`'s PM's) counter for the VM's PG.
(The source indexes `nodes[0]` unconditionally; an empty placement is
undefined behaviour there and is modelled as skipping the counter.) -/
def placeTopo (t : VMType) (pgIdx : Nat) (ns : List NodeId) (s : Topo) : Topo :=
  let s := ns.foldl (fun acc n => chainClaim t n acc) s
  match ns with
  | [] => s
  | n :: _ => bumpPG (nodePM n) pgIdx 1 s

/-- Topology effect of `VM::unplace` on a VM whose current nodes are `ns`. -/
def unplaceTopo (t : VMType) (pgIdx : Nat) (ns : List NodeId) (s : Topo) : Topo :=
  let s := ns.foldl (fun acc n => chainRelease t n acc) s
  match ns with
  | [] => s
  | n :: _ => bumpPG (nodePM n) pgIdx (-1) s

/-- The whole engine state: topology bookkeeping plus the PG and VM
registries (`pgsByIndex`, `vmsByIndex`). -/
structure St where
  topo : Topo
  pgs : Nat → Option PG
  vms : Nat → Option VM

/-- Initial state. -/
def initSt (cfg : Config) : St where
  topo := initTopo cfg
  pgs := fun _ => none
  vms := fun _ => none

/-- `VM::place` on the registry: set `vm.nodes` and apply the topology
claims.  A missing index leaves the state unchanged (unreachable under the
source's contract). -/
def placeVM (i : Nat) (ns : List NodeId) (s : St) : St :=
  match s.vms i with
  | none => s
  | some vm =>
    { s with
      vms := upd s.vms i (some { vm with nodes := ns })
      topo := placeTopo vm.type vm.pgIndex ns s.topo }

/-- `VM::unplace` on the registry: release all claimed resources,
decrement the home PM's counter, clear `vm.nodes`. -/
def unplaceVM (i : Nat) (s : St) : St :=
  match s.vms i with
  | none => s
  | some vm =>
    { s with
      vms := upd s.vms i (some { vm with nodes := [] })
      topo := unplaceTopo vm.type vm.pgIndex vm.nodes s.topo }

/-- `Manager::unplaceVMs`: unplace each listed VM that is placed. -/
def unplaceVMs (idxs : List Nat) (s : St) : St :=
  idxs.foldl (fun acc i =>
    match acc.vms i with
    | some vm => if vm.nodes ≠ [] then unplaceVM i acc else acc
    | none => acc) s

/-- `WithResources::hasResources(cpu, memory)` at node level (one slice). -/
def nodeHas (s : Topo) (n : NodeId) (cpu memory : Int) : Prop :=
  cpu ≤ s.nodeC n ∧ memory ≤ s.nodeM n

instance (s : Topo) (n : NodeId) (cpu memory : Int) : Decidable (nodeHas s n cpu memory) := by
  unfold nodeHas; infer_instance

/-- `WithResources::hasResources(const Type &)` at PM level: whole-VM demand. -/
def pmHasType (s : Topo) (p : PMId) (t : VMType) : Prop :=
  (t.nodes : Int) * t.cpu ≤ s.pmC p ∧ (t.nodes : Int) * t.memory ≤ s.pmM p

instance (s : Topo) (p : PMId) (t : VMType) : Decidable (pmHasType s p t) := by
  unfold pmHasType; infer_instance

/-- `WithResources::hasResources(const Type &)` at rack level. -/
def rackHasType (s : Topo) (r : RackId) (t : VMType) : Prop :=
  (t.nodes : Int) * t.cpu ≤ s.rackC r ∧ (t.nodes : Int) * t.memory ≤ s.rackM r

instance (s : Topo) (r : RackId) (t : VMType) : Decidable (rackHasType s r t) := by
  unfold rackHasType; infer_instance

/-- `WithResources::getLoad` from totals and availabilities, as an exact
rational: `max((tot − avail)/tot)` over CPU and memory. -/
def loadOf (totC totM availC availM : Int) : ℚ :=
  qmax (qdivInt (totC - availC) totC) (qdivInt (totM - availM) totM)

/-- `Rack::getLoad`. -/
def rackLoad (cfg : Config) (s : Topo) (r : RackId) : ℚ :=
  loadOf cfg.rackTotC cfg.rackTotM (s.rackC r) (s.rackM r)

/-- `Node::getTypeFitImpl`: `min(availCPU / cpu, availMemory / memory)`
with C++ truncating integer division. -/
def nodeTypeFit (s : Topo) (n : NodeId) (t : VMType) : Int :=
  min (Int.tdiv (s.nodeC n) t.cpu) (Int.tdiv (s.nodeM n) t.memory)

/-- Sum every `step`-th entry of `l` starting at index 0 (the accumulation
loop of `PM::getTypeFitImpl`); `fuel` bounds the iteration count. -/
def sumEveryNth (fuel : Nat) (step : Nat) (l : List Int) : Int :=
  match fuel, l with
  | 0, _ => 0
  | _, [] => 0
  | fuel + 1, x :: _ => x + sumEveryNth fuel step (l.drop step)

/-- `PM::getTypeFitImpl`: per-node fits, sorted ascending, summing every
`type.nodes`-th entry. -/
def pmTypeFit (cfg : Config) (s : Topo) (p : PMId) (t : VMType) : Int :=
  let byNode := (cfg.nodesOf p).map (fun n => nodeTypeFit s n t)
  let sorted := sortBy (fun a b => decide (a < b)) byNode
  sumEveryNth (sorted.length + 1) t.nodes sorted

/-- `Rack::getTypeFitImpl`: sum over the rack's PMs. -/
def rackTypeFit (cfg : Config) (s : Topo) (r : RackId) (t : VMType) : Int :=
  ((cfg.pmsOf r).map (fun p => pmTypeFit cfg s p t)).foldl (· + ·) 0

/-- `Domain::getTypeFitImpl`: sum over the domain's racks. -/
def domTypeFit (cfg : Config) (s : Topo) (d : DomId) (t : VMType) : Int :=
  ((cfg.racksOf d).map (fun r => rackTypeFit cfg s r t)).foldl (· + ·) 0

/-- Insert a rack into one partition's rack set
(`partitionRacks[vm->partition].insert(rack)`): association list keyed by
partition, sets kept as duplicate-free lists in first-insertion order. -/
def prInsert (p : Int) (r : RackId) : List (Int × List RackId) → List (Int × List RackId)
  | [] => [(p, [r])]
  | (q, rs) :: rest =>
    if p = q then (q, if r ∈ rs then rs else rs ++ [r]) :: rest
    else (q, rs) :: prInsert p r rest

/-- The per-member body of the `PG::updateTargets` loop. -/
def updTargetsStep (s : St) (acc : PG) (i : Nat) : PG :=
  match s.vms i with
  | none => acc
  | some vm =>
    match vm.nodes with
    | [] => acc
    | n :: _ =>
      let rack := nodeRack n
      let dom := nodeDom n
      let acc :=
        if acc.domainAffinity ≠ Affinity.NONE ∧ acc.domainAffinityPossible then
          match acc.targetDomain with
          | none => { acc with targetDomain := some dom }
          | some td => if td ≠ dom then { acc with domainAffinityPossible := false } else acc
        else acc
      let acc :=
        if acc.rackAffinity ≠ Affinity.NONE ∧ acc.rackAffinityPossible then
          match acc.targetRack with
          | none => { acc with targetRack := some rack }
          | some tr => if tr ≠ rack then { acc with rackAffinityPossible := false } else acc
        else acc
      if 0 < acc.hardRackAntiAffinityPartitions then
        { acc with partitionRacks := prInsert vm.partition rack acc.partitionRacks }
      else acc

/-- The derived-field reset at the head of `PG::updateTargets`. -/
def updTargetsInit (pg : PG) : PG :=
  { pg with targetDomain := none, domainAffinityPossible := true,
            targetRack := none, rackAffinityPossible := true,
            partitionRacks := [] }

/-- The final `if` of `PG::updateTargets` (the soft-rule post-rule). -/
def updTargetsPost (pg : PG) : PG :=
  if (pg.domainAffinity = Affinity.SOFT ∧ pg.domainAffinityPossible = false)
      ∨ (pg.rackAffinity = Affinity.SOFT ∧ pg.rackAffinityPossible = false) then
    { pg with domainAffinityPossible := false, rackAffinityPossible := false,
              softPMAntiAffinityPossible := false }
  else
    { pg with softPMAntiAffinityPossible := 0 < pg.softPMAntiAffinity }

/-- `PG::updateTargets`: reset the derived fields, fold over the members,
then apply the soft-rule post-rule of the final `if`. -/
def updateTargets (s : St) (pg : PG) : PG :=
  updTargetsPost (pg.vms.foldl (updTargetsStep s) (updTargetsInit pg))

/-- The rack comparator `a->getLoad() < b->getLoad()` used by every
load-ascending `std::sort` in the enumerator. -/
def loadLt (cfg : Config) (s : Topo) (a b : RackId) : Bool :=
  qltb (rackLoad cfg s a) (rackLoad cfg s b)

/-- Load of a group's first rack (`a[0]->getLoad()`); an empty group (which
the source never produces with ≥ 1 racks per domain) reads as load 0. -/
def groupHeadLoad (cfg : Config) (s : Topo) : List RackId → ℚ
  | [] => qofInt 0
  | r :: _ => rackLoad cfg s r

/-- The group comparator `a[0]->getLoad() < b[0]->getLoad()`. -/
def groupLt (cfg : Config) (s : Topo) (a b : List RackId) : Bool :=
  qltb (groupHeadLoad cfg s a) (groupHeadLoad cfg s b)

/-- `Manager::getRackGroups`: the first, always-emitted family of rack
groups.  Returns the group list and the PG as mutated by its
`updateTargets` call. -/
def getRackGroups (cfg : Config) (s : St) (pg : PG) : List (List RackId) × PG :=
  let pg := updateTargets s pg
  if pg.rackAffinity = Affinity.HARD then
    match pg.targetRack with
    | some tr => ([[tr]], pg)
    | none => (cfg.allRacks.map (fun r => [r]), pg)
  else if pg.domainAffinity = Affinity.HARD then
    match pg.targetDomain with
    | some td => ([cfg.racksOf td], pg)
    | none => (cfg.domIds.map cfg.racksOf, pg)
  else
    let g1 : List (List RackId) :=
      if pg.rackAffinity = Affinity.SOFT ∧ pg.rackAffinityPossible then
        match pg.targetRack with
        | some tr => [[tr]]
        | none => cfg.allRacks.map (fun r => [r])
      else []
    let g2 : List (List RackId) :=
      if pg.domainAffinity = Affinity.SOFT ∧ pg.domainAffinityPossible then
        match pg.targetDomain with
        | some td => [cfg.racksOf td]
        | none => cfg.domIds.map cfg.racksOf
      else cfg.domIds.map cfg.racksOf
    (g1 ++ g2 ++ [cfg.allRacks], pg)

/-- Total rack `getTypeFit` over one domain's racks, used by the
`totalFit < vmsToPlace.size()` prefilters of `getRackGroups2`. -/
def domGroupFit (cfg : Config) (s : Topo) (d : DomId) (t : VMType) : Int :=
  ((cfg.racksOf d).map (fun r => rackTypeFit cfg s r t)).foldl (· + ·) 0

/-- `Manager::getRackGroups2`: refresh targets, take `getRackGroups`'s
groups, then append/merge the per-affinity-case groups.  `batchSize` is
`vmsToPlace.size()`.  Returns the groups and the mutated PG. -/
def getRackGroups2 (cfg : Config) (s : St) (pg : PG) (t : VMType) (batchSize : Nat) :
    List (List RackId) × PG :=
  let pg := updateTargets s pg
  let (groups, pg) := getRackGroups cfg s pg
  if pg.rackAffinity = Affinity.HARD then
    match pg.targetRack with
    | some tr => (groups ++ [[tr]], pg)
    | none =>
      let added := (cfg.allRacks.filter (fun r => rackTypeFit cfg s.topo r t ≠ 0)).map
        (fun r => [r])
      (sortBy (groupLt cfg s.topo) (groups ++ added), pg)
  else if pg.domainAffinity = Affinity.HARD
      ∧ (pg.rackAffinity = Affinity.NONE ∨ pg.rackAffinityPossible = false) then
    match pg.targetDomain with
    | some td => (groups ++ [sortBy (loadLt cfg s.topo) (cfg.racksOf td)], pg)
    | none =>
      let added := (cfg.domIds.filter
          (fun d => ¬ domGroupFit cfg s.topo d t < (batchSize : Int))).map
        (fun d => sortBy (loadLt cfg s.topo) (cfg.racksOf d))
      (sortBy (groupLt cfg s.topo) (groups ++ added), pg)
  else if pg.domainAffinity = Affinity.HARD ∧ pg.rackAffinity = Affinity.SOFT
      ∧ pg.rackAffinityPossible = true then
    let (head, sortStart) :=
      match pg.targetRack with
      | some tr => ([[tr]], 1)
      | none => ([], 0)
    let tail :=
      match pg.targetDomain with
      | some td => [sortBy (loadLt cfg s.topo) (cfg.racksOf td)]
      | none =>
        (cfg.domIds.filter (fun d => ¬ domGroupFit cfg s.topo d t < (batchSize : Int))).map
          (fun d => sortBy (loadLt cfg s.topo) (cfg.racksOf d))
    (sortFrom (groupLt cfg s.topo) sortStart (groups ++ head ++ tail), pg)
  else if pg.domainAffinity = Affinity.SOFT ∧ pg.domainAffinityPossible = true
      ∧ pg.rackAffinity = Affinity.SOFT ∧ pg.rackAffinityPossible = true then
    let (h1, ss1) :=
      match pg.targetRack with
      | some tr => ([[tr]], 1)
      | none => ([], 0)
    let (h2, ss2) :=
      match pg.targetDomain with
      | some td => ([sortBy (loadLt cfg s.topo) (cfg.racksOf td)], 1)
      | none => ([], 0)
    let others := (cfg.domIds.filter (fun d => pg.targetDomain ≠ some d)).map
      (fun d => sortBy (loadLt cfg s.topo) (cfg.racksOf d))
    let sorted := sortFrom (groupLt cfg s.topo) (ss1 + ss2) (groups ++ h1 ++ h2 ++ others)
    (sorted ++ [sortBy (loadLt cfg s.topo) cfg.allRacks], pg)
  else if pg.domainAffinity = Affinity.SOFT ∧ pg.domainAffinityPossible = true
      ∧ (pg.rackAffinity = Affinity.NONE ∨ pg.rackAffinityPossible = false) then
    let (h2, ss2) :=
      match pg.targetDomain with
      | some td => ([sortBy (loadLt cfg s.topo) (cfg.racksOf td)], 1)
      | none => ([], 0)
    let others := (cfg.domIds.filter (fun d => pg.targetDomain ≠ some d)).map
      (fun d => sortBy (loadLt cfg s.topo) (cfg.racksOf d))
    let sorted := sortFrom (groupLt cfg s.topo) ss2 (groups ++ h2 ++ others)
    (sorted ++ [sortBy (loadLt cfg s.topo) cfg.allRacks], pg)
  else if (pg.domainAffinity = Affinity.NONE ∨ pg.domainAffinityPossible = false)
      ∨ (pg.rackAffinity = Affinity.NONE ∨ pg.rackAffinityPossible = false) then
    (groups ++ [sortBy (loadLt cfg s.topo) cfg.allRacks], pg)
  else
    (groups, pg)

/-- First `some` value of `f` along a list (the source's
find-first-and-break loop shape). -/
def firstSome {α β : Type} (f : α → Option β) : List α → Option β
  | [] => none
  | x :: xs => match f x with
    | some y => some y
    | none => firstSome f xs

/-- The node list `vmNodes` collected for one PM inside `tryPlaceInner`:
the PM's nodes sorted by `getTypeFit` descending, keeping those with
per-slice capacity, stopping at `type.nodes` nodes. -/
def collectNodes (cfg : Config) (s : Topo) (t : VMType) (p : PMId) : List NodeId :=
  let pmNodes := sortBy (fun a b => decide (nodeTypeFit s b t < nodeTypeFit s a t))
    (cfg.nodesOf p)
  (pmNodes.filter (fun n => decide (nodeHas s n t.cpu t.memory))).take t.nodes

/-- The soft-PM anti-affinity skip test of `tryPlaceInner` (the `continue`
at lines 984–989 of the source). -/
def softSkip (pg : PG) (s : Topo) (p : PMId) : Prop :=
  0 < pg.softPMAntiAffinity ∧ pg.softPMAntiAffinityPossible = true
    ∧ pg.softPMAntiAffinity ≤ s.pgCount p pg.index

instance (pg : PG) (s : Topo) (p : PMId) : Decidable (softSkip pg s p) := by
  unfold softSkip; infer_instance

/-- Try one PM for one VM: capacity check, soft-PM filter (unless `force`),
then node collection; `none` means move on to the next PM. -/
def tryPM (cfg : Config) (pg : PG) (t : VMType) (force : Bool) (s : Topo) (p : PMId) :
    Option (List NodeId) :=
  if ¬ pmHasType s p t then none
  else if ¬ force ∧ softSkip pg s p then none
  else
    let ns := collectNodes cfg s t p
    if ns.length = t.nodes then some ns else none

/-- Try one rack for one VM: rack-level capacity check, then its PMs in
index order. -/
def tryRack (cfg : Config) (pg : PG) (t : VMType) (force : Bool) (s : Topo) (r : RackId) :
    Option (List NodeId) :=
  if ¬ rackHasType s r t then none
  else firstSome (tryPM cfg pg t force s) (cfg.pmsOf r)

/-- The per-VM rack comparator of `tryPlaceInner`:
`typeFit` descending, ties by load ascending. -/
def rackFitLt (cfg : Config) (s : Topo) (t : VMType) (a b : RackId) : Bool :=
  let fa := rackTypeFit cfg s a t
  let fb := rackTypeFit cfg s b t
  if fa = fb then loadLt cfg s a b else decide (fb < fa)

/-- One iteration of `tryPlaceInner`'s per-VM loop: skip placed VMs,
re-sort the rack deque against the current topology, walk racks and PMs,
and on success `VM::place` and record the chosen nodes. -/
def tryPlaceInnerStep (cfg : Config) (pg : PG) (t : VMType) (force : Bool)
    (acc : St × List RackId × List (Nat × List NodeId)) (i : Nat) :
    St × List RackId × List (Nat × List NodeId) :=
  match acc.1.vms i with
  | none => acc
  | some vm =>
    if vm.nodes ≠ [] then acc
    else
      let racks := sortBy (rackFitLt cfg acc.1.topo t) acc.2.1
      match firstSome (tryRack cfg pg t force acc.1.topo) racks with
      | none => (acc.1, racks, acc.2.2)
      | some ns => (placeVM i ns acc.1, racks, acc.2.2 ++ [(i, ns)])

/-- `Manager::tryPlaceInner`: greedy per-VM loop.  The rack deque is
re-sorted before each VM against the current topology and threaded through
(the source sorts the caller's deque in place); placements are recorded in
`pl` and applied to the state via `VM::place`. -/
def tryPlaceInner (cfg : Config) (pg : PG) (vmIdxs : List Nat) (t : VMType) (force : Bool)
    (s : St) (racks : List RackId) (pl : List (Nat × List NodeId)) :
    St × List RackId × List (Nat × List NodeId) :=
  vmIdxs.foldl (tryPlaceInnerStep cfg pg t force) (s, racks, pl)

/-- `struct Placement`. -/
structure Placement where
  placements : List (Nat × List NodeId) := []
  penalty : ℚ := qofInt 0
deriving DecidableEq, Repr

/-- The per-VM soft-PM excess count of `tryPlace`'s penalty block:
one per batch VM whose home PM hosts more than `softPMAntiAffinity`
VMs of the PG. -/
def countSoftExcess (pg : PG) (s : St) (vmIdxs : List Nat) : Int :=
  vmIdxs.foldl (fun acc i =>
    match s.vms i with
    | none => acc
    | some vm =>
      match vm.nodes with
      | [] => acc
      | n :: _ =>
        if pg.softPMAntiAffinity < s.topo.pgCount (nodePM n) pg.index then acc + 1
        else acc) 0

/-- `tryPlace`'s penalty, computed after its final `updateTargets`. -/
def tryPlacePenalty (pg : PG) (s : St) (vmIdxs : List Nat) : ℚ :=
  let base : Int :=
    if 0 < pg.softPMAntiAffinity ∧ pg.softPMAntiAffinityPossible = true then
      countSoftExcess pg s vmIdxs
    else 0
  let base := if pg.domainAffinity = Affinity.SOFT ∧ pg.domainAffinityPossible = false then
    base + 1000 else base
  let base := if pg.rackAffinity = Affinity.SOFT ∧ pg.rackAffinityPossible = false then
    base + 1000 else base
  qofInt base

/-- `Manager::tryPlace`: unplace the batch, cheap aggregate-capacity
rejection, the non-force pass, the force pass when allowed, the
completeness check, then scoring.  Returns the optional placement, the
final state, the (sorted) rack deque and the mutated PG. -/
def tryPlace (cfg : Config) (pg : PG) (vmIdxs : List Nat) (t : VMType)
    (racks : List RackId) (force : Bool) (s : St) :
    Option Placement × St × List RackId × PG :=
  let s1 := unplaceVMs vmIdxs s
  let availC := (racks.map s1.topo.rackC).foldl (· + ·) 0
  let availM := (racks.map s1.topo.rackM).foldl (· + ·) 0
  if availC < (vmIdxs.length : Int) * t.nodes * t.cpu
      ∨ availM < (vmIdxs.length : Int) * t.nodes * t.memory then
    (none, s1, racks, pg)
  else
    let r1 := tryPlaceInner cfg pg vmIdxs t false s1 racks []
    let r2 :=
      if force ∧ r1.2.2.length < vmIdxs.length then
        tryPlaceInner cfg pg vmIdxs t true r1.1 r1.2.1 r1.2.2
      else r1
    if r2.2.2.length < vmIdxs.length then (none, r2.1, r2.2.1, pg)
    else
      let pg2 := updateTargets r2.1 pg
      (some ⟨r2.2.2, tryPlacePenalty pg2 r2.1 vmIdxs⟩, r2.1, r2.2.1, pg2)

/-- Split the batch by partition value (`vmsByPartition`), in
first-occurrence order. -/
def appendGroup : List (Int × List Nat) → Int → Nat → List (Int × List Nat)
  | [], p, i => [(p, [i])]
  | (q, l) :: rest, p, i =>
    if p = q then (q, l ++ [i]) :: rest else (q, l) :: appendGroup rest p i

/-- `vmsByPartition` grouping of the batch. -/
def groupByPartition (s : St) (vmIdxs : List Nat) : List (Int × List Nat) :=
  vmIdxs.foldl (fun acc i =>
    match s.vms i with
    | none => acc
    | some vm => appendGroup acc vm.partition i) []

/-- The `startRacks`/`extraRacks` construction of `getBestPlacement`
(lines 809–855): partition-aware filtering for positive partitions, the
soft-rack-affinity seeding otherwise, else all sorted racks.  `none` models
the `return {}` when a positive partition has no admissible rack at all. -/
def startExtra (pg : PG) (part : Int) (racks sortedRacks : List RackId) :
    Option (List RackId × List RackId) :=
  if 0 < part then
    let invalid := (pg.partitionRacks.filter (fun e => e.1 ≠ part)).flatMap (·.2)
    let startR := (alookupD part pg.partitionRacks []).filter (fun r => ¬ r ∈ invalid)
    let extraR := racks.filter (fun r => ¬ r ∈ invalid ∧ ¬ r ∈ startR)
    if startR = [] then
      match extraR with
      | [] => none
      | e :: rest => some ([e], rest)
    else some (startR, extraR)
  else if pg.rackAffinity = Affinity.SOFT ∧ pg.rackAffinityPossible = true then
    match pg.targetRack with
    | some tr =>
      if tr ∈ racks then some ([tr], sortedRacks.filter (fun r => ¬ r = tr))
      else
        match sortedRacks with
        | [] => some ([], [])
        | h :: rest => some ([h], rest)
    | none =>
      match sortedRacks with
      | [] => some ([], [])
      | h :: rest => some ([h], rest)
  else some (sortedRacks, [])

/-- The rack-expansion `while (true)` loop of `getBestPlacement` for one
`force` mode: try, and on failure move the next extra rack into the start
deque.  The final `Bool` is true when the whole feasibility attempt must
fail (`force` mode with extras exhausted).  `fuel` is at least
`extra.length + 1`, the exact number of iterations possible. -/
def tryLoop (cfg : Config) (vmIdxs : List Nat) (t : VMType) (force : Bool) :
    Nat → PG → List RackId → List RackId → St → Option Placement × St × PG × Bool
  | 0, pg, _, _, s => (none, s, pg, force)
  | fuel + 1, pg, cur, extra, s =>
    match tryPlace cfg pg vmIdxs t cur force s with
    | (some p, s, _, pg) => (some p, s, pg, false)
    | (none, s, cur, pg) =>
      match extra with
      | [] => (none, s, pg, force)
      | e :: rest => tryLoop cfg vmIdxs t force fuel pg (cur ++ [e]) rest s

/-- The per-partition loop of `getBestPlacement`: unplace the partition,
refresh targets, build start/extra racks, run the non-force then the force
expansion loops, accumulate placements and penalties.  `none` in the first
component models `return {}`. -/
def partitionLoop (cfg : Config) (t : VMType) (racks : List RackId) :
    List (Int × List Nat) → PG → St → List (Nat × List NodeId) → ℚ →
    Option (List (Nat × List NodeId) × ℚ) × St × PG
  | [], pg, s, pl, pen => (some (pl, pen), s, pg)
  | (part, vms) :: rest, pg, s, pl, pen =>
    let s := unplaceVMs vms s
    let pg := updateTargets s pg
    let sortedRacks := sortBy (loadLt cfg s.topo) racks
    match startExtra pg part racks sortedRacks with
    | none => (none, s, pg)
    | some (startR, extraR) =>
      match tryLoop cfg vms t false (extraR.length + 1) pg startR extraR s with
      | (some p, s, pg, _) =>
        partitionLoop cfg t racks rest pg s (pl ++ p.placements) (qadd pen p.penalty)
      | (none, s, pg, _) =>
        match tryLoop cfg vms t true (extraR.length + 1) pg startR extraR s with
        | (some p, s, pg, _) =>
          partitionLoop cfg t racks rest pg s (pl ++ p.placements) (qadd pen p.penalty)
        | (none, s, pg, _) => (none, s, pg)

/-- Instrumented `partitionLoop` (the same per-partition loop of
`Manager::getBestPlacement`, lines 857–897, with identical control flow):
instead of accumulating the placements and the penalty sum, it returns for
every partition group the PG record and state at which the successful
`tryPlace` computed that partition's penalty, the partition's member list,
and the penalty itself. -/
def partitionTrace (cfg : Config) (t : VMType) (racks : List RackId) :
    List (Int × List Nat) → PG → St →
    Option (List (PG × St × List Nat × ℚ)) × St × PG
  | [], pg, s => (some [], s, pg)
  | (part, vms) :: rest, pg, s =>
    let s := unplaceVMs vms s
    let pg := updateTargets s pg
    let sortedRacks := sortBy (loadLt cfg s.topo) racks
    match startExtra pg part racks sortedRacks with
    | none => (none, s, pg)
    | some (startR, extraR) =>
      match tryLoop cfg vms t false (extraR.length + 1) pg startR extraR s with
      | (some p, s, pg, _) =>
        match partitionTrace cfg t racks rest pg s with
        | (some tr, s', pg') => (some ((pg, s, vms, p.penalty) :: tr), s', pg')
        | (none, s', pg') => (none, s', pg')
      | (none, s, pg, _) =>
        match tryLoop cfg vms t true (extraR.length + 1) pg startR extraR s with
        | (some p, s, pg, _) =>
          match partitionTrace cfg t racks rest pg s with
          | (some tr, s', pg') => (some ((pg, s, vms, p.penalty) :: tr), s', pg')
          | (none, s', pg') => (none, s', pg')
        | (none, s, pg, _) => (none, s, pg)

/-- `Manager::getBestPlacement`: the per-group feasibility-and-scoring
attempt.  On success the group's average rack load (measured on the state
with the trial placements still applied) is added to the accumulated
penalty.  The state and PG are returned as mutated — the source does not
undo its trial placements here. -/
def getBestPlacement (cfg : Config) (pg : PG) (vmIdxs : List Nat) (t : VMType)
    (racks : List RackId) (s : St) : Option Placement × St × PG :=
  match partitionLoop cfg t racks (groupByPartition s vmIdxs) pg s [] (qofInt 0) with
  | (none, s, pg) => (none, s, pg)
  | (some (pl, pen), s, pg) =>
    let totalLoad := (racks.map (rackLoad cfg s.topo)).foldl qadd (qofInt 0)
    (some ⟨pl, qadd pen (qdivNat totalLoad racks.length)⟩, s, pg)

/-- `Manager::createPG`, with its `hardRackAntiAffinityPartitions ≤ 1 → 0`
normalisation; `emplace` does not overwrite an existing index. -/
def createPGOp (s : St) (index : Nat) (hardParts softPM : Int)
    (domA rackA : Affinity) : St :=
  let hp := if hardParts ≤ 1 then 0 else hardParts
  if (s.pgs index).isSome then s
  else
    { s with pgs := upd s.pgs index (some
        { index := index, hardRackAntiAffinityPartitions := hp,
          softPMAntiAffinity := softPM, domainAffinity := domA,
          rackAffinity := rackA }) }

/-- The registration loop of `createVMs`, `k` being the current 0-based
loop counter: `emplace` each index with the coerced partition
(`partition ≥ 0 ? partition : i + 1`), keeping the VM unplaced;
`emplace` does not overwrite an existing key. -/
def registerVMsAux (t : VMType) (pgIdx : Nat) (part : Int) : Nat → List Nat → St → St
  | _, [], s => s
  | k, idx :: rest, s =>
    let s' := if (s.vms idx).isSome then s
      else
        { s with vms := upd s.vms idx (some
            { index := idx, type := t, pgIndex := pgIdx,
              partition := if 0 ≤ part then part else (k : Int) + 1 }) }
    registerVMsAux t pgIdx part (k + 1) rest s'

/-- VM registration at the head of `createVMs`. -/
def registerVMs (indices : List Nat) (t : VMType) (pgIdx : Nat) (part : Int) (s : St) : St :=
  registerVMsAux t pgIdx part 0 indices s

/-- The group loop of `createVMs`: attempt every rack group, keep the first
lowest-penalty placement (`<` is strict, so earlier groups win ties). -/
def groupLoop (cfg : Config) (vmIdxs : List Nat) (t : VMType) :
    List (List RackId) → PG → St → Option Placement → Option Placement × St × PG
  | [], pg, s, best => (best, s, pg)
  | g :: rest, pg, s, best =>
    match getBestPlacement cfg pg vmIdxs t g s with
    | (none, s, pg) => groupLoop cfg vmIdxs t rest pg s best
    | (some p, s, pg) =>
      let best := match best with
        | none => some p
        | some b => if qltb p.penalty b.penalty then some p else some b
      groupLoop cfg vmIdxs t rest pg s best

/-- The commit loop of `createVMs`: place each VM at its recorded nodes
(`bestPlacement->placements[vm->index]`, defaulting to an empty vector)
and emit its `domain rack pm node…` line.  An empty recorded placement
would dereference `nodes[0]` in the source (undefined); it is modelled as
an empty output line. -/
def commitVMs (bp : Placement) : List Nat → St → St × List (List Int)
  | [], s => (s, [])
  | i :: rest, s =>
    let ns := alookupD i bp.placements []
    let s := placeVM i ns s
    let line : List Int :=
      match ns with
      | [] => []
      | n :: _ =>
        [(nodeDom n : Int), (n.2.1 : Int), (n.2.2.1 : Int)] ++ ns.map (fun m => (nodeIdx m : Int))
    let res := commitVMs bp rest s
    (res.1, line :: res.2)

/-- The tail of `createVMs` after the group loop: the single `unplaceVMs`
over the batch, then either the `-1` failure line or the commit of the
best placement followed by `updateTargets`. -/
def createCommit (pgIndex : Nat) (indices : List Nat)
    (res : Option Placement × St × PG) : St × List (List Int) × Bool :=
  match res with
  | (best, s1, pg) =>
    let s2 := unplaceVMs indices s1
    match best with
    | none => ({ s2 with pgs := upd s2.pgs pgIndex (some pg) }, [[-1]], false)
    | some bp =>
      let cm := commitVMs bp indices s2
      let pg := updateTargets cm.1 pg
      ({ cm.1 with pgs := upd cm.1.pgs pgIndex (some pg) }, cm.2, true)

/-- `Manager::createVMs`.  `elapsed` is the wall-clock seconds since engine
start, an oracle input; the 14-second gate is the first statement.  The
`Bool` is the source's return value (`false` stops the engine); `none`
models the §7 precondition violations (`types.at`/`pgsByIndex.at` on a
missing key). -/
def createVMs (cfg : Config) (s : St) (indices : List Nat) (typeIndex pgIndex : Nat)
    (partition : Int) (elapsed : Int) : Option (St × List (List Int) × Bool) :=
  if 14 ≤ elapsed then some (s, [[-1]], false)
  else if typeIndex = 0 then none
  else
    match cfg.types.get? (typeIndex - 1), s.pgs pgIndex with
    | some t, some pg0 =>
      let part := if pg0.hardRackAntiAffinityPartitions = 0 then 0 else partition
      let s := registerVMs indices t pgIndex part s
      let pg : PG := { pg0 with vms := pg0.vms ++ indices }
      let gps := getRackGroups2 cfg s pg t indices.length
      some (createCommit pgIndex indices (groupLoop cfg indices t gps.1 gps.2 s none))
    | _, _ => none

/-- The `erase`/`remove` of a deleted VM's index from its PG's member list
(`vm.pg->vms.erase(std::remove(...))`). -/
def deregisterFromPG (i : Nat) (gidx : Nat) (s : St) : St :=
  match s.pgs gidx with
  | none => s
  | some pg =>
    { s with pgs := upd s.pgs gidx (some { pg with vms := pg.vms.filter (fun j => ¬ j = i) }) }

/-- `vmsByIndex.erase(index)`. -/
def removeVM (i : Nat) (s : St) : St := { s with vms := upd s.vms i none }

/-- `Manager::deleteVMs`: unplace, remove from the PG's member list,
remove from the registry.  `none` models a delete of an unknown index
(§7: fatal precondition violation). -/
def deleteVMs (s : St) : List Nat → Option St
  | [] => some s
  | i :: rest =>
    match s.vms i with
    | none => none
    | some vm => deleteVMs (removeVM i (deregisterFromPG i vm.pgIndex (unplaceVM i s))) rest

/-- Parsed requests (§6), as handed to the core by the parser. -/
inductive Request where
  | mkpg (index : Nat) (hardParts softPM : Int) (domA rackA : Affinity)
  | create (indices : List Nat) (typeIndex pgIndex : Nat) (partition : Int)
  | delete (indices : List Nat)
  | terminate
deriving DecidableEq, Repr

/-- Structural well-formedness of a type-2 request against the current
state (§7: the parser guarantees indices resolve and are fresh). -/
def wfCreate (s : St) (indices : List Nat) : Prop :=
  indices ≠ [] ∧ indices.Nodup ∧ ∀ i ∈ indices, s.vms i = none

instance (s : St) (indices : List Nat) : Decidable (wfCreate s indices) := by
  unfold wfCreate; infer_instance

/-- One request dispatch of `main`'s loop.  `elapsed` is the wall-clock
oracle for this request.  Result: new state, output lines, and whether the
engine keeps running; `none` is a §7 precondition violation. -/
def step (cfg : Config) (s : St) (r : Request) (elapsed : Int) :
    Option (St × List (List Int) × Bool) :=
  match r with
  | .mkpg i hp sp da ra => some (createPGOp s i hp sp da ra, [], true)
  | .create idxs ti pi part =>
    if 14 ≤ elapsed then some (s, [[-1]], false)
    else if wfCreate s idxs then createVMs cfg s idxs ti pi part elapsed
    else none
  | .delete idxs => (deleteVMs s idxs).map (fun s => (s, [], true))
  | .terminate => some (s, [], false)

/-- Run a request stream (each request paired with its wall-clock reading),
collecting the output; processing stops when a request returns `false`. -/
def runOut (cfg : Config) : List (Request × Int) → St → Option (St × List (List Int))
  | [], s => some (s, [])
  | (r, t) :: rest, s =>
    match step cfg s r t with
    | none => none
    | some (s', out, true) =>
      (runOut cfg rest s').map (fun res => (res.1, out ++ res.2))
    | some (s', out, false) => some (s', out)

/-- States reached from the initial state through successful requests only
(the engine keeps running after each). -/
inductive ReachOk (cfg : Config) : St → Prop where
  | init : ReachOk cfg (initSt cfg)
  | next {s s' : St} {r : Request} {t : Int} {out : List (List Int)} :
      ReachOk cfg s → step cfg s r t = some (s', out, true) → ReachOk cfg s'

/-!
### The `typeFits` memoisation layer (claim C8)

A dedicated model of `WithResources`' caching: the same four-level tree,
but with the per-level `typeFits` association list made explicit and
`getTypeFit` threading cache updates.  `claimResources`/`releaseResources`
clear the mutated level's cache; the engine only ever applies them to a
node together with its PM, rack and domain (the loop bodies of
`VM::place`/`VM::unplace`), modelled here by the `cclaimPath`/
`creleasePath` operations.
-/

/-- Modify the element at (0-based) index `n`. -/
def lmodify {α : Type} (f : α → α) : Nat → List α → List α
  | _, [] => []
  | 0, x :: xs => f x :: xs
  | n + 1, x :: xs => x :: lmodify f n xs

/-- A `Node` with its cache. -/
structure CNode where
  availC : Int
  availM : Int
  cache : List (Nat × Int)
deriving DecidableEq, Repr

/-- A `PM` with its cache and child nodes. -/
structure CPM where
  availC : Int
  availM : Int
  cache : List (Nat × Int)
  nodes : List CNode
deriving DecidableEq, Repr

/-- A `Rack` with its cache and child PMs. -/
structure CRack where
  availC : Int
  availM : Int
  cache : List (Nat × Int)
  pms : List CPM
deriving DecidableEq, Repr

/-- A `Domain` with its cache and child racks. -/
structure CDomain where
  availC : Int
  availM : Int
  cache : List (Nat × Int)
  racks : List CRack
deriving DecidableEq, Repr

/-- `Node::getTypeFitImpl`. -/
def cnodeFitImpl (t : VMType) (x : CNode) : Int :=
  min (Int.tdiv x.availC t.cpu) (Int.tdiv x.availM t.memory)

/-- `Node::getTypeFit`: cache lookup, else compute and memoise. -/
def cnodeGetFit (t : VMType) (x : CNode) : Int × CNode :=
  match alookup t.index x.cache with
  | some v => (v, x)
  | none =>
    let v := cnodeFitImpl t x
    (v, { x with cache := x.cache ++ [(t.index, v)] })

/-- `PM::getTypeFitImpl`: children's `getTypeFit` (threading their cache
updates), sort ascending, sum every `type.nodes`-th entry. -/
def cpmFitImpl (t : VMType) (x : CPM) : Int × CPM :=
  let z := x.nodes.foldl (fun (acc : List Int × List CNode) nd =>
    let r := cnodeGetFit t nd
    (acc.1 ++ [r.1], acc.2 ++ [r.2])) ([], [])
  let sorted := sortBy (fun a b => decide (a < b)) z.1
  (sumEveryNth (sorted.length + 1) t.nodes sorted, { x with nodes := z.2 })

/-- `PM::getTypeFit`. -/
def cpmGetFit (t : VMType) (x : CPM) : Int × CPM :=
  match alookup t.index x.cache with
  | some v => (v, x)
  | none =>
    let r := cpmFitImpl t x
    (r.1, { r.2 with cache := r.2.cache ++ [(t.index, r.1)] })

/-- `Rack::getTypeFitImpl`. -/
def crackFitImpl (t : VMType) (x : CRack) : Int × CRack :=
  let z := x.pms.foldl (fun (acc : Int × List CPM) pm =>
    let r := cpmGetFit t pm
    (acc.1 + r.1, acc.2 ++ [r.2])) (0, [])
  (z.1, { x with pms := z.2 })

/-- `Rack::getTypeFit`. -/
def crackGetFit (t : VMType) (x : CRack) : Int × CRack :=
  match alookup t.index x.cache with
  | some v => (v, x)
  | none =>
    let r := crackFitImpl t x
    (r.1, { r.2 with cache := r.2.cache ++ [(t.index, r.1)] })

/-- `Domain::getTypeFitImpl`. -/
def cdomFitImpl (t : VMType) (x : CDomain) : Int × CDomain :=
  let z := x.racks.foldl (fun (acc : Int × List CRack) rk =>
    let r := crackGetFit t rk
    (acc.1 + r.1, acc.2 ++ [r.2])) (0, [])
  (z.1, { x with racks := z.2 })

/-- `Domain::getTypeFit`. -/
def cdomGetFit (t : VMType) (x : CDomain) : Int × CDomain :=
  match alookup t.index x.cache with
  | some v => (v, x)
  | none =>
    let r := cdomFitImpl t x
    (r.1, { r.2 with cache := r.2.cache ++ [(t.index, r.1)] })

/-- Uncached recomputation of `getTypeFitImpl`, node level (what claim C8
compares the memoised values against). -/
def cnodeFitSpec (t : VMType) (x : CNode) : Int := cnodeFitImpl t x

/-- Uncached recomputation, PM level. -/
def cpmFitSpec (t : VMType) (x : CPM) : Int :=
  let sorted := sortBy (fun a b => decide (a < b)) (x.nodes.map (cnodeFitSpec t))
  sumEveryNth (sorted.length + 1) t.nodes sorted

/-- Uncached recomputation, rack level. -/
def crackFitSpec (t : VMType) (x : CRack) : Int :=
  (x.pms.map (cpmFitSpec t)).foldl (· + ·) 0

/-- Uncached recomputation, domain level. -/
def cdomFitSpec (t : VMType) (x : CDomain) : Int :=
  (x.racks.map (crackFitSpec t)).foldl (· + ·) 0

/-- `claimResources` on a node: adjust availabilities, clear the cache. -/
def cnodeClaim (c m : Int) (x : CNode) : CNode :=
  { availC := x.availC - c, availM := x.availM - m, cache := [] }

/-- `claimResources` applied along a node's chain (the body of the
placement loop): the node at 0-based position `nIdx` of the PM at `pIdx`
of the rack at `rIdx`, together with that PM, rack and the domain. -/
def cclaimPath (c m : Int) (rIdx pIdx nIdx : Nat) (x : CDomain) : CDomain :=
  { availC := x.availC - c, availM := x.availM - m, cache := [],
    racks := lmodify (fun rk =>
      { availC := rk.availC - c, availM := rk.availM - m, cache := [],
        pms := lmodify (fun pm =>
          { availC := pm.availC - c, availM := pm.availM - m, cache := [],
            nodes := lmodify (cnodeClaim c m) nIdx pm.nodes }) pIdx rk.pms }) rIdx x.racks }

/-- `releaseResources` along a node's chain. -/
def creleasePath (c m : Int) (rIdx pIdx nIdx : Nat) (x : CDomain) : CDomain :=
  cclaimPath (-c) (-m) rIdx pIdx nIdx x

/-- Cache consistency at node level: every memo entry equals the uncached
recomputation for the type of that index (`tys` is the engine's type
table, keyed by `type.index`). -/
def cnodeOK (tys : Nat → VMType) (x : CNode) : Prop :=
  ∀ e ∈ x.cache, e.2 = cnodeFitSpec (tys e.1) x

/-- Cache consistency at PM level, including all children. -/
def cpmOK (tys : Nat → VMType) (x : CPM) : Prop :=
  (∀ e ∈ x.cache, e.2 = cpmFitSpec (tys e.1) x) ∧ ∀ nd ∈ x.nodes, cnodeOK tys nd

/-- Cache consistency at rack level, including all children. -/
def crackOK (tys : Nat → VMType) (x : CRack) : Prop :=
  (∀ e ∈ x.cache, e.2 = crackFitSpec (tys e.1) x) ∧ ∀ pm ∈ x.pms, cpmOK tys pm

/-- Cache consistency at domain level, including all children. -/
def cdomOK (tys : Nat → VMType) (x : CDomain) : Prop :=
  (∀ e ∈ x.cache, e.2 = cdomFitSpec (tys e.1) x) ∧ ∀ rk ∈ x.racks, crackOK tys rk

/-- The cache-free data of a node (availabilities only). -/
def cnodeData (x : CNode) : Int × Int := (x.availC, x.availM)

/-- The cache-free data of a PM. -/
def cpmData (x : CPM) : Int × Int × List (Int × Int) :=
  (x.availC, x.availM, x.nodes.map cnodeData)

/-- The cache-free data of a rack. -/
def crackData (x : CRack) : Int × Int × List (Int × Int × List (Int × Int)) :=
  (x.availC, x.availM, x.pms.map cpmData)

/-- The cache-free data of a domain. -/
def cdomData (x : CDomain) : Int × Int × List (Int × Int × List (Int × Int × List (Int × Int))) :=
  (x.availC, x.availM, x.racks.map crackData)

/-- `cnodeFitSpec` as a function of the cache-free data. -/
def nodeFitOfData (t : VMType) (d : Int × Int) : Int :=
  min (Int.tdiv d.1 t.cpu) (Int.tdiv d.2 t.memory)

/-- `cpmFitSpec` as a function of the cache-free data. -/
def pmFitOfData (t : VMType) (d : Int × Int × List (Int × Int)) : Int :=
  let sorted := sortBy (fun a b => decide (a < b)) (d.2.2.map (nodeFitOfData t))
  sumEveryNth (sorted.length + 1) t.nodes sorted

/-- `crackFitSpec` as a function of the cache-free data. -/
def rackFitOfData (t : VMType) (d : Int × Int × List (Int × Int × List (Int × Int))) : Int :=
  (d.2.2.map (pmFitOfData t)).foldl (· + ·) 0

/-- `cdomFitSpec` as a function of the cache-free data. -/
def domFitOfData (t : VMType)
    (d : Int × Int × List (Int × Int × List (Int × Int × List (Int × Int)))) : Int :=
  (d.2.2.map (rackFitOfData t)).foldl (· + ·) 0

instance (tys : Nat → VMType) (x : CNode) : Decidable (cnodeOK tys x) := by
  unfold cnodeOK; infer_instance

instance (tys : Nat → VMType) (x : CPM) : Decidable (cpmOK tys x) := by
  unfold cpmOK; infer_instance

instance (tys : Nat → VMType) (x : CRack) : Decidable (crackOK tys x) := by
  unfold crackOK; infer_instance

instance (tys : Nat → VMType) (x : CDomain) : Decidable (cdomOK tys x) := by
  unfold cdomOK; infer_instance

/-- C8 scenario: the type, 1 node of (2, 4) per VM, table index 1. -/
def exC8ty : VMType := ⟨1, 1, 2, 4⟩

/-- C8 scenario: a node of capacity (4, 8) whose cache memoises type 1's
fit (2 chains of the (2, 4) type). -/
def exC8nd : CNode := ⟨4, 8, [(1, 2)]⟩

/-- C8 scenario: a PM of two such nodes, fit 4 memoised. -/
def exC8pm : CPM := ⟨8, 16, [(1, 4)], [exC8nd, exC8nd]⟩

/-- C8 scenario: the rack holding that PM. -/
def exC8rk : CRack := ⟨8, 16, [(1, 4)], [exC8pm]⟩

/-- C8 scenario: the domain holding that rack. -/
def exC8dom : CDomain := ⟨8, 16, [(1, 4)], [exC8rk]⟩

/-- C8 scenario: the type table (every index resolving to `exC8ty`). -/
def exC8tys : Nat → VMType := fun _ => exC8ty

/-!
### Claim-side definitions and concrete scenarios
-/

/-- The penalty formula asserted by claim C4 for one successful group
attempt, written from the claim: the soft-PM excess count (while that soft
rule is in play), plus 1000 for a broken SOFT domain affinity, plus 1000
for a broken SOFT rack affinity — each at most once per attempt — plus the
average rack load of the group.  Evaluated on the post-attempt state. -/
def claimC4Penalty (cfg : Config) (pg0 : PG) (s : St) (vmIdxs : List Nat)
    (racks : List RackId) : ℚ :=
  let pg := updateTargets s pg0
  let soft : Int :=
    if 0 < pg.softPMAntiAffinity ∧ pg.softPMAntiAffinityPossible = true then
      countSoftExcess pg s vmIdxs
    else 0
  let d : Int :=
    if pg.domainAffinity = Affinity.SOFT ∧ pg.domainAffinityPossible = false then 1000 else 0
  let r : Int :=
    if pg.rackAffinity = Affinity.SOFT ∧ pg.rackAffinityPossible = false then 1000 else 0
  qadd (qofInt (soft + d + r))
    (qdivNat ((racks.map (rackLoad cfg s.topo)).foldl qadd (qofInt 0)) racks.length)

/-- Claim C1's invariant, amended: within a PG with partitioned hard rack
anti-affinity, two placed members sharing a rack and both carrying a
positive partition id have the same partition id.  (The unamended claim
asserts this for all partition ids, including the unfiltered partition 0.) -/
def noMixedPositiveParts (s : St) : Prop :=
  ∀ g pg, s.pgs g = some pg → 1 < pg.hardRackAntiAffinityPartitions →
    ∀ i j vi vj, s.vms i = some vi → s.vms j = some vj →
      vi.pgIndex = g → vj.pgIndex = g →
      ∀ n m, n ∈ vi.nodes → m ∈ vj.nodes → nodeRack n = nodeRack m →
        0 < vi.partition → 0 < vj.partition → vi.partition = vj.partition

/-- Supporting invariant for claim C1: every placed VM's nodes lie on a
single rack (`Manager::tryPlaceInner` only ever places a VM through one
PM of one rack). -/
def sameRackInv (s : St) : Prop :=
  ∀ i vm, s.vms i = some vm → ∀ n ∈ vm.nodes, ∀ m ∈ vm.nodes, nodeRack n = nodeRack m

/-- Supporting invariant for claim C1: every registered VM's placement
group exists and lists the VM as a member (`createVMs` appends the batch
to `pg.vms`; `deleteVMs` erases registry entry and membership together). -/
def vmPG (s : St) : Prop :=
  ∀ i vi, s.vms i = some vi → ∃ pgv, s.pgs vi.pgIndex = some pgv ∧ i ∈ pgv.vms

/-- Rack `r` is admissible for partition `part` of PG `g`: no placed
member of `g` carrying a different positive partition occupies it. -/
def safeRack (g : Nat) (part : Int) (s : St) (r : RackId) : Prop :=
  ∀ j vj, s.vms j = some vj → vj.pgIndex = g → 0 < vj.partition →
    vj.partition ≠ part → ∀ n ∈ vj.nodes, nodeRack n ≠ r

/-- The state part of the claim-C1 search invariant: no mixed positive
partitions, placements rack-local, and PG `g`'s stored record fixed. -/
def c1StInv (g : Nat) (pgrec0 : PG) (s : St) : Prop :=
  noMixedPositiveParts s ∧ sameRackInv s ∧ s.pgs g = some pgrec0

/-- Registration facts for the indices of `dom`: members of PG `g`, all
carrying partition `part`. -/
def c1Reg (g : Nat) (part : Int) (dom : List Nat) (s : St) : Prop :=
  ∀ i ∈ dom, ∀ vm, s.vms i = some vm → vm.pgIndex = g ∧ vm.partition = part

/-- Recorded placements are live: each entry matches the VM's current
node list. -/
def c1Link (s : St) (pl : List (Nat × List NodeId)) : Prop :=
  ∀ e ∈ pl, ∃ vm, s.vms e.1 = some vm ∧ vm.nodes = e.2

/-- Claim C9's invariant: every registered VM is placed, on exactly
`type.nodes` nodes. -/
def allPlaced (s : St) : Prop :=
  ∀ i vm, s.vms i = some vm → vm.nodes ≠ [] ∧ vm.nodes.length = vm.type.nodes

/-- Input validity for the type table (§6: a type occupies at least one
node). -/
def cfgTypesPos (cfg : Config) : Prop := ∀ t ∈ cfg.types, 0 < t.nodes

instance (cfg : Config) : Decidable (cfgTypesPos cfg) := by
  unfold cfgTypesPos; infer_instance

/-- Claim C9's safety condition along a `deleteVMs` traversal: whenever the
loop finds the next index in the registry, that VM is still placed — so
the `nodes[0]` access inside its `unplace` is on a non-empty vector — and
the rest of the traversal is safe in the state the deletion leaves. -/
def deleteSafe (s : St) : List Nat → Prop
  | [] => True
  | i :: rest => ∀ vm, s.vms i = some vm → vm.nodes ≠ [] ∧
      deleteSafe (removeVM i (deregisterFromPG i vm.pgIndex (unplaceVM i s))) rest

/-- Claim C10's request relation: identical requests, except that the
`hardRackAntiAffinityPartitions` field of a type-1 request may differ as
long as both values are on the same side of the `> 1` test. -/
def reqEquiv : Request → Request → Prop
  | .mkpg i hp sp da ra, .mkpg i' hp' sp' da' ra' =>
    i = i' ∧ sp = sp' ∧ da = da' ∧ ra = ra' ∧ (1 < hp ↔ 1 < hp')
  | r, r' => r = r'

/-- Claim C10's state invariant: every stored PG carries the
`createPG`-normalised partition count (`0`, or at least `2`). -/
def stHPInv (s : St) : Prop :=
  ∀ g pg, s.pgs g = some pg →
    pg.hardRackAntiAffinityPartitions = 0 ∨ 2 ≤ pg.hardRackAntiAffinityPartitions

/-- Canonical `hardRackAntiAffinityPartitions`: only its side of the `> 1`
test is kept. -/
def canonHP (hp : Int) : Int := if 1 < hp then 2 else 0

/-- Canonicalise a PG's partition count. -/
def canonPG (pg : PG) : PG :=
  { pg with hardRackAntiAffinityPartitions := canonHP pg.hardRackAntiAffinityPartitions }

/-- Canonicalise all PGs of a state. -/
def canonSt (s : St) : St :=
  { s with pgs := fun i => (s.pgs i).map canonPG }

/-- Canonicalise a request. -/
def canonReq : Request → Request
  | .mkpg i hp sp da ra => .mkpg i (canonHP hp) sp da ra
  | r => r

/-- The derived-field values `updateTargets` produces for a PG whose two
affinities are `NONE` (target fields reset, possibility flags kept true,
soft-PM possibility from `softPMAntiAffinity > 0`); `pr` is the recomputed
`partitionRacks`. -/
def pgDerivedNN (pg : PG) (pr : List (Int × List RackId)) : PG :=
  { pg with
    targetDomain := none
    domainAffinityPossible := true
    targetRack := none
    rackAffinityPossible := true
    softPMAntiAffinityPossible := decide (0 < pg.softPMAntiAffinity)
    partitionRacks := pr }

/-- Scenario for claims C2/C6 (spec §8, scenario 1): one domain, one rack,
one PM, two nodes of capacity (4, 8); one type `(1, 2, 4)`. -/
def exC2cfg : Config := ⟨1, 1, 1, [4, 4], [8, 8], [⟨1, 1, 2, 4⟩]⟩

/-- The type of scenario `exC2cfg`. -/
def exC2ty : VMType := ⟨1, 1, 2, 4⟩

/-- State of the C2 scenario after PG creation and registration of VM 1. -/
def exC2s : St :=
  registerVMs [1] exC2ty 1 0 (createPGOp (initSt exC2cfg) 1 0 0 Affinity.NONE Affinity.NONE)

/-- The PG of the C2 scenario with VM 1 registered as member. -/
def exC2pg : PG :=
  { index := 1, hardRackAntiAffinityPartitions := 0, softPMAntiAffinity := 0,
    domainAffinity := Affinity.NONE, rackAffinity := Affinity.NONE, vms := [1] }

/-- Scenario for claim C4: one domain, three racks, one PM each, one node
of capacity (1, 1); PG with `hardRackAntiAffinityPartitions = 3`,
`rackAffinity = SOFT`; a 3-VM batch with auto-assigned partitions. -/
def exC4cfg : Config := ⟨1, 3, 1, [1], [1], [⟨1, 1, 1, 1⟩]⟩

/-- The type of scenario `exC4cfg`. -/
def exC4ty : VMType := ⟨1, 1, 1, 1⟩

/-- State of the C4 scenario after PG creation and batch registration. -/
def exC4s : St :=
  registerVMs [1, 2, 3] exC4ty 1 (-1)
    (createPGOp (initSt exC4cfg) 1 3 0 Affinity.NONE Affinity.SOFT)

/-- The PG of the C4 scenario with the batch registered. -/
def exC4pg : PG :=
  { index := 1, hardRackAntiAffinityPartitions := 3, softPMAntiAffinity := 0,
    domainAffinity := Affinity.NONE, rackAffinity := Affinity.SOFT, vms := [1, 2, 3] }

/-- The full rack group of the C4 scenario. -/
def exC4racks : List RackId := [(1, 1), (1, 2), (1, 3)]

/-- The C4 scenario's group attempt result. -/
def exC4res : Option Placement × St × PG :=
  getBestPlacement exC4cfg exC4pg [1, 2, 3] exC4ty exC4racks exC4s

/-- The C4 scenario's successful placement. -/
def exC4bp : Placement := exC4res.1.getD {}

/-- Scenario for claim C5: two domains, one rack each. -/
def exC5cfg : Config := ⟨2, 1, 1, [1], [1], [⟨1, 1, 1, 1⟩]⟩

/-- A PG with no affinities for the C5 scenario. -/
def exC5pg : PG :=
  { index := 1, hardRackAntiAffinityPartitions := 0, softPMAntiAffinity := 0,
    domainAffinity := Affinity.NONE, rackAffinity := Affinity.NONE }

/-- The type of scenario `exC5cfg`. -/
def exC5ty : VMType := ⟨1, 1, 1, 1⟩

/-- Scenario for claim C1: one domain, one rack, one PM, two nodes (1, 1);
a PG with `hardRackAntiAffinityPartitions = 2`; VM 1 created with
auto-assigned partition 1, then VM 2 created with explicit partition 0. -/
def exC1cfg : Config := ⟨1, 1, 1, [1, 1], [1, 1], [⟨1, 1, 1, 1⟩]⟩

/-- C1 scenario, state after the type-1 request. -/
def exC1s1 : St := createPGOp (initSt exC1cfg) 1 2 0 Affinity.NONE Affinity.NONE

/-- C1 scenario, state after creating VM 1 (partition −1 → 1). -/
def exC1s2 : St :=
  match step exC1cfg exC1s1 (Request.create [1] 1 1 (-1)) 0 with
  | some r => r.1
  | none => exC1s1

/-- C1 scenario, state after creating VM 2 with explicit partition 0. -/
def exC1s3 : St :=
  match step exC1cfg exC1s2 (Request.create [2] 1 1 0) 0 with
  | some r => r.1
  | none => exC1s2

/-- C3 scenario, state after the type-1 request (PG 1, no affinities), on
the `exC2cfg` fleet. -/
def exC3s0 : St := createPGOp (initSt exC2cfg) 1 0 0 Affinity.NONE Affinity.NONE

/-- C3 scenario, result of the type-2 request creating VM 1. -/
def exC3r1 : St × List (List Int) × Bool :=
  match step exC2cfg exC3s0 (Request.create [1] 1 1 0) 0 with
  | some r => r
  | none => (exC3s0, [], false)

/-- C3 scenario, state after the type-3 request deleting VM 1 again. -/
def exC3s2 : St :=
  match step exC2cfg exC3r1.1 (Request.delete [1]) 0 with
  | some r => r.1
  | none => exC3r1.1

/-- `foldl chainClaim` over a node list. -/
def foldClaim (t : VMType) (ns : List NodeId) (T : Topo) : Topo :=
  ns.foldl (fun acc n => chainClaim t n acc) T

/-- `foldl chainRelease` over a node list. -/
def foldRelease (t : VMType) (ns : List NodeId) (T : Topo) : Topo :=
  ns.foldl (fun acc n => chainRelease t n acc) T

/-- One mutation of the feasibility search: `VM::place` on an unplaced
batch VM, or `VM::unplace` on a batch VM.  `B` is the batch (the
`vmsToPlace` of the enclosing `createVMs`). -/
inductive SearchStep (B : List Nat) : St → St → Prop where
  | place (i : Nat) (ns : List NodeId) (vm : VM) (s : St) :
      i ∈ B → s.vms i = some vm → vm.nodes = [] → SearchStep B s (placeVM i ns s)
  | unplace (i : Nat) (s : St) : i ∈ B → SearchStep B s (unplaceVM i s)

/-- States reachable from `s` by search mutations over the batch `B`. -/
def SearchReach (B : List Nat) : St → St → Prop := Relation.ReflTransGen (SearchStep B)

/-!
## Theorems

First the lemmas identifying the kernel-computable rational operations with
the ordinary `ℚ` operations, then the claim theorems with their supporting
lemmas.
-/

theorem qdivInt_eq (a b : Int) : qdivInt a b = (a : ℚ) / b := Rat.divInt_eq_div a b

theorem qofInt_eq (a : Int) : qofInt a = (a : ℚ) := by
  simp [qofInt, Rat.divInt_eq_div]

theorem qadd_eq (a b : ℚ) : qadd a b = a + b := by
  have ha : (a.den : Int) ≠ 0 := Int.natCast_ne_zero.mpr a.den_nz
  have hb : (b.den : Int) ≠ 0 := Int.natCast_ne_zero.mpr b.den_nz
  rw [qadd, ← Rat.num_divInt_den a, ← Rat.num_divInt_den b, Rat.divInt_add_divInt _ _ ha hb,
    Rat.num_divInt_den, Rat.num_divInt_den]

theorem qdivNat_eq (a : ℚ) (n : Nat) : qdivNat a n = a / (n : ℚ) := by
  rw [qdivNat, show ((a.den : Int) * n) = ((a.den * n : Nat) : Int) by push_cast; ring,
    Rat.divInt_eq_div]
  push_cast
  rw [div_mul_eq_div_div]
  rw [Rat.num_div_den]

theorem qltb_eq (a b : ℚ) : qltb a b = decide (a < b) := by
  simp only [qltb, decide_eq_decide]
  exact (Rat.lt_def).symm

theorem qmax_eq (a b : ℚ) : qmax a b = max a b := by
  rw [qmax, qltb_eq, max_def]
  rcases lt_trichotomy a b with h | h | h
  · simp [h, le_of_lt h]
  · simp [h]
  · simp [not_lt_of_gt h, not_le_of_gt h]

/-- C6: the 14-second wall-clock budget is checked only at the start of a
type-2 request: at `elapsed ≥ 14` a creation emits the single line `-1` and
stops with the state unchanged, while type-1, type-3 and type-4 dispatch is
independent of the elapsed-time oracle. -/
theorem c6_time_gate_only_type2 (cfg : Config) (s : St) (elapsed : Int) :
    (∀ idxs ti pi part, 14 ≤ elapsed →
      step cfg s (Request.create idxs ti pi part) elapsed = some (s, [[-1]], false))
    ∧ (∀ i hp sp da ra t1 t2,
        step cfg s (Request.mkpg i hp sp da ra) t1 = step cfg s (Request.mkpg i hp sp da ra) t2)
    ∧ (∀ idxs t1 t2,
        step cfg s (Request.delete idxs) t1 = step cfg s (Request.delete idxs) t2)
    ∧ (∀ t1 t2, step cfg s Request.terminate t1 = step cfg s Request.terminate t2) := by
  refine ⟨fun idxs ti pi part h => ?_, fun _ _ _ _ _ _ _ => rfl, fun _ _ _ => rfl,
    fun _ _ => rfl⟩
  simp [step, if_pos h]

/-- Witness for `c6_time_gate_only_type2` at a concrete state and elapsed
time of exactly 14 seconds. -/
theorem c6_time_gate_only_type2_witness :
    step exC2cfg (initSt exC2cfg) (Request.create [1] 1 1 (-1)) 14 =
      some (initSt exC2cfg, [[-1]], false) :=
  (c6_time_gate_only_type2 exC2cfg (initSt exC2cfg) 14).1 [1] 1 1 (-1) (by decide)

/-- C5, counterexample: for a PG with `rackAffinity = NONE` and
`domainAffinity = NONE` on a two-domain fleet, the enumerator emits four
rack groups — one per domain, all racks in index order, and all racks
sorted by load — not exactly one. -/
theorem c5_counterexample :
    (getRackGroups2 exC5cfg (initSt exC5cfg) exC5pg exC5ty 1).1 =
      [[(1, 1)], [(2, 1)], [(1, 1), (2, 1)], [(1, 1), (2, 1)]]
    ∧ (getRackGroups2 exC5cfg (initSt exC5cfg) exC5pg exC5ty 1).1.length ≠ 1 := by
  exact ⟨by decide, by decide⟩

/-- C2, counterexample: a successful per-group feasibility attempt returns
with its trial placement still applied — node (1,1,1,1) has 2 CPU available
after the attempt versus 4 on entry — refuting "every successful attempt
unplaces all of its trial placements before returning". -/
theorem c2_counterexample :
    ((getBestPlacement exC2cfg exC2pg [1] exC2ty [(1, 1)] exC2s).1.isSome = true)
    ∧ (getBestPlacement exC2cfg exC2pg [1] exC2ty [(1, 1)] exC2s).2.1.topo.nodeC (1, 1, 1, 1) = 2
    ∧ exC2s.topo.nodeC (1, 1, 1, 1) = 4
    ∧ (2 : Int) ≠ 4 := by
  exact ⟨by decide, by decide, by decide, by decide⟩

/-- C4, counterexample: on the three-partition batch of scenario `exC4`,
the successful group attempt over all three racks returns penalty 2001 —
the +1000 for the broken SOFT rack affinity is charged once per partition
that observes it (twice here) — while the claim's formula (each 1000 at
most once per group attempt) yields 1001. -/
theorem c4_counterexample :
    ((getBestPlacement exC4cfg exC4pg [1, 2, 3] exC4ty exC4racks exC4s).1.map
        Placement.penalty = some 2001)
    ∧ claimC4Penalty exC4cfg exC4pg
        (getBestPlacement exC4cfg exC4pg [1, 2, 3] exC4ty exC4racks exC4s).2.1
        [1, 2, 3] exC4racks = 1001
    ∧ (2001 : ℚ) ≠ 1001 := by
  exact ⟨by decide, by decide, by decide⟩

/-- C1, counterexample: a session in which every request succeeds and which
ends with rack (1,1) hosting two placed members of PG 1 (which has
`hardRackAntiAffinityPartitions = 2 > 1`) with different partition ids,
1 and 0: a type-2 request with explicit `partition = 0` bypasses the
partition filtering (`if (partition > 0)`). -/
theorem c1_counterexample :
    ReachOk exC1cfg exC1s3
    ∧ (exC1s3.pgs 1).map PG.hardRackAntiAffinityPartitions = some 2
    ∧ (exC1s3.pgs 1).map PG.vms = some [1, 2]
    ∧ (exC1s3.vms 1).map VM.pgIndex = some 1
    ∧ (exC1s3.vms 2).map VM.pgIndex = some 1
    ∧ (exC1s3.vms 1).map (fun v => v.nodes.map nodeRack) = some [(1, 1)]
    ∧ (exC1s3.vms 2).map (fun v => v.nodes.map nodeRack) = some [(1, 1)]
    ∧ (exC1s3.vms 1).map VM.partition = some 1
    ∧ (exC1s3.vms 2).map VM.partition = some 0
    ∧ (1 : Int) ≠ 0 := by
  have h1 : step exC1cfg (initSt exC1cfg) (Request.mkpg 1 2 0 Affinity.NONE Affinity.NONE) 0 =
      some (exC1s1, [], true) := rfl
  have h2 : step exC1cfg exC1s1 (Request.create [1] 1 1 (-1)) 0 =
      some (exC1s2, [[1, 1, 1, 1]], true) := rfl
  have h3 : step exC1cfg exC1s2 (Request.create [2] 1 1 0) 0 =
      some (exC1s3, [[1, 1, 1, 2]], true) := rfl
  refine ⟨ReachOk.next (ReachOk.next (ReachOk.next ReachOk.init h1) h2) h3,
    by decide, by decide, by decide, by decide, by decide, by decide, by decide, by decide,
    by decide⟩

theorem updTargetsStep_none_none (s : St) (acc : PG) (i : Nat)
    (hr : acc.rackAffinity = Affinity.NONE) (hd : acc.domainAffinity = Affinity.NONE) :
    ∃ pr, updTargetsStep s acc i = { acc with partitionRacks := pr } := by
  have c1 : ¬(acc.domainAffinity ≠ Affinity.NONE ∧ acc.domainAffinityPossible = true) := by
    simp [hd]
  have c2 : ¬(acc.rackAffinity ≠ Affinity.NONE ∧ acc.rackAffinityPossible = true) := by
    simp [hr]
  cases h : s.vms i with
  | none => exact ⟨acc.partitionRacks, by simp [updTargetsStep, h]⟩
  | some vm =>
    cases hn : vm.nodes with
    | nil => exact ⟨acc.partitionRacks, by simp [updTargetsStep, h, hn]⟩
    | cons n rest =>
      by_cases hp : 0 < acc.hardRackAntiAffinityPartitions
      · exact ⟨prInsert vm.partition (nodeRack n) acc.partitionRacks,
          by simp only [updTargetsStep, h, hn, if_neg c1, if_neg c2, if_pos hp]⟩
      · exact ⟨acc.partitionRacks,
          by simp only [updTargetsStep, h, hn, if_neg c1, if_neg c2, if_neg hp]⟩

theorem foldUT_none_none (s : St) (l : List Nat) (acc : PG)
    (hr : acc.rackAffinity = Affinity.NONE) (hd : acc.domainAffinity = Affinity.NONE) :
    ∃ pr, l.foldl (updTargetsStep s) acc = { acc with partitionRacks := pr } := by
  induction l generalizing acc with
  | nil => exact ⟨acc.partitionRacks, rfl⟩
  | cons i l ih =>
    obtain ⟨pr1, h1⟩ := updTargetsStep_none_none s acc i hr hd
    obtain ⟨pr2, h2⟩ := ih { acc with partitionRacks := pr1 } hr hd
    refine ⟨pr2, ?_⟩
    rw [List.foldl_cons, h1, h2]

theorem updateTargets_none_none (s : St) (pg : PG)
    (hr : pg.rackAffinity = Affinity.NONE) (hd : pg.domainAffinity = Affinity.NONE) :
    ∃ pr, updateTargets s pg = pgDerivedNN pg pr := by
  unfold updateTargets updTargetsInit updTargetsPost
  obtain ⟨pr, h⟩ := foldUT_none_none s pg.vms
    { pg with
      targetDomain := none
      domainAffinityPossible := true
      targetRack := none
      rackAffinityPossible := true
      partitionRacks := [] } hr hd
  refine ⟨pr, ?_⟩
  rw [h]
  rw [if_neg]
  · rfl
  · simp [hd, hr]

theorem getRackGroups_none_none (cfg : Config) (s : St) (pg : PG)
    (hr : pg.rackAffinity = Affinity.NONE) (hd : pg.domainAffinity = Affinity.NONE) :
    ∃ pr, getRackGroups cfg s pg =
      (cfg.domIds.map cfg.racksOf ++ [cfg.allRacks], pgDerivedNN pg pr) := by
  obtain ⟨pr, h⟩ := updateTargets_none_none s pg hr hd
  refine ⟨pr, ?_⟩
  unfold getRackGroups
  rw [h]
  simp [hr, hd, pgDerivedNN]

/-- C5, amended: for a PG with `rackAffinity = NONE` and
`domainAffinity = NONE`, the enumerator emits `D + 2` groups: one per
domain (racks in index order), then all racks in index order, then all
racks sorted ascending by load — not a single group. -/
theorem c5_amended (cfg : Config) (s : St) (pg : PG) (t : VMType) (n : Nat)
    (hr : pg.rackAffinity = Affinity.NONE) (hd : pg.domainAffinity = Affinity.NONE) :
    (getRackGroups2 cfg s pg t n).1 =
      cfg.domIds.map cfg.racksOf ++ [cfg.allRacks]
        ++ [sortBy (loadLt cfg s.topo) cfg.allRacks] := by
  unfold getRackGroups2
  obtain ⟨pr1, h1⟩ := updateTargets_none_none s pg hr hd
  rw [h1]
  obtain ⟨pr2, h2⟩ := getRackGroups_none_none cfg s (pgDerivedNN pg pr1)
    (by simp [pgDerivedNN, hr]) (by simp [pgDerivedNN, hd])
  simp only [h2]
  simp [hr, hd, pgDerivedNN]

/-- Witness for `c5_amended` on the concrete two-domain scenario. -/
theorem c5_amended_witness :
    (getRackGroups2 exC5cfg (initSt exC5cfg) exC5pg exC5ty 1).1 =
      exC5cfg.domIds.map exC5cfg.racksOf ++ [exC5cfg.allRacks]
        ++ [sortBy (loadLt exC5cfg (initSt exC5cfg).topo) exC5cfg.allRacks] :=
  c5_amended exC5cfg (initSt exC5cfg) exC5pg exC5ty 1 rfl rfl

/-!
### Frame infrastructure: the search only place/unplaces batch VMs, and
`unplaceVMs` over the batch restores the state the search started from.
-/

attribute [ext] Topo St

theorem addAt_comm {α : Type} [DecidableEq α] (f : α → Int) (k k' : α) (v v' : Int) :
    addAt (addAt f k v) k' v' = addAt (addAt f k' v') k v := by
  funext x
  unfold addAt
  split_ifs <;> ring

theorem addAt_cancel {α : Type} [DecidableEq α] (f : α → Int) (k : α) (v : Int) :
    addAt (addAt f k (-v)) k v = f := by
  funext x
  unfold addAt
  split_ifs <;> ring

theorem chainClaim_chainRelease_comm (t t' : VMType) (n n' : NodeId) (T : Topo) :
    chainClaim t n (chainRelease t' n' T) = chainRelease t' n' (chainClaim t n T) := by
  simp only [chainClaim, chainRelease]
  ext <;> simp [addAt_comm]

theorem chainRelease_chainClaim_cancel (t : VMType) (n : NodeId) (T : Topo) :
    chainRelease t n (chainClaim t n T) = T := by
  simp only [chainClaim, chainRelease]
  ext x <;> simp [addAt_cancel]

theorem bumpPG_chainClaim_comm (p : PMId) (g : Nat) (v : Int) (t : VMType) (n : NodeId)
    (T : Topo) : bumpPG p g v (chainClaim t n T) = chainClaim t n (bumpPG p g v T) := rfl

theorem bumpPG_chainRelease_comm (p : PMId) (g : Nat) (v : Int) (t : VMType) (n : NodeId)
    (T : Topo) : bumpPG p g v (chainRelease t n T) = chainRelease t n (bumpPG p g v T) := rfl

theorem bumpPG_bumpPG_comm (p p' : PMId) (g g' : Nat) (v v' : Int) (T : Topo) :
    bumpPG p g v (bumpPG p' g' v' T) = bumpPG p' g' v' (bumpPG p g v T) := by
  unfold bumpPG
  congr 1
  funext q gg
  by_cases h1 : q = p ∧ gg = g
  · by_cases h2 : q = p' ∧ gg = g'
    · simp only [if_pos h1, if_pos h2]; ring
    · simp only [if_pos h1, if_neg h2]
  · by_cases h2 : q = p' ∧ gg = g'
    · simp only [if_neg h1, if_pos h2]
    · simp only [if_neg h1, if_neg h2]

theorem bumpPG_cancel (p : PMId) (g : Nat) (T : Topo) :
    bumpPG p g (-1) (bumpPG p g 1 T) = T := by
  have h : (bumpPG p g (-1) (bumpPG p g 1 T)).pgCount = T.pgCount := by
    funext q gg
    unfold bumpPG
    simp only []
    by_cases h1 : q = p ∧ gg = g
    · simp only [if_pos h1]; ring
    · simp only [if_neg h1]
  cases T
  unfold bumpPG at h ⊢
  simp only [] at h ⊢
  rw [h]

theorem foldClaim_chainRelease_comm (t t' : VMType) (ns : List NodeId) (n' : NodeId)
    (T : Topo) : foldClaim t ns (chainRelease t' n' T)
      = chainRelease t' n' (foldClaim t ns T) := by
  induction ns generalizing T with
  | nil => rfl
  | cons n ns ih =>
    simp only [foldClaim, List.foldl_cons] at *
    rw [chainClaim_chainRelease_comm, ih]

theorem foldClaim_bumpPG_comm (t : VMType) (ns : List NodeId) (p : PMId) (g : Nat) (v : Int)
    (T : Topo) : foldClaim t ns (bumpPG p g v T) = bumpPG p g v (foldClaim t ns T) := by
  induction ns generalizing T with
  | nil => rfl
  | cons n ns ih =>
    simp only [foldClaim, List.foldl_cons] at *
    rw [← bumpPG_chainClaim_comm, ih]

theorem foldRelease_bumpPG_comm (t : VMType) (ns : List NodeId) (p : PMId) (g : Nat) (v : Int)
    (T : Topo) : foldRelease t ns (bumpPG p g v T) = bumpPG p g v (foldRelease t ns T) := by
  induction ns generalizing T with
  | nil => rfl
  | cons n ns ih =>
    simp only [foldRelease, List.foldl_cons] at *
    rw [← bumpPG_chainRelease_comm, ih]

theorem foldRelease_foldClaim_cancel (t : VMType) (ns : List NodeId) (T : Topo) :
    foldRelease t ns (foldClaim t ns T) = T := by
  induction ns generalizing T with
  | nil => rfl
  | cons n ns ih =>
    show foldRelease t ns (chainRelease t n (foldClaim t ns (chainClaim t n T))) = T
    rw [← foldClaim_chainRelease_comm, chainRelease_chainClaim_cancel]
    exact ih T

theorem chainRelease_chainRelease_comm (t t' : VMType) (n n' : NodeId) (T : Topo) :
    chainRelease t n (chainRelease t' n' T) = chainRelease t' n' (chainRelease t n T) := by
  simp only [chainRelease]
  ext <;> simp [addAt_comm]

theorem foldRelease_chainRelease_comm (t t' : VMType) (ns : List NodeId) (n' : NodeId)
    (T : Topo) : foldRelease t ns (chainRelease t' n' T)
      = chainRelease t' n' (foldRelease t ns T) := by
  induction ns generalizing T with
  | nil => rfl
  | cons n ns ih =>
    simp only [foldRelease, List.foldl_cons] at *
    rw [chainRelease_chainRelease_comm, ih]

theorem foldClaim_foldRelease_comm (t t' : VMType) (ns ns' : List NodeId) (T : Topo) :
    foldClaim t ns (foldRelease t' ns' T) = foldRelease t' ns' (foldClaim t ns T) := by
  induction ns' generalizing T with
  | nil => rfl
  | cons m ms ih =>
    show foldClaim t ns (foldRelease t' ms (chainRelease t' m T))
      = foldRelease t' ms (chainRelease t' m (foldClaim t ns T))
    rw [ih, foldClaim_chainRelease_comm]

theorem foldRelease_foldRelease_comm (t t' : VMType) (ns ns' : List NodeId) (T : Topo) :
    foldRelease t ns (foldRelease t' ns' T) = foldRelease t' ns' (foldRelease t ns T) := by
  induction ns' generalizing T with
  | nil => rfl
  | cons m ms ih =>
    show foldRelease t ns (foldRelease t' ms (chainRelease t' m T))
      = foldRelease t' ms (chainRelease t' m (foldRelease t ns T))
    rw [ih, foldRelease_chainRelease_comm]

theorem unplaceTopo_placeTopo_cancel (t : VMType) (g : Nat) (ns : List NodeId) (T : Topo) :
    unplaceTopo t g ns (placeTopo t g ns T) = T := by
  cases ns with
  | nil => rfl
  | cons n rest =>
    show bumpPG (nodePM n) g (-1)
        (foldRelease t (n :: rest) (bumpPG (nodePM n) g 1 (foldClaim t (n :: rest) T))) = T
    rw [foldRelease_bumpPG_comm, foldRelease_foldClaim_cancel, bumpPG_cancel]

theorem placeTopo_unplaceTopo_comm (t t' : VMType) (g g' : Nat) (ns ns' : List NodeId)
    (T : Topo) : placeTopo t g ns (unplaceTopo t' g' ns' T)
      = unplaceTopo t' g' ns' (placeTopo t g ns T) := by
  cases ns with
  | nil =>
    cases ns' with
    | nil => rfl
    | cons m ms =>
      show foldClaim t [] (bumpPG (nodePM m) g' (-1) (foldRelease t' (m :: ms) T))
        = bumpPG (nodePM m) g' (-1) (foldRelease t' (m :: ms) (foldClaim t [] T))
      rfl
  | cons n rest =>
    cases ns' with
    | nil => rfl
    | cons m ms =>
      show bumpPG (nodePM n) g 1
          (foldClaim t (n :: rest) (bumpPG (nodePM m) g' (-1) (foldRelease t' (m :: ms) T)))
        = bumpPG (nodePM m) g' (-1)
          (foldRelease t' (m :: ms) (bumpPG (nodePM n) g 1 (foldClaim t (n :: rest) T)))
      rw [foldClaim_bumpPG_comm, foldClaim_foldRelease_comm, bumpPG_bumpPG_comm,
        foldRelease_bumpPG_comm]

theorem unplaceTopo_unplaceTopo_comm (t t' : VMType) (g g' : Nat) (ns ns' : List NodeId)
    (T : Topo) : unplaceTopo t g ns (unplaceTopo t' g' ns' T)
      = unplaceTopo t' g' ns' (unplaceTopo t g ns T) := by
  cases ns with
  | nil => rfl
  | cons n rest =>
    cases ns' with
    | nil => rfl
    | cons m ms =>
      show bumpPG (nodePM n) g (-1)
          (foldRelease t (n :: rest) (bumpPG (nodePM m) g' (-1) (foldRelease t' (m :: ms) T)))
        = bumpPG (nodePM m) g' (-1)
          (foldRelease t' (m :: ms) (bumpPG (nodePM n) g (-1) (foldRelease t (n :: rest) T)))
      rw [foldRelease_bumpPG_comm, foldRelease_foldRelease_comm, bumpPG_bumpPG_comm,
        foldRelease_bumpPG_comm]

theorem upd_same {α β : Type} [DecidableEq α] (f : α → β) (i : α) (v : β) (h : f i = v) :
    upd f i v = f := by
  funext x
  unfold upd
  split
  · subst x; exact h.symm
  · rfl

theorem upd_upd {α β : Type} [DecidableEq α] (f : α → β) (i : α) (v w : β) :
    upd (upd f i v) i w = upd f i w := by
  funext x
  unfold upd
  split <;> rfl

theorem upd_comm {α β : Type} [DecidableEq α] (f : α → β) (i j : α) (v w : β) (h : i ≠ j) :
    upd (upd f i v) j w = upd (upd f j w) i v := by
  funext x
  unfold upd
  by_cases hi : x = i
  · by_cases hj : x = j
    · exact absurd (hi.symm.trans hj) h
    · simp only [if_pos hi, if_neg hj]
  · by_cases hj : x = j
    · simp only [if_pos hj, if_neg hi]
    · simp only [if_neg hi, if_neg hj]

theorem placeVM_pgs (i : Nat) (ns : List NodeId) (s : St) : (placeVM i ns s).pgs = s.pgs := by
  unfold placeVM
  cases s.vms i <;> rfl

theorem unplaceVM_pgs (i : Nat) (s : St) : (unplaceVM i s).pgs = s.pgs := by
  unfold unplaceVM
  cases s.vms i <;> rfl

theorem placeVM_vms_ne (i j : Nat) (ns : List NodeId) (s : St) (h : j ≠ i) :
    (placeVM i ns s).vms j = s.vms j := by
  unfold placeVM
  cases s.vms i with
  | none => rfl
  | some vm => simp [upd, h]

theorem unplaceVM_vms_ne (i j : Nat) (s : St) (h : j ≠ i) :
    (unplaceVM i s).vms j = s.vms j := by
  unfold unplaceVM
  cases s.vms i with
  | none => rfl
  | some vm => simp [upd, h]

theorem placeVM_vms_eq (i : Nat) (ns : List NodeId) (s : St) (vm : VM)
    (h : s.vms i = some vm) :
    (placeVM i ns s).vms = upd s.vms i (some { vm with nodes := ns }) := by
  unfold placeVM
  rw [h]

theorem placeVM_topo_eq (i : Nat) (ns : List NodeId) (s : St) (vm : VM)
    (h : s.vms i = some vm) :
    (placeVM i ns s).topo = placeTopo vm.type vm.pgIndex ns s.topo := by
  unfold placeVM
  rw [h]

theorem unplaceVM_placeVM (i : Nat) (ns : List NodeId) (s : St) (vm : VM)
    (h : s.vms i = some vm) (h0 : vm.nodes = []) :
    unplaceVM i (placeVM i ns s) = s := by
  have hv : (placeVM i ns s).vms i = some { vm with nodes := ns } := by
    rw [placeVM_vms_eq i ns s vm h]
    simp [upd]
  unfold unplaceVM
  rw [hv]
  apply St.ext
  · show unplaceTopo vm.type vm.pgIndex ns (placeVM i ns s).topo = s.topo
    rw [placeVM_topo_eq i ns s vm h, unplaceTopo_placeTopo_cancel]
  · exact placeVM_pgs i ns s
  · show upd (placeVM i ns s).vms i (some { vm with nodes := [] }) = s.vms
    rw [placeVM_vms_eq i ns s vm h, upd_upd,
      show ({ vm with nodes := [] } : VM) = vm by cases vm; simp_all,
      upd_same s.vms i _ h]

theorem unplaceVM_vms_eq (j : Nat) (s : St) (vm : VM) (h : s.vms j = some vm) :
    (unplaceVM j s).vms = upd s.vms j (some { vm with nodes := [] }) := by
  unfold unplaceVM
  rw [h]

theorem unplaceVM_topo_eq (j : Nat) (s : St) (vm : VM) (h : s.vms j = some vm) :
    (unplaceVM j s).topo = unplaceTopo vm.type vm.pgIndex vm.nodes s.topo := by
  unfold unplaceVM
  rw [h]

theorem placeVM_none (i : Nat) (ns : List NodeId) (s : St) (h : s.vms i = none) :
    placeVM i ns s = s := by
  unfold placeVM
  rw [h]

theorem unplaceVM_none (i : Nat) (s : St) (h : s.vms i = none) : unplaceVM i s = s := by
  unfold unplaceVM
  rw [h]

theorem unplaceVM_unplaced (i : Nat) (s : St) (vm : VM) (h : s.vms i = some vm)
    (h0 : vm.nodes = []) : unplaceVM i s = s := by
  apply St.ext
  · rw [unplaceVM_topo_eq i s vm h, h0]
    rfl
  · exact unplaceVM_pgs i s
  · rw [unplaceVM_vms_eq i s vm h,
      show ({ vm with nodes := [] } : VM) = vm by cases vm; simp_all,
      upd_same s.vms i _ h]

theorem placeVM_nil (i : Nat) (s : St) (vm : VM) (h : s.vms i = some vm)
    (h0 : vm.nodes = []) : placeVM i [] s = s := by
  apply St.ext
  · rw [placeVM_topo_eq i [] s vm h]
    rfl
  · exact placeVM_pgs i [] s
  · rw [placeVM_vms_eq i [] s vm h,
      show ({ vm with nodes := [] } : VM) = vm by cases vm; simp_all,
      upd_same s.vms i _ h]

theorem unplaceVM_placeVM_comm (i j : Nat) (ns : List NodeId) (s : St) (h : j ≠ i) :
    unplaceVM j (placeVM i ns s) = placeVM i ns (unplaceVM j s) := by
  cases hi : s.vms i with
  | none =>
    rw [placeVM_none i ns s hi,
      placeVM_none i ns (unplaceVM j s) (by rw [unplaceVM_vms_ne j i s (Ne.symm h)]; exact hi)]
  | some vmi =>
    cases hj : s.vms j with
    | none =>
      rw [unplaceVM_none j s hj,
        unplaceVM_none j (placeVM i ns s) (by rw [placeVM_vms_ne i j ns s h]; exact hj)]
    | some vmj =>
      have hij : (placeVM i ns s).vms j = some vmj := by
        rw [placeVM_vms_ne i j ns s h]; exact hj
      have hji : (unplaceVM j s).vms i = some vmi := by
        rw [unplaceVM_vms_ne j i s (Ne.symm h)]; exact hi
      apply St.ext
      · rw [unplaceVM_topo_eq j _ vmj hij, placeVM_topo_eq i ns s vmi hi,
          placeVM_topo_eq i ns _ vmi hji, unplaceVM_topo_eq j s vmj hj,
          placeTopo_unplaceTopo_comm]
      · rw [unplaceVM_pgs, placeVM_pgs, placeVM_pgs, unplaceVM_pgs]
      · rw [unplaceVM_vms_eq j _ vmj hij, placeVM_vms_eq i ns s vmi hi,
          placeVM_vms_eq i ns _ vmi hji, unplaceVM_vms_eq j s vmj hj,
          upd_comm _ _ _ _ _ (Ne.symm h)]

theorem unplaceVM_unplaceVM_comm (i j : Nat) (s : St) (h : j ≠ i) :
    unplaceVM j (unplaceVM i s) = unplaceVM i (unplaceVM j s) := by
  cases hi : s.vms i with
  | none =>
    rw [unplaceVM_none i s hi,
      unplaceVM_none i (unplaceVM j s) (by rw [unplaceVM_vms_ne j i s (Ne.symm h)]; exact hi)]
  | some vmi =>
    cases hj : s.vms j with
    | none =>
      rw [unplaceVM_none j s hj,
        unplaceVM_none j (unplaceVM i s) (by rw [unplaceVM_vms_ne i j s h]; exact hj)]
    | some vmj =>
      have hij : (unplaceVM i s).vms j = some vmj := by
        rw [unplaceVM_vms_ne i j s h]; exact hj
      have hji : (unplaceVM j s).vms i = some vmi := by
        rw [unplaceVM_vms_ne j i s (Ne.symm h)]; exact hi
      apply St.ext
      · rw [unplaceVM_topo_eq j _ vmj hij, unplaceVM_topo_eq i s vmi hi,
          unplaceVM_topo_eq i _ vmi hji, unplaceVM_topo_eq j s vmj hj,
          unplaceTopo_unplaceTopo_comm]
      · rw [unplaceVM_pgs, unplaceVM_pgs, unplaceVM_pgs, unplaceVM_pgs]
      · rw [unplaceVM_vms_eq j _ vmj hij, unplaceVM_vms_eq i s vmi hi,
          unplaceVM_vms_eq i _ vmi hji, unplaceVM_vms_eq j s vmj hj,
          upd_comm _ _ _ _ _ (Ne.symm h)]

theorem unplaceVMs_cons (j : Nat) (rest : List Nat) (s : St) :
    unplaceVMs (j :: rest) s =
      unplaceVMs rest (match s.vms j with
        | some vm => if vm.nodes ≠ [] then unplaceVM j s else s
        | none => s) := rfl

theorem unplaceVMs_unplaceVM (B : List Nat) (i : Nat) (s : St) (hiB : i ∈ B) :
    unplaceVMs B (unplaceVM i s) = unplaceVMs B s := by
  induction B generalizing s with
  | nil => cases hiB
  | cons j rest ih =>
    rw [unplaceVMs_cons, unplaceVMs_cons]
    by_cases hji : j = i
    · subst hji
      cases hj : s.vms j with
      | none => rw [unplaceVM_none j s hj, hj]
      | some vm =>
        have h1 : (unplaceVM j s).vms j = some { vm with nodes := [] } := by
          rw [unplaceVM_vms_eq j s vm hj]
          simp [upd]
        simp only [h1, hj]
        by_cases h0 : vm.nodes = []
        · simp [h0, unplaceVM_unplaced j s vm hj h0]
        · simp [h0]
    · have h1 : (unplaceVM i s).vms j = s.vms j := unplaceVM_vms_ne i j s hji
      have hirest : i ∈ rest := by
        cases hiB with
        | head => exact absurd rfl hji
        | tail _ hm => exact hm
      rw [h1]
      cases hj : s.vms j with
      | none => exact ih _ hirest
      | some vm =>
        simp only []
        by_cases h0 : vm.nodes = []
        · simp only [h0, ne_eq, not_true_eq_false, if_false]
          exact ih _ hirest
        · simp only [ne_eq, h0, not_false_eq_true, if_true,
            unplaceVM_unplaceVM_comm i j s hji]
          exact ih _ hirest

theorem unplaceVMs_placeVM (B : List Nat) (i : Nat) (ns : List NodeId) (s : St) (vm : VM)
    (hiB : i ∈ B) (h : s.vms i = some vm) (h0 : vm.nodes = []) :
    unplaceVMs B (placeVM i ns s) = unplaceVMs B s := by
  induction B generalizing s with
  | nil => cases hiB
  | cons j rest ih =>
    rw [unplaceVMs_cons, unplaceVMs_cons]
    by_cases hji : j = i
    · subst hji
      have h1 : (placeVM j ns s).vms j = some { vm with nodes := ns } := by
        rw [placeVM_vms_eq j ns s vm h]
        simp [upd]
      simp only [h1, h]
      by_cases hns : ns = []
      · subst hns
        simp [h0, placeVM_nil j s vm h h0]
      · simp [h0, hns, unplaceVM_placeVM j ns s vm h h0]
    · have h1 : (placeVM i ns s).vms j = s.vms j := placeVM_vms_ne i j ns s hji
      have hirest : i ∈ rest := by
        cases hiB with
        | head => exact absurd rfl hji
        | tail _ hm => exact hm
      rw [h1]
      cases hj : s.vms j with
      | none => exact ih _ hirest h
      | some vmj =>
        simp only []
        by_cases hj0 : vmj.nodes = []
        · simp only [hj0, ne_eq, not_true_eq_false, if_false]
          exact ih _ hirest h
        · simp only [ne_eq, hj0, not_false_eq_true, if_true,
            unplaceVM_placeVM_comm i j ns s hji]
          exact ih _ hirest (by rw [unplaceVM_vms_ne j i s (Ne.symm hji)]; exact h)

/-- Search mutations do not touch the PG registry. -/
theorem searchStep_pgs {B : List Nat} {s s' : St} (h : SearchStep B s s') : s'.pgs = s.pgs := by
  cases h with
  | place i ns vm s hiB hv h0 => exact placeVM_pgs i ns s
  | unplace i s hiB => exact unplaceVM_pgs i s

/-- Search mutations do not touch non-batch VM records. -/
theorem searchStep_vms_ne {B : List Nat} {s s' : St} (h : SearchStep B s s') (j : Nat)
    (hj : ¬ j ∈ B) : s'.vms j = s.vms j := by
  cases h with
  | place i ns vm s hiB hv h0 => exact placeVM_vms_ne i j ns s (fun e => hj (e ▸ hiB))
  | unplace i s hiB => exact unplaceVM_vms_ne i j s (fun e => hj (e ▸ hiB))

/-- One search mutation does not change the batch-unplaced normal form. -/
theorem searchStep_unplaceVMs {B : List Nat} {s s' : St} (h : SearchStep B s s') :
    unplaceVMs B s' = unplaceVMs B s := by
  cases h with
  | place i ns vm s hiB hv h0 => exact unplaceVMs_placeVM B i ns s vm hiB hv h0
  | unplace i s hiB => exact unplaceVMs_unplaceVM B i s hiB

/-- The key restoration lemma: the batch-unplaced normal form is invariant
across the whole search. -/
theorem searchReach_unplaceVMs {B : List Nat} {s s' : St} (h : SearchReach B s s') :
    unplaceVMs B s' = unplaceVMs B s := by
  induction h with
  | refl => rfl
  | tail _ hstep ih => rw [searchStep_unplaceVMs hstep, ih]

theorem searchReach_pgs {B : List Nat} {s s' : St} (h : SearchReach B s s') :
    s'.pgs = s.pgs := by
  induction h with
  | refl => rfl
  | tail _ hstep ih => rw [searchStep_pgs hstep, ih]

theorem searchReach_vms_ne {B : List Nat} {s s' : St} (h : SearchReach B s s') (j : Nat)
    (hj : ¬ j ∈ B) : s'.vms j = s.vms j := by
  induction h with
  | refl => rfl
  | tail _ hstep ih => rw [searchStep_vms_ne hstep j hj, ih]

/-- Unplacing a batch that is entirely unplaced is a no-op. -/
theorem unplaceVMs_of_unplaced (B : List Nat) (s : St)
    (h : ∀ i ∈ B, ∀ vm, s.vms i = some vm → vm.nodes = []) : unplaceVMs B s = s := by
  induction B generalizing s with
  | nil => rfl
  | cons j rest ih =>
    rw [unplaceVMs_cons]
    cases hj : s.vms j with
    | none => exact ih s (fun i hi vm hv => h i (List.mem_cons_of_mem j hi) vm hv)
    | some vm =>
      simp only []
      rw [if_neg (by simp [h j (List.mem_cons_self j rest) vm hj])]
      exact ih s (fun i hi vm hv => h i (List.mem_cons_of_mem j hi) vm hv)

/-!
### The search call tree only mutates state through `SearchStep`s on the
batch.
-/

theorem reach_unplaceVMs (B sub : List Nat) (s : St) (hsub : ∀ i ∈ sub, i ∈ B) :
    SearchReach B s (unplaceVMs sub s) := by
  induction sub generalizing s with
  | nil => exact Relation.ReflTransGen.refl
  | cons j rest ih =>
    rw [unplaceVMs_cons]
    cases hj : s.vms j with
    | none => exact ih s (fun i hi => hsub i (List.mem_cons_of_mem j hi))
    | some vm =>
      simp only []
      by_cases h0 : vm.nodes = []
      · rw [if_neg (by simp [h0])]
        exact ih s (fun i hi => hsub i (List.mem_cons_of_mem j hi))
      · rw [if_pos (by simp [h0])]
        exact Relation.ReflTransGen.head
          (SearchStep.unplace j s (hsub j (List.mem_cons_self j rest)))
          (ih (unplaceVM j s) (fun i hi => hsub i (List.mem_cons_of_mem j hi)))

theorem reach_tryPlaceInnerStep (cfg : Config) (pg : PG) (t : VMType) (force : Bool)
    (B : List Nat) (acc : St × List RackId × List (Nat × List NodeId)) (i : Nat)
    (hi : i ∈ B) : SearchReach B acc.1 (tryPlaceInnerStep cfg pg t force acc i).1 := by
  unfold tryPlaceInnerStep
  cases hv : acc.1.vms i with
  | none => exact Relation.ReflTransGen.refl
  | some vm =>
    simp only []
    by_cases h0 : vm.nodes = []
    · rw [if_neg (by simp [h0])]
      cases hf : firstSome (tryRack cfg pg t force acc.1.topo)
          (sortBy (rackFitLt cfg acc.1.topo t) acc.2.1) with
      | none => exact Relation.ReflTransGen.refl
      | some ns =>
        exact Relation.ReflTransGen.single (SearchStep.place i ns vm acc.1 hi hv h0)
    · rw [if_pos (by simp [h0])]
      exact Relation.ReflTransGen.refl

theorem reach_tryPlaceInner (cfg : Config) (pg : PG) (vmIdxs : List Nat) (t : VMType)
    (force : Bool) (B : List Nat) (s : St) (racks : List RackId)
    (pl : List (Nat × List NodeId)) (hsub : ∀ i ∈ vmIdxs, i ∈ B) :
    SearchReach B s (tryPlaceInner cfg pg vmIdxs t force s racks pl).1 := by
  suffices h : ∀ (l : List Nat) (acc : St × List RackId × List (Nat × List NodeId)),
      (∀ i ∈ l, i ∈ B) →
      SearchReach B acc.1 (l.foldl (tryPlaceInnerStep cfg pg t force) acc).1 by
    exact h vmIdxs (s, racks, pl) hsub
  intro l
  induction l with
  | nil => exact fun acc _ => Relation.ReflTransGen.refl
  | cons i rest ih =>
    intro acc hl
    exact Relation.ReflTransGen.trans
      (reach_tryPlaceInnerStep cfg pg t force B acc i (hl i (List.mem_cons_self i rest)))
      (ih _ (fun j hj => hl j (List.mem_cons_of_mem i hj)))

theorem reach_tryPlace (cfg : Config) (pg : PG) (vmIdxs : List Nat) (t : VMType)
    (racks : List RackId) (force : Bool) (B : List Nat) (s : St)
    (hsub : ∀ i ∈ vmIdxs, i ∈ B) :
    SearchReach B s (tryPlace cfg pg vmIdxs t racks force s).2.1 := by
  unfold tryPlace
  simp only []
  set s1 := unplaceVMs vmIdxs s with hs1
  have h1 : SearchReach B s s1 := reach_unplaceVMs B vmIdxs s hsub
  split
  · exact h1
  · set r1 := tryPlaceInner cfg pg vmIdxs t false s1 racks [] with hr1
    have h12 : SearchReach B s r1.1 :=
      Relation.ReflTransGen.trans h1 (reach_tryPlaceInner cfg pg vmIdxs t false B s1 racks [] hsub)
    by_cases hc : force ∧ r1.2.2.length < vmIdxs.length
    · rw [if_pos hc]
      have h123 : SearchReach B s (tryPlaceInner cfg pg vmIdxs t true r1.1 r1.2.1 r1.2.2).1 :=
        Relation.ReflTransGen.trans h12
          (reach_tryPlaceInner cfg pg vmIdxs t true B r1.1 r1.2.1 r1.2.2 hsub)
      split
      · exact h123
      · exact h123
    · rw [if_neg hc]
      split
      · exact h12
      · exact h12

theorem reach_tryLoop (cfg : Config) (vmIdxs : List Nat) (t : VMType) (force : Bool)
    (fuel : Nat) (pg : PG) (cur extra : List RackId) (B : List Nat) (s : St)
    (hsub : ∀ i ∈ vmIdxs, i ∈ B) :
    SearchReach B s (tryLoop cfg vmIdxs t force fuel pg cur extra s).2.1 := by
  induction fuel generalizing pg cur extra s with
  | zero => exact Relation.ReflTransGen.refl
  | succ fuel ih =>
    unfold tryLoop
    cases htp : tryPlace cfg pg vmIdxs t cur force s with
    | mk res rest =>
      obtain ⟨s', racks', pg'⟩ := rest
      cases res with
      | some p =>
        simp only []
        have := reach_tryPlace cfg pg vmIdxs t cur force B s hsub
        rw [htp] at this
        exact this
      | none =>
        simp only []
        have hreach : SearchReach B s s' := by
          have := reach_tryPlace cfg pg vmIdxs t cur force B s hsub
          rw [htp] at this
          exact this
        cases extra with
        | nil => exact hreach
        | cons e rest2 =>
          exact Relation.ReflTransGen.trans hreach (ih pg' (racks' ++ [e]) rest2 s')

theorem groupByPartition_mem (s : St) (vmIdxs : List Nat) :
    ∀ e ∈ groupByPartition s vmIdxs, ∀ i ∈ e.2, i ∈ vmIdxs := by
  suffices h : ∀ (l : List Nat) (acc : List (Int × List Nat)) (P : Nat → Prop),
      (∀ e ∈ acc, ∀ i ∈ e.2, P i) → (∀ i ∈ l, P i) →
      ∀ e ∈ l.foldl (fun acc i =>
          match s.vms i with
          | none => acc
          | some vm => appendGroup acc vm.partition i) acc, ∀ i ∈ e.2, P i by
    intro e he i hi
    exact h vmIdxs [] (· ∈ vmIdxs) (by simp) (fun i hi => hi) e he i hi
  intro l
  induction l with
  | nil => exact fun acc P hacc _ => hacc
  | cons j rest ih =>
    intro acc P hacc hl
    simp only [List.foldl_cons]
    apply ih _ P ?_ (fun i hi => hl i (List.mem_cons_of_mem j hi))
    cases hv : s.vms j with
    | none => exact hacc
    | some vm =>
      simp only []
      have hj : P j := hl j (List.mem_cons_self j rest)
      clear hv hl
      induction acc with
      | nil =>
        intro e he i hi
        simp [appendGroup] at he
        subst he
        simp at hi
        subst hi
        exact hj
      | cons a as iha =>
        intro e he i hi
        simp only [appendGroup] at he
        by_cases hpq : vm.partition = a.1
        · rw [if_pos hpq] at he
          cases he with
          | head =>
            rcases List.mem_append.mp hi with h1 | h1
            · exact hacc a (List.mem_cons_self a as) i h1
            · simp at h1
              subst h1
              exact hj
          | tail _ hmem => exact hacc e (List.mem_cons_of_mem a hmem) i hi
        · rw [if_neg hpq] at he
          cases he with
          | head => exact hacc a (List.mem_cons_self a as) i hi
          | tail _ hmem =>
            exact iha (fun e2 he2 i2 hi2 => hacc e2 (List.mem_cons_of_mem a he2) i2 hi2)
              e hmem i hi

theorem reach_partitionLoop (cfg : Config) (t : VMType) (racks : List RackId)
    (groups : List (Int × List Nat)) (pg : PG) (s : St) (pl : List (Nat × List NodeId))
    (pen : ℚ) (B : List Nat) (hsub : ∀ e ∈ groups, ∀ i ∈ e.2, i ∈ B) :
    SearchReach B s (partitionLoop cfg t racks groups pg s pl pen).2.1 := by
  induction groups generalizing pg s pl pen with
  | nil => exact Relation.ReflTransGen.refl
  | cons g rest ih =>
    obtain ⟨part, vms⟩ := g
    have hvms : ∀ i ∈ vms, i ∈ B :=
      fun i hi => hsub (part, vms) (List.mem_cons_self _ _) i hi
    have hrest : ∀ e ∈ rest, ∀ i ∈ e.2, i ∈ B :=
      fun e he i hi => hsub e (List.mem_cons_of_mem _ he) i hi
    unfold partitionLoop
    simp only []
    have h1 : SearchReach B s (unplaceVMs vms s) := reach_unplaceVMs B vms s hvms
    cases hse : startExtra (updateTargets (unplaceVMs vms s) pg) part racks
        (sortBy (loadLt cfg (unplaceVMs vms s).topo) racks) with
    | none => simp only [hse]; exact h1
    | some se =>
      obtain ⟨startR, extraR⟩ := se
      simp only [hse]
      cases htl : tryLoop cfg vms t false (extraR.length + 1)
          (updateTargets (unplaceVMs vms s) pg) startR extraR (unplaceVMs vms s) with
      | mk res1 rest1 =>
        obtain ⟨sA, pgA, bA⟩ := rest1
        have hA : SearchReach B s sA := by
          have := reach_tryLoop cfg vms t false (extraR.length + 1)
            (updateTargets (unplaceVMs vms s) pg) startR extraR B (unplaceVMs vms s) hvms
          rw [htl] at this
          exact Relation.ReflTransGen.trans h1 this
        cases res1 with
        | some p =>
          simp only []
          exact Relation.ReflTransGen.trans hA (ih pgA sA _ _ hrest)
        | none =>
          simp only []
          cases htl2 : tryLoop cfg vms t true (extraR.length + 1) pgA startR extraR sA with
          | mk res2 rest2 =>
            obtain ⟨sB, pgB, bB⟩ := rest2
            have hB : SearchReach B s sB := by
              have := reach_tryLoop cfg vms t true (extraR.length + 1) pgA startR extraR B
                sA hvms
              rw [htl2] at this
              exact Relation.ReflTransGen.trans hA this
            cases res2 with
            | some p =>
              simp only []
              exact Relation.ReflTransGen.trans hB (ih pgB sB _ _ hrest)
            | none => simp only []; exact hB

theorem reach_getBestPlacement (cfg : Config) (pg : PG) (vmIdxs : List Nat) (t : VMType)
    (racks : List RackId) (B : List Nat) (s : St) (hsub : ∀ i ∈ vmIdxs, i ∈ B) :
    SearchReach B s (getBestPlacement cfg pg vmIdxs t racks s).2.1 := by
  unfold getBestPlacement
  cases hpl : partitionLoop cfg t racks (groupByPartition s vmIdxs) pg s [] (qofInt 0) with
  | mk res rest =>
    obtain ⟨s1, pg1⟩ := rest
    have h1 : SearchReach B s s1 := by
      have := reach_partitionLoop cfg t racks (groupByPartition s vmIdxs) pg s [] (qofInt 0) B
        (fun e he i hi => hsub i (groupByPartition_mem s vmIdxs e he i hi))
      rw [hpl] at this
      exact this
    cases res with
    | none => simp only []; exact h1
    | some r =>
      obtain ⟨pl, pen⟩ := r
      simp only []
      exact h1

theorem reach_groupLoop (cfg : Config) (vmIdxs : List Nat) (t : VMType)
    (groups : List (List RackId)) (pg : PG) (s : St) (best : Option Placement)
    (B : List Nat) (hsub : ∀ i ∈ vmIdxs, i ∈ B) :
    SearchReach B s (groupLoop cfg vmIdxs t groups pg s best).2.1 := by
  induction groups generalizing pg s best with
  | nil => exact Relation.ReflTransGen.refl
  | cons g rest ih =>
    unfold groupLoop
    cases hbp : getBestPlacement cfg pg vmIdxs t g s with
    | mk res rest1 =>
      obtain ⟨s1, pg1⟩ := rest1
      have h1 : SearchReach B s s1 := by
        have := reach_getBestPlacement cfg pg vmIdxs t g B s hsub
        rw [hbp] at this
        exact this
      cases res with
      | none => simp only []; exact Relation.ReflTransGen.trans h1 (ih pg1 s1 best)
      | some p =>
        simp only []
        exact Relation.ReflTransGen.trans h1 (ih pg1 s1 _)

/-- C2, amended: the search (the whole rack-group loop of `createVMs`) may
leave trial placements applied — both on failed and on successful
per-group attempts — but the single `unplaceVMs` the Batch Coordinator
runs after the loop restores exactly the state the search started from
(availabilities, `vmsByPG` counters and registries alike), so alternatives
are effectively compared, and the chosen plan committed, against the entry
topology. -/
theorem c2_amended (cfg : Config) (pg : PG) (vmIdxs : List Nat) (t : VMType)
    (groups : List (List RackId)) (s : St)
    (h : ∀ i ∈ vmIdxs, ∀ vm, s.vms i = some vm → vm.nodes = []) :
    unplaceVMs vmIdxs (groupLoop cfg vmIdxs t groups pg s none).2.1 = s := by
  rw [searchReach_unplaceVMs
    (reach_groupLoop cfg vmIdxs t groups pg s none vmIdxs (fun i hi => hi))]
  exact unplaceVMs_of_unplaced vmIdxs s h

/-- Witness for `c2_amended`: the C2 scenario search over its only rack
group, started from the freshly-registered state. -/
theorem c2_amended_witness :
    unplaceVMs [1] (groupLoop exC2cfg [1] exC2ty [[(1, 1)]] exC2pg exC2s none).2.1 = exC2s :=
  c2_amended exC2cfg exC2pg [1] exC2ty [[(1, 1)]] exC2s (by
    intro i hi vm hv
    have h1 : i = 1 := by
      cases hi with
      | head => rfl
      | tail _ hm => cases hm
    subst h1
    have h2 : exC2s.vms 1 = some { index := 1, type := exC2ty, pgIndex := 1, partition := 0 } := by
      decide
    rw [h2] at hv
    cases hv
    rfl)

/-!
### Registration, commit and deletion lemmas (claims C3, C9).
-/

theorem registerVMsAux_topo (t : VMType) (g : Nat) (p : Int) (k : Nat) (l : List Nat)
    (s : St) : (registerVMsAux t g p k l s).topo = s.topo := by
  induction l generalizing k s with
  | nil => rfl
  | cons idx rest ih =>
    unfold registerVMsAux
    simp only []
    split <;> exact ih _ _

theorem registerVMsAux_pgs (t : VMType) (g : Nat) (p : Int) (k : Nat) (l : List Nat)
    (s : St) : (registerVMsAux t g p k l s).pgs = s.pgs := by
  induction l generalizing k s with
  | nil => rfl
  | cons idx rest ih =>
    unfold registerVMsAux
    simp only []
    split
    · exact ih _ _
    · rw [ih]

theorem registerVMsAux_vms_ne (t : VMType) (g : Nat) (p : Int) (k : Nat) (l : List Nat)
    (s : St) (j : Nat) (hj : ¬ j ∈ l) : (registerVMsAux t g p k l s).vms j = s.vms j := by
  induction l generalizing k s with
  | nil => rfl
  | cons idx rest ih =>
    unfold registerVMsAux
    simp only []
    have hjr : ¬ j ∈ rest := fun hm => hj (List.mem_cons_of_mem idx hm)
    have hji : j ≠ idx := fun e => hj (e ▸ List.mem_cons_self idx rest)
    split
    · exact ih _ _ hjr
    · rw [ih _ _ hjr]
      simp [upd, hji]

theorem registerVMsAux_vms_mem (t : VMType) (g : Nat) (p : Int) (k : Nat) (l : List Nat)
    (s : St) (hnodup : l.Nodup) (hfresh : ∀ i ∈ l, s.vms i = none) :
    ∀ i ∈ l, ∃ q : Int, (registerVMsAux t g p k l s).vms i =
      some { index := i, type := t, pgIndex := g, partition := q, nodes := [] }
      ∧ (0 ≤ p → q = p) ∧ (p < 0 → 0 < q) := by
  induction l generalizing k s with
  | nil => intro i hi; cases hi
  | cons idx rest ih =>
    intro i hi
    unfold registerVMsAux
    simp only []
    rw [if_neg (by simp [hfresh idx (List.mem_cons_self idx rest)])]
    have hnr : rest.Nodup := (List.nodup_cons.mp hnodup).2
    have hir : ¬ idx ∈ rest := (List.nodup_cons.mp hnodup).1
    rcases List.mem_cons.mp hi with he | hm
    · subst he
      refine ⟨if 0 ≤ p then p else (k : Int) + 1, ?_, ?_, ?_⟩
      · rw [registerVMsAux_vms_ne t g p (k + 1) rest _ i hir]
        simp [upd]
      · intro h0; rw [if_pos h0]
      · intro h0
        rw [if_neg (by omega)]
        omega
    · apply ih (k + 1) _ hnr ?_ i hm
      intro j hj
      have hji : j ≠ idx := fun e => hir (e ▸ hj)
      simp [upd, hji]
      exact hfresh j (List.mem_cons_of_mem idx hj)

theorem reach_commitVMs (bp : Placement) (l : List Nat) (B : List Nat) : ∀ (s : St),
    (∀ i ∈ l, i ∈ B) → l.Nodup → (∀ i ∈ l, ∃ vm, s.vms i = some vm ∧ vm.nodes = []) →
    SearchReach B s (commitVMs bp l s).1 := by
  induction l with
  | nil => exact fun s _ _ _ => Relation.ReflTransGen.refl
  | cons i rest ih =>
    intro s hsub hnodup hunp
    obtain ⟨vm, hv, h0⟩ := hunp i (List.mem_cons_self i rest)
    unfold commitVMs
    simp only []
    refine Relation.ReflTransGen.head
      (SearchStep.place i (alookupD i bp.placements []) vm s
        (hsub i (List.mem_cons_self i rest)) hv h0) ?_
    apply ih _ (fun j hj => hsub j (List.mem_cons_of_mem i hj)) (List.nodup_cons.mp hnodup).2
    intro j hj
    have hji : j ≠ i := fun e => (List.nodup_cons.mp hnodup).1 (e ▸ hj)
    obtain ⟨vmj, hvj, h0j⟩ := hunp j (List.mem_cons_of_mem i hj)
    exact ⟨vmj, by rw [placeVM_vms_ne i j _ s hji]; exact hvj, h0j⟩

theorem unplaceVMs_topo_congr (l : List Nat) : ∀ (sX sY : St), sX.topo = sY.topo →
    (∀ j ∈ l, sX.vms j = sY.vms j) →
    (unplaceVMs l sX).topo = (unplaceVMs l sY).topo := by
  induction l with
  | nil => exact fun sX sY ht _ => ht
  | cons j rest ih =>
    intro sX sY ht hv
    rw [unplaceVMs_cons, unplaceVMs_cons]
    have hvj := hv j (List.mem_cons_self j rest)
    cases hj : sY.vms j with
    | none =>
      rw [hvj, hj]
      exact ih sX sY ht (fun i hi => hv i (List.mem_cons_of_mem j hi))
    | some vm =>
      rw [hvj, hj]
      simp only []
      by_cases h0 : vm.nodes = []
      · rw [if_neg (by simp [h0]), if_neg (by simp [h0])]
        exact ih sX sY ht (fun i hi => hv i (List.mem_cons_of_mem j hi))
      · rw [if_pos (by simp [h0]), if_pos (by simp [h0])]
        apply ih
        · rw [unplaceVM_topo_eq j sX vm (hvj.trans hj), unplaceVM_topo_eq j sY vm hj, ht]
        · intro i hi
          by_cases hij : i = j
          · rw [hij, unplaceVM_vms_eq j sX vm (hvj.trans hj), unplaceVM_vms_eq j sY vm hj]
            simp [upd]
          · rw [unplaceVM_vms_ne j i sX hij, unplaceVM_vms_ne j i sY hij]
            exact hv i (List.mem_cons_of_mem j hi)

theorem deregisterFromPG_topo (i gidx : Nat) (s : St) :
    (deregisterFromPG i gidx s).topo = s.topo := by
  unfold deregisterFromPG
  cases s.pgs gidx <;> rfl

theorem deregisterFromPG_vms (i gidx : Nat) (s : St) :
    (deregisterFromPG i gidx s).vms = s.vms := by
  unfold deregisterFromPG
  cases s.pgs gidx <;> rfl

theorem removeVM_topo (i : Nat) (s : St) : (removeVM i s).topo = s.topo := rfl

theorem removeVM_vms_ne (i j : Nat) (s : St) (h : j ≠ i) :
    (removeVM i s).vms j = s.vms j := by
  unfold removeVM
  simp [upd, h]

theorem removeVM_vms_self (i : Nat) (s : St) : (removeVM i s).vms i = none := by
  unfold removeVM
  simp [upd]

theorem deleteVMs_missing (l : List Nat) : ∀ (s : St) (i : Nat), i ∈ l →
    s.vms i = none → deleteVMs s l = none := by
  induction l with
  | nil => intro s i hi; cases hi
  | cons j rest ih =>
    intro s i hi h
    unfold deleteVMs
    by_cases hji : j = i
    · subst hji
      rw [h]
    · cases hj : s.vms j with
      | none => rfl
      | some vm =>
        simp only []
        apply ih _ i
        · cases hi with
          | head => exact absurd rfl (Ne.symm hji)
          | tail _ hm => exact hm
        · rw [removeVM_vms_ne j i _ (Ne.symm hji), deregisterFromPG_vms,
            unplaceVM_vms_ne j i s (Ne.symm hji)]
          exact h

theorem deleteVMs_topo (l : List Nat) : ∀ (s s'' : St), deleteVMs s l = some s'' →
    s''.topo = (unplaceVMs l s).topo := by
  induction l with
  | nil =>
    intro s s'' h
    unfold deleteVMs at h
    cases h
    rfl
  | cons i rest ih =>
    intro s s'' h
    unfold deleteVMs at h
    cases hv : s.vms i with
    | none => rw [hv] at h; cases h
    | some vm =>
      rw [hv] at h
      simp only [] at h
      have hnotm : ¬ i ∈ rest := by
        intro hm
        rw [deleteVMs_missing rest _ i hm (removeVM_vms_self i _)] at h
        cases h
      rw [ih _ _ h, unplaceVMs_cons, hv]
      simp only []
      by_cases h0 : vm.nodes = []
      · rw [if_neg (by simp [h0])]
        apply unplaceVMs_topo_congr
        · rw [removeVM_topo, deregisterFromPG_topo, unplaceVM_topo_eq i s vm hv, h0]
          rfl
        · intro j hj
          have hji : j ≠ i := fun e => hnotm (e ▸ hj)
          rw [removeVM_vms_ne i j _ hji, deregisterFromPG_vms,
            unplaceVM_vms_ne i j s hji]
      · rw [if_pos (by simp [h0])]
        apply unplaceVMs_topo_congr
        · rw [removeVM_topo, deregisterFromPG_topo]
        · intro j hj
          have hji : j ≠ i := fun e => hnotm (e ▸ hj)
          rw [removeVM_vms_ne i j _ hji, deregisterFromPG_vms,
            unplaceVM_vms_ne i j s hji]

theorem createCommit_true (g : Nat) (idxs : List Nat)
    (res : Option Placement × St × PG) (s' : St) (out : List (List Int))
    (h : createCommit g idxs res = (s', out, true)) :
    ∃ bp, res.1 = some bp
      ∧ s'.topo = (commitVMs bp idxs (unplaceVMs idxs res.2.1)).1.topo
      ∧ s'.vms = (commitVMs bp idxs (unplaceVMs idxs res.2.1)).1.vms := by
  obtain ⟨best, s1, pg1⟩ := res
  cases best with
  | none =>
    unfold createCommit at h
    simp at h
  | some bp =>
    unfold createCommit at h
    simp only [] at h
    simp only [Prod.mk.injEq] at h
    obtain ⟨h1, -, -⟩ := h
    exact ⟨bp, rfl, by rw [← h1], by rw [← h1]⟩

theorem createPipeline_round (cfg : Config) (s : St) (idxs : List Nat) (t : VMType)
    (g : Nat) (q : Int) (groups : List (List RackId)) (pgx : PG) (bp : Placement)
    (s' s'' : St)
    (hnodup : idxs.Nodup) (hfresh : ∀ i ∈ idxs, s.vms i = none)
    (hst : s'.topo = (commitVMs bp idxs (unplaceVMs idxs
      (groupLoop cfg idxs t groups pgx (registerVMs idxs t g q s) none).2.1)).1.topo)
    (hsv : s'.vms = (commitVMs bp idxs (unplaceVMs idxs
      (groupLoop cfg idxs t groups pgx (registerVMs idxs t g q s) none).2.1)).1.vms)
    (hdel : deleteVMs s' idxs = some s'') :
    s''.topo = s.topo := by
  have hunp : ∀ i ∈ idxs, ∀ vm, (registerVMs idxs t g q s).vms i = some vm →
      vm.nodes = [] := by
    intro i hi vm hv
    obtain ⟨qq, hq, -⟩ := registerVMsAux_vms_mem t g q 0 idxs s hnodup hfresh i hi
    rw [show registerVMs idxs t g q s = registerVMsAux t g q 0 idxs s from rfl, hq] at hv
    cases hv
    rfl
  have hreach : SearchReach idxs (registerVMs idxs t g q s)
      (groupLoop cfg idxs t groups pgx (registerVMs idxs t g q s) none).2.1 :=
    reach_groupLoop cfg idxs t groups pgx _ none idxs (fun i hi => hi)
  have hs2 : unplaceVMs idxs
      (groupLoop cfg idxs t groups pgx (registerVMs idxs t g q s) none).2.1
      = registerVMs idxs t g q s := by
    rw [searchReach_unplaceVMs hreach]
    exact unplaceVMs_of_unplaced idxs _ hunp
  have hcm : SearchReach idxs
      (unplaceVMs idxs (groupLoop cfg idxs t groups pgx (registerVMs idxs t g q s) none).2.1)
      (commitVMs bp idxs (unplaceVMs idxs
        (groupLoop cfg idxs t groups pgx (registerVMs idxs t g q s) none).2.1)).1 := by
    apply reach_commitVMs bp idxs idxs _ (fun i hi => hi) hnodup
    intro i hi
    rw [hs2]
    obtain ⟨qq, hq, -⟩ := registerVMsAux_vms_mem t g q 0 idxs s hnodup hfresh i hi
    exact ⟨_, hq, rfl⟩
  have hcmu : unplaceVMs idxs (commitVMs bp idxs (unplaceVMs idxs
      (groupLoop cfg idxs t groups pgx (registerVMs idxs t g q s) none).2.1)).1
      = registerVMs idxs t g q s := by
    rw [searchReach_unplaceVMs hcm, hs2]
    exact unplaceVMs_of_unplaced idxs _ hunp
  rw [deleteVMs_topo idxs s' s'' hdel]
  rw [unplaceVMs_topo_congr idxs s' (commitVMs bp idxs (unplaceVMs idxs
      (groupLoop cfg idxs t groups pgx (registerVMs idxs t g q s) none).2.1)).1
    hst (fun j hj => by rw [hsv])]
  rw [hcmu]
  exact registerVMsAux_topo t g q 0 idxs s

theorem createVMs_round_topo (cfg : Config) (s : St) (idxs : List Nat)
    (ti g : Nat) (part el : Int) (s' s'' : St) (out : List (List Int))
    (hnodup : idxs.Nodup) (hfresh : ∀ i ∈ idxs, s.vms i = none)
    (h : createVMs cfg s idxs ti g part el = some (s', out, true))
    (hdel : deleteVMs s' idxs = some s'') : s''.topo = s.topo := by
  unfold createVMs at h
  by_cases hel : (14 : Int) ≤ el
  · rw [if_pos hel] at h
    simp at h
  · rw [if_neg hel] at h
    by_cases hti : ti = 0
    · rw [if_pos hti] at h
      exact Option.noConfusion h
    · rw [if_neg hti] at h
      cases hty : cfg.types.get? (ti - 1) with
      | none =>
        rw [hty] at h
        cases hpg : s.pgs g <;> rw [hpg] at h <;> simp at h
      | some t =>
        rw [hty] at h
        cases hpg : s.pgs g with
        | none =>
          rw [hpg] at h
          simp at h
        | some pg0 =>
          rw [hpg] at h
          simp only [] at h
          injection h with h
          obtain ⟨bp, -, hst, hsv⟩ := createCommit_true g idxs _ s' out h
          exact createPipeline_round cfg s idxs t g _ _ _ bp s' s'' hnodup hfresh hst hsv hdel

/-- C3 (`P6`): a successful type-2 creation immediately followed by a
type-3 deletion over the same VM indices restores the whole resource
topology — the available CPU and memory at every node, PM, rack and
domain, and every PM's per-PG `vmsByPG` counts — to its values from
before the type-2 request. -/
theorem c3_round_trip (cfg : Config) (s s' s'' : St) (idxs : List Nat)
    (ti g : Nat) (part el1 el2 : Int) (out out2 : List (List Int)) (b : Bool)
    (h2 : step cfg s (Request.create idxs ti g part) el1 = some (s', out, true))
    (h3 : step cfg s' (Request.delete idxs) el2 = some (s'', out2, b)) :
    s''.topo = s.topo := by
  have hdel : deleteVMs s' idxs = some s'' := by
    unfold step at h3
    simp only [] at h3
    cases hd : deleteVMs s' idxs with
    | none =>
      rw [hd] at h3
      exact Option.noConfusion h3
    | some sx =>
      rw [hd] at h3
      simp only [Option.map] at h3
      injection h3 with h3
      simp only [Prod.mk.injEq] at h3
      rw [h3.1]
  unfold step at h2
  simp only [] at h2
  by_cases hel : (14 : Int) ≤ el1
  · rw [if_pos hel] at h2
    simp at h2
  · rw [if_neg hel] at h2
    by_cases hwf : wfCreate s idxs
    · rw [if_pos hwf] at h2
      exact createVMs_round_topo cfg s idxs ti g part el1 s' s'' out
        hwf.2.1 hwf.2.2 h2 hdel
    · rw [if_neg hwf] at h2
      exact Option.noConfusion h2

/-- Witness for `c3_round_trip`: on the one-rack `exC2cfg` fleet, create
VM 1 into PG 1 and delete it again; the topology returns to its
pre-creation state. -/
theorem c3_round_trip_witness : exC3s2.topo = exC3s0.topo :=
  c3_round_trip exC2cfg exC3s0 exC3r1.1 exC3s2 [1] 1 1 0 0 0 exC3r1.2.1 [] true rfl rfl

theorem alookup_mem {α β : Type} [DecidableEq α] (k : α) (v : β) :
    ∀ (l : List (α × β)), alookup k l = some v → (k, v) ∈ l := by
  intro l
  induction l with
  | nil => intro h; cases h
  | cons e rest ih =>
    obtain ⟨k1, v1⟩ := e
    intro h
    unfold alookup at h
    by_cases hk : k = k1
    · rw [if_pos hk] at h
      injection h with h
      rw [hk, ← h]
      exact List.mem_cons_self _ _
    · rw [if_neg hk] at h
      exact List.mem_cons_of_mem _ (ih h)

theorem foldl_add_shift : ∀ (l : List Int) (a : Int),
    l.foldl (· + ·) a = a + l.foldl (· + ·) 0 := by
  intro l
  induction l with
  | nil => intro a; simp
  | cons v rest ih =>
    intro a
    rw [List.foldl_cons, List.foldl_cons, ih, ih (0 + v)]
    omega

theorem cnodeFitSpec_eq (t : VMType) (x : CNode) :
    cnodeFitSpec t x = nodeFitOfData t (cnodeData x) := rfl

theorem cpmFitSpec_eq (t : VMType) (x : CPM) :
    cpmFitSpec t x = pmFitOfData t (cpmData x) := by
  unfold cpmFitSpec pmFitOfData cpmData
  rw [List.map_map]
  rfl

theorem crackFitSpec_eq (t : VMType) (x : CRack) :
    crackFitSpec t x = rackFitOfData t (crackData x) := by
  unfold crackFitSpec rackFitOfData crackData
  rw [List.map_map]
  have h : (pmFitOfData t ∘ cpmData) = cpmFitSpec t :=
    funext (fun pm => (cpmFitSpec_eq t pm).symm)
  rw [h]

theorem cdomFitSpec_eq (t : VMType) (x : CDomain) :
    cdomFitSpec t x = domFitOfData t (cdomData x) := by
  unfold cdomFitSpec domFitOfData cdomData
  rw [List.map_map]
  have h : (rackFitOfData t ∘ crackData) = crackFitSpec t :=
    funext (fun rk => (crackFitSpec_eq t rk).symm)
  rw [h]

theorem cnodeFitSpec_data (t : VMType) (x y : CNode) (h : cnodeData x = cnodeData y) :
    cnodeFitSpec t x = cnodeFitSpec t y := by
  rw [cnodeFitSpec_eq, cnodeFitSpec_eq, h]

theorem cpmFitSpec_data (t : VMType) (x y : CPM) (h : cpmData x = cpmData y) :
    cpmFitSpec t x = cpmFitSpec t y := by
  rw [cpmFitSpec_eq, cpmFitSpec_eq, h]

theorem crackFitSpec_data (t : VMType) (x y : CRack) (h : crackData x = crackData y) :
    crackFitSpec t x = crackFitSpec t y := by
  rw [crackFitSpec_eq, crackFitSpec_eq, h]

theorem cdomFitSpec_data (t : VMType) (x y : CDomain) (h : cdomData x = cdomData y) :
    cdomFitSpec t x = cdomFitSpec t y := by
  rw [cdomFitSpec_eq, cdomFitSpec_eq, h]

theorem lmodify_mem {α : Type} (f : α → α) :
    ∀ (n : Nat) (l : List α) (y : α), y ∈ lmodify f n l →
      y ∈ l ∨ ∃ x, x ∈ l ∧ y = f x := by
  intro n l
  induction l generalizing n with
  | nil =>
    intro y h
    cases n with
    | zero => cases h
    | succ m => cases h
  | cons a rest ih =>
    intro y h
    cases n with
    | zero =>
      rcases List.mem_cons.mp h with he | hm
      · exact Or.inr ⟨a, List.mem_cons_self a rest, he⟩
      · exact Or.inl (List.mem_cons_of_mem a hm)
    | succ m =>
      rcases List.mem_cons.mp h with he | hm
      · exact Or.inl (he ▸ List.mem_cons_self a rest)
      · rcases ih m y hm with h1 | ⟨x0, hx0, hy⟩
        · exact Or.inl (List.mem_cons_of_mem a h1)
        · exact Or.inr ⟨x0, List.mem_cons_of_mem a hx0, hy⟩

theorem cclaimPath_ok (tys : Nat → VMType) (c m : Int) (rIdx pIdx nIdx : Nat)
    (x : CDomain) (h : cdomOK tys x) : cdomOK tys (cclaimPath c m rIdx pIdx nIdx x) := by
  refine ⟨fun e he => absurd he (List.not_mem_nil e), fun rk hrk => ?_⟩
  rcases lmodify_mem _ rIdx x.racks rk hrk with h1 | ⟨rk0, hrk0, hrkeq⟩
  · exact h.2 rk h1
  · subst hrkeq
    refine ⟨fun e he => absurd he (List.not_mem_nil e), fun pm hpm => ?_⟩
    rcases lmodify_mem _ pIdx rk0.pms pm hpm with h2 | ⟨pm0, hpm0, hpmeq⟩
    · exact (h.2 rk0 hrk0).2 pm h2
    · subst hpmeq
      refine ⟨fun e he => absurd he (List.not_mem_nil e), fun nd hnd => ?_⟩
      rcases lmodify_mem _ nIdx pm0.nodes nd hnd with h3 | ⟨nd0, hnd0, hndeq⟩
      · exact ((h.2 rk0 hrk0).2 pm0 hpm0).2 nd h3
      · subst hndeq
        exact fun e he => absurd he (List.not_mem_nil e)

theorem cnodeGetFit_ok (tys : Nat → VMType) (t : VMType) (x : CNode)
    (ht : tys t.index = t) (hok : cnodeOK tys x) :
    (cnodeGetFit t x).1 = cnodeFitSpec t x
    ∧ cnodeData (cnodeGetFit t x).2 = cnodeData x
    ∧ cnodeOK tys (cnodeGetFit t x).2 := by
  unfold cnodeGetFit
  cases hl : alookup t.index x.cache with
  | some v =>
    simp only []
    have h1 := hok (t.index, v) (alookup_mem t.index v x.cache hl)
    rw [ht] at h1
    exact ⟨h1, by trivial, hok⟩
  | none =>
    simp only []
    refine ⟨rfl, by trivial, ?_⟩
    intro e he
    rcases List.mem_append.mp he with h1 | h2
    · exact hok e h1
    · rw [List.mem_singleton] at h2
      subst h2
      simp only []
      rw [ht]
      rfl

theorem cpmFold_eq (t : VMType) : ∀ (l : List CNode) (acc : List Int × List CNode),
    l.foldl (fun (acc : List Int × List CNode) nd =>
      let r := cnodeGetFit t nd
      (acc.1 ++ [r.1], acc.2 ++ [r.2])) acc
    = (acc.1 ++ l.map (fun nd => (cnodeGetFit t nd).1),
       acc.2 ++ l.map (fun nd => (cnodeGetFit t nd).2)) := by
  intro l
  induction l with
  | nil =>
    intro acc
    obtain ⟨a, b⟩ := acc
    simp
  | cons nd rest ih =>
    intro acc
    obtain ⟨a, b⟩ := acc
    rw [List.foldl_cons, ih]
    simp

theorem cpmFitImpl_eq (t : VMType) (x : CPM) :
    cpmFitImpl t x
    = (sumEveryNth ((sortBy (fun a b => decide (a < b))
          (x.nodes.map (fun nd => (cnodeGetFit t nd).1))).length + 1) t.nodes
        (sortBy (fun a b => decide (a < b)) (x.nodes.map (fun nd => (cnodeGetFit t nd).1))),
       { x with nodes := x.nodes.map (fun nd => (cnodeGetFit t nd).2) }) := by
  unfold cpmFitImpl
  rw [cpmFold_eq]
  simp only [List.nil_append]

theorem cpmGetFit_ok (tys : Nat → VMType) (t : VMType) (x : CPM)
    (ht : tys t.index = t) (hok : cpmOK tys x) :
    (cpmGetFit t x).1 = cpmFitSpec t x
    ∧ cpmData (cpmGetFit t x).2 = cpmData x
    ∧ cpmOK tys (cpmGetFit t x).2 := by
  have hm1 : x.nodes.map (fun nd => (cnodeGetFit t nd).1) = x.nodes.map (cnodeFitSpec t) :=
    List.map_congr_left (fun nd hnd => (cnodeGetFit_ok tys t nd ht (hok.2 nd hnd)).1)
  have hm2 : (x.nodes.map (fun nd => (cnodeGetFit t nd).2)).map cnodeData
      = x.nodes.map cnodeData := by
    rw [List.map_map]
    exact List.map_congr_left (fun nd hnd => (cnodeGetFit_ok tys t nd ht (hok.2 nd hnd)).2.1)
  have hstate : (cpmFitImpl t x).2
      = { x with nodes := x.nodes.map (fun nd => (cnodeGetFit t nd).2) } := by
    rw [cpmFitImpl_eq]
  have hval : (cpmFitImpl t x).1 = cpmFitSpec t x := by
    rw [cpmFitImpl_eq]
    simp only []
    rw [hm1]
    rfl
  have hdata : cpmData (cpmFitImpl t x).2 = cpmData x := by
    rw [hstate]
    unfold cpmData
    simp only []
    rw [hm2]
  have hnodesok : ∀ nd ∈ x.nodes.map (fun nd => (cnodeGetFit t nd).2), cnodeOK tys nd := by
    intro nd hnd
    rcases List.mem_map.mp hnd with ⟨nd0, hnd0, heq⟩
    rw [← heq]
    exact (cnodeGetFit_ok tys t nd0 ht (hok.2 nd0 hnd0)).2.2
  unfold cpmGetFit
  cases hl : alookup t.index x.cache with
  | some v =>
    simp only []
    have h1 := hok.1 (t.index, v) (alookup_mem t.index v x.cache hl)
    rw [ht] at h1
    exact ⟨h1, by trivial, hok⟩
  | none =>
    simp only []
    refine ⟨hval, hdata, ?_, ?_⟩
    · intro e he
      rw [hstate] at he
      simp only [] at he
      rcases List.mem_append.mp he with h1 | h2
      · exact (hok.1 e h1).trans (cpmFitSpec_data (tys e.1) x _ hdata.symm)
      · rw [List.mem_singleton] at h2
        subst h2
        simp only []
        rw [ht]
        exact hval.trans (cpmFitSpec_data t x _ hdata.symm)
    · intro nd hnd
      rw [hstate] at hnd
      simp only [] at hnd
      exact hnodesok nd hnd

theorem crackFold_eq (t : VMType) : ∀ (l : List CPM) (acc : Int × List CPM),
    l.foldl (fun (acc : Int × List CPM) pm =>
      let r := cpmGetFit t pm
      (acc.1 + r.1, acc.2 ++ [r.2])) acc
    = (acc.1 + (l.map (fun pm => (cpmGetFit t pm).1)).foldl (· + ·) 0,
       acc.2 ++ l.map (fun pm => (cpmGetFit t pm).2)) := by
  intro l
  induction l with
  | nil =>
    intro acc
    obtain ⟨a, b⟩ := acc
    simp
  | cons pm rest ih =>
    intro acc
    obtain ⟨a, b⟩ := acc
    rw [List.foldl_cons, ih]
    simp only [List.map_cons, List.foldl_cons, Prod.mk.injEq]
    refine ⟨?_, by simp⟩
    rw [foldl_add_shift (rest.map (fun pm => (cpmGetFit t pm).1)) (0 + (cpmGetFit t pm).1)]
    omega

theorem crackFitImpl_eq (t : VMType) (x : CRack) :
    crackFitImpl t x
    = ((x.pms.map (fun pm => (cpmGetFit t pm).1)).foldl (· + ·) 0,
       { x with pms := x.pms.map (fun pm => (cpmGetFit t pm).2) }) := by
  unfold crackFitImpl
  rw [crackFold_eq]
  simp only [List.nil_append, zero_add]

theorem crackGetFit_ok (tys : Nat → VMType) (t : VMType) (x : CRack)
    (ht : tys t.index = t) (hok : crackOK tys x) :
    (crackGetFit t x).1 = crackFitSpec t x
    ∧ crackData (crackGetFit t x).2 = crackData x
    ∧ crackOK tys (crackGetFit t x).2 := by
  have hm1 : x.pms.map (fun pm => (cpmGetFit t pm).1) = x.pms.map (cpmFitSpec t) :=
    List.map_congr_left (fun pm hpm => (cpmGetFit_ok tys t pm ht (hok.2 pm hpm)).1)
  have hm2 : (x.pms.map (fun pm => (cpmGetFit t pm).2)).map cpmData
      = x.pms.map cpmData := by
    rw [List.map_map]
    exact List.map_congr_left (fun pm hpm => (cpmGetFit_ok tys t pm ht (hok.2 pm hpm)).2.1)
  have hstate : (crackFitImpl t x).2
      = { x with pms := x.pms.map (fun pm => (cpmGetFit t pm).2) } := by
    rw [crackFitImpl_eq]
  have hval : (crackFitImpl t x).1 = crackFitSpec t x := by
    rw [crackFitImpl_eq]
    simp only []
    rw [hm1]
    rfl
  have hdata : crackData (crackFitImpl t x).2 = crackData x := by
    rw [hstate]
    unfold crackData
    simp only []
    rw [hm2]
  have hpmsok : ∀ pm ∈ x.pms.map (fun pm => (cpmGetFit t pm).2), cpmOK tys pm := by
    intro pm hpm
    rcases List.mem_map.mp hpm with ⟨pm0, hpm0, heq⟩
    rw [← heq]
    exact (cpmGetFit_ok tys t pm0 ht (hok.2 pm0 hpm0)).2.2
  unfold crackGetFit
  cases hl : alookup t.index x.cache with
  | some v =>
    simp only []
    have h1 := hok.1 (t.index, v) (alookup_mem t.index v x.cache hl)
    rw [ht] at h1
    exact ⟨h1, by trivial, hok⟩
  | none =>
    simp only []
    refine ⟨hval, hdata, ?_, ?_⟩
    · intro e he
      rw [hstate] at he
      simp only [] at he
      rcases List.mem_append.mp he with h1 | h2
      · exact (hok.1 e h1).trans (crackFitSpec_data (tys e.1) x _ hdata.symm)
      · rw [List.mem_singleton] at h2
        subst h2
        simp only []
        rw [ht]
        exact hval.trans (crackFitSpec_data t x _ hdata.symm)
    · intro pm hpm
      rw [hstate] at hpm
      simp only [] at hpm
      exact hpmsok pm hpm

theorem cdomFold_eq (t : VMType) : ∀ (l : List CRack) (acc : Int × List CRack),
    l.foldl (fun (acc : Int × List CRack) rk =>
      let r := crackGetFit t rk
      (acc.1 + r.1, acc.2 ++ [r.2])) acc
    = (acc.1 + (l.map (fun rk => (crackGetFit t rk).1)).foldl (· + ·) 0,
       acc.2 ++ l.map (fun rk => (crackGetFit t rk).2)) := by
  intro l
  induction l with
  | nil =>
    intro acc
    obtain ⟨a, b⟩ := acc
    simp
  | cons rk rest ih =>
    intro acc
    obtain ⟨a, b⟩ := acc
    rw [List.foldl_cons, ih]
    simp only [List.map_cons, List.foldl_cons, Prod.mk.injEq]
    refine ⟨?_, by simp⟩
    rw [foldl_add_shift (rest.map (fun rk => (crackGetFit t rk).1)) (0 + (crackGetFit t rk).1)]
    omega

theorem cdomFitImpl_eq (t : VMType) (x : CDomain) :
    cdomFitImpl t x
    = ((x.racks.map (fun rk => (crackGetFit t rk).1)).foldl (· + ·) 0,
       { x with racks := x.racks.map (fun rk => (crackGetFit t rk).2) }) := by
  unfold cdomFitImpl
  rw [cdomFold_eq]
  simp only [List.nil_append, zero_add]

theorem cdomGetFit_ok (tys : Nat → VMType) (t : VMType) (x : CDomain)
    (ht : tys t.index = t) (hok : cdomOK tys x) :
    (cdomGetFit t x).1 = cdomFitSpec t x
    ∧ cdomData (cdomGetFit t x).2 = cdomData x
    ∧ cdomOK tys (cdomGetFit t x).2 := by
  have hm1 : x.racks.map (fun rk => (crackGetFit t rk).1) = x.racks.map (crackFitSpec t) :=
    List.map_congr_left (fun rk hrk => (crackGetFit_ok tys t rk ht (hok.2 rk hrk)).1)
  have hm2 : (x.racks.map (fun rk => (crackGetFit t rk).2)).map crackData
      = x.racks.map crackData := by
    rw [List.map_map]
    exact List.map_congr_left (fun rk hrk => (crackGetFit_ok tys t rk ht (hok.2 rk hrk)).2.1)
  have hstate : (cdomFitImpl t x).2
      = { x with racks := x.racks.map (fun rk => (crackGetFit t rk).2) } := by
    rw [cdomFitImpl_eq]
  have hval : (cdomFitImpl t x).1 = cdomFitSpec t x := by
    rw [cdomFitImpl_eq]
    simp only []
    rw [hm1]
    rfl
  have hdata : cdomData (cdomFitImpl t x).2 = cdomData x := by
    rw [hstate]
    unfold cdomData
    simp only []
    rw [hm2]
  have hrksok : ∀ rk ∈ x.racks.map (fun rk => (crackGetFit t rk).2), crackOK tys rk := by
    intro rk hrk
    rcases List.mem_map.mp hrk with ⟨rk0, hrk0, heq⟩
    rw [← heq]
    exact (crackGetFit_ok tys t rk0 ht (hok.2 rk0 hrk0)).2.2
  unfold cdomGetFit
  cases hl : alookup t.index x.cache with
  | some v =>
    simp only []
    have h1 := hok.1 (t.index, v) (alookup_mem t.index v x.cache hl)
    rw [ht] at h1
    exact ⟨h1, by trivial, hok⟩
  | none =>
    simp only []
    refine ⟨hval, hdata, ?_, ?_⟩
    · intro e he
      rw [hstate] at he
      simp only [] at he
      rcases List.mem_append.mp he with h1 | h2
      · exact (hok.1 e h1).trans (cdomFitSpec_data (tys e.1) x _ hdata.symm)
      · rw [List.mem_singleton] at h2
        subst h2
        simp only []
        rw [ht]
        exact hval.trans (cdomFitSpec_data t x _ hdata.symm)
    · intro rk hrk
      rw [hstate] at hrk
      simp only [] at hrk
      exact hrksok rk hrk

/-- C8: on a cache-consistent resource tree, the memoised `getTypeFit`
returns exactly what an uncached recomputation of `getTypeFitImpl` would
at every level (domain, rack, PM, node), and cache consistency is
preserved both by the reads themselves and by `claimResources`/
`releaseResources` applied along a full node–PM–rack–domain chain (each
of which clears the mutated level's entire memo). -/
theorem c8_cache_consistent (tys : Nat → VMType) (t : VMType) (x : CDomain)
    (ht : tys t.index = t) (hok : cdomOK tys x) :
    ((cdomGetFit t x).1 = cdomFitSpec t x ∧ cdomOK tys (cdomGetFit t x).2)
    ∧ (∀ rk ∈ x.racks, (crackGetFit t rk).1 = crackFitSpec t rk
        ∧ crackOK tys (crackGetFit t rk).2)
    ∧ (∀ rk ∈ x.racks, ∀ pm ∈ rk.pms, (cpmGetFit t pm).1 = cpmFitSpec t pm
        ∧ cpmOK tys (cpmGetFit t pm).2)
    ∧ (∀ rk ∈ x.racks, ∀ pm ∈ rk.pms, ∀ nd ∈ pm.nodes,
        (cnodeGetFit t nd).1 = cnodeFitSpec t nd ∧ cnodeOK tys (cnodeGetFit t nd).2)
    ∧ (∀ c m rIdx pIdx nIdx, cdomOK tys (cclaimPath c m rIdx pIdx nIdx x)
        ∧ cdomOK tys (creleasePath c m rIdx pIdx nIdx x)) :=
  ⟨⟨(cdomGetFit_ok tys t x ht hok).1, (cdomGetFit_ok tys t x ht hok).2.2⟩,
    fun rk hrk => ⟨(crackGetFit_ok tys t rk ht (hok.2 rk hrk)).1,
      (crackGetFit_ok tys t rk ht (hok.2 rk hrk)).2.2⟩,
    fun rk hrk pm hpm => ⟨(cpmGetFit_ok tys t pm ht ((hok.2 rk hrk).2 pm hpm)).1,
      (cpmGetFit_ok tys t pm ht ((hok.2 rk hrk).2 pm hpm)).2.2⟩,
    fun rk hrk pm hpm nd hnd =>
      ⟨(cnodeGetFit_ok tys t nd ht (((hok.2 rk hrk).2 pm hpm).2 nd hnd)).1,
        (cnodeGetFit_ok tys t nd ht (((hok.2 rk hrk).2 pm hpm).2 nd hnd)).2.2⟩,
    fun c m rIdx pIdx nIdx => ⟨cclaimPath_ok tys c m rIdx pIdx nIdx x hok,
      cclaimPath_ok tys (-c) (-m) rIdx pIdx nIdx x hok⟩⟩

/-- Witness for `c8_cache_consistent`: the concrete one-rack tree with a
populated memo at every level. -/
theorem c8_cache_consistent_witness :
    (cdomGetFit exC8ty exC8dom).1 = cdomFitSpec exC8ty exC8dom
    ∧ cdomOK exC8tys (cdomGetFit exC8ty exC8dom).2 :=
  (c8_cache_consistent exC8tys exC8ty exC8dom rfl (by decide)).1

theorem canonSt_topo (s : St) : (canonSt s).topo = s.topo := rfl

theorem canonSt_vms (s : St) : (canonSt s).vms = s.vms := rfl

theorem canonSt_pgs (s : St) (g : Nat) : (canonSt s).pgs g = (s.pgs g).map canonPG := rfl

theorem placeVM_canonSt (i : Nat) (ns : List NodeId) (s : St) :
    placeVM i ns (canonSt s) = canonSt (placeVM i ns s) := by
  unfold placeVM
  rw [canonSt_vms]
  cases hv : s.vms i <;> simp only [] <;> rfl

theorem unplaceVM_canonSt (i : Nat) (s : St) :
    unplaceVM i (canonSt s) = canonSt (unplaceVM i s) := by
  unfold unplaceVM
  rw [canonSt_vms]
  cases hv : s.vms i <;> simp only [] <;> rfl

theorem unplaceVMs_canonSt (l : List Nat) : ∀ (s : St),
    unplaceVMs l (canonSt s) = canonSt (unplaceVMs l s) := by
  induction l with
  | nil => intro s; rfl
  | cons i rest ih =>
    intro s
    rw [unplaceVMs_cons, unplaceVMs_cons, canonSt_vms]
    cases hv : s.vms i with
    | none => exact ih s
    | some vm =>
      simp only []
      by_cases h0 : vm.nodes = []
      · rw [if_neg (by simp [h0]), if_neg (by simp [h0])]
        exact ih s
      · rw [if_pos (by simp [h0]), if_pos (by simp [h0]), unplaceVM_canonSt]
        exact ih (unplaceVM i s)

theorem registerVMsAux_canonSt (t : VMType) (g : Nat) (p : Int) :
    ∀ (l : List Nat) (k : Nat) (s : St),
    registerVMsAux t g p k l (canonSt s) = canonSt (registerVMsAux t g p k l s) := by
  intro l
  induction l with
  | nil => intro k s; rfl
  | cons idx rest ih =>
    intro k s
    unfold registerVMsAux
    rw [canonSt_vms]
    cases hv : s.vms idx <;> simp only []
    · rw [← ih]
      rfl
    · rw [← ih]
      rfl

theorem commitVMs_canonSt (bp : Placement) : ∀ (l : List Nat) (s : St),
    commitVMs bp l (canonSt s) = (canonSt (commitVMs bp l s).1, (commitVMs bp l s).2) := by
  intro l
  induction l with
  | nil => intro s; rfl
  | cons i rest ih =>
    intro s
    unfold commitVMs
    simp only []
    rw [placeVM_canonSt, ih]

theorem upd_map_canonPG (f : Nat → Option PG) (g : Nat) (v : PG) :
    upd (fun i => (f i).map canonPG) g (some (canonPG v))
    = fun j => ((upd f g (some v)) j).map canonPG := by
  funext j
  by_cases hj : j = g
  · subst hj
    simp [upd]
  · simp [upd, hj]

theorem deregisterFromPG_canonSt (i g : Nat) (s : St) :
    deregisterFromPG i g (canonSt s) = canonSt (deregisterFromPG i g s) := by
  unfold deregisterFromPG
  rw [canonSt_pgs]
  cases hpg : s.pgs g with
  | none => rfl
  | some pg =>
    simp only [Option.map]
    unfold canonSt
    simp only []
    exact congrArg (fun P => ({ topo := s.topo, pgs := P, vms := s.vms } : St))
      (upd_map_canonPG s.pgs g { pg with vms := pg.vms.filter (fun j => ¬ j = i) })

theorem removeVM_canonSt (i : Nat) (s : St) :
    removeVM i (canonSt s) = canonSt (removeVM i s) := rfl

theorem deleteVMs_canonSt : ∀ (l : List Nat) (s : St),
    deleteVMs (canonSt s) l = (deleteVMs s l).map canonSt := by
  intro l
  induction l with
  | nil => intro s; rfl
  | cons i rest ih =>
    intro s
    unfold deleteVMs
    rw [canonSt_vms]
    cases hv : s.vms i with
    | none => rfl
    | some vm =>
      simp only []
      rw [unplaceVM_canonSt, deregisterFromPG_canonSt, removeVM_canonSt, ih]

theorem updTargetsStep_hp (s : St) (acc : PG) (i : Nat) :
    (updTargetsStep s acc i).hardRackAntiAffinityPartitions
    = acc.hardRackAntiAffinityPartitions := by
  unfold updTargetsStep
  cases hv : s.vms i with
  | none => rfl
  | some vm =>
    simp only []
    cases hn : vm.nodes with
    | nil => rfl
    | cons n ns =>
      simp only []
      by_cases hA : acc.domainAffinity ≠ Affinity.NONE ∧ acc.domainAffinityPossible = true
      · simp only [if_pos hA]
        cases htd : acc.targetDomain with
        | none =>
          simp only []
          by_cases hB : acc.rackAffinity ≠ Affinity.NONE ∧ acc.rackAffinityPossible = true
          · simp only [if_pos hB]
            cases htr : acc.targetRack with
            | none =>
              simp only []
              split_ifs <;> rfl
            | some tr =>
              simp only []
              by_cases hr : tr ≠ nodeRack n
              · simp only [if_pos hr]
                split_ifs <;> rfl
              · simp only [if_neg hr]
                split_ifs <;> rfl
          · simp only [if_neg hB]
            split_ifs <;> rfl
        | some td =>
          simp only []
          by_cases hd : td ≠ nodeDom n
          · simp only [if_pos hd]
            by_cases hB : acc.rackAffinity ≠ Affinity.NONE ∧ acc.rackAffinityPossible = true
            · simp only [if_pos hB]
              cases htr : acc.targetRack with
              | none =>
                simp only []
                split_ifs <;> rfl
              | some tr =>
                simp only []
                by_cases hr : tr ≠ nodeRack n
                · simp only [if_pos hr]
                  split_ifs <;> rfl
                · simp only [if_neg hr]
                  split_ifs <;> rfl
            · simp only [if_neg hB]
              split_ifs <;> rfl
          · simp only [if_neg hd]
            by_cases hB : acc.rackAffinity ≠ Affinity.NONE ∧ acc.rackAffinityPossible = true
            · simp only [if_pos hB]
              cases htr : acc.targetRack with
              | none =>
                simp only []
                split_ifs <;> rfl
              | some tr =>
                simp only []
                by_cases hr : tr ≠ nodeRack n
                · simp only [if_pos hr]
                  split_ifs <;> rfl
                · simp only [if_neg hr]
                  split_ifs <;> rfl
            · simp only [if_neg hB]
              split_ifs <;> rfl
      · simp only [if_neg hA]
        by_cases hB : acc.rackAffinity ≠ Affinity.NONE ∧ acc.rackAffinityPossible = true
        · simp only [if_pos hB]
          cases htr : acc.targetRack with
          | none =>
            simp only []
            split_ifs <;> rfl
          | some tr =>
            simp only []
            by_cases hr : tr ≠ nodeRack n
            · simp only [if_pos hr]
              split_ifs <;> rfl
            · simp only [if_neg hr]
              split_ifs <;> rfl
        · simp only [if_neg hB]
          split_ifs <;> rfl

theorem updTargetsStep_canon (s : St) (i : Nat) (acc : PG)
    (hinv : acc.hardRackAntiAffinityPartitions = 0
      ∨ 2 ≤ acc.hardRackAntiAffinityPartitions) :
    updTargetsStep s (canonPG acc) i = canonPG (updTargetsStep s acc i) := by
  unfold updTargetsStep
  cases hv : s.vms i with
  | none => rfl
  | some vm =>
    simp only []
    cases hn : vm.nodes with
    | nil => rfl
    | cons n ns =>
      simp only [canonPG]
      by_cases hA : acc.domainAffinity ≠ Affinity.NONE ∧ acc.domainAffinityPossible = true
      · simp only [if_pos hA]
        cases htd : acc.targetDomain with
        | none =>
          simp only []
          by_cases hB : acc.rackAffinity ≠ Affinity.NONE ∧ acc.rackAffinityPossible = true
          · simp only [if_pos hB]
            cases htr : acc.targetRack with
            | none =>
              simp only []
              rcases hinv with h0 | h2
              · simp [canonHP, h0]
              · have ha : (1 : Int) < acc.hardRackAntiAffinityPartitions := by omega
                have hb : (0 : Int) < acc.hardRackAntiAffinityPartitions := by omega
                simp [canonHP, ha, hb]
            | some tr =>
              simp only []
              by_cases hr : tr ≠ nodeRack n
              · simp only [if_pos hr]
                rcases hinv with h0 | h2
                · simp [canonHP, h0, htr]
                · have ha : (1 : Int) < acc.hardRackAntiAffinityPartitions := by omega
                  have hb : (0 : Int) < acc.hardRackAntiAffinityPartitions := by omega
                  simp [canonHP, ha, hb, htr]
              · simp only [if_neg hr]
                rcases hinv with h0 | h2
                · simp [canonHP, h0, htr]
                · have ha : (1 : Int) < acc.hardRackAntiAffinityPartitions := by omega
                  have hb : (0 : Int) < acc.hardRackAntiAffinityPartitions := by omega
                  simp [canonHP, ha, hb, htr]
          · simp only [if_neg hB]
            rcases hinv with h0 | h2
            · simp [canonHP, h0]
            · have ha : (1 : Int) < acc.hardRackAntiAffinityPartitions := by omega
              have hb : (0 : Int) < acc.hardRackAntiAffinityPartitions := by omega
              simp [canonHP, ha, hb]
        | some td =>
          simp only []
          by_cases hd : td ≠ nodeDom n
          · simp only [if_pos hd]
            by_cases hB : acc.rackAffinity ≠ Affinity.NONE ∧ acc.rackAffinityPossible = true
            · simp only [if_pos hB]
              cases htr : acc.targetRack with
              | none =>
                simp only []
                rcases hinv with h0 | h2
                · simp [canonHP, h0, htd]
                · have ha : (1 : Int) < acc.hardRackAntiAffinityPartitions := by omega
                  have hb : (0 : Int) < acc.hardRackAntiAffinityPartitions := by omega
                  simp [canonHP, ha, hb, htd]
              | some tr =>
                simp only []
                by_cases hr : tr ≠ nodeRack n
                · simp only [if_pos hr]
                  rcases hinv with h0 | h2
                  · simp [canonHP, h0, htd, htr]
                  · have ha : (1 : Int) < acc.hardRackAntiAffinityPartitions := by omega
                    have hb : (0 : Int) < acc.hardRackAntiAffinityPartitions := by omega
                    simp [canonHP, ha, hb, htd, htr]
                · simp only [if_neg hr]
                  rcases hinv with h0 | h2
                  · simp [canonHP, h0, htd, htr]
                  · have ha : (1 : Int) < acc.hardRackAntiAffinityPartitions := by omega
                    have hb : (0 : Int) < acc.hardRackAntiAffinityPartitions := by omega
                    simp [canonHP, ha, hb, htd, htr]
            · simp only [if_neg hB]
              rcases hinv with h0 | h2
              · simp [canonHP, h0, htd]
              · have ha : (1 : Int) < acc.hardRackAntiAffinityPartitions := by omega
                have hb : (0 : Int) < acc.hardRackAntiAffinityPartitions := by omega
                simp [canonHP, ha, hb, htd]
          · simp only [if_neg hd]
            by_cases hB : acc.rackAffinity ≠ Affinity.NONE ∧ acc.rackAffinityPossible = true
            · simp only [if_pos hB]
              cases htr : acc.targetRack with
              | none =>
                simp only []
                rcases hinv with h0 | h2
                · simp [canonHP, h0, htd]
                · have ha : (1 : Int) < acc.hardRackAntiAffinityPartitions := by omega
                  have hb : (0 : Int) < acc.hardRackAntiAffinityPartitions := by omega
                  simp [canonHP, ha, hb, htd]
              | some tr =>
                simp only []
                by_cases hr : tr ≠ nodeRack n
                · simp only [if_pos hr]
                  rcases hinv with h0 | h2
                  · simp [canonHP, h0, htd, htr]
                  · have ha : (1 : Int) < acc.hardRackAntiAffinityPartitions := by omega
                    have hb : (0 : Int) < acc.hardRackAntiAffinityPartitions := by omega
                    simp [canonHP, ha, hb, htd, htr]
                · simp only [if_neg hr]
                  rcases hinv with h0 | h2
                  · simp [canonHP, h0, htd, htr]
                  · have ha : (1 : Int) < acc.hardRackAntiAffinityPartitions := by omega
                    have hb : (0 : Int) < acc.hardRackAntiAffinityPartitions := by omega
                    simp [canonHP, ha, hb, htd, htr]
            · simp only [if_neg hB]
              rcases hinv with h0 | h2
              · simp [canonHP, h0, htd]
              · have ha : (1 : Int) < acc.hardRackAntiAffinityPartitions := by omega
                have hb : (0 : Int) < acc.hardRackAntiAffinityPartitions := by omega
                simp [canonHP, ha, hb, htd]
      · simp only [if_neg hA]
        by_cases hB : acc.rackAffinity ≠ Affinity.NONE ∧ acc.rackAffinityPossible = true
        · simp only [if_pos hB]
          cases htr : acc.targetRack with
          | none =>
            simp only []
            rcases hinv with h0 | h2
            · simp [canonHP, h0]
            · have ha : (1 : Int) < acc.hardRackAntiAffinityPartitions := by omega
              have hb : (0 : Int) < acc.hardRackAntiAffinityPartitions := by omega
              simp [canonHP, ha, hb]
          | some tr =>
            simp only []
            by_cases hr : tr ≠ nodeRack n
            · simp only [if_pos hr]
              rcases hinv with h0 | h2
              · simp [canonHP, h0, htr]
              · have ha : (1 : Int) < acc.hardRackAntiAffinityPartitions := by omega
                have hb : (0 : Int) < acc.hardRackAntiAffinityPartitions := by omega
                simp [canonHP, ha, hb, htr]
            · simp only [if_neg hr]
              rcases hinv with h0 | h2
              · simp [canonHP, h0, htr]
              · have ha : (1 : Int) < acc.hardRackAntiAffinityPartitions := by omega
                have hb : (0 : Int) < acc.hardRackAntiAffinityPartitions := by omega
                simp [canonHP, ha, hb, htr]
        · simp only [if_neg hB]
          rcases hinv with h0 | h2
          · simp [canonHP, h0]
          · have ha : (1 : Int) < acc.hardRackAntiAffinityPartitions := by omega
            have hb : (0 : Int) < acc.hardRackAntiAffinityPartitions := by omega
            simp [canonHP, ha, hb]

theorem updTargets_fold_hp (s : St) : ∀ (l : List Nat) (acc : PG),
    (l.foldl (updTargetsStep s) acc).hardRackAntiAffinityPartitions
    = acc.hardRackAntiAffinityPartitions := by
  intro l
  induction l with
  | nil => intro acc; rfl
  | cons i rest ih =>
    intro acc
    rw [List.foldl_cons, ih, updTargetsStep_hp]

theorem updTargets_fold_canon (s : St) : ∀ (l : List Nat) (acc : PG),
    (acc.hardRackAntiAffinityPartitions = 0 ∨ 2 ≤ acc.hardRackAntiAffinityPartitions) →
    l.foldl (updTargetsStep s) (canonPG acc) = canonPG (l.foldl (updTargetsStep s) acc) := by
  intro l
  induction l with
  | nil => intro acc _; rfl
  | cons i rest ih =>
    intro acc hinv
    rw [List.foldl_cons, List.foldl_cons, updTargetsStep_canon s i acc hinv]
    exact ih _ (by rw [updTargetsStep_hp]; exact hinv)

theorem updTargetsInit_canon (pg : PG) :
    updTargetsInit (canonPG pg) = canonPG (updTargetsInit pg) := rfl

theorem updTargetsPost_hp (pg : PG) :
    (updTargetsPost pg).hardRackAntiAffinityPartitions
    = pg.hardRackAntiAffinityPartitions := by
  unfold updTargetsPost
  split_ifs <;> rfl

theorem updTargetsPost_canon (pg : PG) :
    updTargetsPost (canonPG pg) = canonPG (updTargetsPost pg) := by
  unfold updTargetsPost
  by_cases hC : (pg.domainAffinity = Affinity.SOFT ∧ pg.domainAffinityPossible = false)
      ∨ (pg.rackAffinity = Affinity.SOFT ∧ pg.rackAffinityPossible = false)
  · simp [canonPG, hC]
  · simp [canonPG, hC]

theorem updateTargets_hp (s : St) (pg : PG) :
    (updateTargets s pg).hardRackAntiAffinityPartitions
    = pg.hardRackAntiAffinityPartitions := by
  unfold updateTargets
  rw [updTargetsPost_hp, updTargets_fold_hp]
  rfl

theorem updateTargets_canonSt (s : St) (pg : PG) :
    updateTargets (canonSt s) pg = updateTargets s pg := rfl

theorem updateTargets_canonPG (s : St) (pg : PG)
    (hinv : pg.hardRackAntiAffinityPartitions = 0
      ∨ 2 ≤ pg.hardRackAntiAffinityPartitions) :
    updateTargets s (canonPG pg) = canonPG (updateTargets s pg) := by
  unfold updateTargets
  rw [show (canonPG pg).vms = pg.vms from rfl, updTargetsInit_canon,
    updTargets_fold_canon s pg.vms (updTargetsInit pg) hinv, updTargetsPost_canon]

theorem getRackGroups_canon (cfg : Config) (s : St) (pg : PG)
    (hinv : pg.hardRackAntiAffinityPartitions = 0
      ∨ 2 ≤ pg.hardRackAntiAffinityPartitions) :
    getRackGroups cfg (canonSt s) (canonPG pg)
    = ((getRackGroups cfg s pg).1, canonPG (getRackGroups cfg s pg).2) := by
  unfold getRackGroups
  rw [updateTargets_canonSt, updateTargets_canonPG s pg hinv]
  generalize updateTargets s pg = Y
  simp only [canonPG]
  repeat' split
  all_goals simp_all [canonPG]

theorem getRackGroups2_canon (cfg : Config) (s : St) (pg : PG) (t : VMType) (n : Nat)
    (hinv : pg.hardRackAntiAffinityPartitions = 0
      ∨ 2 ≤ pg.hardRackAntiAffinityPartitions) :
    getRackGroups2 cfg (canonSt s) (canonPG pg) t n
    = ((getRackGroups2 cfg s pg t n).1, canonPG (getRackGroups2 cfg s pg t n).2) := by
  unfold getRackGroups2
  rw [updateTargets_canonSt, updateTargets_canonPG s pg hinv]
  simp only []
  rw [getRackGroups_canon cfg s (updateTargets s pg) (by rw [updateTargets_hp]; exact hinv)]
  generalize getRackGroups cfg s (updateTargets s pg) = R
  obtain ⟨G, Y2⟩ := R
  simp only [canonSt_topo]
  simp only [canonPG]
  repeat' split
  all_goals simp_all [canonPG]

theorem tryPlaceInner_canonPG (cfg : Config) (pg : PG) (l : List Nat) (t : VMType)
    (f : Bool) (s : St) (rk : List RackId) (pl : List (Nat × List NodeId)) :
    tryPlaceInner cfg (canonPG pg) l t f s rk pl = tryPlaceInner cfg pg l t f s rk pl := rfl

theorem tryPlaceInnerStep_canon (cfg : Config) (pg : PG) (t : VMType) (f : Bool)
    (acc : St × List RackId × List (Nat × List NodeId)) (i : Nat) :
    tryPlaceInnerStep cfg pg t f (canonSt acc.1, acc.2) i
    = (canonSt (tryPlaceInnerStep cfg pg t f acc i).1, (tryPlaceInnerStep cfg pg t f acc i).2) := by
  obtain ⟨s, rk, pl⟩ := acc
  unfold tryPlaceInnerStep
  simp only [canonSt_vms]
  cases hv : s.vms i with
  | none => rfl
  | some vm =>
    simp only []
    by_cases h0 : vm.nodes ≠ []
    · rw [if_pos h0, if_pos h0]
    · rw [if_neg h0, if_neg h0]
      simp only [canonSt_topo]
      cases hf : firstSome (tryRack cfg pg t f s.topo) (sortBy (rackFitLt cfg s.topo t) rk) with
      | none => rfl
      | some ns =>
        simp only []
        rw [placeVM_canonSt]

theorem tpiFold_canon (cfg : Config) (pg : PG) (t : VMType) (f : Bool) :
    ∀ (l : List Nat) (acc : St × List RackId × List (Nat × List NodeId)),
    l.foldl (tryPlaceInnerStep cfg pg t f) (canonSt acc.1, acc.2)
    = (canonSt (l.foldl (tryPlaceInnerStep cfg pg t f) acc).1,
       (l.foldl (tryPlaceInnerStep cfg pg t f) acc).2) := by
  intro l
  induction l with
  | nil => intro acc; rfl
  | cons i rest ih =>
    intro acc
    rw [List.foldl_cons, List.foldl_cons, tryPlaceInnerStep_canon]
    exact ih (tryPlaceInnerStep cfg pg t f acc i)

theorem tryPlaceInner_canon (cfg : Config) (pg : PG) (l : List Nat) (t : VMType)
    (f : Bool) (s : St) (rk : List RackId) (pl : List (Nat × List NodeId)) :
    tryPlaceInner cfg pg l t f (canonSt s) rk pl
    = (canonSt (tryPlaceInner cfg pg l t f s rk pl).1,
       (tryPlaceInner cfg pg l t f s rk pl).2) :=
  tpiFold_canon cfg pg t f l (s, rk, pl)

theorem tryPlacePenalty_canon (pg : PG) (s : St) (l : List Nat) :
    tryPlacePenalty (canonPG pg) (canonSt s) l = tryPlacePenalty pg s l := rfl

theorem tryPlace_hp (cfg : Config) (pg : PG) (l : List Nat) (t : VMType)
    (racks : List RackId) (f : Bool) (s : St) :
    (tryPlace cfg pg l t racks f s).2.2.2.hardRackAntiAffinityPartitions
    = pg.hardRackAntiAffinityPartitions := by
  unfold tryPlace
  simp only []
  split_ifs <;> simp [updateTargets_hp]

theorem tryPlace_canon (cfg : Config) (pg : PG) (l : List Nat) (t : VMType)
    (racks : List RackId) (f : Bool) (s : St)
    (hinv : pg.hardRackAntiAffinityPartitions = 0
      ∨ 2 ≤ pg.hardRackAntiAffinityPartitions) :
    tryPlace cfg (canonPG pg) l t racks f (canonSt s)
    = ((tryPlace cfg pg l t racks f s).1,
       canonSt (tryPlace cfg pg l t racks f s).2.1,
       (tryPlace cfg pg l t racks f s).2.2.1,
       canonPG (tryPlace cfg pg l t racks f s).2.2.2) := by
  unfold tryPlace
  rw [unplaceVMs_canonSt]
  simp only []
  simp only [canonSt_topo]
  by_cases hcap : ((racks.map (unplaceVMs l s).topo.rackC).foldl (· + ·) 0
        < (l.length : Int) * t.nodes * t.cpu)
      ∨ ((racks.map (unplaceVMs l s).topo.rackM).foldl (· + ·) 0
        < (l.length : Int) * t.nodes * t.memory)
  · rw [if_pos hcap, if_pos hcap]
  · rw [if_neg hcap, if_neg hcap]
    rw [tryPlaceInner_canonPG, tryPlaceInner_canon]
    try simp only []
    by_cases hfr : f = true ∧ (tryPlaceInner cfg pg l t false (unplaceVMs l s) racks []).2.2.length < l.length
    · rw [if_pos hfr, if_pos hfr]
      rw [tryPlaceInner_canonPG, tryPlaceInner_canon]
      try simp only []
      by_cases hcm : (tryPlaceInner cfg pg l t true
          (tryPlaceInner cfg pg l t false (unplaceVMs l s) racks []).1
          (tryPlaceInner cfg pg l t false (unplaceVMs l s) racks []).2.1
          (tryPlaceInner cfg pg l t false (unplaceVMs l s) racks []).2.2).2.2.length < l.length
      · rw [if_pos hcm, if_pos hcm]
      · rw [if_neg hcm, if_neg hcm]
        rw [updateTargets_canonSt, updateTargets_canonPG _ _ hinv, tryPlacePenalty_canon]
    · rw [if_neg hfr, if_neg hfr]
      by_cases hcm : (tryPlaceInner cfg pg l t false (unplaceVMs l s) racks []).2.2.length < l.length
      · rw [if_pos hcm, if_pos hcm]
      · rw [if_neg hcm, if_neg hcm]
        rw [updateTargets_canonSt, updateTargets_canonPG _ _ hinv, tryPlacePenalty_canon]

theorem startExtra_canonPG (pg : PG) (p : Int) (racks sorted : List RackId) :
    startExtra (canonPG pg) p racks sorted = startExtra pg p racks sorted := rfl

theorem groupByPartition_canonSt (s : St) (l : List Nat) :
    groupByPartition (canonSt s) l = groupByPartition s l := rfl

theorem tryLoop_hp (cfg : Config) (l : List Nat) (t : VMType) (f : Bool) :
    ∀ (fuel : Nat) (pg : PG) (cur extra : List RackId) (s : St),
    (tryLoop cfg l t f fuel pg cur extra s).2.2.1.hardRackAntiAffinityPartitions
    = pg.hardRackAntiAffinityPartitions := by
  intro fuel
  induction fuel with
  | zero => intro pg cur extra s; rfl
  | succ n ih =>
    intro pg cur extra s
    unfold tryLoop
    cases htp : tryPlace cfg pg l t cur f s with
    | mk op rest =>
      obtain ⟨s1, cur1, pg1⟩ := rest
      have hp1 : pg1.hardRackAntiAffinityPartitions
          = pg.hardRackAntiAffinityPartitions := by
        have h := tryPlace_hp cfg pg l t cur f s
        rw [htp] at h
        exact h
      cases op with
      | some p =>
        simp only []
        exact hp1
      | none =>
        simp only []
        cases extra with
        | nil => exact hp1
        | cons e rest2 =>
          rw [ih]
          exact hp1

theorem tryLoop_canon (cfg : Config) (l : List Nat) (t : VMType) (f : Bool) :
    ∀ (fuel : Nat) (pg : PG) (cur extra : List RackId) (s : St),
    (pg.hardRackAntiAffinityPartitions = 0 ∨ 2 ≤ pg.hardRackAntiAffinityPartitions) →
    tryLoop cfg l t f fuel (canonPG pg) cur extra (canonSt s)
    = ((tryLoop cfg l t f fuel pg cur extra s).1,
       canonSt (tryLoop cfg l t f fuel pg cur extra s).2.1,
       canonPG (tryLoop cfg l t f fuel pg cur extra s).2.2.1,
       (tryLoop cfg l t f fuel pg cur extra s).2.2.2) := by
  intro fuel
  induction fuel with
  | zero => intro pg cur extra s hinv; rfl
  | succ n ih =>
    intro pg cur extra s hinv
    unfold tryLoop
    rw [tryPlace_canon cfg pg l t cur f s hinv]
    cases htp : tryPlace cfg pg l t cur f s with
    | mk op rest =>
      obtain ⟨s1, cur1, pg1⟩ := rest
      have hp1 : pg1.hardRackAntiAffinityPartitions
          = pg.hardRackAntiAffinityPartitions := by
        have h := tryPlace_hp cfg pg l t cur f s
        rw [htp] at h
        exact h
      cases op with
      | some p => rfl
      | none =>
        simp only []
        cases extra with
        | nil => rfl
        | cons e rest2 => exact ih pg1 (cur1 ++ [e]) rest2 s1 (by rw [hp1]; exact hinv)

theorem partitionLoop_hp (cfg : Config) (t : VMType) (racks : List RackId) :
    ∀ (groups : List (Int × List Nat)) (pg : PG) (s : St)
      (pl : List (Nat × List NodeId)) (pen : ℚ),
    (partitionLoop cfg t racks groups pg s pl pen).2.2.hardRackAntiAffinityPartitions
    = pg.hardRackAntiAffinityPartitions := by
  intro groups
  induction groups with
  | nil => intro pg s pl pen; rfl
  | cons g rest ih =>
    obtain ⟨part, vms⟩ := g
    intro pg s pl pen
    unfold partitionLoop
    simp only []
    cases hse : startExtra (updateTargets (unplaceVMs vms s) pg) part racks
        (sortBy (loadLt cfg (unplaceVMs vms s).topo) racks) with
    | none =>
      simp only []
      exact updateTargets_hp _ _
    | some se =>
      obtain ⟨startR, extraR⟩ := se
      simp only []
      cases ht1 : tryLoop cfg vms t false (extraR.length + 1)
          (updateTargets (unplaceVMs vms s) pg) startR extraR (unplaceVMs vms s) with
      | mk op1 r1 =>
        obtain ⟨s1, pg1, b1⟩ := r1
        have hp1 : pg1.hardRackAntiAffinityPartitions
            = pg.hardRackAntiAffinityPartitions := by
          have h := tryLoop_hp cfg vms t false (extraR.length + 1)
            (updateTargets (unplaceVMs vms s) pg) startR extraR (unplaceVMs vms s)
          rw [ht1] at h
          rw [h, updateTargets_hp]
        cases op1 with
        | some p =>
          simp only []
          rw [ih]
          exact hp1
        | none =>
          simp only []
          cases ht2 : tryLoop cfg vms t true (extraR.length + 1) pg1 startR extraR s1 with
          | mk op2 r2 =>
            obtain ⟨s2, pg2, b2⟩ := r2
            have hp2 : pg2.hardRackAntiAffinityPartitions
                = pg1.hardRackAntiAffinityPartitions := by
              have h := tryLoop_hp cfg vms t true (extraR.length + 1) pg1 startR extraR s1
              rw [ht2] at h
              exact h
            cases op2 with
            | some p =>
              simp only []
              rw [ih]
              exact hp2.trans hp1
            | none =>
              simp only []
              exact hp2.trans hp1

theorem partitionLoop_canon (cfg : Config) (t : VMType) (racks : List RackId) :
    ∀ (groups : List (Int × List Nat)) (pg : PG) (s : St)
      (pl : List (Nat × List NodeId)) (pen : ℚ),
    (pg.hardRackAntiAffinityPartitions = 0 ∨ 2 ≤ pg.hardRackAntiAffinityPartitions) →
    partitionLoop cfg t racks groups (canonPG pg) (canonSt s) pl pen
    = ((partitionLoop cfg t racks groups pg s pl pen).1,
       canonSt (partitionLoop cfg t racks groups pg s pl pen).2.1,
       canonPG (partitionLoop cfg t racks groups pg s pl pen).2.2) := by
  intro groups
  induction groups with
  | nil => intro pg s pl pen hinv; rfl
  | cons g rest ih =>
    obtain ⟨part, vms⟩ := g
    intro pg s pl pen hinv
    unfold partitionLoop
    simp only []
    rw [unplaceVMs_canonSt, updateTargets_canonSt, updateTargets_canonPG _ _ hinv]
    simp only [canonSt_topo]
    rw [startExtra_canonPG]
    cases hse : startExtra (updateTargets (unplaceVMs vms s) pg) part racks
        (sortBy (loadLt cfg (unplaceVMs vms s).topo) racks) with
    | none => rfl
    | some se =>
      obtain ⟨startR, extraR⟩ := se
      simp only []
      rw [tryLoop_canon cfg vms t false (extraR.length + 1)
        (updateTargets (unplaceVMs vms s) pg) startR extraR (unplaceVMs vms s)
        (by rw [updateTargets_hp]; exact hinv)]
      cases ht1 : tryLoop cfg vms t false (extraR.length + 1)
          (updateTargets (unplaceVMs vms s) pg) startR extraR (unplaceVMs vms s) with
      | mk op1 r1 =>
        obtain ⟨s1, pg1, b1⟩ := r1
        have hp1 : pg1.hardRackAntiAffinityPartitions
            = pg.hardRackAntiAffinityPartitions := by
          have h := tryLoop_hp cfg vms t false (extraR.length + 1)
            (updateTargets (unplaceVMs vms s) pg) startR extraR (unplaceVMs vms s)
          rw [ht1] at h
          rw [h, updateTargets_hp]
        cases op1 with
        | some p =>
          simp only []
          exact ih pg1 s1 (pl ++ p.placements) (qadd pen p.penalty) (by rw [hp1]; exact hinv)
        | none =>
          simp only []
          rw [tryLoop_canon cfg vms t true (extraR.length + 1) pg1 startR extraR s1
            (by rw [hp1]; exact hinv)]
          cases ht2 : tryLoop cfg vms t true (extraR.length + 1) pg1 startR extraR s1 with
          | mk op2 r2 =>
            obtain ⟨s2, pg2, b2⟩ := r2
            have hp2 : pg2.hardRackAntiAffinityPartitions
                = pg1.hardRackAntiAffinityPartitions := by
              have h := tryLoop_hp cfg vms t true (extraR.length + 1) pg1 startR extraR s1
              rw [ht2] at h
              exact h
            cases op2 with
            | some p =>
              simp only []
              exact ih pg2 s2 (pl ++ p.placements) (qadd pen p.penalty)
                (by rw [hp2, hp1]; exact hinv)
            | none => rfl

theorem getBestPlacement_hp (cfg : Config) (pg : PG) (l : List Nat) (t : VMType)
    (racks : List RackId) (s : St) :
    (getBestPlacement cfg pg l t racks s).2.2.hardRackAntiAffinityPartitions
    = pg.hardRackAntiAffinityPartitions := by
  unfold getBestPlacement
  cases hpl : partitionLoop cfg t racks (groupByPartition s l) pg s [] (qofInt 0) with
  | mk op r =>
    obtain ⟨s1, pg1⟩ := r
    have hp1 : pg1.hardRackAntiAffinityPartitions
        = pg.hardRackAntiAffinityPartitions := by
      have h := partitionLoop_hp cfg t racks (groupByPartition s l) pg s [] (qofInt 0)
      rw [hpl] at h
      exact h
    cases op with
    | none => exact hp1
    | some pr =>
      obtain ⟨pl, pen⟩ := pr
      simp only []
      exact hp1

theorem getBestPlacement_canon (cfg : Config) (pg : PG) (l : List Nat) (t : VMType)
    (racks : List RackId) (s : St)
    (hinv : pg.hardRackAntiAffinityPartitions = 0
      ∨ 2 ≤ pg.hardRackAntiAffinityPartitions) :
    getBestPlacement cfg (canonPG pg) l t racks (canonSt s)
    = ((getBestPlacement cfg pg l t racks s).1,
       canonSt (getBestPlacement cfg pg l t racks s).2.1,
       canonPG (getBestPlacement cfg pg l t racks s).2.2) := by
  unfold getBestPlacement
  rw [groupByPartition_canonSt,
    partitionLoop_canon cfg t racks (groupByPartition s l) pg s [] (qofInt 0) hinv]
  cases hpl : partitionLoop cfg t racks (groupByPartition s l) pg s [] (qofInt 0) with
  | mk op r =>
    obtain ⟨s1, pg1⟩ := r
    cases op with
    | none => rfl
    | some pr =>
      obtain ⟨pl, pen⟩ := pr
      simp only [canonSt_topo]

theorem groupLoop_hp (cfg : Config) (l : List Nat) (t : VMType) :
    ∀ (groups : List (List RackId)) (pg : PG) (s : St) (best : Option Placement),
    (groupLoop cfg l t groups pg s best).2.2.hardRackAntiAffinityPartitions
    = pg.hardRackAntiAffinityPartitions := by
  intro groups
  induction groups with
  | nil => intro pg s best; rfl
  | cons g rest ih =>
    intro pg s best
    unfold groupLoop
    cases hbp : getBestPlacement cfg pg l t g s with
    | mk op r =>
      obtain ⟨s1, pg1⟩ := r
      have hp1 : pg1.hardRackAntiAffinityPartitions
          = pg.hardRackAntiAffinityPartitions := by
        have h := getBestPlacement_hp cfg pg l t g s
        rw [hbp] at h
        exact h
      cases op with
      | none =>
        simp only []
        rw [ih]
        exact hp1
      | some p =>
        simp only []
        rw [ih]
        exact hp1

theorem groupLoop_canon (cfg : Config) (l : List Nat) (t : VMType) :
    ∀ (groups : List (List RackId)) (pg : PG) (s : St) (best : Option Placement),
    (pg.hardRackAntiAffinityPartitions = 0 ∨ 2 ≤ pg.hardRackAntiAffinityPartitions) →
    groupLoop cfg l t groups (canonPG pg) (canonSt s) best
    = ((groupLoop cfg l t groups pg s best).1,
       canonSt (groupLoop cfg l t groups pg s best).2.1,
       canonPG (groupLoop cfg l t groups pg s best).2.2) := by
  intro groups
  induction groups with
  | nil => intro pg s best hinv; rfl
  | cons g rest ih =>
    intro pg s best hinv
    unfold groupLoop
    rw [getBestPlacement_canon cfg pg l t g s hinv]
    cases hbp : getBestPlacement cfg pg l t g s with
    | mk op r =>
      obtain ⟨s1, pg1⟩ := r
      have hp1 : pg1.hardRackAntiAffinityPartitions
          = pg.hardRackAntiAffinityPartitions := by
        have h := getBestPlacement_hp cfg pg l t g s
        rw [hbp] at h
        exact h
      cases op with
      | none =>
        simp only []
        exact ih pg1 s1 best (by rw [hp1]; exact hinv)
      | some p =>
        simp only []
        exact ih pg1 s1 _ (by rw [hp1]; exact hinv)

theorem canonHP_create (hp : Int) :
    canonHP (if hp ≤ 1 then 0 else hp) = if canonHP hp ≤ 1 then 0 else canonHP hp := by
  by_cases h : hp ≤ 1
  · have h1 : ¬ (1 : Int) < hp := by omega
    simp [canonHP, h, h1]
  · have h1 : (1 : Int) < hp := by omega
    simp [canonHP, h, h1]

theorem createPGOp_canon (s : St) (i : Nat) (hp sp : Int) (da ra : Affinity) :
    createPGOp (canonSt s) i (canonHP hp) sp da ra
    = canonSt (createPGOp s i hp sp da ra) := by
  unfold createPGOp
  simp only [canonSt_pgs]
  have hms : ((s.pgs i).map canonPG).isSome = (s.pgs i).isSome := by
    cases s.pgs i <;> rfl
  by_cases hpg : (s.pgs i).isSome = true
  · rw [if_pos (by rw [hms]; exact hpg), if_pos hpg]
  · rw [if_neg (by rw [hms]; exact hpg), if_neg hpg]
    have hrec :
        ({ index := i,
           hardRackAntiAffinityPartitions := if canonHP hp ≤ 1 then 0 else canonHP hp,
           softPMAntiAffinity := sp, domainAffinity := da, rackAffinity := ra } : PG)
        = canonPG
          { index := i,
            hardRackAntiAffinityPartitions := if hp ≤ 1 then 0 else hp,
            softPMAntiAffinity := sp, domainAffinity := da, rackAffinity := ra } := by
      simp [canonPG, canonHP_create]
    rw [hrec]
    exact congrArg (fun P => ({ topo := s.topo, pgs := P, vms := s.vms } : St))
      (upd_map_canonPG s.pgs i _)

theorem unplaceVMs_pgs (l : List Nat) : ∀ (s : St), (unplaceVMs l s).pgs = s.pgs := by
  induction l with
  | nil => intro s; rfl
  | cons i rest ih =>
    intro s
    rw [unplaceVMs_cons]
    cases hv : s.vms i with
    | none => exact ih s
    | some vm =>
      simp only []
      by_cases h0 : vm.nodes = []
      · rw [if_neg (by simp [h0])]
        exact ih s
      · rw [if_pos (by simp [h0]), ih, unplaceVM_pgs]

theorem commitVMs_pgs (bp : Placement) : ∀ (l : List Nat) (s : St),
    (commitVMs bp l s).1.pgs = s.pgs := by
  intro l
  induction l with
  | nil => intro s; rfl
  | cons i rest ih =>
    intro s
    unfold commitVMs
    simp only []
    rw [ih, placeVM_pgs]

theorem getRackGroups_hp (cfg : Config) (s : St) (pg : PG) :
    (getRackGroups cfg s pg).2.hardRackAntiAffinityPartitions
    = pg.hardRackAntiAffinityPartitions := by
  unfold getRackGroups
  simp only []
  repeat' split
  all_goals simp [updateTargets_hp]

theorem getRackGroups2_hp (cfg : Config) (s : St) (pg : PG) (t : VMType) (n : Nat) :
    (getRackGroups2 cfg s pg t n).2.hardRackAntiAffinityPartitions
    = pg.hardRackAntiAffinityPartitions := by
  unfold getRackGroups2
  simp only []
  cases hgr : getRackGroups cfg s (updateTargets s pg) with
  | mk G Y =>
    have hY : Y.hardRackAntiAffinityPartitions = pg.hardRackAntiAffinityPartitions := by
      have h := getRackGroups_hp cfg s (updateTargets s pg)
      rw [hgr] at h
      rw [h, updateTargets_hp]
    simp only []
    repeat' split
    all_goals simp [hY]

theorem registerVMs_canonSt (l : List Nat) (t : VMType) (g : Nat) (p : Int) (s : St) :
    registerVMs l t g p (canonSt s) = canonSt (registerVMs l t g p s) :=
  registerVMsAux_canonSt t g p l 0 s

theorem createCommit_canon (g : Nat) (idxs : List Nat) (res : Option Placement × St × PG)
    (hinv : res.2.2.hardRackAntiAffinityPartitions = 0
      ∨ 2 ≤ res.2.2.hardRackAntiAffinityPartitions) :
    createCommit g idxs (res.1, canonSt res.2.1, canonPG res.2.2)
    = (canonSt (createCommit g idxs res).1, (createCommit g idxs res).2) := by
  obtain ⟨best, s1, pg⟩ := res
  unfold createCommit
  simp only []
  rw [unplaceVMs_canonSt]
  cases best with
  | none =>
    simp only []
    exact congrArg (fun X => (X, [[-1]], false)) (congrArg (fun P => ({ topo := (unplaceVMs idxs s1).topo, pgs := P, vms := (unplaceVMs idxs s1).vms } : St)) (upd_map_canonPG (unplaceVMs idxs s1).pgs g pg))
  | some bp =>
    simp only []
    rw [commitVMs_canonSt]
    rw [updateTargets_canonSt, updateTargets_canonPG _ _ hinv]
    exact congrArg (fun X => (X, (commitVMs bp idxs (unplaceVMs idxs s1)).2, true)) (congrArg (fun P => ({ topo := (commitVMs bp idxs (unplaceVMs idxs s1)).1.topo, pgs := P, vms := (commitVMs bp idxs (unplaceVMs idxs s1)).1.vms } : St)) (upd_map_canonPG (commitVMs bp idxs (unplaceVMs idxs s1)).1.pgs g (updateTargets (commitVMs bp idxs (unplaceVMs idxs s1)).1 pg)))

theorem createVMs_canon (cfg : Config) (s : St) (idxs : List Nat) (ti g : Nat)
    (part el : Int) (hS : stHPInv s) :
    createVMs cfg (canonSt s) idxs ti g part el
    = (createVMs cfg s idxs ti g part el).map (fun r => (canonSt r.1, r.2)) := by
  unfold createVMs
  by_cases hel : (14 : Int) ≤ el
  · rw [if_pos hel, if_pos hel]
    rfl
  · rw [if_neg hel, if_neg hel]
    by_cases hti : ti = 0
    · rw [if_pos hti, if_pos hti]
      rfl
    · rw [if_neg hti, if_neg hti]
      cases hty : cfg.types.get? (ti - 1) with
      | none =>
        simp only [canonSt_pgs]
        cases hpg : s.pgs g <;> simp [Option.map]
      | some t =>
        simp only [canonSt_pgs]
        cases hpg : s.pgs g with
        | none => simp [Option.map]
        | some pg0 =>
          simp only [Option.map]
          try simp only []
          have hinv0 := hS g pg0 hpg
          have hz : ((canonPG pg0).hardRackAntiAffinityPartitions = 0)
              ↔ (pg0.hardRackAntiAffinityPartitions = 0) := by
            rcases hinv0 with h0 | h2 <;> constructor <;> intro h <;>
              simp [canonPG, canonHP] at * <;> omega
          by_cases h0 : pg0.hardRackAntiAffinityPartitions = 0
          · rw [if_pos (hz.mpr h0), if_pos h0]
            rw [registerVMs_canonSt]
            rw [show ({ canonPG pg0 with vms := (canonPG pg0).vms ++ idxs } : PG)
              = canonPG { pg0 with vms := pg0.vms ++ idxs } from rfl]
            rw [getRackGroups2_canon cfg (registerVMs idxs t g 0 s)
              { pg0 with vms := pg0.vms ++ idxs } t idxs.length (by exact hinv0)]
            rw [groupLoop_canon cfg idxs t _ _ _ none
              (by rw [getRackGroups2_hp]; exact hinv0)]
            rw [createCommit_canon g idxs _
              (by rw [groupLoop_hp, getRackGroups2_hp]; exact hinv0)]
          · rw [if_neg (fun h => h0 (hz.mp h)), if_neg h0]
            rw [registerVMs_canonSt]
            rw [show ({ canonPG pg0 with vms := (canonPG pg0).vms ++ idxs } : PG)
              = canonPG { pg0 with vms := pg0.vms ++ idxs } from rfl]
            rw [getRackGroups2_canon cfg (registerVMs idxs t g part s)
              { pg0 with vms := pg0.vms ++ idxs } t idxs.length (by exact hinv0)]
            rw [groupLoop_canon cfg idxs t _ _ _ none
              (by rw [getRackGroups2_hp]; exact hinv0)]
            rw [createCommit_canon g idxs _
              (by rw [groupLoop_hp, getRackGroups2_hp]; exact hinv0)]

theorem updAt_eq {α β : Type} [DecidableEq α] (f : α → β) (j : α) (v : β) :
    upd f j v j = v := by simp [upd]

theorem updAt_ne {α β : Type} [DecidableEq α] (f : α → β) (j k : α) (v : β)
    (h : ¬ k = j) : upd f j v k = f k := by simp [upd, h]

theorem stHPInv_pgs_congr (s s' : St) (h : s'.pgs = s.pgs) (hS : stHPInv s) :
    stHPInv s' := fun g pg hg => hS g pg (by rw [← h]; exact hg)

theorem stHPInv_createPGOp (s : St) (i : Nat) (hp sp : Int) (da ra : Affinity)
    (hS : stHPInv s) : stHPInv (createPGOp s i hp sp da ra) := by
  intro g pg hg
  unfold createPGOp at hg
  simp only [] at hg
  by_cases hif : (s.pgs i).isSome = true
  · rw [if_pos hif] at hg
    exact hS g pg hg
  · rw [if_neg hif] at hg
    simp only [] at hg
    by_cases hgi : g = i
    · subst hgi
      rw [updAt_eq] at hg
      injection hg with hg
      rw [← hg]
      simp only []
      by_cases hh : hp ≤ 1
      · rw [if_pos hh]
        left
        rfl
      · rw [if_neg hh]
        right
        omega
    · rw [updAt_ne _ _ _ _ hgi] at hg
      exact hS g pg hg

theorem stHPInv_deregister (i g0 : Nat) (s : St) (hS : stHPInv s) :
    stHPInv (deregisterFromPG i g0 s) := by
  intro g pg hg
  unfold deregisterFromPG at hg
  cases hpg : s.pgs g0 with
  | none =>
    rw [hpg] at hg
    exact hS g pg hg
  | some pg1 =>
    rw [hpg] at hg
    simp only [] at hg
    by_cases hgi : g = g0
    · subst hgi
      rw [updAt_eq] at hg
      injection hg with hg
      rw [← hg]
      exact hS g pg1 hpg
    · rw [updAt_ne _ _ _ _ hgi] at hg
      exact hS g pg hg

theorem stHPInv_deleteVMs : ∀ (l : List Nat) (s s' : St), stHPInv s →
    deleteVMs s l = some s' → stHPInv s' := by
  intro l
  induction l with
  | nil =>
    intro s s' hS h
    cases h
    exact hS
  | cons i rest ih =>
    intro s s' hS h
    unfold deleteVMs at h
    cases hv : s.vms i with
    | none =>
      rw [hv] at h
      cases h
    | some vm =>
      rw [hv] at h
      simp only [] at h
      apply ih _ _ _ h
      apply stHPInv_pgs_congr _ (deregisterFromPG i vm.pgIndex (unplaceVM i s)) rfl
      exact stHPInv_deregister i vm.pgIndex (unplaceVM i s)
        (stHPInv_pgs_congr s _ (unplaceVM_pgs i s) hS)

theorem createCommit_stHPInv (g : Nat) (idxs : List Nat)
    (res : Option Placement × St × PG) (s' : St) (out : List (List Int)) (b : Bool)
    (h : createCommit g idxs res = (s', out, b))
    (hres1 : stHPInv res.2.1)
    (hres2 : res.2.2.hardRackAntiAffinityPartitions = 0
      ∨ 2 ≤ res.2.2.hardRackAntiAffinityPartitions) :
    stHPInv s' := by
  obtain ⟨best, s1, pg⟩ := res
  unfold createCommit at h
  simp only [] at h
  have hs1 : stHPInv (unplaceVMs idxs s1) :=
    stHPInv_pgs_congr s1 _ (unplaceVMs_pgs idxs s1) hres1
  cases best with
  | none =>
    simp only [Prod.mk.injEq] at h
    rw [← h.1]
    intro g1 pg1 hg
    simp only [] at hg
    by_cases hgi : g1 = g
    · subst hgi
      rw [updAt_eq] at hg
      injection hg with hg
      rw [← hg]
      exact hres2
    · rw [updAt_ne _ _ _ _ hgi] at hg
      exact hs1 g1 pg1 hg
  | some bp =>
    simp only [Prod.mk.injEq] at h
    rw [← h.1]
    have hcm : stHPInv (commitVMs bp idxs (unplaceVMs idxs s1)).1 :=
      stHPInv_pgs_congr _ _ (commitVMs_pgs bp idxs (unplaceVMs idxs s1)) hs1
    intro g1 pg1 hg
    simp only [] at hg
    by_cases hgi : g1 = g
    · subst hgi
      rw [updAt_eq] at hg
      injection hg with hg
      rw [← hg]
      rw [updateTargets_hp]
      exact hres2
    · rw [updAt_ne _ _ _ _ hgi] at hg
      exact hcm g1 pg1 hg

theorem groupLoop_pgs (cfg : Config) (l : List Nat) (t : VMType)
    (groups : List (List RackId)) (pg : PG) (s : St) (best : Option Placement) :
    (groupLoop cfg l t groups pg s best).2.1.pgs = s.pgs :=
  searchReach_pgs (reach_groupLoop cfg l t groups pg s best l (fun i hi => hi))

theorem createVMs_stHPInv (cfg : Config) (s : St) (idxs : List Nat) (ti g : Nat)
    (part el : Int) (s' : St) (out : List (List Int)) (b : Bool)
    (h : createVMs cfg s idxs ti g part el = some (s', out, b)) (hS : stHPInv s) :
    stHPInv s' := by
  unfold createVMs at h
  by_cases hel : (14 : Int) ≤ el
  · rw [if_pos hel] at h
    simp only [Option.some.injEq, Prod.mk.injEq] at h
    rw [← h.1]
    exact hS
  · rw [if_neg hel] at h
    by_cases hti : ti = 0
    · rw [if_pos hti] at h
      exact absurd h (by simp)
    · rw [if_neg hti] at h
      cases hty : cfg.types.get? (ti - 1) with
      | none =>
        rw [hty] at h
        cases hpg : s.pgs g <;> rw [hpg] at h <;> simp at h
      | some t =>
        rw [hty] at h
        cases hpg : s.pgs g with
        | none =>
          rw [hpg] at h
          simp at h
        | some pg0 =>
          rw [hpg] at h
          simp only [] at h
          injection h with h
          apply createCommit_stHPInv g idxs _ s' out b h
          · exact stHPInv_pgs_congr s _
              (by rw [groupLoop_pgs]; exact registerVMsAux_pgs t g _ 0 idxs s) hS
          · rw [groupLoop_hp, getRackGroups2_hp]
            exact hS g pg0 hpg

theorem step_stHPInv (cfg : Config) (s : St) (r : Request) (el : Int)
    (s' : St) (out : List (List Int)) (b : Bool)
    (h : step cfg s r el = some (s', out, b)) (hS : stHPInv s) : stHPInv s' := by
  cases r with
  | mkpg i hp sp da ra =>
    unfold step at h
    simp only [Option.some.injEq, Prod.mk.injEq] at h
    rw [← h.1]
    exact stHPInv_createPGOp s i hp sp da ra hS
  | create idxs ti g part =>
    unfold step at h
    simp only [] at h
    by_cases hel : (14 : Int) ≤ el
    · rw [if_pos hel] at h
      simp only [Option.some.injEq, Prod.mk.injEq] at h
      rw [← h.1]
      exact hS
    · rw [if_neg hel] at h
      by_cases hwf : wfCreate s idxs
      · rw [if_pos hwf] at h
        exact createVMs_stHPInv cfg s idxs ti g part el s' out b h hS
      · rw [if_neg hwf] at h
        cases h
  | delete idxs =>
    unfold step at h
    simp only [] at h
    cases hd : deleteVMs s idxs with
    | none =>
      rw [hd] at h
      cases h
    | some sx =>
      rw [hd] at h
      simp only [Option.map] at h
      injection h with h
      simp only [Prod.mk.injEq] at h
      rw [← h.1]
      exact stHPInv_deleteVMs idxs s sx hS hd
  | terminate =>
    unfold step at h
    simp only [Option.some.injEq, Prod.mk.injEq] at h
    rw [← h.1]
    exact hS

theorem wfCreate_canonSt (s : St) (l : List Nat) :
    wfCreate (canonSt s) l = wfCreate s l := rfl

theorem step_canon (cfg : Config) (s : St) (r : Request) (el : Int) (hS : stHPInv s) :
    step cfg (canonSt s) (canonReq r) el
    = (step cfg s r el).map (fun x => (canonSt x.1, x.2)) := by
  cases r with
  | mkpg i hp sp da ra =>
    unfold step canonReq
    simp only []
    rw [createPGOp_canon]
    rfl
  | create idxs ti g part =>
    unfold step canonReq
    simp only []
    simp only [wfCreate_canonSt]
    by_cases hel : (14 : Int) ≤ el
    · rw [if_pos hel, if_pos hel]
      rfl
    · rw [if_neg hel, if_neg hel]
      by_cases hwf : wfCreate s idxs
      · rw [if_pos hwf, if_pos hwf]
        exact createVMs_canon cfg s idxs ti g part el hS
      · rw [if_neg hwf, if_neg hwf]
        rfl
  | delete idxs =>
    unfold step canonReq
    simp only []
    rw [deleteVMs_canonSt]
    cases hd : deleteVMs s idxs <;> rfl
  | terminate => rfl

theorem reqEquiv_canon : ∀ (r r' : Request), reqEquiv r r' → canonReq r = canonReq r' := by
  intro r r' h
  cases r with
  | mkpg i hp sp da ra =>
    cases r' with
    | mkpg i1 hp1 sp1 da1 ra1 =>
      obtain ⟨h1, h2, h3, h4, h5⟩ := h
      subst h1
      subst h2
      subst h3
      subst h4
      unfold canonReq canonHP
      simp only []
      by_cases hh : 1 < hp
      · rw [if_pos hh, if_pos (h5.mp hh)]
      · rw [if_neg hh, if_neg (fun hx => hh (h5.mpr hx))]
    | create idxs ti g part => exact Request.noConfusion h
    | delete idxs => exact Request.noConfusion h
    | terminate => exact Request.noConfusion h
  | create idxs ti g part => rw [h]
  | delete idxs => rw [h]
  | terminate => rw [h]

theorem runOut_canon (cfg : Config) : ∀ (rs : List (Request × Int)) (s : St), stHPInv s →
    runOut cfg (rs.map (fun p => (canonReq p.1, p.2))) (canonSt s)
    = (runOut cfg rs s).map (fun r => (canonSt r.1, r.2)) := by
  intro rs
  induction rs with
  | nil => intro s hS; rfl
  | cons p rest ih =>
    obtain ⟨r, el⟩ := p
    intro s hS
    unfold runOut
    simp only [List.map_cons]
    rw [step_canon cfg s r el hS]
    cases hst : step cfg s r el with
    | none => rfl
    | some x =>
      obtain ⟨s1, out, b⟩ := x
      simp only [Option.map]
      cases b with
      | true =>
        simp only []
        rw [ih s1 (step_stHPInv cfg s r el s1 out true hst hS)]
        cases hro : runOut cfg rest s1 <;> rfl
      | false => rfl

/-- C10: observable behaviour depends on a placement group's
`hardRackAntiAffinityPartitions` only through the `> 1` test: two request
streams that differ only in the `hardRackAntiAffinityPartitions` fields of
their type-1 requests, with each corresponding pair of values on the same
side of `> 1`, produce identical output streams. -/
theorem c10_hp_gt1_only (cfg : Config) (rs1 rs2 : List (Request × Int))
    (h : List.Forall₂ (fun a b => reqEquiv a.1 b.1 ∧ a.2 = b.2) rs1 rs2) :
    (runOut cfg rs1 (initSt cfg)).map Prod.snd
    = (runOut cfg rs2 (initSt cfg)).map Prod.snd := by
  have hmap : rs1.map (fun p => (canonReq p.1, p.2))
      = rs2.map (fun p => (canonReq p.1, p.2)) := by
    induction h with
    | nil => rfl
    | cons hab _ ih =>
      simp only [List.map_cons, ih]
      rw [reqEquiv_canon _ _ hab.1, hab.2]
  have hinit : stHPInv (initSt cfg) := by
    intro g pg hg
    cases hg
  have h1 := runOut_canon cfg rs1 (initSt cfg) hinit
  have h2 := runOut_canon cfg rs2 (initSt cfg) hinit
  rw [hmap] at h1
  have hsnd : ∀ (o : Option (St × List (List Int))),
      (o.map (fun r => (canonSt r.1, r.2))).map Prod.snd = o.map Prod.snd := by
    intro o
    cases o <;> rfl
  rw [← hsnd (runOut cfg rs1 (initSt cfg)), ← hsnd (runOut cfg rs2 (initSt cfg)),
    ← h1, ← h2]

/-- Witness for `c10_hp_gt1_only`: the one-rack fleet, one stream creating
PG 1 with 2 partitions and one with 3, each followed by the same VM
creation; the outputs agree. -/
theorem c10_hp_gt1_only_witness :
    (runOut exC2cfg [(Request.mkpg 1 2 0 Affinity.NONE Affinity.NONE, 0),
        (Request.create [1] 1 1 0, 0)] (initSt exC2cfg)).map Prod.snd
    = (runOut exC2cfg [(Request.mkpg 1 3 0 Affinity.NONE Affinity.NONE, 0),
        (Request.create [1] 1 1 0, 0)] (initSt exC2cfg)).map Prod.snd :=
  c10_hp_gt1_only exC2cfg _ _
    (List.Forall₂.cons ⟨⟨rfl, rfl, rfl, rfl, by decide⟩, rfl⟩
      (List.Forall₂.cons ⟨rfl, rfl⟩ List.Forall₂.nil))

theorem foldl_mono_step {f : Int → Nat → Int} (hf : ∀ a i, a ≤ f a i) :
    ∀ (l : List Nat) (acc : Int), acc ≤ l.foldl f acc := by
  intro l
  induction l with
  | nil => intro acc; exact le_refl acc
  | cons i rest ih =>
    intro acc
    rw [List.foldl_cons]
    exact le_trans (hf acc i) (ih _)

theorem countSoftExcess_nonneg (pg : PG) (s : St) (l : List Nat) :
    0 ≤ countSoftExcess pg s l := by
  unfold countSoftExcess
  apply foldl_mono_step
  intro a i
  cases hv : s.vms i with
  | none => exact le_refl a
  | some vm =>
    simp only []
    cases hn : vm.nodes with
    | nil => exact le_refl a
    | cons n ns =>
      simp only []
      split_ifs <;> omega

theorem tryPlacePenalty_shape (pg : PG) (s : St) (l : List Nat) :
    ∃ (cnt d r : Int), tryPlacePenalty pg s l = qofInt (cnt + d + r)
      ∧ 0 ≤ cnt
      ∧ (cnt = 0 ∨ cnt = countSoftExcess pg s l)
      ∧ (d = 0 ∨ (d = 1000 ∧ pg.domainAffinity = Affinity.SOFT))
      ∧ (r = 0 ∨ (r = 1000 ∧ pg.rackAffinity = Affinity.SOFT)) := by
  unfold tryPlacePenalty
  simp only []
  by_cases h1 : 0 < pg.softPMAntiAffinity ∧ pg.softPMAntiAffinityPossible = true
  all_goals (
    first
    | rw [if_pos h1]
    | rw [if_neg h1])
  all_goals (
    by_cases h2 : pg.domainAffinity = Affinity.SOFT ∧ pg.domainAffinityPossible = false
    all_goals (
      first
      | rw [if_pos h2]
      | rw [if_neg h2])
    all_goals (
      by_cases h3 : pg.rackAffinity = Affinity.SOFT ∧ pg.rackAffinityPossible = false
      all_goals (
        first
        | rw [if_pos h3]
        | rw [if_neg h3])))
  · exact ⟨countSoftExcess pg s l, 1000, 1000, rfl, countSoftExcess_nonneg pg s l,
      Or.inr rfl, Or.inr ⟨rfl, h2.1⟩, Or.inr ⟨rfl, h3.1⟩⟩
  · exact ⟨countSoftExcess pg s l, 1000, 0, congrArg qofInt (by omega),
      countSoftExcess_nonneg pg s l, Or.inr rfl, Or.inr ⟨rfl, h2.1⟩, Or.inl rfl⟩
  · exact ⟨countSoftExcess pg s l, 0, 1000, congrArg qofInt (by omega),
      countSoftExcess_nonneg pg s l, Or.inr rfl, Or.inl rfl, Or.inr ⟨rfl, h3.1⟩⟩
  · exact ⟨countSoftExcess pg s l, 0, 0, congrArg qofInt (by omega),
      countSoftExcess_nonneg pg s l, Or.inr rfl, Or.inl rfl, Or.inl rfl⟩
  · exact ⟨0, 1000, 1000, congrArg qofInt (by omega), le_refl 0,
      Or.inl rfl, Or.inr ⟨rfl, h2.1⟩, Or.inr ⟨rfl, h3.1⟩⟩
  · exact ⟨0, 1000, 0, congrArg qofInt (by omega), le_refl 0,
      Or.inl rfl, Or.inr ⟨rfl, h2.1⟩, Or.inl rfl⟩
  · exact ⟨0, 0, 1000, congrArg qofInt (by omega), le_refl 0,
      Or.inl rfl, Or.inl rfl, Or.inr ⟨rfl, h3.1⟩⟩
  · exact ⟨0, 0, 0, congrArg qofInt (by omega), le_refl 0,
      Or.inl rfl, Or.inl rfl, Or.inl rfl⟩

/-- `tryPlace`'s penalty block in closed form: the soft-PM excess count of
the scored batch (only while the rule is in play), plus `1000` exactly when
`domainAffinity = SOFT` is broken, plus `1000` exactly when
`rackAffinity = SOFT` is broken. -/
theorem tryPlacePenalty_formula (pg : PG) (s : St) (l : List Nat) :
    tryPlacePenalty pg s l = qofInt
      ((if 0 < pg.softPMAntiAffinity ∧ pg.softPMAntiAffinityPossible = true
          then countSoftExcess pg s l else 0)
        + (if pg.domainAffinity = Affinity.SOFT ∧ pg.domainAffinityPossible = false
            then 1000 else 0)
        + (if pg.rackAffinity = Affinity.SOFT ∧ pg.rackAffinityPossible = false
            then 1000 else 0)) := by
  unfold tryPlacePenalty
  simp only []
  split_ifs
  all_goals exact congrArg qofInt (by omega)

theorem updTargetsStep_affs (s : St) (acc : PG) (i : Nat) :
    (updTargetsStep s acc i).domainAffinity = acc.domainAffinity
    ∧ (updTargetsStep s acc i).rackAffinity = acc.rackAffinity := by
  unfold updTargetsStep
  cases hv : s.vms i with
  | none => exact ⟨rfl, rfl⟩
  | some vm =>
    simp only []
    cases hn : vm.nodes with
    | nil => exact ⟨rfl, rfl⟩
    | cons n ns =>
      simp only []
      by_cases hA : acc.domainAffinity ≠ Affinity.NONE ∧ acc.domainAffinityPossible = true
      · simp only [if_pos hA]
        cases htd : acc.targetDomain with
        | none =>
          simp only []
          by_cases hB : acc.rackAffinity ≠ Affinity.NONE ∧ acc.rackAffinityPossible = true
          · simp only [if_pos hB]
            cases htr : acc.targetRack with
            | none =>
              simp only []
              split_ifs <;> exact ⟨rfl, rfl⟩
            | some tr =>
              simp only []
              by_cases hr : tr ≠ nodeRack n
              · simp only [if_pos hr]
                split_ifs <;> exact ⟨rfl, rfl⟩
              · simp only [if_neg hr]
                split_ifs <;> exact ⟨rfl, rfl⟩
          · simp only [if_neg hB]
            split_ifs <;> exact ⟨rfl, rfl⟩
        | some td =>
          simp only []
          by_cases hd : td ≠ nodeDom n
          · simp only [if_pos hd]
            by_cases hB : acc.rackAffinity ≠ Affinity.NONE ∧ acc.rackAffinityPossible = true
            · simp only [if_pos hB]
              cases htr : acc.targetRack with
              | none =>
                simp only []
                split_ifs <;> exact ⟨rfl, rfl⟩
              | some tr =>
                simp only []
                by_cases hr : tr ≠ nodeRack n
                · simp only [if_pos hr]
                  split_ifs <;> exact ⟨rfl, rfl⟩
                · simp only [if_neg hr]
                  split_ifs <;> exact ⟨rfl, rfl⟩
            · simp only [if_neg hB]
              split_ifs <;> exact ⟨rfl, rfl⟩
          · simp only [if_neg hd]
            by_cases hB : acc.rackAffinity ≠ Affinity.NONE ∧ acc.rackAffinityPossible = true
            · simp only [if_pos hB]
              cases htr : acc.targetRack with
              | none =>
                simp only []
                split_ifs <;> exact ⟨rfl, rfl⟩
              | some tr =>
                simp only []
                by_cases hr : tr ≠ nodeRack n
                · simp only [if_pos hr]
                  split_ifs <;> exact ⟨rfl, rfl⟩
                · simp only [if_neg hr]
                  split_ifs <;> exact ⟨rfl, rfl⟩
            · simp only [if_neg hB]
              split_ifs <;> exact ⟨rfl, rfl⟩
      · simp only [if_neg hA]
        by_cases hB : acc.rackAffinity ≠ Affinity.NONE ∧ acc.rackAffinityPossible = true
        · simp only [if_pos hB]
          cases htr : acc.targetRack with
          | none =>
            simp only []
            split_ifs <;> exact ⟨rfl, rfl⟩
          | some tr =>
            simp only []
            by_cases hr : tr ≠ nodeRack n
            · simp only [if_pos hr]
              split_ifs <;> exact ⟨rfl, rfl⟩
            · simp only [if_neg hr]
              split_ifs <;> exact ⟨rfl, rfl⟩
        · simp only [if_neg hB]
          split_ifs <;> exact ⟨rfl, rfl⟩

theorem updTargets_fold_affs (s : St) : ∀ (l : List Nat) (acc : PG),
    (l.foldl (updTargetsStep s) acc).domainAffinity = acc.domainAffinity
    ∧ (l.foldl (updTargetsStep s) acc).rackAffinity = acc.rackAffinity := by
  intro l
  induction l with
  | nil => intro acc; exact ⟨rfl, rfl⟩
  | cons i rest ih =>
    intro acc
    rw [List.foldl_cons]
    refine ⟨?_, ?_⟩
    · rw [(ih _).1, (updTargetsStep_affs s acc i).1]
    · rw [(ih _).2, (updTargetsStep_affs s acc i).2]

theorem updTargetsPost_affs (pg : PG) :
    (updTargetsPost pg).domainAffinity = pg.domainAffinity
    ∧ (updTargetsPost pg).rackAffinity = pg.rackAffinity := by
  unfold updTargetsPost
  split_ifs <;> exact ⟨rfl, rfl⟩

theorem updateTargets_domA (s : St) (pg : PG) :
    (updateTargets s pg).domainAffinity = pg.domainAffinity := by
  unfold updateTargets
  rw [(updTargetsPost_affs _).1, (updTargets_fold_affs s pg.vms _).1]
  rfl

theorem updateTargets_rackA (s : St) (pg : PG) :
    (updateTargets s pg).rackAffinity = pg.rackAffinity := by
  unfold updateTargets
  rw [(updTargetsPost_affs _).2, (updTargets_fold_affs s pg.vms _).2]
  rfl

theorem tryPlace_affs (cfg : Config) (pg : PG) (l : List Nat) (t : VMType)
    (racks : List RackId) (f : Bool) (s : St) :
    (tryPlace cfg pg l t racks f s).2.2.2.domainAffinity = pg.domainAffinity
    ∧ (tryPlace cfg pg l t racks f s).2.2.2.rackAffinity = pg.rackAffinity := by
  unfold tryPlace
  simp only []
  split_ifs <;> simp [updateTargets_domA, updateTargets_rackA]

theorem tryPlace_some_penalty (cfg : Config) (pg : PG) (l : List Nat) (t : VMType)
    (racks : List RackId) (f : Bool) (s : St) (p : Placement) (s1 : St)
    (rk1 : List RackId) (pg1 : PG)
    (h : tryPlace cfg pg l t racks f s = (some p, s1, rk1, pg1)) :
    p.penalty = tryPlacePenalty pg1 s1 l := by
  unfold tryPlace at h
  simp only [] at h
  split_ifs at h
  all_goals
    first
    | (simp at h
       done)
    | (simp only [Prod.mk.injEq, Option.some.injEq] at h
       obtain ⟨hp1, hs1, hrk, hpg1⟩ := h
       rw [← hp1, ← hs1, ← hpg1])

theorem tryLoop_affs (cfg : Config) (l : List Nat) (t : VMType) (f : Bool) :
    ∀ (fuel : Nat) (pg : PG) (cur extra : List RackId) (s : St),
    (tryLoop cfg l t f fuel pg cur extra s).2.2.1.domainAffinity = pg.domainAffinity
    ∧ (tryLoop cfg l t f fuel pg cur extra s).2.2.1.rackAffinity = pg.rackAffinity := by
  intro fuel
  induction fuel with
  | zero => intro pg cur extra s; exact ⟨rfl, rfl⟩
  | succ n ih =>
    intro pg cur extra s
    unfold tryLoop
    cases htp : tryPlace cfg pg l t cur f s with
    | mk op rest =>
      obtain ⟨s2, cur2, pg2⟩ := rest
      have haff := tryPlace_affs cfg pg l t cur f s
      rw [htp] at haff
      simp only [] at haff
      cases op with
      | some q =>
        simp only []
        exact haff
      | none =>
        simp only []
        cases extra with
        | nil => exact haff
        | cons e rest2 =>
          refine ⟨?_, ?_⟩
          · rw [(ih pg2 (cur2 ++ [e]) rest2 s2).1]
            exact haff.1
          · rw [(ih pg2 (cur2 ++ [e]) rest2 s2).2]
            exact haff.2

theorem tryLoop_some (cfg : Config) (l : List Nat) (t : VMType) (f : Bool) :
    ∀ (fuel : Nat) (pg : PG) (cur extra : List RackId) (s : St) (p : Placement)
      (s1 : St) (pg1 : PG) (b : Bool),
    tryLoop cfg l t f fuel pg cur extra s = (some p, s1, pg1, b) →
    p.penalty = tryPlacePenalty pg1 s1 l := by
  intro fuel
  induction fuel with
  | zero =>
    intro pg cur extra s p s1 pg1 b h
    simp [tryLoop] at h
  | succ n ih =>
    intro pg cur extra s p s1 pg1 b h
    unfold tryLoop at h
    cases htp : tryPlace cfg pg l t cur f s with
    | mk op rest =>
      obtain ⟨s2, cur2, pg2⟩ := rest
      rw [htp] at h
      cases op with
      | some q =>
        simp only [] at h
        simp only [Prod.mk.injEq, Option.some.injEq] at h
        obtain ⟨hq, hs, hpg, hb⟩ := h
        rw [← hq, ← hs, ← hpg]
        exact tryPlace_some_penalty cfg pg l t cur f s q s2 cur2 pg2 htp
      | none =>
        simp only [] at h
        cases extra with
        | nil => simp at h
        | cons e rest2 => exact ih pg2 (cur2 ++ [e]) rest2 s2 p s1 pg1 b h

theorem partitionLoop_scores (cfg : Config) (t : VMType) (racks : List RackId) :
    ∀ (groups : List (Int × List Nat)) (pg : PG) (s : St)
      (pl : List (Nat × List NodeId)) (pen : ℚ) (pl' : List (Nat × List NodeId))
      (pen' : ℚ) (s' : St) (pg' : PG),
    partitionLoop cfg t racks groups pg s pl pen = (some (pl', pen'), s', pg') →
    ∃ scores : List ℚ,
      scores.length = groups.length
      ∧ (∀ q ∈ scores, ∃ (pgi : PG) (si : St) (vmsi : List Nat),
          pgi.domainAffinity = pg.domainAffinity
          ∧ pgi.rackAffinity = pg.rackAffinity
          ∧ q = tryPlacePenalty pgi si vmsi)
      ∧ pen' = scores.foldl qadd pen := by
  intro groups
  induction groups with
  | nil =>
    intro pg s pl pen pl' pen' s' pg' h
    unfold partitionLoop at h
    simp only [Prod.mk.injEq, Option.some.injEq] at h
    exact ⟨[], rfl, (by intro q hq; cases hq), h.1.2.symm⟩
  | cons g rest ih =>
    obtain ⟨part, vms⟩ := g
    intro pg s pl pen pl' pen' s' pg' h
    unfold partitionLoop at h
    simp only [] at h
    cases hse : startExtra (updateTargets (unplaceVMs vms s) pg) part racks
        (sortBy (loadLt cfg (unplaceVMs vms s).topo) racks) with
    | none =>
      rw [hse] at h
      simp at h
    | some se =>
      obtain ⟨startR, extraR⟩ := se
      rw [hse] at h
      simp only [] at h
      cases ht1 : tryLoop cfg vms t false (extraR.length + 1)
          (updateTargets (unplaceVMs vms s) pg) startR extraR (unplaceVMs vms s) with
      | mk op1 r1 =>
        obtain ⟨s1, pg1, b1⟩ := r1
        rw [ht1] at h
        have haff1 := tryLoop_affs cfg vms t false (extraR.length + 1)
          (updateTargets (unplaceVMs vms s) pg) startR extraR (unplaceVMs vms s)
        rw [ht1] at haff1
        simp only [] at haff1
        have hda1 : pg1.domainAffinity = pg.domainAffinity := by
          rw [haff1.1, updateTargets_domA]
        have hra1 : pg1.rackAffinity = pg.rackAffinity := by
          rw [haff1.2, updateTargets_rackA]
        cases op1 with
        | some p =>
          simp only [] at h
          obtain ⟨scores, hlen, hshape, hpen⟩ := ih pg1 s1 (pl ++ p.placements)
            (qadd pen p.penalty) pl' pen' s' pg' h
          have hq := tryLoop_some cfg vms t false (extraR.length + 1)
            (updateTargets (unplaceVMs vms s) pg) startR extraR (unplaceVMs vms s)
            p s1 pg1 b1 ht1
          refine ⟨p.penalty :: scores, by simp [hlen], ?_,
            by rw [List.foldl_cons]; exact hpen⟩
          intro q hq2
          rcases List.mem_cons.mp hq2 with he | hm
          · subst he
            exact ⟨pg1, s1, vms, hda1, hra1, hq⟩
          · obtain ⟨pgi, si, vmsi, h1, h2, h3⟩ := hshape q hm
            exact ⟨pgi, si, vmsi, h1.trans hda1, h2.trans hra1, h3⟩
        | none =>
          simp only [] at h
          cases ht2 : tryLoop cfg vms t true (extraR.length + 1) pg1 startR extraR s1 with
          | mk op2 r2 =>
            obtain ⟨s2, pg2, b2⟩ := r2
            rw [ht2] at h
            have haff2 := tryLoop_affs cfg vms t true (extraR.length + 1) pg1 startR extraR s1
            rw [ht2] at haff2
            simp only [] at haff2
            have hda2 : pg2.domainAffinity = pg.domainAffinity := haff2.1.trans hda1
            have hra2 : pg2.rackAffinity = pg.rackAffinity := haff2.2.trans hra1
            cases op2 with
            | some p =>
              simp only [] at h
              obtain ⟨scores, hlen, hshape, hpen⟩ := ih pg2 s2 (pl ++ p.placements)
                (qadd pen p.penalty) pl' pen' s' pg' h
              have hq := tryLoop_some cfg vms t true (extraR.length + 1) pg1 startR extraR s1
                p s2 pg2 b2 ht2
              refine ⟨p.penalty :: scores, by simp [hlen], ?_,
                by rw [List.foldl_cons]; exact hpen⟩
              intro q hq2
              rcases List.mem_cons.mp hq2 with he | hm
              · subst he
                exact ⟨pg2, s2, vms, hda2, hra2, hq⟩
              · obtain ⟨pgi, si, vmsi, h1, h2, h3⟩ := hshape q hm
                exact ⟨pgi, si, vmsi, h1.trans hda2, h2.trans hra2, h3⟩
            | none =>
              simp at h

/-- Along a successful `partitionLoop` run, the instrumented
`partitionTrace` follows the identical control flow and returns the same
final state and PG; the trace lists, in order, one entry per partition
group carrying that group's member list, the PG record and state at which
its successful `tryPlace` computed the score, and the score itself; and
the accumulated penalty is the fold of the recorded scores. -/
theorem partitionLoop_trace (cfg : Config) (t : VMType) (racks : List RackId) :
    ∀ (groups : List (Int × List Nat)) (pg : PG) (s : St)
      (pl : List (Nat × List NodeId)) (pen : ℚ) (pl' : List (Nat × List NodeId))
      (pen' : ℚ) (s' : St) (pg' : PG),
    partitionLoop cfg t racks groups pg s pl pen = (some (pl', pen'), s', pg') →
    ∃ tr : List (PG × St × List Nat × ℚ),
      partitionTrace cfg t racks groups pg s = (some tr, s', pg')
      ∧ tr.map (fun e => e.2.2.1) = groups.map Prod.snd
      ∧ (∀ e ∈ tr, e.1.domainAffinity = pg.domainAffinity
          ∧ e.1.rackAffinity = pg.rackAffinity
          ∧ e.2.2.2 = tryPlacePenalty e.1 e.2.1 e.2.2.1)
      ∧ pen' = (tr.map (fun e => e.2.2.2)).foldl qadd pen := by
  intro groups
  induction groups with
  | nil =>
    intro pg s pl pen pl' pen' s' pg' h
    unfold partitionLoop at h
    simp only [Prod.mk.injEq, Option.some.injEq] at h
    refine ⟨[], ?_, rfl, (by intro e he; cases he), h.1.2.symm⟩
    have h0 : partitionTrace cfg t racks [] pg s = (some [], s, pg) := rfl
    rw [h0, h.2.1, h.2.2]
  | cons g rest ih =>
    obtain ⟨part, vms⟩ := g
    intro pg s pl pen pl' pen' s' pg' h
    unfold partitionLoop at h
    simp only [] at h
    cases hse : startExtra (updateTargets (unplaceVMs vms s) pg) part racks
        (sortBy (loadLt cfg (unplaceVMs vms s).topo) racks) with
    | none =>
      rw [hse] at h
      simp at h
    | some se =>
      obtain ⟨startR, extraR⟩ := se
      rw [hse] at h
      simp only [] at h
      cases ht1 : tryLoop cfg vms t false (extraR.length + 1)
          (updateTargets (unplaceVMs vms s) pg) startR extraR (unplaceVMs vms s) with
      | mk op1 r1 =>
        obtain ⟨s1, pg1, b1⟩ := r1
        rw [ht1] at h
        have haff1 := tryLoop_affs cfg vms t false (extraR.length + 1)
          (updateTargets (unplaceVMs vms s) pg) startR extraR (unplaceVMs vms s)
        rw [ht1] at haff1
        simp only [] at haff1
        have hda1 : pg1.domainAffinity = pg.domainAffinity := by
          rw [haff1.1, updateTargets_domA]
        have hra1 : pg1.rackAffinity = pg.rackAffinity := by
          rw [haff1.2, updateTargets_rackA]
        cases op1 with
        | some p =>
          simp only [] at h
          obtain ⟨tr, htr, hmap, hshape, hpen⟩ := ih pg1 s1 (pl ++ p.placements)
            (qadd pen p.penalty) pl' pen' s' pg' h
          have hq := tryLoop_some cfg vms t false (extraR.length + 1)
            (updateTargets (unplaceVMs vms s) pg) startR extraR (unplaceVMs vms s)
            p s1 pg1 b1 ht1
          refine ⟨(pg1, s1, vms, p.penalty) :: tr, ?_, ?_, ?_, ?_⟩
          · unfold partitionTrace
            simp only []
            rw [hse]
            simp only []
            rw [ht1]
            simp only []
            rw [htr]
          · simp only [List.map_cons]
            rw [hmap]
          · intro e he
            rcases List.mem_cons.mp he with he1 | hm
            · subst he1
              exact ⟨hda1, hra1, hq⟩
            · obtain ⟨h1, h2, h3⟩ := hshape e hm
              exact ⟨h1.trans hda1, h2.trans hra1, h3⟩
          · simp only [List.map_cons, List.foldl_cons]
            exact hpen
        | none =>
          simp only [] at h
          cases ht2 : tryLoop cfg vms t true (extraR.length + 1) pg1 startR extraR s1 with
          | mk op2 r2 =>
            obtain ⟨s2, pg2, b2⟩ := r2
            rw [ht2] at h
            have haff2 := tryLoop_affs cfg vms t true (extraR.length + 1) pg1 startR extraR s1
            rw [ht2] at haff2
            simp only [] at haff2
            have hda2 : pg2.domainAffinity = pg.domainAffinity := haff2.1.trans hda1
            have hra2 : pg2.rackAffinity = pg.rackAffinity := haff2.2.trans hra1
            cases op2 with
            | some p =>
              simp only [] at h
              obtain ⟨tr, htr, hmap, hshape, hpen⟩ := ih pg2 s2 (pl ++ p.placements)
                (qadd pen p.penalty) pl' pen' s' pg' h
              have hq := tryLoop_some cfg vms t true (extraR.length + 1) pg1 startR extraR s1
                p s2 pg2 b2 ht2
              refine ⟨(pg2, s2, vms, p.penalty) :: tr, ?_, ?_, ?_, ?_⟩
              · unfold partitionTrace
                simp only []
                rw [hse]
                simp only []
                rw [ht1]
                simp only []
                rw [ht2]
                simp only []
                rw [htr]
              · simp only [List.map_cons]
                rw [hmap]
              · intro e he
                rcases List.mem_cons.mp he with he1 | hm
                · subst he1
                  exact ⟨hda2, hra2, hq⟩
                · obtain ⟨h1, h2, h3⟩ := hshape e hm
                  exact ⟨h1.trans hda2, h2.trans hra2, h3⟩
              · simp only [List.map_cons, List.foldl_cons]
                exact hpen
            | none =>
              simp at h

/-- C4, amended: on every successful group attempt the returned penalty is
a sum of one score per partition group of the batch, plus the average load
across the group's racks.  The scores are the ones recorded by the
instrumented run (`partitionTrace`, which retraces the attempt and returns
the same final state and PG): the entry for each partition group carries
that group's own member list together with the PG record and state at
which its successful `tryPlace` scored it, and its score equals that
partition's soft-PM excess count (counted only while the soft per-PM rule
is still in play, and nonnegative), plus `1000` exactly when
`domainAffinity = SOFT` is broken there, plus `1000` exactly when
`rackAffinity = SOFT` is broken there — so each of the two `1000`
penalties is added at most once per partition, not at most once per group
attempt. -/
theorem c4_amended (cfg : Config) (pg : PG) (vmIdxs : List Nat) (t : VMType)
    (racks : List RackId) (s : St) (bp : Placement) (s' : St) (pg' : PG)
    (h : getBestPlacement cfg pg vmIdxs t racks s = (some bp, s', pg')) :
    ∃ tr : List (PG × St × List Nat × ℚ),
      partitionTrace cfg t racks (groupByPartition s vmIdxs) pg s = (some tr, s', pg')
      ∧ tr.map (fun e => e.2.2.1) = (groupByPartition s vmIdxs).map Prod.snd
      ∧ (∀ e ∈ tr,
          e.1.domainAffinity = pg.domainAffinity
          ∧ e.1.rackAffinity = pg.rackAffinity
          ∧ 0 ≤ countSoftExcess e.1 e.2.1 e.2.2.1
          ∧ e.2.2.2 = qofInt
              ((if 0 < e.1.softPMAntiAffinity ∧ e.1.softPMAntiAffinityPossible = true
                  then countSoftExcess e.1 e.2.1 e.2.2.1 else 0)
                + (if e.1.domainAffinity = Affinity.SOFT ∧ e.1.domainAffinityPossible = false
                    then 1000 else 0)
                + (if e.1.rackAffinity = Affinity.SOFT ∧ e.1.rackAffinityPossible = false
                    then 1000 else 0)))
      ∧ bp.penalty = qadd ((tr.map (fun e => e.2.2.2)).foldl qadd (qofInt 0))
          (qdivNat ((racks.map (rackLoad cfg s'.topo)).foldl qadd (qofInt 0))
            racks.length) := by
  unfold getBestPlacement at h
  cases hpl : partitionLoop cfg t racks (groupByPartition s vmIdxs) pg s [] (qofInt 0) with
  | mk op r0 =>
    obtain ⟨s1, pg1⟩ := r0
    rw [hpl] at h
    cases op with
    | none => simp at h
    | some pr =>
      obtain ⟨pl0, pen0⟩ := pr
      simp only [] at h
      simp only [Prod.mk.injEq, Option.some.injEq] at h
      obtain ⟨hbp, hs1, hpg1⟩ := h
      obtain ⟨tr, htr, hmap, hshape, hpen⟩ := partitionLoop_trace cfg t racks
        (groupByPartition s vmIdxs) pg s [] (qofInt 0) pl0 pen0 s1 pg1 hpl
      refine ⟨tr, ?_, hmap, ?_, ?_⟩
      · rw [htr, hs1, hpg1]
      · intro e he
        obtain ⟨hda, hra, hq3⟩ := hshape e he
        exact ⟨hda, hra, countSoftExcess_nonneg e.1 e.2.1 e.2.2.1,
          hq3.trans (tryPlacePenalty_formula e.1 e.2.1 e.2.2.1)⟩
      · rw [← hbp]
        simp only []
        rw [hpen, ← hs1]

/-- Witness for `c4_amended`: the three-partition scenario, whose group
attempt returns penalty `2001` — the trace records one score per
partition, with the `1000` SOFT-rack charge appearing in each partition
that observes the broken affinity. -/
theorem c4_amended_witness :
    ∃ tr : List (PG × St × List Nat × ℚ),
      partitionTrace exC4cfg exC4ty exC4racks (groupByPartition exC4s [1, 2, 3]) exC4pg exC4s
        = (some tr, exC4res.2.1, exC4res.2.2)
      ∧ tr.map (fun e => e.2.2.1) = (groupByPartition exC4s [1, 2, 3]).map Prod.snd
      ∧ (∀ e ∈ tr,
          e.1.domainAffinity = exC4pg.domainAffinity
          ∧ e.1.rackAffinity = exC4pg.rackAffinity
          ∧ 0 ≤ countSoftExcess e.1 e.2.1 e.2.2.1
          ∧ e.2.2.2 = qofInt
              ((if 0 < e.1.softPMAntiAffinity ∧ e.1.softPMAntiAffinityPossible = true
                  then countSoftExcess e.1 e.2.1 e.2.2.1 else 0)
                + (if e.1.domainAffinity = Affinity.SOFT ∧ e.1.domainAffinityPossible = false
                    then 1000 else 0)
                + (if e.1.rackAffinity = Affinity.SOFT ∧ e.1.rackAffinityPossible = false
                    then 1000 else 0)))
      ∧ exC4bp.penalty = qadd ((tr.map (fun e => e.2.2.2)).foldl qadd (qofInt 0))
          (qdivNat ((exC4racks.map (rackLoad exC4cfg exC4res.2.1.topo)).foldl qadd
            (qofInt 0)) exC4racks.length) :=
  c4_amended exC4cfg exC4pg [1, 2, 3] exC4ty exC4racks exC4s exC4bp
    exC4res.2.1 exC4res.2.2 rfl

/-!
### Claim C9: every registered VM is placed, and deletion is safe.
-/

theorem firstSome_some {α β : Type} (f : α → Option β) :
    ∀ (l : List α) (y : β), firstSome f l = some y → ∃ x ∈ l, f x = some y := by
  intro l
  induction l with
  | nil => intro y h; cases h
  | cons x rest ih =>
    intro y h
    unfold firstSome at h
    cases hx : f x with
    | some z =>
      rw [hx] at h
      simp only [] at h
      injection h with h
      exact ⟨x, List.mem_cons_self x rest, by rw [hx, h]⟩
    | none =>
      rw [hx] at h
      simp only [] at h
      obtain ⟨z, hz, he⟩ := ih y h
      exact ⟨z, List.mem_cons_of_mem x hz, he⟩

theorem tryPM_some (cfg : Config) (pg : PG) (t : VMType) (force : Bool) (s : Topo)
    (p : PMId) (ns : List NodeId) (h : tryPM cfg pg t force s p = some ns) :
    ns.length = t.nodes := by
  unfold tryPM at h
  split at h
  · cases h
  · split at h
    · cases h
    · simp only [] at h
      split at h
      · injection h with h
        rw [← h]
        assumption
      · cases h

theorem tryRack_some (cfg : Config) (pg : PG) (t : VMType) (force : Bool) (s : Topo)
    (r : RackId) (ns : List NodeId) (h : tryRack cfg pg t force s r = some ns) :
    ns.length = t.nodes := by
  unfold tryRack at h
  split at h
  · cases h
  · obtain ⟨p, hp, he⟩ := firstSome_some _ _ ns h
    exact tryPM_some cfg pg t force s p ns he

theorem nodupSnoc {α : Type} (l : List α) (i : α) (h : l.Nodup) (hi : ¬ i ∈ l) :
    (l ++ [i]).Nodup := by
  induction l with
  | nil => simp
  | cons a as ih =>
    rcases List.nodup_cons.mp h with ⟨ha, has⟩
    have hia : ¬ i ∈ as := fun hm => hi (List.mem_cons_of_mem a hm)
    have hai : a ≠ i := fun e => hi (e ▸ List.mem_cons_self a as)
    simp only [List.cons_append]
    refine List.nodup_cons.mpr ⟨?_, ih has hia⟩
    intro hm
    rcases List.mem_append.mp hm with hm | hm
    · exact ha hm
    · simp at hm
      exact hai hm

theorem alookup_isSome_of_mem {α β : Type} [DecidableEq α] (k : α) (v : β) :
    ∀ (l : List (α × β)), (k, v) ∈ l → ∃ v', alookup k l = some v' := by
  intro l
  induction l with
  | nil => intro h; cases h
  | cons e rest ih =>
    obtain ⟨k1, v1⟩ := e
    intro h
    unfold alookup
    by_cases hk : k = k1
    · rw [if_pos hk]
      exact ⟨v1, rfl⟩
    · rw [if_neg hk]
      cases h with
      | head => exact absurd rfl hk
      | tail _ hm => exact ih hm

theorem alookupD_covered {α β : Type} [DecidableEq α] (k : α) (l : List (α × β)) (d : β)
    (v : β) (hv : (k, v) ∈ l) : (k, alookupD k l d) ∈ l := by
  obtain ⟨v', hv'⟩ := alookup_isSome_of_mem k v l hv
  unfold alookupD
  rw [hv']
  exact alookup_mem k v' l hv'

theorem searchStep_vms_some {B : List Nat} {s s' : St} (h : SearchStep B s s') (i : Nat)
    (vm : VM) (hv : s.vms i = some vm) : ∃ vm', s'.vms i = some vm' := by
  cases h with
  | place j ns vmj _s hjB hvj h0 =>
    by_cases hij : i = j
    · subst hij
      rw [placeVM_vms_eq i ns s vmj hvj]
      exact ⟨{ vmj with nodes := ns }, by simp [upd]⟩
    · rw [placeVM_vms_ne j i ns s hij]
      exact ⟨vm, hv⟩
  | unplace j _s hjB =>
    by_cases hij : i = j
    · subst hij
      unfold unplaceVM
      rw [hv]
      exact ⟨{ vm with nodes := [] }, by simp [upd]⟩
    · rw [unplaceVM_vms_ne j i s hij]
      exact ⟨vm, hv⟩

theorem searchReach_vms_some {B : List Nat} {s s' : St} (h : SearchReach B s s') (i : Nat)
    (vm : VM) (hv : s.vms i = some vm) : ∃ vm', s'.vms i = some vm' := by
  induction h with
  | refl => exact ⟨vm, hv⟩
  | tail hr hstep ih =>
    obtain ⟨vm1, hv1⟩ := ih
    exact searchStep_vms_some hstep i vm1 hv1

theorem createPGOp_vms (s : St) (i : Nat) (hp sp : Int) (da ra : Affinity) :
    (createPGOp s i hp sp da ra).vms = s.vms := by
  unfold createPGOp
  simp only []
  split <;> rfl

theorem commitVMs_vms_ne (bp : Placement) : ∀ (l : List Nat) (s : St) (j : Nat),
    ¬ j ∈ l → (commitVMs bp l s).1.vms j = s.vms j := by
  intro l
  induction l with
  | nil => intro s j _; rfl
  | cons i rest ih =>
    intro s j hj
    unfold commitVMs
    simp only []
    rw [ih _ j (fun hm => hj (List.mem_cons_of_mem i hm))]
    exact placeVM_vms_ne i j _ s (fun e => hj (e ▸ List.mem_cons_self i rest))

theorem commitVMs_vms_mem (bp : Placement) : ∀ (l : List Nat) (s : St) (i : Nat),
    i ∈ l → l.Nodup → ∀ vm, s.vms i = some vm →
    (commitVMs bp l s).1.vms i =
      some { vm with nodes := alookupD i bp.placements [] } := by
  intro l
  induction l with
  | nil => intro s i hi; cases hi
  | cons j rest ih =>
    intro s i hi hnd vm hv
    unfold commitVMs
    simp only []
    rcases List.mem_cons.mp hi with he | hm
    · subst he
      rw [commitVMs_vms_ne bp rest _ i (List.nodup_cons.mp hnd).1]
      rw [placeVM_vms_eq i (alookupD i bp.placements []) s vm hv]
      simp [upd]
    · have hji : i ≠ j := fun e => (List.nodup_cons.mp hnd).1 (e ▸ hm)
      apply ih _ i hm (List.nodup_cons.mp hnd).2
      rw [placeVM_vms_ne j i _ s hji]
      exact hv

/-- One `tryPlaceInner` iteration preserves the recorded-placement
invariant: every entry has exactly `type.nodes` nodes, keys are distinct,
keys come from `dom`, and every keyed VM is placed in the carried state. -/
theorem tryPlaceInnerStep_inv (cfg : Config) (pg : PG) (t : VMType) (force : Bool)
    (dom : List Nat) (ht : 0 < t.nodes)
    (acc : St × List RackId × List (Nat × List NodeId)) (i : Nat) (hi : i ∈ dom)
    (h1 : ∀ e ∈ acc.2.2, e.2.length = t.nodes)
    (h2 : (acc.2.2.map Prod.fst).Nodup)
    (h3 : ∀ j ∈ acc.2.2.map Prod.fst, j ∈ dom)
    (h4 : ∀ j ∈ acc.2.2.map Prod.fst, ∃ vm, acc.1.vms j = some vm ∧ vm.nodes ≠ []) :
    (∀ e ∈ (tryPlaceInnerStep cfg pg t force acc i).2.2, e.2.length = t.nodes) ∧
    ((tryPlaceInnerStep cfg pg t force acc i).2.2.map Prod.fst).Nodup ∧
    (∀ j ∈ (tryPlaceInnerStep cfg pg t force acc i).2.2.map Prod.fst, j ∈ dom) ∧
    (∀ j ∈ (tryPlaceInnerStep cfg pg t force acc i).2.2.map Prod.fst,
      ∃ vm, (tryPlaceInnerStep cfg pg t force acc i).1.vms j = some vm ∧ vm.nodes ≠ []) := by
  unfold tryPlaceInnerStep
  cases hv : acc.1.vms i with
  | none => exact ⟨h1, h2, h3, h4⟩
  | some vm =>
    simp only []
    by_cases h0 : vm.nodes = []
    · rw [if_neg (by simp [h0])]
      cases hf : firstSome (tryRack cfg pg t force acc.1.topo)
          (sortBy (rackFitLt cfg acc.1.topo t) acc.2.1) with
      | none => exact ⟨h1, h2, h3, h4⟩
      | some ns =>
        have hlen : ns.length = t.nodes := by
          obtain ⟨r, hr, he⟩ := firstSome_some _ _ ns hf
          exact tryRack_some cfg pg t force acc.1.topo r ns he
        have hkey : ¬ i ∈ acc.2.2.map Prod.fst := by
          intro hk
          obtain ⟨vm2, hv2, hn2⟩ := h4 i hk
          rw [hv] at hv2
          injection hv2 with hv2
          rw [← hv2] at hn2
          exact hn2 h0
        refine ⟨?_, ?_, ?_, ?_⟩
        · intro e he
          rcases List.mem_append.mp he with hm | hm
          · exact h1 e hm
          · simp at hm
            rw [hm]
            exact hlen
        · rw [List.map_append]
          exact nodupSnoc _ i h2 hkey
        · intro j hj
          rw [List.map_append] at hj
          rcases List.mem_append.mp hj with hm | hm
          · exact h3 j hm
          · simp at hm
            rw [hm]
            exact hi
        · intro j hj
          rw [List.map_append] at hj
          rcases List.mem_append.mp hj with hm | hm
          · obtain ⟨vmj, hvj, hnj⟩ := h4 j hm
            have hji : j ≠ i := fun e => hkey (e ▸ hm)
            exact ⟨vmj, by rw [placeVM_vms_ne i j ns acc.1 hji]; exact hvj, hnj⟩
          · simp at hm
            rw [hm]
            refine ⟨{ vm with nodes := ns }, ?_, ?_⟩
            · rw [placeVM_vms_eq i ns acc.1 vm hv]
              simp [upd]
            · simp only []
              intro he
              rw [he] at hlen
              simp at hlen
              omega
    · rw [if_pos (by simp [h0])]
      exact ⟨h1, h2, h3, h4⟩

/-- The recorded-placement invariant across a whole `tryPlaceInner` pass. -/
theorem tryPlaceInner_inv (cfg : Config) (pg : PG) (t : VMType) (force : Bool)
    (dom : List Nat) (ht : 0 < t.nodes) (l : List Nat) (s : St) (racks : List RackId)
    (pl : List (Nat × List NodeId))
    (hl : ∀ i ∈ l, i ∈ dom)
    (h1 : ∀ e ∈ pl, e.2.length = t.nodes)
    (h2 : (pl.map Prod.fst).Nodup)
    (h3 : ∀ j ∈ pl.map Prod.fst, j ∈ dom)
    (h4 : ∀ j ∈ pl.map Prod.fst, ∃ vm, s.vms j = some vm ∧ vm.nodes ≠ []) :
    (∀ e ∈ (tryPlaceInner cfg pg l t force s racks pl).2.2, e.2.length = t.nodes) ∧
    ((tryPlaceInner cfg pg l t force s racks pl).2.2.map Prod.fst).Nodup ∧
    (∀ j ∈ (tryPlaceInner cfg pg l t force s racks pl).2.2.map Prod.fst, j ∈ dom) ∧
    (∀ j ∈ (tryPlaceInner cfg pg l t force s racks pl).2.2.map Prod.fst,
      ∃ vm, (tryPlaceInner cfg pg l t force s racks pl).1.vms j = some vm
        ∧ vm.nodes ≠ []) := by
  suffices hgen : ∀ (l : List Nat) (acc : St × List RackId × List (Nat × List NodeId)),
      (∀ i ∈ l, i ∈ dom) →
      (∀ e ∈ acc.2.2, e.2.length = t.nodes) →
      ((acc.2.2.map Prod.fst).Nodup) →
      (∀ j ∈ acc.2.2.map Prod.fst, j ∈ dom) →
      (∀ j ∈ acc.2.2.map Prod.fst, ∃ vm, acc.1.vms j = some vm ∧ vm.nodes ≠ []) →
      (∀ e ∈ (l.foldl (tryPlaceInnerStep cfg pg t force) acc).2.2,
        e.2.length = t.nodes) ∧
      (((l.foldl (tryPlaceInnerStep cfg pg t force) acc).2.2.map Prod.fst).Nodup) ∧
      (∀ j ∈ (l.foldl (tryPlaceInnerStep cfg pg t force) acc).2.2.map Prod.fst,
        j ∈ dom) ∧
      (∀ j ∈ (l.foldl (tryPlaceInnerStep cfg pg t force) acc).2.2.map Prod.fst,
        ∃ vm, (l.foldl (tryPlaceInnerStep cfg pg t force) acc).1.vms j = some vm
          ∧ vm.nodes ≠ []) by
    exact hgen l (s, racks, pl) hl h1 h2 h3 h4
  intro l
  induction l with
  | nil => intro acc _ g1 g2 g3 g4; exact ⟨g1, g2, g3, g4⟩
  | cons i rest ih =>
    intro acc hl h1 h2 h3 h4
    simp only [List.foldl_cons]
    obtain ⟨g1, g2, g3, g4⟩ := tryPlaceInnerStep_inv cfg pg t force dom ht acc i
      (hl i (List.mem_cons_self i rest)) h1 h2 h3 h4
    exact ih _ (fun j hj => hl j (List.mem_cons_of_mem i hj)) g1 g2 g3 g4

/-- From the completeness check of `tryPlace` (enough recorded entries),
distinct keys drawn from the batch must cover the whole batch. -/
theorem tryPlace_final_covers (vmIdxs : List Nat) (t : VMType) (hnd : vmIdxs.Nodup)
    (pl : List (Nat × List NodeId))
    (h1 : ∀ e ∈ pl, e.2.length = t.nodes)
    (h2 : (pl.map Prod.fst).Nodup)
    (h3 : ∀ j ∈ pl.map Prod.fst, j ∈ vmIdxs)
    (hlen : ¬ pl.length < vmIdxs.length) :
    (∀ e ∈ pl, e.2.length = t.nodes) ∧ ∀ i ∈ vmIdxs, ∃ ns, (i, ns) ∈ pl := by
  refine ⟨h1, ?_⟩
  have hsub : (pl.map Prod.fst).toFinset ⊆ vmIdxs.toFinset := by
    intro a ha
    rw [List.mem_toFinset] at ha ⊢
    exact h3 a ha
  have hcard : vmIdxs.toFinset.card ≤ (pl.map Prod.fst).toFinset.card := by
    rw [List.toFinset_card_of_nodup h2, List.toFinset_card_of_nodup hnd,
      List.length_map]
    omega
  have heq : (pl.map Prod.fst).toFinset = vmIdxs.toFinset :=
    Finset.eq_of_subset_of_card_le hsub hcard
  intro i hi
  have hik : i ∈ pl.map Prod.fst := by
    have hm : i ∈ vmIdxs.toFinset := List.mem_toFinset.mpr hi
    rw [← heq] at hm
    exact List.mem_toFinset.mp hm
  obtain ⟨e, hmem, hfst⟩ := List.mem_map.mp hik
  obtain ⟨a, ns⟩ := e
  simp only [] at hfst
  rw [hfst] at hmem
  exact ⟨ns, hmem⟩

/-- On success, `tryPlace` returns a placement covering the whole batch,
each VM with exactly `type.nodes` recorded nodes. -/
theorem tryPlace_covers (cfg : Config) (pg : PG) (vmIdxs : List Nat) (t : VMType)
    (racks : List RackId) (force : Bool) (s : St) (p : Placement) (s' : St)
    (rk : List RackId) (pg' : PG) (ht : 0 < t.nodes) (hnd : vmIdxs.Nodup)
    (h : tryPlace cfg pg vmIdxs t racks force s = (some p, s', rk, pg')) :
    (∀ e ∈ p.placements, e.2.length = t.nodes) ∧
    ∀ i ∈ vmIdxs, ∃ ns, (i, ns) ∈ p.placements := by
  unfold tryPlace at h
  simp only [] at h
  split at h
  · simp at h
  · set s1 := unplaceVMs vmIdxs s with hs1
    set r1 := tryPlaceInner cfg pg vmIdxs t false s1 racks [] with hr1
    have hinv1 := tryPlaceInner_inv cfg pg t false vmIdxs ht vmIdxs s1 racks []
      (fun i hi => hi) (by simp) (by simp) (by simp) (by simp)
    rw [← hr1] at hinv1
    by_cases hc : force ∧ r1.2.2.length < vmIdxs.length
    · rw [if_pos hc] at h
      set r2 := tryPlaceInner cfg pg vmIdxs t true r1.1 r1.2.1 r1.2.2 with hr2
      have hinv2 := tryPlaceInner_inv cfg pg t true vmIdxs ht vmIdxs r1.1 r1.2.1 r1.2.2
        (fun i hi => hi) hinv1.1 hinv1.2.1 hinv1.2.2.1 hinv1.2.2.2
      rw [← hr2] at hinv2
      by_cases hl2 : r2.2.2.length < vmIdxs.length
      · rw [if_pos hl2] at h
        simp at h
      · rw [if_neg hl2] at h
        simp only [Prod.mk.injEq] at h
        obtain ⟨hp, -, -, -⟩ := h
        injection hp with hp
        rw [← hp]
        exact tryPlace_final_covers vmIdxs t hnd r2.2.2 hinv2.1 hinv2.2.1
          hinv2.2.2.1 hl2
    · rw [if_neg hc] at h
      by_cases hl2 : r1.2.2.length < vmIdxs.length
      · rw [if_pos hl2] at h
        simp at h
      · rw [if_neg hl2] at h
        simp only [Prod.mk.injEq] at h
        obtain ⟨hp, -, -, -⟩ := h
        injection hp with hp
        rw [← hp]
        exact tryPlace_final_covers vmIdxs t hnd r1.2.2 hinv1.1 hinv1.2.1
          hinv1.2.2.1 hl2

theorem appendGroup_sub : ∀ (acc : List (Int × List Nat)) (p : Int) (i : Nat),
    ∀ e ∈ appendGroup acc p i, ∀ j ∈ e.2, (∃ e2 ∈ acc, j ∈ e2.2) ∨ j = i := by
  intro acc
  induction acc with
  | nil =>
    intro p i e he j hj
    simp [appendGroup] at he
    rw [he] at hj
    simp at hj
    exact Or.inr hj
  | cons a as ih =>
    obtain ⟨q, lst⟩ := a
    intro p i e he j hj
    unfold appendGroup at he
    by_cases hpq : p = q
    · rw [if_pos hpq] at he
      cases he with
      | head =>
        rcases List.mem_append.mp hj with hm | hm
        · exact Or.inl ⟨(q, lst), List.mem_cons_self _ _, hm⟩
        · simp at hm
          exact Or.inr hm
      | tail _ hmem => exact Or.inl ⟨e, List.mem_cons_of_mem _ hmem, hj⟩
    · rw [if_neg hpq] at he
      cases he with
      | head => exact Or.inl ⟨(q, lst), List.mem_cons_self _ _, hj⟩
      | tail _ hmem =>
        rcases ih p i e hmem j hj with ⟨e2, he2, hj2⟩ | hji
        · exact Or.inl ⟨e2, List.mem_cons_of_mem _ he2, hj2⟩
        · exact Or.inr hji

theorem appendGroup_nodup : ∀ (acc : List (Int × List Nat)) (p : Int) (i : Nat),
    (∀ e ∈ acc, e.2.Nodup) → (∀ e ∈ acc, ¬ i ∈ e.2) →
    ∀ e ∈ appendGroup acc p i, e.2.Nodup := by
  intro acc
  induction acc with
  | nil =>
    intro p i _ _ e he
    simp [appendGroup] at he
    rw [he]
    simp
  | cons a as ih =>
    obtain ⟨q, lst⟩ := a
    intro p i hnd hfr e he
    unfold appendGroup at he
    by_cases hpq : p = q
    · rw [if_pos hpq] at he
      cases he with
      | head =>
        exact nodupSnoc lst i (hnd (q, lst) (List.mem_cons_self _ _))
          (hfr (q, lst) (List.mem_cons_self _ _))
      | tail _ hmem => exact hnd e (List.mem_cons_of_mem _ hmem)
    · rw [if_neg hpq] at he
      cases he with
      | head => exact hnd (q, lst) (List.mem_cons_self _ _)
      | tail _ hmem =>
        exact ih p i (fun e2 he2 => hnd e2 (List.mem_cons_of_mem _ he2))
          (fun e2 he2 => hfr e2 (List.mem_cons_of_mem _ he2)) e hmem

theorem appendGroup_mem_new : ∀ (acc : List (Int × List Nat)) (p : Int) (i : Nat),
    ∃ e ∈ appendGroup acc p i, i ∈ e.2 := by
  intro acc
  induction acc with
  | nil =>
    intro p i
    exact ⟨(p, [i]), List.mem_cons_self _ _, by simp⟩
  | cons a as ih =>
    obtain ⟨q, lst⟩ := a
    intro p i
    unfold appendGroup
    by_cases hpq : p = q
    · rw [if_pos hpq]
      exact ⟨(q, lst ++ [i]), List.mem_cons_self _ _, by simp⟩
    · rw [if_neg hpq]
      obtain ⟨e, he, hi⟩ := ih p i
      exact ⟨e, List.mem_cons_of_mem _ he, hi⟩

theorem appendGroup_mem_old : ∀ (acc : List (Int × List Nat)) (p : Int) (i : Nat)
    (e2 : Int × List Nat), e2 ∈ acc → ∀ j ∈ e2.2,
    ∃ e ∈ appendGroup acc p i, j ∈ e.2 := by
  intro acc
  induction acc with
  | nil => intro p i e2 he2; cases he2
  | cons a as ih =>
    obtain ⟨q, lst⟩ := a
    intro p i e2 he2 j hj
    unfold appendGroup
    by_cases hpq : p = q
    · rw [if_pos hpq]
      cases he2 with
      | head =>
        exact ⟨(q, lst ++ [i]), List.mem_cons_self _ _, List.mem_append_left _ hj⟩
      | tail _ hmem => exact ⟨e2, List.mem_cons_of_mem _ hmem, hj⟩
    · rw [if_neg hpq]
      cases he2 with
      | head => exact ⟨(q, lst), List.mem_cons_self _ _, hj⟩
      | tail _ hmem =>
        obtain ⟨e, he, hje⟩ := ih p i e2 hmem j hj
        exact ⟨e, List.mem_cons_of_mem _ he, hje⟩

/-- The `vmsByPartition` fold: starting from group lists that are
duplicate-free and disjoint from the remaining indices, it keeps every
group list duplicate-free, keeps every already-grouped index grouped, and
groups every remaining registered index. -/
theorem groupByPartition_inv (s : St) :
    ∀ (l : List Nat) (acc : List (Int × List Nat)),
    l.Nodup →
    (∀ e ∈ acc, e.2.Nodup) →
    (∀ e ∈ acc, ∀ j ∈ e.2, ¬ j ∈ l) →
    (∀ e ∈ l.foldl (fun acc i =>
        match s.vms i with
        | none => acc
        | some vm => appendGroup acc vm.partition i) acc, e.2.Nodup) ∧
    (∀ e2 ∈ acc, ∀ j ∈ e2.2, ∃ e ∈ l.foldl (fun acc i =>
        match s.vms i with
        | none => acc
        | some vm => appendGroup acc vm.partition i) acc, j ∈ e.2) ∧
    (∀ i ∈ l, ∀ vm, s.vms i = some vm → ∃ e ∈ l.foldl (fun acc i =>
        match s.vms i with
        | none => acc
        | some vm => appendGroup acc vm.partition i) acc, i ∈ e.2) := by
  intro l
  induction l with
  | nil =>
    intro acc _ hnd _
    exact ⟨hnd, fun e2 he2 j hj => ⟨e2, he2, hj⟩, fun i hi => absurd hi (by simp)⟩
  | cons i rest ih =>
    intro acc hl hnd hfr
    simp only [List.foldl_cons]
    have hilr := List.nodup_cons.mp hl
    cases hv : s.vms i with
    | none =>
      simp only []
      obtain ⟨g1, g2, g3⟩ := ih acc hilr.2 hnd
        (fun e he j hj hm => hfr e he j hj (List.mem_cons_of_mem i hm))
      refine ⟨g1, g2, ?_⟩
      intro a ha vm hvm
      rcases List.mem_cons.mp ha with he | hm
      · rw [he] at hvm
        rw [hv] at hvm
        cases hvm
      · exact g3 a hm vm hvm
    | some vm =>
      simp only []
      have hfri : ∀ e ∈ acc, ¬ i ∈ e.2 :=
        fun e he hm => hfr e he i hm (List.mem_cons_self i rest)
      have hnd' : ∀ e ∈ appendGroup acc vm.partition i, e.2.Nodup :=
        appendGroup_nodup acc vm.partition i hnd hfri
      have hfr' : ∀ e ∈ appendGroup acc vm.partition i, ∀ j ∈ e.2, ¬ j ∈ rest := by
        intro e he j hj hm
        rcases appendGroup_sub acc vm.partition i e he j hj with ⟨e2, he2, hj2⟩ | hji
        · exact hfr e2 he2 j hj2 (List.mem_cons_of_mem i hm)
        · rw [hji] at hm
          exact hilr.1 hm
      obtain ⟨g1, g2, g3⟩ := ih (appendGroup acc vm.partition i) hilr.2 hnd' hfr'
      refine ⟨g1, ?_, ?_⟩
      · intro e2 he2 j hj
        obtain ⟨e, he, hje⟩ := appendGroup_mem_old acc vm.partition i e2 he2 j hj
        exact g2 e he j hje
      · intro a ha vma hvma
        rcases List.mem_cons.mp ha with he | hm
        · obtain ⟨e, he', hie⟩ := appendGroup_mem_new acc vm.partition i
          rw [he]
          exact g2 e he' i hie
        · exact g3 a hm vma hvma

theorem groupByPartition_nodup (s : St) (vmIdxs : List Nat) (h : vmIdxs.Nodup) :
    ∀ e ∈ groupByPartition s vmIdxs, e.2.Nodup :=
  (groupByPartition_inv s vmIdxs [] h (by simp) (by simp)).1

theorem groupByPartition_covers (s : St) (vmIdxs : List Nat) (h : vmIdxs.Nodup) :
    ∀ i ∈ vmIdxs, ∀ vm, s.vms i = some vm →
    ∃ e ∈ groupByPartition s vmIdxs, i ∈ e.2 :=
  (groupByPartition_inv s vmIdxs [] h (by simp) (by simp)).2.2

/-- Success of a rack-expansion loop yields a batch-covering placement. -/
theorem tryLoop_covers (cfg : Config) (vmIdxs : List Nat) (t : VMType) (force : Bool)
    (ht : 0 < t.nodes) (hnd : vmIdxs.Nodup) :
    ∀ (fuel : Nat) (pg : PG) (cur extra : List RackId) (s : St) (p : Placement)
      (s' : St) (pg' : PG) (b : Bool),
    tryLoop cfg vmIdxs t force fuel pg cur extra s = (some p, s', pg', b) →
    (∀ e ∈ p.placements, e.2.length = t.nodes) ∧
    ∀ i ∈ vmIdxs, ∃ ns, (i, ns) ∈ p.placements := by
  intro fuel
  induction fuel with
  | zero =>
    intro pg cur extra s p s' pg' b h
    simp [tryLoop] at h
  | succ fuel ih =>
    intro pg cur extra s p s' pg' b h
    unfold tryLoop at h
    cases htp : tryPlace cfg pg vmIdxs t cur force s with
    | mk res rest =>
      obtain ⟨sA, rkA, pgA⟩ := rest
      rw [htp] at h
      cases res with
      | some q =>
        simp only [] at h
        simp only [Prod.mk.injEq] at h
        obtain ⟨hq, -, -, -⟩ := h
        injection hq with hq
        rw [← hq]
        exact tryPlace_covers cfg pg vmIdxs t cur force s q sA rkA pgA ht hnd htp
      | none =>
        simp only [] at h
        cases extra with
        | nil => simp at h
        | cons e rest2 => exact ih pgA (rkA ++ [e]) rest2 sA p s' pg' b h

/-- Success of the partition loop yields a placement list whose entries all
have `type.nodes` nodes and whose keys cover the carried placements and
every partition group. -/
theorem partitionLoop_covers (cfg : Config) (t : VMType) (racks : List RackId)
    (ht : 0 < t.nodes) :
    ∀ (groups : List (Int × List Nat)) (pg : PG) (s : St)
      (pl : List (Nat × List NodeId)) (pen : ℚ) (pl' : List (Nat × List NodeId))
      (pen' : ℚ) (s' : St) (pg' : PG),
    (∀ e ∈ groups, e.2.Nodup) →
    (∀ e ∈ pl, e.2.length = t.nodes) →
    partitionLoop cfg t racks groups pg s pl pen = (some (pl', pen'), s', pg') →
    (∀ e ∈ pl', e.2.length = t.nodes) ∧
    (∀ i, ((∃ ns, (i, ns) ∈ pl) ∨ ∃ e ∈ groups, i ∈ e.2) → ∃ ns, (i, ns) ∈ pl') := by
  intro groups
  induction groups with
  | nil =>
    intro pg s pl pen pl' pen' s' pg' _ hpl h
    unfold partitionLoop at h
    simp only [Prod.mk.injEq, Option.some.injEq] at h
    obtain ⟨⟨h1, -⟩, -, -⟩ := h
    rw [← h1]
    refine ⟨hpl, ?_⟩
    intro i hi
    rcases hi with ⟨ns, hns⟩ | ⟨e, he, -⟩
    · exact ⟨ns, hns⟩
    · cases he
  | cons g rest ih =>
    obtain ⟨part, vms⟩ := g
    intro pg s pl pen pl' pen' s' pg' hgnd hpl h
    have hvnd : vms.Nodup := hgnd (part, vms) (List.mem_cons_self _ _)
    have hrnd : ∀ e ∈ rest, e.2.Nodup :=
      fun e he => hgnd e (List.mem_cons_of_mem _ he)
    unfold partitionLoop at h
    simp only [] at h
    cases hse : startExtra (updateTargets (unplaceVMs vms s) pg) part racks
        (sortBy (loadLt cfg (unplaceVMs vms s).topo) racks) with
    | none =>
      rw [hse] at h
      simp at h
    | some se =>
      obtain ⟨startR, extraR⟩ := se
      rw [hse] at h
      simp only [] at h
      cases htl : tryLoop cfg vms t false (extraR.length + 1)
          (updateTargets (unplaceVMs vms s) pg) startR extraR (unplaceVMs vms s) with
      | mk res1 rest1 =>
        obtain ⟨sA, pgA, bA⟩ := rest1
        rw [htl] at h
        cases res1 with
        | some q =>
          simp only [] at h
          have hq := tryLoop_covers cfg vms t false ht hvnd (extraR.length + 1)
            (updateTargets (unplaceVMs vms s) pg) startR extraR (unplaceVMs vms s)
            q sA pgA bA htl
          have hpl2 : ∀ e ∈ pl ++ q.placements, e.2.length = t.nodes := by
            intro e he
            rcases List.mem_append.mp he with hm | hm
            · exact hpl e hm
            · exact hq.1 e hm
          obtain ⟨g1, g2⟩ := ih pgA sA (pl ++ q.placements) (qadd pen q.penalty)
            pl' pen' s' pg' hrnd hpl2 h
          refine ⟨g1, ?_⟩
          intro i hi
          rcases hi with ⟨ns, hns⟩ | ⟨e, he, hie⟩
          · exact g2 i (Or.inl ⟨ns, List.mem_append_left _ hns⟩)
          · rcases List.mem_cons.mp he with hee | hm
            · obtain ⟨ns, hns⟩ := hq.2 i (by rw [hee] at hie; exact hie)
              exact g2 i (Or.inl ⟨ns, List.mem_append_right _ hns⟩)
            · exact g2 i (Or.inr ⟨e, hm, hie⟩)
        | none =>
          simp only [] at h
          cases htl2 : tryLoop cfg vms t true (extraR.length + 1) pgA startR extraR sA with
          | mk res2 rest2 =>
            obtain ⟨sB, pgB, bB⟩ := rest2
            rw [htl2] at h
            cases res2 with
            | some q =>
              simp only [] at h
              have hq := tryLoop_covers cfg vms t true ht hvnd (extraR.length + 1)
                pgA startR extraR sA q sB pgB bB htl2
              have hpl2 : ∀ e ∈ pl ++ q.placements, e.2.length = t.nodes := by
                intro e he
                rcases List.mem_append.mp he with hm | hm
                · exact hpl e hm
                · exact hq.1 e hm
              obtain ⟨g1, g2⟩ := ih pgB sB (pl ++ q.placements) (qadd pen q.penalty)
                pl' pen' s' pg' hrnd hpl2 h
              refine ⟨g1, ?_⟩
              intro i hi
              rcases hi with ⟨ns, hns⟩ | ⟨e, he, hie⟩
              · exact g2 i (Or.inl ⟨ns, List.mem_append_left _ hns⟩)
              · rcases List.mem_cons.mp he with hee | hm
                · obtain ⟨ns, hns⟩ := hq.2 i (by rw [hee] at hie; exact hie)
                  exact g2 i (Or.inl ⟨ns, List.mem_append_right _ hns⟩)
                · exact g2 i (Or.inr ⟨e, hm, hie⟩)
            | none =>
              simp only [] at h
              simp at h

/-- Success of one per-group feasibility attempt covers the whole batch
(every batch VM registered in the entry state gets `type.nodes` nodes). -/
theorem getBestPlacement_covers (cfg : Config) (pg : PG) (vmIdxs : List Nat)
    (t : VMType) (racks : List RackId) (s : St) (p : Placement) (s' : St) (pg' : PG)
    (ht : 0 < t.nodes) (hnd : vmIdxs.Nodup)
    (hsome : ∀ i ∈ vmIdxs, ∃ vm, s.vms i = some vm)
    (h : getBestPlacement cfg pg vmIdxs t racks s = (some p, s', pg')) :
    (∀ e ∈ p.placements, e.2.length = t.nodes) ∧
    ∀ i ∈ vmIdxs, ∃ ns, (i, ns) ∈ p.placements := by
  unfold getBestPlacement at h
  cases hpl : partitionLoop cfg t racks (groupByPartition s vmIdxs) pg s [] (qofInt 0) with
  | mk res rest =>
    obtain ⟨s1, pg1⟩ := rest
    rw [hpl] at h
    cases res with
    | none =>
      simp at h
    | some r =>
      obtain ⟨pl, pen⟩ := r
      simp only [] at h
      simp only [Prod.mk.injEq] at h
      obtain ⟨hp, -, -⟩ := h
      injection hp with hp
      obtain ⟨g1, g2⟩ := partitionLoop_covers cfg t racks ht
        (groupByPartition s vmIdxs) pg s [] (qofInt 0) pl pen s1 pg1
        (groupByPartition_nodup s vmIdxs hnd) (by simp) hpl
      rw [← hp]
      refine ⟨g1, ?_⟩
      intro i hi
      obtain ⟨vm, hvm⟩ := hsome i hi
      obtain ⟨e, he, hie⟩ := groupByPartition_covers s vmIdxs hnd i hi vm hvm
      exact g2 i (Or.inr ⟨e, he, hie⟩)

/-- Success of the whole group loop yields a batch-covering placement. -/
theorem groupLoop_covers (cfg : Config) (vmIdxs : List Nat) (t : VMType)
    (ht : 0 < t.nodes) (hnd : vmIdxs.Nodup) :
    ∀ (gs : List (List RackId)) (pg : PG) (s : St) (best : Option Placement)
      (bp : Placement) (s' : St) (pg' : PG),
    (∀ i ∈ vmIdxs, ∃ vm, s.vms i = some vm) →
    (∀ b, best = some b → (∀ e ∈ b.placements, e.2.length = t.nodes) ∧
      ∀ i ∈ vmIdxs, ∃ ns, (i, ns) ∈ b.placements) →
    groupLoop cfg vmIdxs t gs pg s best = (some bp, s', pg') →
    (∀ e ∈ bp.placements, e.2.length = t.nodes) ∧
    ∀ i ∈ vmIdxs, ∃ ns, (i, ns) ∈ bp.placements := by
  intro gs
  induction gs with
  | nil =>
    intro pg s best bp s' pg' _ hbest h
    unfold groupLoop at h
    simp only [Prod.mk.injEq] at h
    exact hbest bp h.1
  | cons g rest ih =>
    intro pg s best bp s' pg' hsome hbest h
    unfold groupLoop at h
    cases hbpg : getBestPlacement cfg pg vmIdxs t g s with
    | mk res rest1 =>
      obtain ⟨s1, pg1⟩ := rest1
      rw [hbpg] at h
      have hsome1 : ∀ i ∈ vmIdxs, ∃ vm, s1.vms i = some vm := by
        have hre := reach_getBestPlacement cfg pg vmIdxs t g vmIdxs s (fun i hi => hi)
        rw [hbpg] at hre
        intro i hi
        obtain ⟨vm, hv⟩ := hsome i hi
        exact searchReach_vms_some hre i vm hv
      cases res with
      | none =>
        simp only [] at h
        exact ih pg1 s1 best bp s' pg' hsome1 hbest h
      | some q =>
        simp only [] at h
        have hq := getBestPlacement_covers cfg pg vmIdxs t g s q s1 pg1 ht hnd hsome hbpg
        cases best with
        | none =>
          simp only [] at h
          refine ih pg1 s1 (some q) bp s' pg' hsome1 ?_ h
          intro b hb
          injection hb with hb
          rw [← hb]
          exact hq
        | some b =>
          simp only [] at h
          by_cases hlt : qltb q.penalty b.penalty = true
          · rw [if_pos hlt] at h
            refine ih pg1 s1 (some q) bp s' pg' hsome1 ?_ h
            intro b2 hb2
            injection hb2 with hb2
            rw [← hb2]
            exact hq
          · rw [if_neg hlt] at h
            refine ih pg1 s1 (some b) bp s' pg' hsome1 ?_ h
            intro b2 hb2
            injection hb2 with hb2
            rw [← hb2]
            exact hbest b rfl

/-- The committed state of a successful creation keeps every registered VM
placed: batch VMs get their covering recorded nodes, others are
untouched. -/
theorem createPipeline_allPlaced (cfg : Config) (s : St) (idxs : List Nat) (t : VMType)
    (g : Nat) (q : Int) (groups : List (List RackId)) (pgx : PG) (bp : Placement)
    (s' : St) (ht : 0 < t.nodes)
    (hnodup : idxs.Nodup) (hfresh : ∀ i ∈ idxs, s.vms i = none)
    (hall : allPlaced s)
    (hbp : (groupLoop cfg idxs t groups pgx (registerVMs idxs t g q s) none).1 = some bp)
    (hsv : s'.vms = (commitVMs bp idxs (unplaceVMs idxs
      (groupLoop cfg idxs t groups pgx (registerVMs idxs t g q s) none).2.1)).1.vms) :
    allPlaced s' := by
  have hreg : ∀ i ∈ idxs, ∃ qq : Int, (registerVMs idxs t g q s).vms i =
      some { index := i, type := t, pgIndex := g, partition := qq, nodes := [] } := by
    intro i hi
    obtain ⟨qq, hq, -⟩ := registerVMsAux_vms_mem t g q 0 idxs s hnodup hfresh i hi
    refine ⟨qq, ?_⟩
    rw [show registerVMs idxs t g q s = registerVMsAux t g q 0 idxs s from rfl]
    exact hq
  have hunp : ∀ i ∈ idxs, ∀ vm, (registerVMs idxs t g q s).vms i = some vm →
      vm.nodes = [] := by
    intro i hi vm hv
    obtain ⟨qq, hq⟩ := hreg i hi
    rw [hq] at hv
    injection hv with hv
    rw [← hv]
  have hreach : SearchReach idxs (registerVMs idxs t g q s)
      (groupLoop cfg idxs t groups pgx (registerVMs idxs t g q s) none).2.1 :=
    reach_groupLoop cfg idxs t groups pgx _ none idxs (fun i hi => hi)
  have hs2 : unplaceVMs idxs
      (groupLoop cfg idxs t groups pgx (registerVMs idxs t g q s) none).2.1
      = registerVMs idxs t g q s := by
    rw [searchReach_unplaceVMs hreach]
    exact unplaceVMs_of_unplaced idxs _ hunp
  have hgl : groupLoop cfg idxs t groups pgx (registerVMs idxs t g q s) none =
      (some bp,
       (groupLoop cfg idxs t groups pgx (registerVMs idxs t g q s) none).2.1,
       (groupLoop cfg idxs t groups pgx (registerVMs idxs t g q s) none).2.2) := by
    rw [← hbp]
  have hsome : ∀ i ∈ idxs, ∃ vm, (registerVMs idxs t g q s).vms i = some vm := by
    intro i hi
    obtain ⟨qq, hq⟩ := hreg i hi
    exact ⟨_, hq⟩
  have hcov := groupLoop_covers cfg idxs t ht hnodup groups pgx
    (registerVMs idxs t g q s) none bp
    (groupLoop cfg idxs t groups pgx (registerVMs idxs t g q s) none).2.1
    (groupLoop cfg idxs t groups pgx (registerVMs idxs t g q s) none).2.2
    hsome (fun b hb => by cases hb) hgl
  intro i vm hv
  rw [hsv] at hv
  by_cases hi : i ∈ idxs
  · obtain ⟨qq, hq⟩ := hreg i hi
    have hs2i : (unplaceVMs idxs
        (groupLoop cfg idxs t groups pgx (registerVMs idxs t g q s) none).2.1).vms i =
        some { index := i, type := t, pgIndex := g, partition := qq, nodes := [] } := by
      rw [hs2]
      exact hq
    rw [commitVMs_vms_mem bp idxs _ i hi hnodup _ hs2i] at hv
    injection hv with hv
    obtain ⟨ns, hns⟩ := hcov.2 i hi
    have hmem := alookupD_covered i bp.placements [] ns hns
    have hlen : (alookupD i bp.placements []).length = t.nodes := hcov.1 _ hmem
    have hvn : vm.nodes = alookupD i bp.placements [] := by rw [← hv]
    have hvt : vm.type = t := by rw [← hv]
    refine ⟨?_, ?_⟩
    · rw [hvn]
      intro he
      rw [he] at hlen
      simp at hlen
      omega
    · rw [hvn, hvt, hlen]
  · rw [commitVMs_vms_ne bp idxs _ i hi, hs2,
      show registerVMs idxs t g q s = registerVMsAux t g q 0 idxs s from rfl,
      registerVMsAux_vms_ne t g q 0 idxs s i hi] at hv
    exact hall i vm hv

theorem createVMs_allPlaced (cfg : Config) (s : St) (idxs : List Nat) (ti g : Nat)
    (part el : Int) (s' : St) (out : List (List Int))
    (htypes : cfgTypesPos cfg) (hnodup : idxs.Nodup)
    (hfresh : ∀ i ∈ idxs, s.vms i = none) (hall : allPlaced s)
    (h : createVMs cfg s idxs ti g part el = some (s', out, true)) :
    allPlaced s' := by
  unfold createVMs at h
  by_cases hel : (14 : Int) ≤ el
  · rw [if_pos hel] at h
    simp at h
  · rw [if_neg hel] at h
    by_cases hti : ti = 0
    · rw [if_pos hti] at h
      exact Option.noConfusion h
    · rw [if_neg hti] at h
      cases hty : cfg.types.get? (ti - 1) with
      | none =>
        rw [hty] at h
        cases hpg : s.pgs g <;> rw [hpg] at h <;> simp at h
      | some t =>
        rw [hty] at h
        cases hpg : s.pgs g with
        | none =>
          rw [hpg] at h
          simp at h
        | some pg0 =>
          rw [hpg] at h
          simp only [] at h
          injection h with h
          have ht : 0 < t.nodes := htypes t (List.get?_mem hty)
          obtain ⟨bp, hbp, -, hsv⟩ := createCommit_true g idxs _ s' out h
          exact createPipeline_allPlaced cfg s idxs t g _ _ _ bp s' ht hnodup
            hfresh hall hbp hsv

theorem deleteVMs_allPlaced : ∀ (l : List Nat) (s s' : St), allPlaced s →
    deleteVMs s l = some s' → allPlaced s' := by
  intro l
  induction l with
  | nil =>
    intro s s' hall h
    unfold deleteVMs at h
    injection h with h
    rw [← h]
    exact hall
  | cons i rest ih =>
    intro s s' hall h
    unfold deleteVMs at h
    cases hv : s.vms i with
    | none =>
      rw [hv] at h
      cases h
    | some vm =>
      rw [hv] at h
      simp only [] at h
      apply ih _ _ ?_ h
      intro j vmj hvj
      by_cases hji : j = i
      · rw [hji, removeVM_vms_self] at hvj
        cases hvj
      · rw [removeVM_vms_ne i j _ hji, deregisterFromPG_vms,
          unplaceVM_vms_ne i j s hji] at hvj
        exact hall j vmj hvj

theorem step_allPlaced (cfg : Config) (s : St) (r : Request) (el : Int) (s' : St)
    (out : List (List Int)) (htypes : cfgTypesPos cfg) (hall : allPlaced s)
    (h : step cfg s r el = some (s', out, true)) : allPlaced s' := by
  cases r with
  | mkpg i hp sp da ra =>
    unfold step at h
    injection h with h
    simp only [Prod.mk.injEq] at h
    rw [← h.1]
    intro j vm hv
    rw [createPGOp_vms] at hv
    exact hall j vm hv
  | create idxs ti pi part =>
    unfold step at h
    simp only [] at h
    by_cases hel : (14 : Int) ≤ el
    · rw [if_pos hel] at h
      simp at h
    · rw [if_neg hel] at h
      by_cases hwf : wfCreate s idxs
      · rw [if_pos hwf] at h
        exact createVMs_allPlaced cfg s idxs ti pi part el s' out htypes
          hwf.2.1 hwf.2.2 hall h
      · rw [if_neg hwf] at h
        cases h
  | delete idxs =>
    unfold step at h
    simp only [] at h
    cases hd : deleteVMs s idxs with
    | none =>
      rw [hd] at h
      cases h
    | some sx =>
      rw [hd] at h
      simp only [Option.map] at h
      injection h with h
      simp only [Prod.mk.injEq] at h
      rw [← h.1]
      exact deleteVMs_allPlaced idxs s sx hall hd
  | terminate =>
    unfold step at h
    simp at h

theorem allPlaced_deleteSafe : ∀ (l : List Nat) (s : St), allPlaced s →
    deleteSafe s l := by
  intro l
  induction l with
  | nil => intro s _; trivial
  | cons i rest ih =>
    intro s hall
    simp only [deleteSafe]
    intro vm hv
    refine ⟨(hall i vm hv).1, ?_⟩
    apply ih
    intro j vmj hvj
    by_cases hji : j = i
    · rw [hji, removeVM_vms_self] at hvj
      cases hvj
    · rw [removeVM_vms_ne i j _ hji, deregisterFromPG_vms,
        unplaceVM_vms_ne i j s hji] at hvj
      exact hall j vmj hvj

/-- C9: after every successful request the VM registry holds only placed
VMs — each on a non-empty node list of exactly `type.nodes` nodes (the
commit loop of `createVMs` places every batch VM at its recorded nodes,
and `deleteVMs` removes what it unplaces) — and consequently, along any
`deleteVMs` traversal from such a state, every VM the loop finds is still
placed when its `unplace` runs, so the `nodes[0]` access never indexes an
empty vector. -/
theorem c9_all_placed (cfg : Config) (s : St) (htypes : cfgTypesPos cfg)
    (h : ReachOk cfg s) : allPlaced s ∧ ∀ idxs, deleteSafe s idxs := by
  have hall : allPlaced s := by
    induction h with
    | init =>
      intro i vm hv
      simp [initSt] at hv
    | next hprev hstep ih => exact step_allPlaced cfg _ _ _ _ _ htypes ih hstep
  exact ⟨hall, fun idxs => allPlaced_deleteSafe idxs s hall⟩

/-- Witness for `c9_all_placed`: after creating PG 1 and VM 1 on the
`exC2cfg` fleet, every registered VM is placed and deleting `[1]` is
safe. -/
theorem c9_all_placed_witness :
    allPlaced exC3r1.1 ∧ deleteSafe exC3r1.1 [1] := by
  have hreach : ReachOk exC2cfg exC3r1.1 :=
    @ReachOk.next exC2cfg exC3s0 exC3r1.1 (Request.create [1] 1 1 0) 0 exC3r1.2.1
      (@ReachOk.next exC2cfg (initSt exC2cfg) exC3s0
        (Request.mkpg 1 0 0 Affinity.NONE Affinity.NONE) 0 [] ReachOk.init rfl)
      rfl
  have hc := c9_all_placed exC2cfg exC3r1.1 (by decide) hreach
  exact ⟨hc.1, hc.2 [1]⟩

/-!
### Claim C1 (amended): no rack mixes positive partitions of a hard PG.
-/

theorem insertSorted_mem {α : Type} (lt : α → α → Bool) (x z : α) :
    ∀ l : List α, z ∈ insertSorted lt x l ↔ z = x ∨ z ∈ l := by
  intro l
  induction l with
  | nil => simp [insertSorted]
  | cons y ys ih =>
    unfold insertSorted
    split
    · simp
    · simp [ih]
      tauto

theorem sortBy_mem {α : Type} (lt : α → α → Bool) (z : α) (l : List α) :
    z ∈ sortBy lt l ↔ z ∈ l := by
  suffices h : ∀ (l : List α) (acc : List α),
      z ∈ l.foldl (fun acc x => insertSorted lt x acc) acc ↔ z ∈ acc ∨ z ∈ l by
    rw [show sortBy lt l = l.foldl (fun acc x => insertSorted lt x acc) [] from rfl, h]
    simp
  intro l2
  induction l2 with
  | nil => intro acc; simp
  | cons x xs ih =>
    intro acc
    simp only [List.foldl_cons]
    rw [ih, insertSorted_mem]
    simp
    tauto

theorem pmsOf_rack (cfg : Config) (r : RackId) : ∀ p ∈ cfg.pmsOf r, pmRack p = r := by
  intro p hp
  unfold Config.pmsOf at hp
  obtain ⟨k, -, he⟩ := List.mem_map.mp hp
  rw [← he]
  rfl

theorem nodesOf_rack (cfg : Config) (p : PMId) :
    ∀ n ∈ cfg.nodesOf p, nodeRack n = pmRack p := by
  intro n hn
  unfold Config.nodesOf at hn
  obtain ⟨k, -, he⟩ := List.mem_map.mp hn
  rw [← he]
  rfl

theorem collectNodes_rack (cfg : Config) (s : Topo) (t : VMType) (p : PMId) :
    ∀ n ∈ collectNodes cfg s t p, nodeRack n = pmRack p := by
  intro n hn
  unfold collectNodes at hn
  simp only [] at hn
  have h1 := List.take_subset _ _ hn
  have h2 := List.mem_of_mem_filter h1
  have h3 := (sortBy_mem _ n _).mp h2
  exact nodesOf_rack cfg p n h3

theorem tryPM_rack (cfg : Config) (pg : PG) (t : VMType) (force : Bool) (s : Topo)
    (p : PMId) (ns : List NodeId) (h : tryPM cfg pg t force s p = some ns) :
    ∀ n ∈ ns, nodeRack n = pmRack p := by
  unfold tryPM at h
  split at h
  · cases h
  · split at h
    · cases h
    · simp only [] at h
      split at h
      · injection h with h
        rw [← h]
        exact fun n hn => collectNodes_rack cfg s t p n hn
      · cases h

theorem tryRack_rack (cfg : Config) (pg : PG) (t : VMType) (force : Bool) (s : Topo)
    (r : RackId) (ns : List NodeId) (h : tryRack cfg pg t force s r = some ns) :
    ∀ n ∈ ns, nodeRack n = r := by
  unfold tryRack at h
  split at h
  · cases h
  · obtain ⟨p, hp, he⟩ := firstSome_some _ _ ns h
    exact fun n hn => (tryPM_rack cfg pg t force s p ns he n hn).trans
      (pmsOf_rack cfg r p hp)

theorem prInsert_mem_new (p : Int) (r : RackId) : ∀ acc : List (Int × List RackId),
    ∃ l, (p, l) ∈ prInsert p r acc ∧ r ∈ l := by
  intro acc
  induction acc with
  | nil => exact ⟨[r], List.mem_cons_self _ _, by simp⟩
  | cons e rest ih =>
    obtain ⟨q, rs⟩ := e
    unfold prInsert
    by_cases hpq : p = q
    · rw [if_pos hpq]
      by_cases hr : r ∈ rs
      · rw [if_pos hr]
        exact ⟨rs, by rw [hpq]; exact List.mem_cons_self _ _, hr⟩
      · rw [if_neg hr]
        exact ⟨rs ++ [r], by rw [hpq]; exact List.mem_cons_self _ _, by simp⟩
    · rw [if_neg hpq]
      obtain ⟨l, hl, hr⟩ := ih
      exact ⟨l, List.mem_cons_of_mem _ hl, hr⟩

theorem prInsert_mem_old (p : Int) (r : RackId) : ∀ (acc : List (Int × List RackId))
    (q : Int) (l : List RackId) (r0 : RackId), (q, l) ∈ acc → r0 ∈ l →
    ∃ l', (q, l') ∈ prInsert p r acc ∧ r0 ∈ l' := by
  intro acc
  induction acc with
  | nil => intro q l r0 hm; cases hm
  | cons e rest ih =>
    obtain ⟨q1, rs⟩ := e
    intro q l r0 hm hr0
    unfold prInsert
    rcases List.mem_cons.mp hm with he | hm2
    · injection he with hq hl
      subst hq
      subst hl
      by_cases hpq : p = q
      · rw [if_pos hpq]
        by_cases hr : r ∈ l
        · rw [if_pos hr]
          exact ⟨l, List.mem_cons_self _ _, hr0⟩
        · rw [if_neg hr]
          exact ⟨l ++ [r], List.mem_cons_self _ _, List.mem_append_left _ hr0⟩
      · rw [if_neg hpq]
        exact ⟨l, List.mem_cons_self _ _, hr0⟩
    · by_cases hpq : p = q1
      · rw [if_pos hpq]
        exact ⟨l, List.mem_cons_of_mem _ hm2, hr0⟩
      · rw [if_neg hpq]
        obtain ⟨l', hl', hr'⟩ := ih q l r0 hm2 hr0
        exact ⟨l', List.mem_cons_of_mem _ hl', hr'⟩

theorem updTargetsStep_vms (s : St) (acc : PG) (i : Nat) :
    (updTargetsStep s acc i).vms = acc.vms := by
  unfold updTargetsStep
  cases hv : s.vms i with
  | none => rfl
  | some vm =>
    simp only []
    cases hn : vm.nodes with
    | nil => rfl
    | cons n rest =>
      simp only []
      repeat' split
      all_goals rfl

theorem updTargetsStep_pr_pos (s : St) (acc : PG) (i : Nat) (vm : VM) (n : NodeId)
    (rest : List NodeId) (hv : s.vms i = some vm) (hn : vm.nodes = n :: rest)
    (hp : 0 < acc.hardRackAntiAffinityPartitions) :
    (updTargetsStep s acc i).partitionRacks
      = prInsert vm.partition (nodeRack n) acc.partitionRacks := by
  unfold updTargetsStep
  rw [hv]
  simp only []
  rw [hn]
  simp only []
  repeat' split
  all_goals (try simp_all)
  all_goals omega

theorem updTargetsStep_pr_none (s : St) (acc : PG) (i : Nat)
    (hp : ¬ 0 < acc.hardRackAntiAffinityPartitions) :
    (updTargetsStep s acc i).partitionRacks = acc.partitionRacks := by
  unfold updTargetsStep
  cases hv : s.vms i with
  | none => rfl
  | some vm =>
    simp only []
    cases hn : vm.nodes with
    | nil => rfl
    | cons n rest =>
      simp only []
      repeat' split
      all_goals (try simp_all)
      all_goals omega

theorem updTargetsStep_pr_mono (s : St) (acc : PG) (i : Nat) (q : Int)
    (l : List RackId) (r0 : RackId) (hm : (q, l) ∈ acc.partitionRacks) (hr : r0 ∈ l) :
    ∃ l', (q, l') ∈ (updTargetsStep s acc i).partitionRacks ∧ r0 ∈ l' := by
  by_cases hp : 0 < acc.hardRackAntiAffinityPartitions
  · cases hv : s.vms i with
    | none =>
      unfold updTargetsStep
      rw [hv]
      exact ⟨l, hm, hr⟩
    | some vm =>
      cases hn : vm.nodes with
      | nil =>
        unfold updTargetsStep
        rw [hv]
        simp only []
        rw [hn]
        exact ⟨l, hm, hr⟩
      | cons n rest =>
        rw [updTargetsStep_pr_pos s acc i vm n rest hv hn hp]
        exact prInsert_mem_old vm.partition (nodeRack n) acc.partitionRacks q l r0 hm hr
  · rw [updTargetsStep_pr_none s acc i hp]
    exact ⟨l, hm, hr⟩

theorem updTargets_fold_pr_sound (s : St) :
    ∀ (lst : List Nat) (acc : PG), 0 < acc.hardRackAntiAffinityPartitions →
    (∀ q l r0, (q, l) ∈ acc.partitionRacks → r0 ∈ l →
      ∃ l', (q, l') ∈ (lst.foldl (updTargetsStep s) acc).partitionRacks ∧ r0 ∈ l') ∧
    (∀ j ∈ lst, ∀ vj n rest, s.vms j = some vj → vj.nodes = n :: rest →
      ∃ l, (vj.partition, l) ∈ (lst.foldl (updTargetsStep s) acc).partitionRacks
        ∧ nodeRack n ∈ l) := by
  intro lst
  induction lst with
  | nil =>
    intro acc _
    exact ⟨fun q l r0 hm hr => ⟨l, hm, hr⟩, fun j hj => absurd hj (by simp)⟩
  | cons j rest' ih =>
    intro acc hp
    simp only [List.foldl_cons]
    have hp' : 0 < (updTargetsStep s acc j).hardRackAntiAffinityPartitions := by
      rw [updTargetsStep_hp]
      exact hp
    obtain ⟨m1, m2⟩ := ih (updTargetsStep s acc j) hp'
    refine ⟨?_, ?_⟩
    · intro q l r0 hm hr
      obtain ⟨l', hl', hr'⟩ := updTargetsStep_pr_mono s acc j q l r0 hm hr
      exact m1 q l' r0 hl' hr'
    · intro j2 hj2 vj n nrest hv hn
      rcases List.mem_cons.mp hj2 with he | hm
      · subst he
        obtain ⟨l, hl, hrm⟩ := prInsert_mem_new vj.partition (nodeRack n) acc.partitionRacks
        apply m1 vj.partition l (nodeRack n) ?_ hrm
        rw [updTargetsStep_pr_pos s acc j2 vj n nrest hv hn hp]
        exact hl
      · exact m2 j2 hm vj n nrest hv hn

theorem updTargetsPost_pr (pg : PG) :
    (updTargetsPost pg).partitionRacks = pg.partitionRacks := by
  unfold updTargetsPost
  split_ifs <;> rfl

theorem updTargetsPost_vms (pg : PG) : (updTargetsPost pg).vms = pg.vms := by
  unfold updTargetsPost
  split_ifs <;> rfl

theorem updTargets_fold_vms (s : St) : ∀ (lst : List Nat) (acc : PG),
    (lst.foldl (updTargetsStep s) acc).vms = acc.vms := by
  intro lst
  induction lst with
  | nil => intro acc; rfl
  | cons j rest ih =>
    intro acc
    simp only [List.foldl_cons]
    rw [ih, updTargetsStep_vms]

theorem updateTargets_vms (s : St) (pg : PG) : (updateTargets s pg).vms = pg.vms := by
  unfold updateTargets
  rw [updTargetsPost_vms, updTargets_fold_vms]
  rfl

theorem updateTargets_pr_sound (s : St) (pg : PG)
    (hp : 0 < pg.hardRackAntiAffinityPartitions) :
    ∀ j ∈ pg.vms, ∀ vj n rest, s.vms j = some vj → vj.nodes = n :: rest →
    ∃ l, (vj.partition, l) ∈ (updateTargets s pg).partitionRacks ∧ nodeRack n ∈ l := by
  intro j hj vj n rest hv hn
  unfold updateTargets
  rw [updTargetsPost_pr]
  exact (updTargets_fold_pr_sound s pg.vms (updTargetsInit pg) hp).2 j hj vj n rest hv hn

theorem invalid_of_entry (prl : List (Int × List RackId)) (part q : Int)
    (l : List RackId) (r : RackId) (hm : (q, l) ∈ prl) (hq : q ≠ part) (hr : r ∈ l) :
    r ∈ (prl.filter (fun e => e.1 ≠ part)).flatMap (fun e => e.2) := by
  rw [List.mem_flatMap]
  refine ⟨(q, l), ?_, hr⟩
  rw [List.mem_filter]
  exact ⟨hm, by simp [hq]⟩

theorem searchStep_vms_shape {B : List Nat} {s s' : St} (h : SearchStep B s s')
    (i : Nat) (vm : VM) (hv : s.vms i = some vm) :
    ∃ ns', s'.vms i = some { vm with nodes := ns' } := by
  cases h with
  | place j ns vmj _s hjB hvj h0 =>
    by_cases hij : i = j
    · subst hij
      have he : vm = vmj := by
        rw [hv] at hvj
        injection hvj
      rw [placeVM_vms_eq i ns s vmj hvj]
      exact ⟨ns, by simp [upd, he]⟩
    · rw [placeVM_vms_ne j i ns s hij]
      exact ⟨vm.nodes, by rw [hv]⟩
  | unplace j _s hjB =>
    by_cases hij : i = j
    · subst hij
      unfold unplaceVM
      rw [hv]
      exact ⟨[], by simp [upd]⟩
    · rw [unplaceVM_vms_ne j i s hij]
      exact ⟨vm.nodes, by rw [hv]⟩

theorem searchReach_vms_shape {B : List Nat} {s s' : St} (h : SearchReach B s s')
    (i : Nat) (vm : VM) (hv : s.vms i = some vm) :
    ∃ ns', s'.vms i = some { vm with nodes := ns' } := by
  induction h with
  | refl => exact ⟨vm.nodes, by rw [hv]⟩
  | tail hr hstep ih =>
    obtain ⟨ns1, hv1⟩ := ih
    obtain ⟨ns2, hv2⟩ := searchStep_vms_shape hstep i _ hv1
    exact ⟨ns2, hv2⟩

/-- Effect of `VM::unplace` on one registry entry: same record up to a
possibly cleared node list. -/
theorem unplaceVM_vms_cases (i j : Nat) (s : St) (vj : VM)
    (h : (unplaceVM i s).vms j = some vj) :
    ∃ vj0, s.vms j = some vj0 ∧ vj0.pgIndex = vj.pgIndex
      ∧ vj0.partition = vj.partition ∧ (vj.nodes = vj0.nodes ∨ vj.nodes = []) := by
  by_cases hij : j = i
  · subst hij
    cases hv : s.vms j with
    | none =>
      unfold unplaceVM at h
      rw [hv] at h
      simp only [] at h
      rw [hv] at h
      cases h
    | some vm =>
      have hji : (unplaceVM j s).vms j = some { vm with nodes := [] } := by
        rw [unplaceVM_vms_eq j s vm hv]
        simp [upd]
      rw [hji] at h
      injection h with h
      refine ⟨vm, rfl, ?_, ?_, Or.inr ?_⟩ <;> rw [← h]
  · rw [unplaceVM_vms_ne i j s hij] at h
    exact ⟨vj, h, rfl, rfl, Or.inl rfl⟩

/-- Effect of `VM::place` on one registry entry: same record up to the
node list, which for the placed index becomes `ns`. -/
theorem placeVM_vms_cases (i j : Nat) (ns : List NodeId) (s : St) (vj : VM)
    (h : (placeVM i ns s).vms j = some vj) :
    ∃ vj0, s.vms j = some vj0 ∧ vj0.pgIndex = vj.pgIndex
      ∧ vj0.partition = vj.partition
      ∧ (vj.nodes = vj0.nodes ∨ (j = i ∧ vj.nodes = ns)) := by
  by_cases hij : j = i
  · subst hij
    cases hv : s.vms j with
    | none =>
      unfold placeVM at h
      rw [hv] at h
      simp only [] at h
      rw [hv] at h
      cases h
    | some vm =>
      have hji : (placeVM j ns s).vms j = some { vm with nodes := ns } := by
        rw [placeVM_vms_eq j ns s vm hv]
        simp [upd]
      rw [hji] at h
      injection h with h
      refine ⟨vm, rfl, ?_, ?_, Or.inr ⟨rfl, ?_⟩⟩ <;> rw [← h]
  · rw [placeVM_vms_ne i j ns s hij] at h
    exact ⟨vj, h, rfl, rfl, Or.inl rfl⟩

theorem unplaceVM_noMixed (i : Nat) (s : St) (h : noMixedPositiveParts s) :
    noMixedPositiveParts (unplaceVM i s) := by
  intro g pg hpg hhp j k vj vk hvj hvk hgj hgk n m hn hm hrk hpj hpk
  rw [unplaceVM_pgs] at hpg
  obtain ⟨vj0, hvj0, hgj0, hpj0, hnj⟩ := unplaceVM_vms_cases i j s vj hvj
  obtain ⟨vk0, hvk0, hgk0, hpk0, hnk⟩ := unplaceVM_vms_cases i k s vk hvk
  rcases hnj with hej | hej
  · rcases hnk with hek | hek
    · rw [← hpj0, ← hpk0]
      exact h g pg hpg hhp j k vj0 vk0 hvj0 hvk0 (hgj0.trans hgj) (hgk0.trans hgk)
        n m (hej ▸ hn) (hek ▸ hm) hrk (by rw [hpj0]; exact hpj)
        (by rw [hpk0]; exact hpk)
    · rw [hek] at hm
      cases hm
  · rw [hej] at hn
    cases hn

theorem unplaceVM_sameRack (i : Nat) (s : St) (h : sameRackInv s) :
    sameRackInv (unplaceVM i s) := by
  intro j vj hvj n hn m hm
  obtain ⟨vj0, hvj0, -, -, hnj⟩ := unplaceVM_vms_cases i j s vj hvj
  rcases hnj with he | he
  · exact h j vj0 hvj0 n (he ▸ hn) m (he ▸ hm)
  · rw [he] at hn
    cases hn

theorem unplaceVM_safeRack (g : Nat) (part : Int) (i : Nat) (s : St) (r : RackId)
    (h : safeRack g part s r) : safeRack g part (unplaceVM i s) r := by
  intro j vj hvj hgj hpj hqj n hn
  obtain ⟨vj0, hvj0, hg0, hp0, hnj⟩ := unplaceVM_vms_cases i j s vj hvj
  rcases hnj with he | he
  · exact h j vj0 hvj0 (hg0.trans hgj) (by rw [hp0]; exact hpj)
      (by rw [hp0]; exact hqj) n (he ▸ hn)
  · rw [he] at hn
    cases hn

theorem unplaceVMs_pres {P : St → Prop} (hP : ∀ i s, P s → P (unplaceVM i s)) :
    ∀ (l : List Nat) (s : St), P s → P (unplaceVMs l s) := by
  intro l
  induction l with
  | nil => exact fun s h => h
  | cons j rest ih =>
    intro s h
    rw [unplaceVMs_cons]
    cases hv : s.vms j with
    | none => exact ih s h
    | some vm =>
      simp only []
      split
      · exact ih _ (hP j s h)
      · exact ih s h

theorem placeVM_sameRack (i : Nat) (ns : List NodeId) (s : St)
    (h : sameRackInv s) (hns : ∀ n ∈ ns, ∀ m ∈ ns, nodeRack n = nodeRack m) :
    sameRackInv (placeVM i ns s) := by
  intro j vj hvj n hn m hm
  obtain ⟨vj0, hvj0, -, -, hnj⟩ := placeVM_vms_cases i j ns s vj hvj
  rcases hnj with he | ⟨-, he⟩
  · exact h j vj0 hvj0 n (he ▸ hn) m (he ▸ hm)
  · exact hns n (he ▸ hn) m (he ▸ hm)

theorem placeVM_safeRack (g : Nat) (part : Int) (i : Nat) (ns : List NodeId) (s : St)
    (r : RackId) (vm : VM) (hv : s.vms i = some vm) (hg : vm.pgIndex = g)
    (hp : vm.partition = part) (h : safeRack g part s r) :
    safeRack g part (placeVM i ns s) r := by
  intro j vj hvj hgj hpj hqj n hn
  obtain ⟨vj0, hvj0, hg0, hp0, hnj⟩ := placeVM_vms_cases i j ns s vj hvj
  rcases hnj with he | ⟨hje, he⟩
  · exact h j vj0 hvj0 (hg0.trans hgj) (by rw [hp0]; exact hpj)
      (by rw [hp0]; exact hqj) n (he ▸ hn)
  · exfalso
    subst hje
    have he2 : vm = vj0 := by
      rw [hv] at hvj0
      injection hvj0
    apply hqj
    rw [← hp0, ← he2, hp]

theorem placeVM_noMixed (i : Nat) (ns : List NodeId) (s : St) (vm : VM)
    (hv : s.vms i = some vm) (h : noMixedPositiveParts s)
    (hsafe : ∀ pgv, s.pgs vm.pgIndex = some pgv →
      1 < pgv.hardRackAntiAffinityPartitions → 0 < vm.partition →
      ∀ n ∈ ns, safeRack vm.pgIndex vm.partition s (nodeRack n)) :
    noMixedPositiveParts (placeVM i ns s) := by
  intro g pg hpg hhp j k vj vk hvj hvk hgj hgk n m hn hm hrk hpj hpk
  rw [placeVM_pgs] at hpg
  obtain ⟨vj0, hvj0, hgj0, hpj0, hnj⟩ := placeVM_vms_cases i j ns s vj hvj
  obtain ⟨vk0, hvk0, hgk0, hpk0, hnk⟩ := placeVM_vms_cases i k ns s vk hvk
  rcases hnj with hej | ⟨hje, hej⟩
  · rcases hnk with hek | ⟨hke, hek⟩
    · rw [← hpj0, ← hpk0]
      exact h g pg hpg hhp j k vj0 vk0 hvj0 hvk0 (hgj0.trans hgj) (hgk0.trans hgk)
        n m (hej ▸ hn) (hek ▸ hm) hrk (by rw [hpj0]; exact hpj)
        (by rw [hpk0]; exact hpk)
    · subst hke
      have he2 : vm = vk0 := by
        rw [hv] at hvk0
        injection hvk0
      by_cases heq : vj.partition = vk.partition
      · exact heq
      · exfalso
        have hgm : vm.pgIndex = g := by rw [he2, hgk0, hgk]
        have hpm : 0 < vm.partition := by rw [he2, hpk0]; exact hpk
        have hs := hsafe pg (by rw [hgm]; exact hpg) hhp hpm m (hek ▸ hm)
        exact hs j vj0 hvj0 (hgj0.trans (hgj.trans hgm.symm))
          (by rw [hpj0]; exact hpj)
          (by rw [hpj0, he2, hpk0]; exact fun e => heq e) n (hej ▸ hn) hrk
  · subst hje
    have he2 : vm = vj0 := by
      rw [hv] at hvj0
      injection hvj0
    rcases hnk with hek | ⟨hke, hek⟩
    · by_cases heq : vj.partition = vk.partition
      · exact heq
      · exfalso
        have hgm : vm.pgIndex = g := by rw [he2, hgj0, hgj]
        have hpm : 0 < vm.partition := by rw [he2, hpj0]; exact hpj
        have hs := hsafe pg (by rw [hgm]; exact hpg) hhp hpm n (hej ▸ hn)
        exact hs k vk0 hvk0 (hgk0.trans (hgk.trans hgm.symm))
          (by rw [hpk0]; exact hpk)
          (by rw [hpk0, he2, hpj0]; exact fun e => heq e.symm) m (hek ▸ hm) hrk.symm
    · rw [← hpj0, ← he2, ← hpk0]
      have he3 : vm = vk0 := by
        rw [hke] at hvk0
        rw [hv] at hvk0
        injection hvk0
      rw [← he3]

/-- One `tryPlaceInner` iteration preserves the C1 search invariant: it
places only VMs of partition `part` of PG `g`, on racks of the (safe)
deque, keeping recorded placements live. -/
theorem tryPlaceInnerStep_c1 (cfg : Config) (pgq : PG) (t : VMType) (force : Bool)
    (g : Nat) (part : Int) (pgrec0 : PG) (dom : List Nat)
    (acc : St × List RackId × List (Nat × List NodeId)) (i2 : Nat) (hi2 : i2 ∈ dom)
    (hst : c1StInv g pgrec0 acc.1)
    (hreg : c1Reg g part dom acc.1)
    (hsafe : 1 < pgrec0.hardRackAntiAffinityPartitions → 0 < part →
      ∀ r ∈ acc.2.1, safeRack g part acc.1 r)
    (hlink : c1Link acc.1 acc.2.2)
    (hlen : ∀ e ∈ acc.2.2, e.2.length = t.nodes)
    (hkeys : ∀ e ∈ acc.2.2, e.1 ∈ dom) :
    c1StInv g pgrec0 (tryPlaceInnerStep cfg pgq t force acc i2).1 ∧
    c1Reg g part dom (tryPlaceInnerStep cfg pgq t force acc i2).1 ∧
    (1 < pgrec0.hardRackAntiAffinityPartitions → 0 < part →
      ∀ r ∈ (tryPlaceInnerStep cfg pgq t force acc i2).2.1,
        safeRack g part (tryPlaceInnerStep cfg pgq t force acc i2).1 r) ∧
    c1Link (tryPlaceInnerStep cfg pgq t force acc i2).1
      (tryPlaceInnerStep cfg pgq t force acc i2).2.2 ∧
    (∀ e ∈ (tryPlaceInnerStep cfg pgq t force acc i2).2.2, e.2.length = t.nodes) ∧
    (∀ e ∈ (tryPlaceInnerStep cfg pgq t force acc i2).2.2, e.1 ∈ dom) := by
  unfold tryPlaceInnerStep
  cases hv : acc.1.vms i2 with
  | none => exact ⟨hst, hreg, hsafe, hlink, hlen, hkeys⟩
  | some vm =>
    simp only []
    by_cases h0 : vm.nodes = []
    · rw [if_neg (by simp [h0])]
      cases hf : firstSome (tryRack cfg pgq t force acc.1.topo)
          (sortBy (rackFitLt cfg acc.1.topo t) acc.2.1) with
      | none =>
        refine ⟨hst, hreg, ?_, hlink, hlen, hkeys⟩
        intro hhp hpp r hr
        exact hsafe hhp hpp r ((sortBy_mem _ r _).mp hr)
      | some ns =>
        obtain ⟨r, hrdq, hns⟩ := firstSome_some _ _ ns hf
        have hrdq0 : r ∈ acc.2.1 := (sortBy_mem _ r _).mp hrdq
        have hnsr : ∀ n ∈ ns, nodeRack n = r :=
          tryRack_rack cfg pgq t force acc.1.topo r ns hns
        have hnslen : ns.length = t.nodes :=
          tryRack_some cfg pgq t force acc.1.topo r ns hns
        obtain ⟨hgv, hpv⟩ := hreg i2 hi2 vm hv
        obtain ⟨hnm, hsr, hpgs⟩ := hst
        have hsafe2 : ∀ pgv, acc.1.pgs vm.pgIndex = some pgv →
            1 < pgv.hardRackAntiAffinityPartitions → 0 < vm.partition →
            ∀ n ∈ ns, safeRack vm.pgIndex vm.partition acc.1 (nodeRack n) := by
          intro pgv hpgv hhp hpp n hn
          rw [hgv, hpgs] at hpgv
          injection hpgv with hpgv
          rw [hgv, hpv, hnsr n hn]
          exact hsafe (by rw [hpgv]; exact hhp) (by rw [← hpv]; exact hpp) r hrdq0
        refine ⟨⟨?_, ?_, ?_⟩, ?_, ?_, ?_, ?_, ?_⟩
        · exact placeVM_noMixed i2 ns acc.1 vm hv hnm hsafe2
        · exact placeVM_sameRack i2 ns acc.1 hsr
            (fun n hn m hm => (hnsr n hn).trans (hnsr m hm).symm)
        · rw [placeVM_pgs]
          exact hpgs
        · intro i3 hi3 vm3 hv3
          obtain ⟨v30, hv30, hg30, hp30, -⟩ := placeVM_vms_cases i2 i3 ns acc.1 vm3 hv3
          obtain ⟨ha, hb⟩ := hreg i3 hi3 v30 hv30
          exact ⟨by rw [← hg30]; exact ha, by rw [← hp30]; exact hb⟩
        · intro hhp hpp r' hr'
          have hr'0 : r' ∈ acc.2.1 := (sortBy_mem _ r' _).mp hr'
          exact placeVM_safeRack g part i2 ns acc.1 r' vm hv hgv hpv (hsafe hhp hpp r' hr'0)
        · intro e he
          rcases List.mem_append.mp he with hm | hm
          · obtain ⟨vme, hvme, hnds⟩ := hlink e hm
            by_cases hei : e.1 = i2
            · have hvm2 : vme = vm := by
                rw [hei] at hvme
                rw [hv] at hvme
                injection hvme with h2
                exact h2.symm
              have he2 : e.2 = [] := by rw [← hnds, hvm2, h0]
              have ht0 : t.nodes = 0 := by
                rw [← hlen e hm, he2]
                rfl
              have hns0 : ns = [] := List.eq_nil_of_length_eq_zero (by rw [hnslen, ht0])
              refine ⟨{ vm with nodes := ns }, ?_, ?_⟩
              · rw [hei, placeVM_vms_eq i2 ns acc.1 vm hv]
                simp [upd]
              · simp only []
                rw [hns0, he2]
            · refine ⟨vme, ?_, hnds⟩
              rw [placeVM_vms_ne i2 e.1 ns acc.1 hei]
              exact hvme
          · simp at hm
            rw [hm]
            refine ⟨{ vm with nodes := ns }, ?_, rfl⟩
            rw [placeVM_vms_eq i2 ns acc.1 vm hv]
            simp [upd]
        · intro e he
          rcases List.mem_append.mp he with hm | hm
          · exact hlen e hm
          · simp at hm
            rw [hm]
            exact hnslen
        · intro e he
          rcases List.mem_append.mp he with hm | hm
          · exact hkeys e hm
          · simp at hm
            rw [hm]
            exact hi2
    · rw [if_pos (by simp [h0])]
      exact ⟨hst, hreg, hsafe, hlink, hlen, hkeys⟩

/-- The C1 search invariant across a whole `tryPlaceInner` pass. -/
theorem tryPlaceInner_c1 (cfg : Config) (pgq : PG) (t : VMType) (force : Bool)
    (g : Nat) (part : Int) (pgrec0 : PG) (dom : List Nat) (l : List Nat) (s : St)
    (racks : List RackId) (pl : List (Nat × List NodeId))
    (hl : ∀ i ∈ l, i ∈ dom)
    (hst : c1StInv g pgrec0 s)
    (hreg : c1Reg g part dom s)
    (hsafe : 1 < pgrec0.hardRackAntiAffinityPartitions → 0 < part →
      ∀ r ∈ racks, safeRack g part s r)
    (hlink : c1Link s pl)
    (hlen : ∀ e ∈ pl, e.2.length = t.nodes)
    (hkeys : ∀ e ∈ pl, e.1 ∈ dom) :
    c1StInv g pgrec0 (tryPlaceInner cfg pgq l t force s racks pl).1 ∧
    c1Reg g part dom (tryPlaceInner cfg pgq l t force s racks pl).1 ∧
    (1 < pgrec0.hardRackAntiAffinityPartitions → 0 < part →
      ∀ r ∈ (tryPlaceInner cfg pgq l t force s racks pl).2.1,
        safeRack g part (tryPlaceInner cfg pgq l t force s racks pl).1 r) ∧
    c1Link (tryPlaceInner cfg pgq l t force s racks pl).1
      (tryPlaceInner cfg pgq l t force s racks pl).2.2 ∧
    (∀ e ∈ (tryPlaceInner cfg pgq l t force s racks pl).2.2, e.2.length = t.nodes) ∧
    (∀ e ∈ (tryPlaceInner cfg pgq l t force s racks pl).2.2, e.1 ∈ dom) := by
  suffices hgen : ∀ (l : List Nat) (acc : St × List RackId × List (Nat × List NodeId)),
      (∀ i ∈ l, i ∈ dom) →
      c1StInv g pgrec0 acc.1 →
      c1Reg g part dom acc.1 →
      (1 < pgrec0.hardRackAntiAffinityPartitions → 0 < part →
        ∀ r ∈ acc.2.1, safeRack g part acc.1 r) →
      c1Link acc.1 acc.2.2 →
      (∀ e ∈ acc.2.2, e.2.length = t.nodes) →
      (∀ e ∈ acc.2.2, e.1 ∈ dom) →
      c1StInv g pgrec0 (l.foldl (tryPlaceInnerStep cfg pgq t force) acc).1 ∧
      c1Reg g part dom (l.foldl (tryPlaceInnerStep cfg pgq t force) acc).1 ∧
      (1 < pgrec0.hardRackAntiAffinityPartitions → 0 < part →
        ∀ r ∈ (l.foldl (tryPlaceInnerStep cfg pgq t force) acc).2.1,
          safeRack g part (l.foldl (tryPlaceInnerStep cfg pgq t force) acc).1 r) ∧
      c1Link (l.foldl (tryPlaceInnerStep cfg pgq t force) acc).1
        (l.foldl (tryPlaceInnerStep cfg pgq t force) acc).2.2 ∧
      (∀ e ∈ (l.foldl (tryPlaceInnerStep cfg pgq t force) acc).2.2,
        e.2.length = t.nodes) ∧
      (∀ e ∈ (l.foldl (tryPlaceInnerStep cfg pgq t force) acc).2.2, e.1 ∈ dom) by
    exact hgen l (s, racks, pl) hl hst hreg hsafe hlink hlen hkeys
  intro l
  induction l with
  | nil => intro acc _ a1 a2 a3 a4 a5 a6; exact ⟨a1, a2, a3, a4, a5, a6⟩
  | cons i2 rest ih =>
    intro acc hl a1 a2 a3 a4 a5 a6
    simp only [List.foldl_cons]
    obtain ⟨b1, b2, b3, b4, b5, b6⟩ := tryPlaceInnerStep_c1 cfg pgq t force g part
      pgrec0 dom acc i2 (hl i2 (List.mem_cons_self i2 rest)) a1 a2 a3 a4 a5 a6
    exact ih _ (fun j hj => hl j (List.mem_cons_of_mem i2 hj)) b1 b2 b3 b4 b5 b6

theorem searchStep_vms_back {B : List Nat} {s s' : St} (h : SearchStep B s s')
    (i : Nat) (vm' : VM) (hv : s'.vms i = some vm') :
    ∃ vm0, s.vms i = some vm0 ∧ vm0.pgIndex = vm'.pgIndex
      ∧ vm0.partition = vm'.partition := by
  cases h with
  | place j ns vmj _s hjB hvj h0 =>
    obtain ⟨vm0, hv0, hg0, hp0, -⟩ := placeVM_vms_cases j i ns s vm' hv
    exact ⟨vm0, hv0, hg0, hp0⟩
  | unplace j _s hjB =>
    obtain ⟨vm0, hv0, hg0, hp0, -⟩ := unplaceVM_vms_cases j i s vm' hv
    exact ⟨vm0, hv0, hg0, hp0⟩

theorem searchReach_vms_back {B : List Nat} {s s' : St} (h : SearchReach B s s')
    (i : Nat) (vm' : VM) (hv : s'.vms i = some vm') :
    ∃ vm0, s.vms i = some vm0 ∧ vm0.pgIndex = vm'.pgIndex
      ∧ vm0.partition = vm'.partition := by
  revert vm'
  induction h with
  | refl => intro vm' hv; exact ⟨vm', hv, rfl, rfl⟩
  | tail hr hstep ih =>
    intro vm' hv
    obtain ⟨vm1, hv1, hg1, hp1⟩ := searchStep_vms_back hstep i vm' hv
    obtain ⟨vm0, hv0, hg0, hp0⟩ := ih vm1 hv1
    exact ⟨vm0, hv0, hg0.trans hg1, hp0.trans hp1⟩

/-- `c1Reg` is stable under any search evolution (searches never change a
VM's PG or partition). -/
theorem searchReach_c1Reg {B : List Nat} {s s' : St} (h : SearchReach B s s')
    (g : Nat) (part : Int) (dom : List Nat) (hreg : c1Reg g part dom s) :
    c1Reg g part dom s' := by
  intro i hi vm hv
  obtain ⟨vm0, hv0, hg0, hp0⟩ := searchReach_vms_back h i vm hv
  obtain ⟨ha, hb⟩ := hreg i hi vm0 hv0
  exact ⟨by rw [← hg0]; exact ha, by rw [← hp0]; exact hb⟩

theorem unplaceVM_c1Reg (g : Nat) (part : Int) (dom : List Nat) (i : Nat) (s : St)
    (h : c1Reg g part dom s) : c1Reg g part dom (unplaceVM i s) := by
  intro j hj vm hv
  obtain ⟨vm0, hv0, hg0, hp0, -⟩ := unplaceVM_vms_cases i j s vm hv
  obtain ⟨ha, hb⟩ := h j hj vm0 hv0
  exact ⟨by rw [← hg0]; exact ha, by rw [← hp0]; exact hb⟩

theorem unplaceVMs_c1StInv (g : Nat) (pgrec0 : PG) (l : List Nat) (s : St)
    (h : c1StInv g pgrec0 s) : c1StInv g pgrec0 (unplaceVMs l s) := by
  refine unplaceVMs_pres ?_ l s h
  intro i s2 h2
  exact ⟨unplaceVM_noMixed i s2 h2.1, unplaceVM_sameRack i s2 h2.2.1,
    by rw [unplaceVM_pgs]; exact h2.2.2⟩

theorem unplaceVMs_c1Reg (g : Nat) (part : Int) (dom : List Nat) (l : List Nat)
    (s : St) (h : c1Reg g part dom s) : c1Reg g part dom (unplaceVMs l s) :=
  unplaceVMs_pres (fun i s2 h2 => unplaceVM_c1Reg g part dom i s2 h2) l s h

theorem unplaceVMs_safeRack (g : Nat) (part : Int) (r : RackId) (l : List Nat)
    (s : St) (h : safeRack g part s r) : safeRack g part (unplaceVMs l s) r :=
  unplaceVMs_pres (fun i s2 h2 => unplaceVM_safeRack g part i s2 r h2) l s h

/-- A `tryPlaceInner` pass keeps the registration facts and preserves the
safety of every rack for the partition being placed. -/
theorem tryPlaceInner_safePres (cfg : Config) (pgq : PG) (t : VMType) (force : Bool)
    (g : Nat) (part : Int) (dom : List Nat) (l : List Nat) (s : St)
    (racks : List RackId) (pl : List (Nat × List NodeId))
    (hl : ∀ i ∈ l, i ∈ dom) (hreg : c1Reg g part dom s) :
    c1Reg g part dom (tryPlaceInner cfg pgq l t force s racks pl).1 ∧
    ∀ r, safeRack g part s r →
      safeRack g part (tryPlaceInner cfg pgq l t force s racks pl).1 r := by
  suffices hgen : ∀ (l : List Nat) (acc : St × List RackId × List (Nat × List NodeId)),
      (∀ i ∈ l, i ∈ dom) → c1Reg g part dom acc.1 →
      c1Reg g part dom (l.foldl (tryPlaceInnerStep cfg pgq t force) acc).1 ∧
      ∀ r, safeRack g part acc.1 r →
        safeRack g part (l.foldl (tryPlaceInnerStep cfg pgq t force) acc).1 r by
    exact hgen l (s, racks, pl) hl hreg
  intro l
  induction l with
  | nil => intro acc _ h1; exact ⟨h1, fun r hr => hr⟩
  | cons i2 rest ih =>
    intro acc hl h1
    simp only [List.foldl_cons]
    have hstep : c1Reg g part dom (tryPlaceInnerStep cfg pgq t force acc i2).1 ∧
        ∀ r, safeRack g part acc.1 r →
          safeRack g part (tryPlaceInnerStep cfg pgq t force acc i2).1 r := by
      unfold tryPlaceInnerStep
      cases hv : acc.1.vms i2 with
      | none => exact ⟨h1, fun r hr => hr⟩
      | some vm =>
        simp only []
        by_cases h0 : vm.nodes = []
        · rw [if_neg (by simp [h0])]
          cases hf : firstSome (tryRack cfg pgq t force acc.1.topo)
              (sortBy (rackFitLt cfg acc.1.topo t) acc.2.1) with
          | none => exact ⟨h1, fun r hr => hr⟩
          | some ns =>
            obtain ⟨hgv, hpv⟩ := h1 i2 (hl i2 (List.mem_cons_self i2 rest)) vm hv
            constructor
            · intro i3 hi3 vm3 hv3
              obtain ⟨v30, hv30, hg30, hp30, -⟩ :=
                placeVM_vms_cases i2 i3 ns acc.1 vm3 hv3
              obtain ⟨ha, hb⟩ := h1 i3 hi3 v30 hv30
              exact ⟨by rw [← hg30]; exact ha, by rw [← hp30]; exact hb⟩
            · intro r hr
              exact placeVM_safeRack g part i2 ns acc.1 r vm hv hgv hpv hr
        · rw [if_pos (by simp [h0])]
          exact ⟨h1, fun r hr => hr⟩
    obtain ⟨c1, c2⟩ := hstep
    obtain ⟨d1, d2⟩ := ih _ (fun j hj => hl j (List.mem_cons_of_mem i2 hj)) c1
    exact ⟨d1, fun r hr => d2 r (c2 r hr)⟩

/-- `tryPlace` keeps the registration facts for the batch and preserves
per-rack safety of the partition being placed. -/
theorem tryPlace_safePres (cfg : Config) (pgq : PG) (vmIdxs : List Nat) (t : VMType)
    (racks : List RackId) (force : Bool) (s : St) (g : Nat) (part : Int)
    (hreg : c1Reg g part vmIdxs s) :
    c1Reg g part vmIdxs (tryPlace cfg pgq vmIdxs t racks force s).2.1 ∧
    ∀ r, safeRack g part s r →
      safeRack g part (tryPlace cfg pgq vmIdxs t racks force s).2.1 r := by
  unfold tryPlace
  simp only []
  set s1 := unplaceVMs vmIdxs s with hs1
  have h1 : c1Reg g part vmIdxs s1 := unplaceVMs_c1Reg g part vmIdxs vmIdxs s hreg
  have hp1 : ∀ r, safeRack g part s r → safeRack g part s1 r :=
    fun r hr => unplaceVMs_safeRack g part r vmIdxs s hr
  split
  · exact ⟨h1, hp1⟩
  · set r1 := tryPlaceInner cfg pgq vmIdxs t false s1 racks [] with hr1
    obtain ⟨h2, hp2⟩ := tryPlaceInner_safePres cfg pgq t false g part vmIdxs vmIdxs
      s1 racks [] (fun i hi => hi) h1
    rw [← hr1] at h2 hp2
    by_cases hc : force ∧ r1.2.2.length < vmIdxs.length
    · rw [if_pos hc]
      obtain ⟨h3, hp3⟩ := tryPlaceInner_safePres cfg pgq t true g part vmIdxs vmIdxs
        r1.1 r1.2.1 r1.2.2 (fun i hi => hi) h2
      split
      · exact ⟨h3, fun r hr => hp3 r (hp2 r (hp1 r hr))⟩
      · exact ⟨h3, fun r hr => hp3 r (hp2 r (hp1 r hr))⟩
    · rw [if_neg hc]
      split
      · exact ⟨h2, fun r hr => hp2 r (hp1 r hr)⟩
      · exact ⟨h2, fun r hr => hp2 r (hp1 r hr)⟩

/-- `tryPlace` under the C1 invariant: state invariant preserved, the
surviving rack deque stays safe, and a successful result's recorded
placements are live batch placements. -/
theorem tryPlace_c1 (cfg : Config) (pgq : PG) (vmIdxs : List Nat) (t : VMType)
    (racks : List RackId) (force : Bool) (s : St) (g : Nat) (part : Int) (pgrec0 : PG)
    (hst : c1StInv g pgrec0 s)
    (hreg : c1Reg g part vmIdxs s)
    (hsafe : 1 < pgrec0.hardRackAntiAffinityPartitions → 0 < part →
      ∀ r ∈ racks, safeRack g part s r) :
    c1StInv g pgrec0 (tryPlace cfg pgq vmIdxs t racks force s).2.1 ∧
    (1 < pgrec0.hardRackAntiAffinityPartitions → 0 < part →
      ∀ r ∈ (tryPlace cfg pgq vmIdxs t racks force s).2.2.1,
        safeRack g part (tryPlace cfg pgq vmIdxs t racks force s).2.1 r) ∧
    ∀ p, (tryPlace cfg pgq vmIdxs t racks force s).1 = some p →
      c1Link (tryPlace cfg pgq vmIdxs t racks force s).2.1 p.placements ∧
      ∀ e ∈ p.placements, e.1 ∈ vmIdxs := by
  unfold tryPlace
  simp only []
  set s1 := unplaceVMs vmIdxs s with hs1
  have h1 : c1StInv g pgrec0 s1 := unplaceVMs_c1StInv g pgrec0 vmIdxs s hst
  have h1r : c1Reg g part vmIdxs s1 := unplaceVMs_c1Reg g part vmIdxs vmIdxs s hreg
  have h1s : 1 < pgrec0.hardRackAntiAffinityPartitions → 0 < part →
      ∀ r ∈ racks, safeRack g part s1 r :=
    fun hhp hpp r hr => unplaceVMs_safeRack g part r vmIdxs s (hsafe hhp hpp r hr)
  split
  · refine ⟨h1, h1s, ?_⟩
    intro p hp
    cases hp
  · set r1 := tryPlaceInner cfg pgq vmIdxs t false s1 racks [] with hr1
    obtain ⟨g1, g2, g3, g4, g5, g6⟩ := tryPlaceInner_c1 cfg pgq t false g part pgrec0
      vmIdxs vmIdxs s1 racks [] (fun i hi => hi) h1 h1r h1s (by simp [c1Link])
      (by simp) (by simp)
    rw [← hr1] at g1 g2 g3 g4 g5 g6
    by_cases hc : force ∧ r1.2.2.length < vmIdxs.length
    · rw [if_pos hc]
      set r2 := tryPlaceInner cfg pgq vmIdxs t true r1.1 r1.2.1 r1.2.2 with hr2
      obtain ⟨k1, k2, k3, k4, k5, k6⟩ := tryPlaceInner_c1 cfg pgq t true g part pgrec0
        vmIdxs vmIdxs r1.1 r1.2.1 r1.2.2 (fun i hi => hi) g1 g2 g3 g4 g5 g6
      rw [← hr2] at k1 k2 k3 k4 k5 k6
      split
      · refine ⟨k1, k3, ?_⟩
        intro p hp
        cases hp
      · refine ⟨k1, k3, ?_⟩
        intro p hp
        injection hp with hp
        rw [← hp]
        exact ⟨k4, fun e he => k6 e he⟩
    · rw [if_neg hc]
      split
      · refine ⟨g1, g3, ?_⟩
        intro p hp
        cases hp
      · refine ⟨g1, g3, ?_⟩
        intro p hp
        injection hp with hp
        rw [← hp]
        exact ⟨g4, fun e he => g6 e he⟩

theorem tryLoop_safePres (cfg : Config) (vmIdxs : List Nat) (t : VMType) (force : Bool)
    (g : Nat) (part : Int) :
    ∀ (fuel : Nat) (pgq : PG) (cur extra : List RackId) (s : St),
    c1Reg g part vmIdxs s →
    ∀ r, safeRack g part s r →
      safeRack g part (tryLoop cfg vmIdxs t force fuel pgq cur extra s).2.1 r := by
  intro fuel
  induction fuel with
  | zero => intro pgq cur extra s _ r hr; exact hr
  | succ fuel ih =>
    intro pgq cur extra s hreg r hr
    unfold tryLoop
    cases htp : tryPlace cfg pgq vmIdxs t cur force s with
    | mk res rest =>
      obtain ⟨sA, rkA, pgA⟩ := rest
      obtain ⟨hA, hpA⟩ := tryPlace_safePres cfg pgq vmIdxs t cur force s g part hreg
      rw [htp] at hA hpA
      cases res with
      | some q => exact hpA r hr
      | none =>
        simp only []
        cases extra with
        | nil => exact hpA r hr
        | cons e rest2 => exact ih pgA (rkA ++ [e]) rest2 sA hA r (hpA r hr)

/-- The rack-expansion loop under the C1 invariant. -/
theorem tryLoop_c1 (cfg : Config) (vmIdxs : List Nat) (t : VMType) (force : Bool)
    (g : Nat) (part : Int) (pgrec0 : PG) :
    ∀ (fuel : Nat) (pgq : PG) (cur extra : List RackId) (s : St),
    c1StInv g pgrec0 s →
    c1Reg g part vmIdxs s →
    (1 < pgrec0.hardRackAntiAffinityPartitions → 0 < part →
      (∀ r ∈ cur, safeRack g part s r) ∧ ∀ r ∈ extra, safeRack g part s r) →
    c1StInv g pgrec0 (tryLoop cfg vmIdxs t force fuel pgq cur extra s).2.1 ∧
    ∀ p, (tryLoop cfg vmIdxs t force fuel pgq cur extra s).1 = some p →
      c1Link (tryLoop cfg vmIdxs t force fuel pgq cur extra s).2.1 p.placements ∧
      ∀ e ∈ p.placements, e.1 ∈ vmIdxs := by
  intro fuel
  induction fuel with
  | zero =>
    intro pgq cur extra s hst _ _
    exact ⟨hst, fun p hp => by cases hp⟩
  | succ fuel ih =>
    intro pgq cur extra s hst hreg hsafe
    unfold tryLoop
    cases htp : tryPlace cfg pgq vmIdxs t cur force s with
    | mk res rest =>
      obtain ⟨sA, rkA, pgA⟩ := rest
      obtain ⟨hA1, hA2, hA3⟩ := tryPlace_c1 cfg pgq vmIdxs t cur force s g part pgrec0
        hst hreg (fun hhp hpp => (hsafe hhp hpp).1)
      obtain ⟨hAr, hAp⟩ := tryPlace_safePres cfg pgq vmIdxs t cur force s g part hreg
      rw [htp] at hA1 hA2 hA3 hAr hAp
      cases res with
      | some q =>
        simp only []
        refine ⟨hA1, ?_⟩
        intro p hp
        injection hp with hp
        rw [← hp]
        exact hA3 q rfl
      | none =>
        simp only []
        cases extra with
        | nil => exact ⟨hA1, fun p hp => by cases hp⟩
        | cons e rest2 =>
          apply ih pgA (rkA ++ [e]) rest2 sA hA1 hAr
          intro hhp hpp
          refine ⟨?_, ?_⟩
          · intro r hr
            rcases List.mem_append.mp hr with hm | hm
            · exact hA2 hhp hpp r hm
            · simp at hm
              rw [hm]
              exact hAp e ((hsafe hhp hpp).2 e (List.mem_cons_self e rest2))
          · intro r hr
            exact hAp r ((hsafe hhp hpp).2 r (List.mem_cons_of_mem e hr))

theorem unplaceVMs_vms_ne (l : List Nat) : ∀ (s : St) (j : Nat), ¬ j ∈ l →
    (unplaceVMs l s).vms j = s.vms j := by
  induction l with
  | nil => intro s j _; rfl
  | cons i rest ih =>
    intro s j hj
    have hji : j ≠ i := fun e => hj (e ▸ List.mem_cons_self i rest)
    have hjr : ¬ j ∈ rest := fun hm => hj (List.mem_cons_of_mem i hm)
    rw [unplaceVMs_cons]
    cases hv : s.vms i with
    | none => exact ih s j hjr
    | some vm =>
      simp only []
      split
      · rw [ih _ j hjr, unplaceVM_vms_ne i j s hji]
      · exact ih s j hjr

theorem appendGroup_keys : ∀ (acc : List (Int × List Nat)) (p : Int) (i : Nat),
    (appendGroup acc p i).map Prod.fst = acc.map Prod.fst
    ∨ ((appendGroup acc p i).map Prod.fst = acc.map Prod.fst ++ [p]
        ∧ ¬ p ∈ acc.map Prod.fst) := by
  intro acc
  induction acc with
  | nil =>
    intro p i
    right
    exact ⟨rfl, by simp⟩
  | cons e rest ih =>
    obtain ⟨q, lst⟩ := e
    intro p i
    unfold appendGroup
    by_cases hpq : p = q
    · rw [if_pos hpq]
      left
      rfl
    · rw [if_neg hpq]
      rcases ih p i with he | ⟨he, hnp⟩
      · left
        simp only [List.map_cons]
        rw [he]
      · right
        constructor
        · simp only [List.map_cons]
          rw [he, List.cons_append]
        · intro hm
          rcases List.mem_cons.mp hm with h1 | h1
          · exact hpq h1
          · exact hnp h1

theorem appendGroup_keys_nodup (acc : List (Int × List Nat)) (p : Int) (i : Nat)
    (h : (acc.map Prod.fst).Nodup) : ((appendGroup acc p i).map Prod.fst).Nodup := by
  rcases appendGroup_keys acc p i with he | ⟨he, hnp⟩
  · rw [he]
    exact h
  · rw [he]
    exact nodupSnoc _ p h hnp

theorem groupByPartition_keys_nodup (s : St) (vmIdxs : List Nat) :
    ((groupByPartition s vmIdxs).map Prod.fst).Nodup := by
  suffices h : ∀ (l : List Nat) (acc : List (Int × List Nat)),
      (acc.map Prod.fst).Nodup →
      ((l.foldl (fun acc i =>
        match s.vms i with
        | none => acc
        | some vm => appendGroup acc vm.partition i) acc).map Prod.fst).Nodup by
    exact h vmIdxs [] (by simp)
  intro l
  induction l with
  | nil => exact fun acc h => h
  | cons i rest ih =>
    intro acc h
    simp only [List.foldl_cons]
    apply ih
    cases hv : s.vms i with
    | none => exact h
    | some vm => exact appendGroup_keys_nodup acc vm.partition i h

theorem appendGroup_prop (P : Nat → Int → Prop) :
    ∀ (acc : List (Int × List Nat)) (p : Int) (i : Nat),
    (∀ e ∈ acc, ∀ j ∈ e.2, P j e.1) → P i p →
    ∀ e ∈ appendGroup acc p i, ∀ j ∈ e.2, P j e.1 := by
  intro acc
  induction acc with
  | nil =>
    intro p i _ hPi e he j hj
    simp [appendGroup] at he
    rw [he] at hj ⊢
    simp at hj
    rw [hj]
    exact hPi
  | cons a as ih =>
    obtain ⟨q, lst⟩ := a
    intro p i hacc hPi e he j hj
    unfold appendGroup at he
    by_cases hpq : p = q
    · rw [if_pos hpq] at he
      cases he with
      | head =>
        rcases List.mem_append.mp hj with hm | hm
        · exact hacc (q, lst) (List.mem_cons_self _ _) j hm
        · simp at hm
          rw [hm]
          exact hpq ▸ hPi
      | tail _ hmem => exact hacc e (List.mem_cons_of_mem _ hmem) j hj
    · rw [if_neg hpq] at he
      cases he with
      | head => exact hacc (q, lst) (List.mem_cons_self _ _) j hj
      | tail _ hmem =>
        exact ih p i (fun e2 he2 => hacc e2 (List.mem_cons_of_mem _ he2)) hPi e hmem j hj

theorem groupByPartition_part (s : St) (vmIdxs : List Nat) :
    ∀ e ∈ groupByPartition s vmIdxs, ∀ i ∈ e.2,
    ∃ vm, s.vms i = some vm ∧ vm.partition = e.1 := by
  suffices h : ∀ (l : List Nat) (acc : List (Int × List Nat)),
      (∀ e ∈ acc, ∀ j ∈ e.2, ∃ vm, s.vms j = some vm ∧ vm.partition = e.1) →
      ∀ e ∈ (l.foldl (fun acc i =>
        match s.vms i with
        | none => acc
        | some vm => appendGroup acc vm.partition i) acc), ∀ j ∈ e.2,
        ∃ vm, s.vms j = some vm ∧ vm.partition = e.1 by
    exact h vmIdxs [] (by simp)
  intro l
  induction l with
  | nil => exact fun acc h => h
  | cons i rest ih =>
    intro acc hacc
    simp only [List.foldl_cons]
    apply ih
    cases hv : s.vms i with
    | none => exact hacc
    | some vm =>
      exact appendGroup_prop (fun j k => ∃ vmj, s.vms j = some vmj ∧ vmj.partition = k)
        acc vm.partition i hacc ⟨vm, hv, rfl⟩

theorem startExtra_pos_sub (pg2 : PG) (part : Int) (racks sortedRacks : List RackId)
    (startR extraR : List RackId) (hp : 0 < part)
    (hse : startExtra pg2 part racks sortedRacks = some (startR, extraR)) :
    ∀ r ∈ startR ++ extraR,
      ¬ r ∈ (pg2.partitionRacks.filter (fun e => e.1 ≠ part)).flatMap (fun e => e.2) := by
  unfold startExtra at hse
  rw [if_pos hp] at hse
  simp only [] at hse
  split at hse
  · cases hE : racks.filter (fun r =>
        (¬ r ∈ (pg2.partitionRacks.filter (fun e => e.1 ≠ part)).flatMap (fun e => e.2))
        ∧ ¬ r ∈ (alookupD part pg2.partitionRacks []).filter (fun r =>
            ¬ r ∈ (pg2.partitionRacks.filter (fun e => e.1 ≠ part)).flatMap
              (fun e => e.2))) with
    | nil =>
      rw [hE] at hse
      cases hse
    | cons e rest =>
      rw [hE] at hse
      simp only [] at hse
      injection hse with hse
      injection hse with hse1 hse2
      intro r hr
      have hrE : r ∈ e :: rest := by
        rw [← hse1, ← hse2] at hr
        simpa using hr
      rw [← hE] at hrE
      have hd := (List.mem_filter.mp hrE).2
      simp only [decide_eq_true_eq] at hd
      exact hd.1
  · injection hse with hse
    injection hse with hse1 hse2
    intro r hr
    rcases List.mem_append.mp hr with hm | hm
    · rw [← hse1] at hm
      have hd := (List.mem_filter.mp hm).2
      simp only [decide_eq_true_eq] at hd
      exact hd
    · rw [← hse2] at hm
      have hd := (List.mem_filter.mp hm).2
      simp only [decide_eq_true_eq] at hd
      exact hd.1

theorem tryPlace_pg (cfg : Config) (pgq : PG) (vmIdxs : List Nat) (t : VMType)
    (racks : List RackId) (force : Bool) (s : St) :
    (tryPlace cfg pgq vmIdxs t racks force s).2.2.2.vms = pgq.vms ∧
    (tryPlace cfg pgq vmIdxs t racks force s).2.2.2.hardRackAntiAffinityPartitions
      = pgq.hardRackAntiAffinityPartitions := by
  unfold tryPlace
  simp only []
  split
  · exact ⟨rfl, rfl⟩
  · split
    all_goals try split
    all_goals first
      | exact ⟨rfl, rfl⟩
      | exact ⟨updateTargets_vms _ _, updateTargets_hp _ _⟩

theorem tryLoop_pg (cfg : Config) (vmIdxs : List Nat) (t : VMType) (force : Bool) :
    ∀ (fuel : Nat) (pgq : PG) (cur extra : List RackId) (s : St),
    (tryLoop cfg vmIdxs t force fuel pgq cur extra s).2.2.1.vms = pgq.vms ∧
    (tryLoop cfg vmIdxs t force fuel pgq cur extra s).2.2.1.hardRackAntiAffinityPartitions
      = pgq.hardRackAntiAffinityPartitions := by
  intro fuel
  induction fuel with
  | zero => intro pgq cur extra s; exact ⟨rfl, rfl⟩
  | succ fuel ih =>
    intro pgq cur extra s
    unfold tryLoop
    cases htp : tryPlace cfg pgq vmIdxs t cur force s with
    | mk res rest =>
      obtain ⟨sA, rkA, pgA⟩ := rest
      have hpg := tryPlace_pg cfg pgq vmIdxs t cur force s
      rw [htp] at hpg
      cases res with
      | some q => exact hpg
      | none =>
        simp only []
        cases extra with
        | nil => exact hpg
        | cons e rest2 =>
          obtain ⟨ha, hb⟩ := ih pgA (rkA ++ [e]) rest2 sA
          exact ⟨ha.trans hpg.1, hb.trans hpg.2⟩

/-- The per-partition loop under the C1 invariant: each positive-partition
attempt only uses racks that `partitionRacks` filtering proves free of
other positive partitions, so the state invariant survives and the
accumulated recorded placements stay live. -/
theorem partitionLoop_c1 (cfg : Config) (t : VMType) (racks : List RackId)
    (g : Nat) (pgrec0 : PG) :
    ∀ (gs : List (Int × List Nat)) (pgX : PG) (s : St)
      (pl : List (Nat × List NodeId)) (pen : ℚ),
    c1StInv g pgrec0 s →
    (∀ e ∈ gs, c1Reg g e.1 e.2 s) →
    ((gs.map Prod.fst).Nodup) →
    c1Link s pl →
    (∀ e ∈ pl, ∀ e2 ∈ gs, ¬ e.1 ∈ e2.2) →
    (∀ j vj, s.vms j = some vj → vj.pgIndex = g → j ∈ pgX.vms) →
    pgX.hardRackAntiAffinityPartitions = pgrec0.hardRackAntiAffinityPartitions →
    c1StInv g pgrec0 (partitionLoop cfg t racks gs pgX s pl pen).2.1 ∧
    ∀ pl' pen', (partitionLoop cfg t racks gs pgX s pl pen).1 = some (pl', pen') →
      c1Link (partitionLoop cfg t racks gs pgX s pl pen).2.1 pl' := by
  intro gs
  induction gs with
  | nil =>
    intro pgX s pl pen h1 _ _ h4 _ _ _
    refine ⟨h1, ?_⟩
    intro pl' pen' hp
    injection hp with hp
    injection hp with hp1 hp2
    rw [← hp1]
    exact h4
  | cons ghead rest ih =>
    obtain ⟨part, vms⟩ := ghead
    intro pgX s pl pen h1 h2 h3 h4 h5 h6 h7
    have h2cur : c1Reg g part vms s := h2 (part, vms) (List.mem_cons_self _ _)
    have h2rest : ∀ e ∈ rest, c1Reg g e.1 e.2 s :=
      fun e he => h2 e (List.mem_cons_of_mem _ he)
    have h3' : (rest.map Prod.fst).Nodup := (List.nodup_cons.mp h3).2
    have h3h : ¬ part ∈ rest.map Prod.fst := (List.nodup_cons.mp h3).1
    unfold partitionLoop
    simp only []
    have hre1 : SearchReach vms s (unplaceVMs vms s) :=
      reach_unplaceVMs vms vms s (fun i hi => hi)
    have hA1 : c1StInv g pgrec0 (unplaceVMs vms s) :=
      unplaceVMs_c1StInv g pgrec0 vms s h1
    have hA2cur : c1Reg g part vms (unplaceVMs vms s) :=
      unplaceVMs_c1Reg g part vms vms s h2cur
    have hA4 : c1Link (unplaceVMs vms s) pl := by
      intro e he
      obtain ⟨vm, hv, hn⟩ := h4 e he
      refine ⟨vm, ?_, hn⟩
      rw [unplaceVMs_vms_ne vms s e.1 (h5 e he (part, vms) (List.mem_cons_self _ _))]
      exact hv
    have hA6 : ∀ j vj, (unplaceVMs vms s).vms j = some vj → vj.pgIndex = g →
        j ∈ pgX.vms := by
      intro j vj hvj hgj
      obtain ⟨vj0, hv0, hg0, -⟩ := searchReach_vms_back hre1 j vj hvj
      exact h6 j vj0 hv0 (hg0.trans hgj)
    cases hse : startExtra (updateTargets (unplaceVMs vms s) pgX) part racks
        (sortBy (loadLt cfg (unplaceVMs vms s).topo) racks) with
    | none =>
      simp only [hse]
      exact ⟨hA1, fun pl' pen' hp => by cases hp⟩
    | some se =>
      obtain ⟨startR, extraR⟩ := se
      simp only [hse]
      have hsafePair : 1 < pgrec0.hardRackAntiAffinityPartitions → 0 < part →
          (∀ r ∈ startR, safeRack g part (unplaceVMs vms s) r)
          ∧ ∀ r ∈ extraR, safeRack g part (unplaceVMs vms s) r := by
        intro hhp hpp
        have hsub := startExtra_pos_sub (updateTargets (unplaceVMs vms s) pgX) part
          racks (sortBy (loadLt cfg (unplaceVMs vms s).topo) racks) startR extraR hpp hse
        have hsafe1 : ∀ r ∈ startR ++ extraR, safeRack g part (unplaceVMs vms s) r := by
          intro r hr j vj hvj hgj hpj hqj n hn hrEq
          cases hnj : vj.nodes with
          | nil =>
            rw [hnj] at hn
            cases hn
          | cons n0 rest0 =>
            have hjmem : j ∈ pgX.vms := hA6 j vj hvj hgj
            obtain ⟨l, hl, hrl⟩ := updateTargets_pr_sound (unplaceVMs vms s) pgX
              (by rw [h7]; omega) j hjmem vj n0 rest0 hvj hnj
            have hrr : nodeRack n = nodeRack n0 :=
              hA1.2.1 j vj hvj n hn n0 (by rw [hnj]; exact List.mem_cons_self _ _)
            apply hsub r hr
            rw [← hrEq, hrr]
            exact invalid_of_entry _ part vj.partition l (nodeRack n0) hl hqj hrl
        exact ⟨fun r hr => hsafe1 r (List.mem_append_left _ hr),
          fun r hr => hsafe1 r (List.mem_append_right _ hr)⟩
      cases htl : tryLoop cfg vms t false (extraR.length + 1)
          (updateTargets (unplaceVMs vms s) pgX) startR extraR (unplaceVMs vms s) with
      | mk res1 rest1 =>
        obtain ⟨sA, pgA, bA⟩ := rest1
        obtain ⟨hB1, hB2⟩ := tryLoop_c1 cfg vms t false g part pgrec0
          (extraR.length + 1) (updateTargets (unplaceVMs vms s) pgX) startR extraR
          (unplaceVMs vms s) hA1 hA2cur hsafePair
        have hre2 := reach_tryLoop cfg vms t false (extraR.length + 1)
          (updateTargets (unplaceVMs vms s) pgX) startR extraR vms (unplaceVMs vms s)
          (fun i hi => hi)
        have hpgA := tryLoop_pg cfg vms t false (extraR.length + 1)
          (updateTargets (unplaceVMs vms s) pgX) startR extraR (unplaceVMs vms s)
        rw [htl] at hB1 hB2 hre2 hpgA
        have hreA : SearchReach vms s sA := Relation.ReflTransGen.trans hre1 hre2
        have hpgAv : pgA.vms = pgX.vms := hpgA.1.trans (updateTargets_vms _ _)
        have hpgAh : pgA.hardRackAntiAffinityPartitions
            = pgrec0.hardRackAntiAffinityPartitions :=
          (hpgA.2.trans (updateTargets_hp _ _)).trans h7
        cases res1 with
        | some q =>
          simp only []
          obtain ⟨hql, hqk⟩ := hB2 q rfl
          have h2curA : c1Reg g part vms sA := searchReach_c1Reg hreA g part vms h2cur
          apply ih pgA sA (pl ++ q.placements) (qadd pen q.penalty) hB1
            (fun e he => searchReach_c1Reg hreA g e.1 e.2 (h2rest e he)) h3'
          · intro e he
            rcases List.mem_append.mp he with hm | hm
            · obtain ⟨vm, hv, hn⟩ := hA4 e hm
              refine ⟨vm, ?_, hn⟩
              rw [searchReach_vms_ne hre2 e.1
                (fun hk => h5 e hm (part, vms) (List.mem_cons_self _ _) hk)]
              exact hv
            · exact hql e hm
          · intro e he e2 he2 hmem
            rcases List.mem_append.mp he with hm | hm
            · exact h5 e hm e2 (List.mem_cons_of_mem _ he2) hmem
            · obtain ⟨vmj, hvmj, -⟩ := hql e hm
              have hp1 : vmj.partition = part := (h2curA e.1 (hqk e hm) vmj hvmj).2
              have hp2 : vmj.partition = e2.1 :=
                (searchReach_c1Reg hreA g e2.1 e2.2 (h2rest e2 he2) e.1 hmem vmj hvmj).2
              exact h3h (by
                rw [hp1.symm.trans hp2]
                exact List.mem_map_of_mem Prod.fst he2)
          · intro j vj hvj hgj
            obtain ⟨vj0, hv0, hg0, -⟩ := searchReach_vms_back hre2 j vj hvj
            rw [hpgAv]
            exact hA6 j vj0 hv0 (hg0.trans hgj)
          · exact hpgAh
        | none =>
          simp only []
          have h2curA : c1Reg g part vms sA := searchReach_c1Reg hreA g part vms h2cur
          have hPres := tryLoop_safePres cfg vms t false g part (extraR.length + 1)
            (updateTargets (unplaceVMs vms s) pgX) startR extraR (unplaceVMs vms s)
            hA2cur
          rw [htl] at hPres
          have hsafePairA : 1 < pgrec0.hardRackAntiAffinityPartitions → 0 < part →
              (∀ r ∈ startR, safeRack g part sA r)
              ∧ ∀ r ∈ extraR, safeRack g part sA r := by
            intro hhp hpp
            exact ⟨fun r hr => hPres r ((hsafePair hhp hpp).1 r hr),
              fun r hr => hPres r ((hsafePair hhp hpp).2 r hr)⟩
          cases htl2 : tryLoop cfg vms t true (extraR.length + 1) pgA startR extraR sA with
          | mk res2 rest2 =>
            obtain ⟨sB, pgB, bB⟩ := rest2
            obtain ⟨hC1, hC2⟩ := tryLoop_c1 cfg vms t true g part pgrec0
              (extraR.length + 1) pgA startR extraR sA hB1 h2curA hsafePairA
            have hre3 := reach_tryLoop cfg vms t true (extraR.length + 1) pgA startR
              extraR vms sA (fun i hi => hi)
            have hpgB := tryLoop_pg cfg vms t true (extraR.length + 1) pgA startR
              extraR sA
            rw [htl2] at hC1 hC2 hre3 hpgB
            have hreB : SearchReach vms s sB := Relation.ReflTransGen.trans hreA hre3
            have hpgBv : pgB.vms = pgX.vms := hpgB.1.trans hpgAv
            have hpgBh : pgB.hardRackAntiAffinityPartitions
                = pgrec0.hardRackAntiAffinityPartitions := hpgB.2.trans hpgAh
            cases res2 with
            | some q =>
              simp only []
              obtain ⟨hql, hqk⟩ := hC2 q rfl
              have h2curB : c1Reg g part vms sB :=
                searchReach_c1Reg hreB g part vms h2cur
              apply ih pgB sB (pl ++ q.placements) (qadd pen q.penalty) hC1
                (fun e he => searchReach_c1Reg hreB g e.1 e.2 (h2rest e he)) h3'
              · intro e he
                rcases List.mem_append.mp he with hm | hm
                · obtain ⟨vm, hv, hn⟩ := hA4 e hm
                  refine ⟨vm, ?_, hn⟩
                  rw [searchReach_vms_ne (Relation.ReflTransGen.trans hre2 hre3) e.1
                    (fun hk => h5 e hm (part, vms) (List.mem_cons_self _ _) hk)]
                  exact hv
                · exact hql e hm
              · intro e he e2 he2 hmem
                rcases List.mem_append.mp he with hm | hm
                · exact h5 e hm e2 (List.mem_cons_of_mem _ he2) hmem
                · obtain ⟨vmj, hvmj, -⟩ := hql e hm
                  have hp1 : vmj.partition = part := (h2curB e.1 (hqk e hm) vmj hvmj).2
                  have hp2 : vmj.partition = e2.1 :=
                    (searchReach_c1Reg hreB g e2.1 e2.2 (h2rest e2 he2) e.1 hmem
                      vmj hvmj).2
                  exact h3h (by
                    rw [hp1.symm.trans hp2]
                    exact List.mem_map_of_mem Prod.fst he2)
              · intro j vj hvj hgj
                obtain ⟨vj0, hv0, hg0, -⟩ :=
                  searchReach_vms_back (Relation.ReflTransGen.trans hre2 hre3) j vj hvj
                rw [hpgBv]
                exact hA6 j vj0 hv0 (hg0.trans hgj)
              · exact hpgBh
            | none =>
              simp only []
              exact ⟨hC1, fun pl' pen' hp => by cases hp⟩

/-- One per-group feasibility attempt under the C1 invariant. -/
theorem getBestPlacement_c1 (cfg : Config) (pgq : PG) (vmIdxs : List Nat) (t : VMType)
    (racks : List RackId) (s : St) (g : Nat) (pgrec0 : PG)
    (hst : c1StInv g pgrec0 s)
    (hreg : ∀ i ∈ vmIdxs, ∀ vm, s.vms i = some vm → vm.pgIndex = g)
    (hcomp : ∀ j vj, s.vms j = some vj → vj.pgIndex = g → j ∈ pgq.vms)
    (hhp : pgq.hardRackAntiAffinityPartitions = pgrec0.hardRackAntiAffinityPartitions) :
    c1StInv g pgrec0 (getBestPlacement cfg pgq vmIdxs t racks s).2.1 ∧
    ∀ p, (getBestPlacement cfg pgq vmIdxs t racks s).1 = some p →
      c1Link (getBestPlacement cfg pgq vmIdxs t racks s).2.1 p.placements := by
  have hgroups : ∀ e ∈ groupByPartition s vmIdxs, c1Reg g e.1 e.2 s := by
    intro e he i hi vm hv
    refine ⟨hreg i (groupByPartition_mem s vmIdxs e he i hi) vm hv, ?_⟩
    obtain ⟨vm0, hv0, hp0⟩ := groupByPartition_part s vmIdxs e he i hi
    rw [hv] at hv0
    injection hv0 with hv0
    rw [hv0]
    exact hp0
  unfold getBestPlacement
  cases hpl : partitionLoop cfg t racks (groupByPartition s vmIdxs) pgq s [] (qofInt 0) with
  | mk res rest =>
    obtain ⟨s1, pg1⟩ := rest
    obtain ⟨hP1, hP2⟩ := partitionLoop_c1 cfg t racks g pgrec0
      (groupByPartition s vmIdxs) pgq s [] (qofInt 0) hst hgroups
      (groupByPartition_keys_nodup s vmIdxs) (by intro e he; cases he)
      (by intro e he; cases he) hcomp hhp
    rw [hpl] at hP1 hP2
    cases res with
    | none =>
      simp only []
      exact ⟨hP1, fun p hp => by cases hp⟩
    | some r =>
      obtain ⟨pl, pen⟩ := r
      simp only []
      refine ⟨hP1, ?_⟩
      intro p hp
      injection hp with hp
      rw [← hp]
      exact hP2 pl pen rfl

theorem getRackGroups_pg (cfg : Config) (s : St) (pg : PG) :
    (getRackGroups cfg s pg).2.vms = pg.vms ∧
    (getRackGroups cfg s pg).2.hardRackAntiAffinityPartitions
      = pg.hardRackAntiAffinityPartitions := by
  unfold getRackGroups
  simp only []
  repeat' split
  all_goals exact ⟨updateTargets_vms _ _, updateTargets_hp _ _⟩

theorem getRackGroups2_pg (cfg : Config) (s : St) (pg : PG) (t : VMType) (bs : Nat) :
    (getRackGroups2 cfg s pg t bs).2.vms = pg.vms ∧
    (getRackGroups2 cfg s pg t bs).2.hardRackAntiAffinityPartitions
      = pg.hardRackAntiAffinityPartitions := by
  unfold getRackGroups2
  simp only []
  cases hgr : getRackGroups cfg s (updateTargets s pg) with
  | mk groups pg2 =>
    have hh := getRackGroups_pg cfg s (updateTargets s pg)
    rw [hgr] at hh
    have hv : pg2.vms = pg.vms := hh.1.trans (updateTargets_vms s pg)
    have hp2 : pg2.hardRackAntiAffinityPartitions = pg.hardRackAntiAffinityPartitions :=
      hh.2.trans (updateTargets_hp s pg)
    simp only []
    repeat' split
    all_goals exact ⟨hv, hp2⟩

theorem partitionLoop_pg (cfg : Config) (t : VMType) (racks : List RackId) :
    ∀ (gs : List (Int × List Nat)) (pgX : PG) (s : St)
      (pl : List (Nat × List NodeId)) (pen : ℚ),
    (partitionLoop cfg t racks gs pgX s pl pen).2.2.vms = pgX.vms ∧
    (partitionLoop cfg t racks gs pgX s pl pen).2.2.hardRackAntiAffinityPartitions
      = pgX.hardRackAntiAffinityPartitions := by
  intro gs
  induction gs with
  | nil => intro pgX s pl pen; exact ⟨rfl, rfl⟩
  | cons ghead rest ih =>
    obtain ⟨part, vms⟩ := ghead
    intro pgX s pl pen
    unfold partitionLoop
    simp only []
    cases hse : startExtra (updateTargets (unplaceVMs vms s) pgX) part racks
        (sortBy (loadLt cfg (unplaceVMs vms s).topo) racks) with
    | none =>
      simp only [hse]
      exact ⟨updateTargets_vms _ _, updateTargets_hp _ _⟩
    | some se =>
      obtain ⟨startR, extraR⟩ := se
      simp only [hse]
      cases htl : tryLoop cfg vms t false (extraR.length + 1)
          (updateTargets (unplaceVMs vms s) pgX) startR extraR (unplaceVMs vms s) with
      | mk res1 rest1 =>
        obtain ⟨sA, pgA, bA⟩ := rest1
        have hA := tryLoop_pg cfg vms t false (extraR.length + 1)
          (updateTargets (unplaceVMs vms s) pgX) startR extraR (unplaceVMs vms s)
        rw [htl] at hA
        have hAv : pgA.vms = pgX.vms := hA.1.trans (updateTargets_vms _ _)
        have hAh : pgA.hardRackAntiAffinityPartitions
            = pgX.hardRackAntiAffinityPartitions := hA.2.trans (updateTargets_hp _ _)
        cases res1 with
        | some q =>
          simp only []
          obtain ⟨ha, hb⟩ := ih pgA sA (pl ++ q.placements) (qadd pen q.penalty)
          exact ⟨ha.trans hAv, hb.trans hAh⟩
        | none =>
          simp only []
          cases htl2 : tryLoop cfg vms t true (extraR.length + 1) pgA startR extraR sA with
          | mk res2 rest2 =>
            obtain ⟨sB, pgB, bB⟩ := rest2
            have hB := tryLoop_pg cfg vms t true (extraR.length + 1) pgA startR extraR sA
            rw [htl2] at hB
            have hBv : pgB.vms = pgX.vms := hB.1.trans hAv
            have hBh : pgB.hardRackAntiAffinityPartitions
                = pgX.hardRackAntiAffinityPartitions := hB.2.trans hAh
            cases res2 with
            | some q =>
              simp only []
              obtain ⟨ha, hb⟩ := ih pgB sB (pl ++ q.placements) (qadd pen q.penalty)
              exact ⟨ha.trans hBv, hb.trans hBh⟩
            | none =>
              simp only []
              exact ⟨hBv, hBh⟩

theorem getBestPlacement_pg (cfg : Config) (pgq : PG) (vmIdxs : List Nat) (t : VMType)
    (racks : List RackId) (s : St) :
    (getBestPlacement cfg pgq vmIdxs t racks s).2.2.vms = pgq.vms ∧
    (getBestPlacement cfg pgq vmIdxs t racks s).2.2.hardRackAntiAffinityPartitions
      = pgq.hardRackAntiAffinityPartitions := by
  unfold getBestPlacement
  cases hpl : partitionLoop cfg t racks (groupByPartition s vmIdxs) pgq s [] (qofInt 0) with
  | mk res rest =>
    obtain ⟨s1, pg1⟩ := rest
    have hh := partitionLoop_pg cfg t racks (groupByPartition s vmIdxs) pgq s [] (qofInt 0)
    rw [hpl] at hh
    cases res with
    | none => exact hh
    | some r =>
      obtain ⟨pl, pen⟩ := r
      exact hh

theorem groupLoop_pg (cfg : Config) (vmIdxs : List Nat) (t : VMType) :
    ∀ (gs : List (List RackId)) (pgq : PG) (s : St) (best : Option Placement),
    (groupLoop cfg vmIdxs t gs pgq s best).2.2.vms = pgq.vms ∧
    (groupLoop cfg vmIdxs t gs pgq s best).2.2.hardRackAntiAffinityPartitions
      = pgq.hardRackAntiAffinityPartitions := by
  intro gs
  induction gs with
  | nil => intro pgq s best; exact ⟨rfl, rfl⟩
  | cons gRacks rest ih =>
    intro pgq s best
    unfold groupLoop
    cases hbp : getBestPlacement cfg pgq vmIdxs t gRacks s with
    | mk res rest1 =>
      obtain ⟨s1, pg1⟩ := rest1
      have hh := getBestPlacement_pg cfg pgq vmIdxs t gRacks s
      rw [hbp] at hh
      cases res with
      | none =>
        simp only []
        obtain ⟨ha, hb⟩ := ih pg1 s1 best
        exact ⟨ha.trans hh.1, hb.trans hh.2⟩
      | some p =>
        simp only []
        obtain ⟨ha, hb⟩ := ih pg1 s1 _
        exact ⟨ha.trans hh.1, hb.trans hh.2⟩

/-- The group loop carries a C1-certified best placement: the winner was
recorded live in some search state that satisfies the C1 invariant. -/
theorem groupLoop_c1 (cfg : Config) (vmIdxs : List Nat) (t : VMType)
    (g : Nat) (pgrec0 : PG) (s0 : St)
    (hreg0 : ∀ i ∈ vmIdxs, ∀ vm, s0.vms i = some vm → vm.pgIndex = g) :
    ∀ (gs : List (List RackId)) (pgq : PG) (s : St) (best : Option Placement),
    SearchReach vmIdxs s0 s →
    c1StInv g pgrec0 s →
    (∀ j vj, s.vms j = some vj → vj.pgIndex = g → j ∈ pgq.vms) →
    pgq.hardRackAntiAffinityPartitions = pgrec0.hardRackAntiAffinityPartitions →
    (∀ b, best = some b → ∃ sref, SearchReach vmIdxs s0 sref ∧ c1StInv g pgrec0 sref
      ∧ c1Link sref b.placements) →
    ∀ bp s' pg', groupLoop cfg vmIdxs t gs pgq s best = (some bp, s', pg') →
      ∃ sref, SearchReach vmIdxs s0 sref ∧ c1StInv g pgrec0 sref
        ∧ c1Link sref bp.placements := by
  intro gs
  induction gs with
  | nil =>
    intro pgq s best hre hst hcomp hhp hbest bp s' pg' h
    unfold groupLoop at h
    injection h with h1 h2
    exact hbest bp h1
  | cons gRacks rest ih =>
    intro pgq s best hre hst hcomp hhp hbest bp s' pg' h
    unfold groupLoop at h
    cases hbpg : getBestPlacement cfg pgq vmIdxs t gRacks s with
    | mk res rest1 =>
      obtain ⟨s1, pg1⟩ := rest1
      rw [hbpg] at h
      have hregS : ∀ i ∈ vmIdxs, ∀ vm, s.vms i = some vm → vm.pgIndex = g := by
        intro i hi vm hv
        obtain ⟨vm0, hv0, hg0, -⟩ := searchReach_vms_back hre i vm hv
        rw [← hg0]
        exact hreg0 i hi vm0 hv0
      obtain ⟨hG1, hG2⟩ := getBestPlacement_c1 cfg pgq vmIdxs t gRacks s g pgrec0
        hst hregS hcomp hhp
      have hreG := reach_getBestPlacement cfg pgq vmIdxs t gRacks vmIdxs s
        (fun i hi => hi)
      have hpgG := getBestPlacement_pg cfg pgq vmIdxs t gRacks s
      rw [hbpg] at hG1 hG2 hreG hpgG
      have hre1 : SearchReach vmIdxs s0 s1 := Relation.ReflTransGen.trans hre hreG
      have hcomp1 : ∀ j vj, s1.vms j = some vj → vj.pgIndex = g → j ∈ pg1.vms := by
        intro j vj hvj hgj
        obtain ⟨vj0, hv0, hg0, -⟩ := searchReach_vms_back hreG j vj hvj
        rw [hpgG.1]
        exact hcomp j vj0 hv0 (hg0.trans hgj)
      have hhp1 : pg1.hardRackAntiAffinityPartitions
          = pgrec0.hardRackAntiAffinityPartitions := hpgG.2.trans hhp
      cases res with
      | none =>
        simp only [] at h
        exact ih pg1 s1 best hre1 hG1 hcomp1 hhp1 hbest bp s' pg' h
      | some p =>
        simp only [] at h
        have hpok : ∃ sref, SearchReach vmIdxs s0 sref ∧ c1StInv g pgrec0 sref
            ∧ c1Link sref p.placements := ⟨s1, hre1, hG1, hG2 p rfl⟩
        cases best with
        | none =>
          simp only [] at h
          refine ih pg1 s1 (some p) hre1 hG1 hcomp1 hhp1 ?_ bp s' pg' h
          intro b hb
          injection hb with hb
          rw [← hb]
          exact hpok
        | some b =>
          simp only [] at h
          by_cases hlt : qltb p.penalty b.penalty = true
          · rw [if_pos hlt] at h
            refine ih pg1 s1 (some p) hre1 hG1 hcomp1 hhp1 ?_ bp s' pg' h
            intro b2 hb2
            injection hb2 with hb2
            rw [← hb2]
            exact hpok
          · rw [if_neg hlt] at h
            refine ih pg1 s1 (some b) hre1 hG1 hcomp1 hhp1 ?_ bp s' pg' h
            intro b2 hb2
            injection hb2 with hb2
            rw [← hb2]
            exact hbest b rfl

theorem registerVMsAux_vms_cases (t : VMType) (g : Nat) (p : Int) :
    ∀ (l : List Nat) (k : Nat) (s : St) (j : Nat) (vj : VM),
    (registerVMsAux t g p k l s).vms j = some vj →
    s.vms j = some vj ∨ (vj.nodes = [] ∧ vj.pgIndex = g ∧ j ∈ l) := by
  intro l
  induction l with
  | nil => intro k s j vj h; exact Or.inl h
  | cons idx rest ih =>
    intro k s j vj h
    unfold registerVMsAux at h
    simp only [] at h
    by_cases hocc : (s.vms idx).isSome = true
    · rw [if_pos hocc] at h
      rcases ih (k + 1) s j vj h with h1 | ⟨h1, h2, h3⟩
      · exact Or.inl h1
      · exact Or.inr ⟨h1, h2, List.mem_cons_of_mem idx h3⟩
    · rw [if_neg hocc] at h
      rcases ih (k + 1) _ j vj h with h1 | ⟨h1, h2, h3⟩
      · by_cases hji : j = idx
        · subst hji
          right
          simp [upd] at h1
          subst h1
          exact ⟨rfl, rfl, List.mem_cons_self j rest⟩
        · left
          simp [upd, hji] at h1
          exact h1
      · exact Or.inr ⟨h1, h2, List.mem_cons_of_mem idx h3⟩

theorem registerVMs_noMixed (idxs : List Nat) (t : VMType) (g : Nat) (p : Int)
    (s : St) (h : noMixedPositiveParts s) :
    noMixedPositiveParts (registerVMs idxs t g p s) := by
  intro g' pg' hpg' hhp' j k vj vk hvj hvk hgj hgk n m hn hm hrk hpj hpk
  rw [show (registerVMs idxs t g p s).pgs = s.pgs from registerVMsAux_pgs t g p 0 idxs s]
    at hpg'
  rcases registerVMsAux_vms_cases t g p idxs 0 s j vj hvj with h1 | ⟨h1, -, -⟩
  · rcases registerVMsAux_vms_cases t g p idxs 0 s k vk hvk with h2 | ⟨h2, -, -⟩
    · exact h g' pg' hpg' hhp' j k vj vk h1 h2 hgj hgk n m hn hm hrk hpj hpk
    · rw [h2] at hm
      cases hm
  · rw [h1] at hn
    cases hn

theorem registerVMs_sameRack (idxs : List Nat) (t : VMType) (g : Nat) (p : Int)
    (s : St) (h : sameRackInv s) : sameRackInv (registerVMs idxs t g p s) := by
  intro j vj hvj n hn m hm
  rcases registerVMsAux_vms_cases t g p idxs 0 s j vj hvj with h1 | ⟨h1, -, -⟩
  · exact h j vj h1 n hn m hm
  · rw [h1] at hn
    cases hn

theorem createCommit_true_pgs (g : Nat) (idxs : List Nat)
    (res : Option Placement × St × PG) (s' : St) (out : List (List Int))
    (h : createCommit g idxs res = (s', out, true)) :
    ∃ bp, res.1 = some bp
      ∧ s'.vms = (commitVMs bp idxs (unplaceVMs idxs res.2.1)).1.vms
      ∧ s'.pgs = upd (commitVMs bp idxs (unplaceVMs idxs res.2.1)).1.pgs g
          (some (updateTargets (commitVMs bp idxs (unplaceVMs idxs res.2.1)).1
            res.2.2)) := by
  obtain ⟨best, s1, pg1⟩ := res
  cases best with
  | none =>
    unfold createCommit at h
    simp at h
  | some bp =>
    unfold createCommit at h
    simp only [] at h
    simp only [Prod.mk.injEq] at h
    obtain ⟨h1, -, -⟩ := h
    exact ⟨bp, rfl, by rw [← h1], by rw [← h1]⟩

set_option maxHeartbeats 1600000 in
/-- A successful `createVMs` preserves the C1 global invariant: the
committed placements were recorded live in a C1-certified search state,
and every other registry entry and PG record is carried over. -/
theorem createVMs_c1 (cfg : Config) (s : St) (idxs : List Nat) (ti g : Nat)
    (part el : Int) (s' : St) (out : List (List Int))
    (hnodup : idxs.Nodup) (hfresh : ∀ i ∈ idxs, s.vms i = none)
    (hnm : noMixedPositiveParts s) (hsr : sameRackInv s) (hpgInv : vmPG s)
    (h : createVMs cfg s idxs ti g part el = some (s', out, true)) :
    noMixedPositiveParts s' ∧ sameRackInv s' ∧ vmPG s' := by
  unfold createVMs at h
  by_cases hel : (14 : Int) ≤ el
  · rw [if_pos hel] at h
    simp at h
  · rw [if_neg hel] at h
    by_cases hti : ti = 0
    · rw [if_pos hti] at h
      exact Option.noConfusion h
    · rw [if_neg hti] at h
      cases hty : cfg.types.get? (ti - 1) with
      | none =>
        rw [hty] at h
        cases hpg0 : s.pgs g <;> rw [hpg0] at h <;> simp at h
      | some t =>
        rw [hty] at h
        cases hpg0 : s.pgs g with
        | none =>
          rw [hpg0] at h
          simp at h
        | some pg0 =>
          rw [hpg0] at h
          simp only [] at h
          injection h with h
          obtain ⟨bp, hbp, hsv, hsp⟩ := createCommit_true_pgs g idxs _ s' out h
          set partX := (if pg0.hardRackAntiAffinityPartitions = 0 then 0 else part)
            with hpartX
          set S := registerVMs idxs t g partX s with hSdef
          set pgArg : PG := { pg0 with vms := pg0.vms ++ idxs } with hpgArg
          set gps := getRackGroups2 cfg S pgArg t idxs.length with hgpsdef
          set glp := groupLoop cfg idxs t gps.1 gps.2 S none with hGLdef
          clear_value glp
          clear_value gps
          clear_value S
          clear_value partX
          have hS_mem : ∀ i ∈ idxs, ∃ q : Int, S.vms i = some (⟨i, t, g, q, []⟩ : VM) := by
            intro i hi
            obtain ⟨q, hq, -⟩ := registerVMsAux_vms_mem t g partX 0 idxs s hnodup hfresh i hi
            refine ⟨q, ?_⟩
            rw [hSdef]
            exact hq
          have hSpgs : S.pgs = s.pgs := by
            rw [hSdef]
            exact registerVMsAux_pgs t g partX 0 idxs s
          have hst_reg : c1StInv g pg0 S := by
            refine ⟨?_, ?_, ?_⟩
            · rw [hSdef]
              exact registerVMs_noMixed idxs t g partX s hnm
            · rw [hSdef]
              exact registerVMs_sameRack idxs t g partX s hsr
            · rw [hSpgs]
              exact hpg0
          have hreg0 : ∀ i ∈ idxs, ∀ vm, S.vms i = some vm → vm.pgIndex = g := by
            intro i hi vm hv
            obtain ⟨q, hq⟩ := hS_mem i hi
            rw [hq] at hv
            injection hv with hv
            rw [← hv]
          have hScases : ∀ (j : Nat) (vj : VM), S.vms j = some vj →
              s.vms j = some vj ∨ (vj.nodes = [] ∧ vj.pgIndex = g ∧ j ∈ idxs) := by
            intro j vj hvj
            rw [hSdef] at hvj
            exact registerVMsAux_vms_cases t g partX idxs 0 s j vj hvj
          have hcomp0 : ∀ j vj, S.vms j = some vj → vj.pgIndex = g → j ∈ pgArg.vms := by
            intro j vj hvj hgj
            rcases hScases j vj hvj with h1 | ⟨-, -, h3⟩
            · obtain ⟨pgv, hpgv, hmemv⟩ := hpgInv j vj h1
              rw [hgj, hpg0] at hpgv
              injection hpgv with hpgv
              rw [← hpgv] at hmemv
              exact List.mem_append_left _ hmemv
            · exact List.mem_append_right _ h3
          have hcomp0' : ∀ j vj, S.vms j = some vj → vj.pgIndex = g → j ∈ gps.2.vms := by
            intro j vj hv hg
            have := (getRackGroups2_pg cfg S pgArg t idxs.length).1
            rw [hgpsdef]
            rw [this]
            exact hcomp0 j vj hv hg
          have hhp0' : gps.2.hardRackAntiAffinityPartitions
              = pg0.hardRackAntiAffinityPartitions := by
            rw [hgpsdef, (getRackGroups2_pg cfg S pgArg t idxs.length).2, hpgArg]
          have hgl : groupLoop cfg idxs t gps.1 gps.2 S none
              = (some bp, glp.2.1, glp.2.2) := by
            rw [← hGLdef, ← hbp]
          obtain ⟨sref, hreref0, hstref, hlinkref⟩ := groupLoop_c1 cfg idxs t g pg0 S
            hreg0 gps.1 gps.2 S none Relation.ReflTransGen.refl hst_reg hcomp0' hhp0'
            (fun b hb => by cases hb) bp glp.2.1 glp.2.2 hgl
          have hunp : ∀ i ∈ idxs, ∀ vm, S.vms i = some vm → vm.nodes = [] := by
            intro i hi vm hv
            obtain ⟨q, hq⟩ := hS_mem i hi
            rw [hq] at hv
            injection hv with hv
            rw [← hv]
          have hreachGL : SearchReach idxs S glp.2.1 := by
            rw [hGLdef]
            exact reach_groupLoop cfg idxs t gps.1 gps.2 S none idxs (fun i hi => hi)
          have hs2 : unplaceVMs idxs glp.2.1 = S := by
            rw [searchReach_unplaceVMs hreachGL]
            exact unplaceVMs_of_unplaced idxs S hunp
          have hsrefpgs : sref.pgs = s.pgs := (searchReach_pgs hreref0).trans hSpgs
          set cm := (commitVMs bp idxs (unplaceVMs idxs glp.2.1)).1 with hcm
          clear_value cm
          have hcmpgs : cm.pgs = s.pgs := by
            rw [hcm, commitVMs_pgs, unplaceVMs_pgs, searchReach_pgs hreachGL, hSpgs]
          have hGLv : glp.2.2.vms = pg0.vms ++ idxs := by
            have h1 := (groupLoop_pg cfg idxs t gps.1 gps.2 S none).1
            have h2 := (getRackGroups2_pg cfg S pgArg t idxs.length).1
            rw [hGLdef, h1, hgpsdef, h2, hpgArg]
          have hGLh : glp.2.2.hardRackAntiAffinityPartitions
              = pg0.hardRackAntiAffinityPartitions := by
            have h1 := (groupLoop_pg cfg idxs t gps.1 gps.2 S none).2
            have h2 := (getRackGroups2_pg cfg S pgArg t idxs.length).2
            rw [hGLdef, h1, hgpsdef, h2, hpgArg]
          have hmap : ∀ j vj, cm.vms j = some vj → vj.nodes ≠ [] →
              sref.vms j = some vj := by
            intro j vj hvj hne
            by_cases hj : j ∈ idxs
            · obtain ⟨q, hSj⟩ := hS_mem j hj
              have hcommit := commitVMs_vms_mem bp idxs (unplaceVMs idxs glp.2.1) j hj
                hnodup _ (by rw [hs2]; exact hSj)
              rw [hcm] at hvj
              rw [hcommit] at hvj
              injection hvj with hvj
              cases hal : alookup j bp.placements with
              | none =>
                exfalso
                apply hne
                rw [← hvj]
                show alookupD j bp.placements [] = []
                unfold alookupD
                rw [hal]
                rfl
              | some nsx =>
                have halD : alookupD j bp.placements [] = nsx := by
                  unfold alookupD
                  rw [hal]
                  rfl
                have hmemb : (j, nsx) ∈ bp.placements := alookup_mem j nsx bp.placements hal
                obtain ⟨vmr, hvmr, hnds⟩ := hlinkref (j, nsx) hmemb
                obtain ⟨ns', hshape⟩ := searchReach_vms_shape hreref0 j _ hSj
                rw [hshape] at hvmr
                injection hvmr with hvmr
                have hns : ns' = nsx := by
                  have h2 : vmr.nodes = nsx := hnds
                  rw [← hvmr] at h2
                  exact h2
                rw [hshape, ← hvj, halD, ← hns]
            · rw [hcm, commitVMs_vms_ne bp idxs _ j hj, hs2] at hvj
              rw [searchReach_vms_ne hreref0 j hj]
              exact hvj
          refine ⟨?_, ?_, ?_⟩
          · intro g' pg' hpg' hhp' j k vj vk hvj hvk hgj hgk n m hn hm hrk hpj hpk
            rw [hsv] at hvj hvk
            rw [hsp] at hpg'
            have hvjr := hmap j vj hvj (by intro he; rw [he] at hn; cases hn)
            have hvkr := hmap k vk hvk (by intro he; rw [he] at hm; cases hm)
            by_cases hgg : g' = g
            · subst hgg
              rw [updAt_eq] at hpg'
              injection hpg' with hpg'
              have hplt : 1 < pg0.hardRackAntiAffinityPartitions := by
                rw [← hGLh, ← updateTargets_hp cm glp.2.2, hpg']
                exact hhp'
              have hsrefpg : sref.pgs g' = some pg0 := by
                rw [hsrefpgs]
                exact hpg0
              exact hstref.1 g' pg0 hsrefpg hplt j k vj vk hvjr hvkr hgj hgk n m
                hn hm hrk hpj hpk
            · rw [updAt_ne _ _ _ _ hgg, hcmpgs] at hpg'
              have hsrefpg : sref.pgs g' = some pg' := by
                rw [hsrefpgs]
                exact hpg'
              exact hstref.1 g' pg' hsrefpg hhp' j k vj vk hvjr hvkr hgj hgk n m
                hn hm hrk hpj hpk
          · intro j vj hvj n hn m hm
            rw [hsv] at hvj
            have hvjr := hmap j vj hvj (by intro he; rw [he] at hn; cases hn)
            exact hstref.2.1 j vj hvjr n hn m hm
          · intro j vj hvj
            rw [hsv] at hvj
            by_cases hj : j ∈ idxs
            · obtain ⟨q, hSj⟩ := hS_mem j hj
              have hcommit := commitVMs_vms_mem bp idxs (unplaceVMs idxs glp.2.1) j hj
                hnodup _ (by rw [hs2]; exact hSj)
              rw [hcm] at hvj
              rw [hcommit] at hvj
              injection hvj with hvj
              have hgj : vj.pgIndex = g := by rw [← hvj]
              refine ⟨updateTargets cm glp.2.2, ?_, ?_⟩
              · rw [hsp, hgj, updAt_eq]
              · rw [updateTargets_vms, hGLv]
                exact List.mem_append_right _ hj
            · rw [hcm, commitVMs_vms_ne bp idxs _ j hj, hs2] at hvj
              rcases hScases j vj hvj with h1 | ⟨-, -, h3⟩
              · obtain ⟨pgv, hpgv, hmemv⟩ := hpgInv j vj h1
                by_cases hgg : vj.pgIndex = g
                · rw [hgg, hpg0] at hpgv
                  injection hpgv with hpgv
                  refine ⟨updateTargets cm glp.2.2, ?_, ?_⟩
                  · rw [hsp, hgg, updAt_eq]
                  · rw [updateTargets_vms, hGLv]
                    rw [← hpgv] at hmemv
                    exact List.mem_append_left _ hmemv
                · refine ⟨pgv, ?_, hmemv⟩
                  rw [hsp, updAt_ne _ _ _ _ hgg, hcmpgs]
                  exact hpgv
              · exact absurd h3 hj

theorem removeVM_pgs (i : Nat) (s : St) : (removeVM i s).pgs = s.pgs := rfl

/-- Backward reading of `deregisterFromPG` on the PG table: every stored
record comes from a record of the input state with the same hard-partition
count, and membership of any index other than the erased one is kept. -/
theorem deregisterFromPG_pgs_cases (i gidx : Nat) (s : St) (g : Nat) (pg : PG)
    (h : (deregisterFromPG i gidx s).pgs g = some pg) :
    ∃ pg0, s.pgs g = some pg0
      ∧ pg.hardRackAntiAffinityPartitions = pg0.hardRackAntiAffinityPartitions := by
  unfold deregisterFromPG at h
  cases hpg : s.pgs gidx with
  | none =>
    rw [hpg] at h
    exact ⟨pg, h, rfl⟩
  | some pg1 =>
    rw [hpg] at h
    simp only [] at h
    by_cases hg : g = gidx
    · subst hg
      rw [updAt_eq] at h
      injection h with h
      exact ⟨pg1, hpg, by rw [← h]⟩
    · rw [updAt_ne _ _ _ _ hg] at h
      exact ⟨pg, h, rfl⟩

/-- Forward reading of `deregisterFromPG`: a record of the input state
survives either unchanged or with the erased index filtered out of its
member list. -/
theorem deregisterFromPG_pgs_fwd (i gidx : Nat) (s : St) (g : Nat) (pg0 : PG)
    (h : s.pgs g = some pg0) :
    (deregisterFromPG i gidx s).pgs g = some pg0
    ∨ (deregisterFromPG i gidx s).pgs g
        = some { pg0 with vms := pg0.vms.filter (fun j => ¬ j = i) } := by
  unfold deregisterFromPG
  cases hpg : s.pgs gidx with
  | none => exact Or.inl h
  | some pg1 =>
    simp only []
    by_cases hg : g = gidx
    · subst hg
      rw [h] at hpg
      injection hpg with hpg
      subst hpg
      right
      rw [updAt_eq]
    · exact Or.inl (by rw [updAt_ne _ _ _ _ hg]; exact h)

/-- `deleteVMs` preserves the claim-C1 global invariant: erasing registry
entry and PG membership together keeps placements rack-local, keeps every
surviving VM a member of its (still stored) PG, and cannot create a mixed
rack. -/
theorem deleteVMs_c1inv : ∀ (l : List Nat) (s s' : St),
    noMixedPositiveParts s → sameRackInv s → vmPG s →
    deleteVMs s l = some s' →
    noMixedPositiveParts s' ∧ sameRackInv s' ∧ vmPG s' := by
  intro l
  induction l with
  | nil =>
    intro s s' hnm hsr hpgInv h
    unfold deleteVMs at h
    injection h with h
    rw [← h]
    exact ⟨hnm, hsr, hpgInv⟩
  | cons i rest ih =>
    intro s s' hnm hsr hpgInv h
    unfold deleteVMs at h
    cases hv : s.vms i with
    | none =>
      rw [hv] at h
      cases h
    | some vm =>
      rw [hv] at h
      simp only [] at h
      have hvms : ∀ j vj,
          (removeVM i (deregisterFromPG i vm.pgIndex (unplaceVM i s))).vms j = some vj →
          ¬ j = i ∧ s.vms j = some vj := by
        intro j vj hvj
        by_cases hji : j = i
        · rw [hji, removeVM_vms_self] at hvj
          cases hvj
        · rw [removeVM_vms_ne i j _ hji, deregisterFromPG_vms,
            unplaceVM_vms_ne i j s hji] at hvj
          exact ⟨hji, hvj⟩
      apply ih _ s' ?_ ?_ ?_ h
      · intro g pg hg hhp j k vj vk hvj hvk hgj hgk n m hn hm hrk hpj hpk
        rw [removeVM_pgs] at hg
        obtain ⟨pg0, hpg0, hhp0⟩ := deregisterFromPG_pgs_cases i vm.pgIndex _ g pg hg
        rw [unplaceVM_pgs] at hpg0
        exact hnm g pg0 hpg0 (by rw [← hhp0]; exact hhp) j k vj vk
          (hvms j vj hvj).2 (hvms k vk hvk).2 hgj hgk n m hn hm hrk hpj hpk
      · intro j vj hvj n hn m hm
        exact hsr j vj (hvms j vj hvj).2 n hn m hm
      · intro j vj hvj
        obtain ⟨hji, hsj⟩ := hvms j vj hvj
        obtain ⟨pgv, hpgv, hmem⟩ := hpgInv j vj hsj
        rcases deregisterFromPG_pgs_fwd i vm.pgIndex (unplaceVM i s) vj.pgIndex pgv
          (by rw [unplaceVM_pgs]; exact hpgv) with hc | hc
        · exact ⟨pgv, by rw [removeVM_pgs]; exact hc, hmem⟩
        · refine ⟨{ pgv with vms := pgv.vms.filter (fun j => ¬ j = i) }, ?_, ?_⟩
          · rw [removeVM_pgs]
            exact hc
          · show j ∈ pgv.vms.filter (fun j => ¬ j = i)
            exact List.mem_filter.mpr ⟨hmem, by simp [hji]⟩

/-- The PG table after `createPGOp`: untouched when the index is taken,
otherwise extended with the fresh (member-less) record. -/
theorem createPGOp_pgs (s : St) (i : Nat) (hardParts softPM : Int) (da ra : Affinity) :
    (createPGOp s i hardParts softPM da ra).pgs
    = if (s.pgs i).isSome then s.pgs
      else upd s.pgs i (some { index := i, hardRackAntiAffinityPartitions := if hardParts ≤ 1 then 0 else hardParts, softPMAntiAffinity := softPM, domainAffinity := da, rackAffinity := ra }) := by
  unfold createPGOp
  simp only []
  by_cases hsome : (s.pgs i).isSome = true
  · rw [if_pos hsome, if_pos hsome]
  · rw [if_neg hsome, if_neg hsome]

/-- `createPGOp` preserves the claim-C1 global invariant: the fresh PG has
no members (no registered VM can point at a previously unstored index), and
every other record is untouched. -/
theorem createPGOp_c1inv (s : St) (i : Nat) (hardParts softPM : Int) (da ra : Affinity)
    (hnm : noMixedPositiveParts s) (hsr : sameRackInv s) (hpgInv : vmPG s) :
    noMixedPositiveParts (createPGOp s i hardParts softPM da ra)
    ∧ sameRackInv (createPGOp s i hardParts softPM da ra)
    ∧ vmPG (createPGOp s i hardParts softPM da ra) := by
  have hvms := createPGOp_vms s i hardParts softPM da ra
  by_cases hsome : (s.pgs i).isSome = true
  · have hid : createPGOp s i hardParts softPM da ra = s := by
      unfold createPGOp
      simp only []
      rw [if_pos hsome]
    rw [hid]
    exact ⟨hnm, hsr, hpgInv⟩
  · have hpgs := createPGOp_pgs s i hardParts softPM da ra
    rw [if_neg hsome] at hpgs
    refine ⟨?_, ?_, ?_⟩
    · intro g pg hg hhp j k vj vk hvj hvk hgj hgk n m hn hm hrk hpj hpk
      rw [hvms] at hvj hvk
      rw [hpgs] at hg
      by_cases hgi : g = i
      · exfalso
        obtain ⟨pgv, hpgv, -⟩ := hpgInv j vj hvj
        rw [hgj, hgi] at hpgv
        rw [hpgv] at hsome
        exact hsome rfl
      · rw [updAt_ne _ _ _ _ hgi] at hg
        exact hnm g pg hg hhp j k vj vk hvj hvk hgj hgk n m hn hm hrk hpj hpk
    · intro j vj hvj n hn m hm
      rw [hvms] at hvj
      exact hsr j vj hvj n hn m hm
    · intro j vj hvj
      rw [hvms] at hvj
      obtain ⟨pgv, hpgv, hmem⟩ := hpgInv j vj hvj
      have hgi : ¬ vj.pgIndex = i := by
        intro he
        rw [he] at hpgv
        rw [hpgv] at hsome
        exact hsome rfl
      refine ⟨pgv, ?_, hmem⟩
      rw [hpgs, updAt_ne _ _ _ _ hgi]
      exact hpgv

/-- Every successful `step` preserves the claim-C1 global invariant. -/
theorem step_c1inv (cfg : Config) (s : St) (r : Request) (el : Int) (s' : St)
    (out : List (List Int)) (hnm : noMixedPositiveParts s) (hsr : sameRackInv s)
    (hpgInv : vmPG s) (h : step cfg s r el = some (s', out, true)) :
    noMixedPositiveParts s' ∧ sameRackInv s' ∧ vmPG s' := by
  cases r with
  | mkpg i hp sp da ra =>
    unfold step at h
    injection h with h
    simp only [Prod.mk.injEq] at h
    rw [← h.1]
    exact createPGOp_c1inv s i hp sp da ra hnm hsr hpgInv
  | create idxs ti pi part =>
    unfold step at h
    simp only [] at h
    by_cases hel : (14 : Int) ≤ el
    · rw [if_pos hel] at h
      simp at h
    · rw [if_neg hel] at h
      by_cases hwf : wfCreate s idxs
      · rw [if_pos hwf] at h
        exact createVMs_c1 cfg s idxs ti pi part el s' out hwf.2.1 hwf.2.2
          hnm hsr hpgInv h
      · rw [if_neg hwf] at h
        cases h
  | delete idxs =>
    unfold step at h
    simp only [] at h
    cases hd : deleteVMs s idxs with
    | none =>
      rw [hd] at h
      cases h
    | some sx =>
      rw [hd] at h
      simp only [Option.map] at h
      injection h with h
      simp only [Prod.mk.injEq] at h
      rw [← h.1]
      exact deleteVMs_c1inv idxs s sx hnm hsr hpgInv hd
  | terminate =>
    unfold step at h
    simp at h

/-- C1 (amended): after every successful request, for every placement group
with `hardRackAntiAffinityPartitions > 1`, any two placed member VMs that
both carry positive partition ids and whose nodes share a rack agree on the
partition id.  Members holding partition id 0 — possible through an
explicit `partition = 0` in a creation request, which bypasses the
`if (partition > 0)` filtering of `updateTargets` — are exempt. -/
theorem c1_amended (cfg : Config) (s : St) (h : ReachOk cfg s) :
    noMixedPositiveParts s := by
  have hinv : noMixedPositiveParts s ∧ sameRackInv s ∧ vmPG s := by
    induction h with
    | init =>
      refine ⟨?_, ?_, ?_⟩
      · intro g pg hpg
        simp [initSt] at hpg
      · intro i vm hv
        simp [initSt] at hv
      · intro i vi hv
        simp [initSt] at hv
    | next hprev hstep ih =>
      exact step_c1inv cfg _ _ _ _ _ ih.1 ih.2.1 ih.2.2 hstep
  exact hinv.1

/-- Witness for `c1_amended`: on the scenario of the counterexample — PG 1
with two hard partitions, a partition-1 member and a partition-0 member on
the same rack — the amended statement holds (the partition-0 member is
exempt). -/
theorem c1_amended_witness : noMixedPositiveParts exC1s3 := by
  have h1 : step exC1cfg (initSt exC1cfg) (Request.mkpg 1 2 0 Affinity.NONE Affinity.NONE) 0 =
      some (exC1s1, [], true) := rfl
  have h2 : step exC1cfg exC1s1 (Request.create [1] 1 1 (-1)) 0 =
      some (exC1s2, [[1, 1, 1, 1]], true) := rfl
  have h3 : step exC1cfg exC1s2 (Request.create [2] 1 1 0) 0 =
      some (exC1s3, [[1, 1, 1, 2]], true) := rfl
  exact c1_amended exC1cfg exC1s3
    (ReachOk.next (ReachOk.next (ReachOk.next ReachOk.init h1) h2) h3)

end VMPlace
